import Mathlib

/-! # Red-black tree of `rbtree_lab` (src/rbtree.c)

The C program keeps its nodes on the heap and links them by `parent`, `left`
and `right` pointers; a single sentinel node `t->nil` stands for every absent
child and for the parent of the root.  The embedding below keeps that shape:
the machine state is the `rbtree` struct together with the heap of `node_t`
cells, one map per struct field, addressed by pointer value (a natural number,
`0` being `NULL`).  Every C statement becomes one state update, in source
order, and every `while` loop a function that recurses on a fuel argument and
answers `none` when the fuel runs out.
-/

namespace RBTreeLab

/-! ## Data model (rbtree.h) -/

/-- The enum `color_t` of rbtree.h. -/
inductive color_t where
  | RBTREE_RED : color_t
  | RBTREE_BLACK : color_t
  deriving DecidableEq, Repr

open color_t

/-- The null pointer. -/
def NULL : Nat := 0

/-- Pointwise update of one heap field: `upd f p v` is `f` after `p->f = v`. -/
def upd {α : Type} (f : Nat → α) (p : Nat) (v : α) : Nat → α :=
  fun a => if a = p then v else f a

/-- Machine state.  `root` and `nil` are the two fields of the struct `rbtree`;
`color`, `key`, `parent`, `left`, `right` are the fields of the struct `node_t`
for every address; `brk` is the first address `calloc` has not handed out yet and
`freed` lists the addresses passed to `free`, most recent first. -/
structure rbtree where
  root : Nat
  nil : Nat
  color : Nat → color_t
  key : Nat → Int
  parent : Nat → Nat
  left : Nat → Nat
  right : Nat → Nat
  brk : Nat
  freed : List Nat

/-- The statement `t->root = v`. -/
def set_root (t : rbtree) (v : Nat) : rbtree := { t with root := v }

/-- The statement `p->color = c`. -/
def set_color (t : rbtree) (p : Nat) (c : color_t) : rbtree :=
  { t with color := upd t.color p c }

/-- The statement `p->key = k`. -/
def set_key (t : rbtree) (p : Nat) (k : Int) : rbtree :=
  { t with key := upd t.key p k }

/-- The statement `p->parent = v`. -/
def set_parent (t : rbtree) (p : Nat) (v : Nat) : rbtree :=
  { t with parent := upd t.parent p v }

/-- The statement `p->left = v`. -/
def set_left (t : rbtree) (p : Nat) (v : Nat) : rbtree :=
  { t with left := upd t.left p v }

/-- The statement `p->right = v`. -/
def set_right (t : rbtree) (p : Nat) (v : Nat) : rbtree :=
  { t with right := upd t.right p v }

/-- The call `calloc(1, sizeof(node_t))`: hands out the address `t.brk`, with every
field of the new cell zero (colour `RBTREE_RED`, key 0, the three links `NULL`). -/
def calloc_node (t : rbtree) : rbtree × Nat :=
  ({ t with
      brk := t.brk + 1
      color := upd t.color t.brk RBTREE_RED
      key := upd t.key t.brk 0
      parent := upd t.parent t.brk NULL
      left := upd t.left t.brk NULL
      right := upd t.right t.brk NULL }, t.brk)

/-- The call `free(p)`: the cell keeps its contents, its address is recorded. -/
def free (t : rbtree) (p : Nat) : rbtree := { t with freed := p :: t.freed }

/-! ## The operations of src/rbtree.c -/

/-- `new_rbtree` (lines 7-18): the sentinel is allocated at address 1, coloured
BLACK and linked to itself; the root is the sentinel. -/
def new_rbtree : rbtree :=
  { root := 1
    nil := 1
    color := upd (fun _ => RBTREE_RED) 1 RBTREE_BLACK
    key := fun _ => 0
    parent := upd (fun _ => NULL) 1 1
    left := upd (fun _ => NULL) 1 1
    right := upd (fun _ => NULL) 1 1
    brk := 2
    freed := [] }

/-- `transplant` (lines 41-52). -/
def transplant (t : rbtree) (u v : Nat) : rbtree :=
  let t1 :=
    if t.parent u = t.nil then set_root t v
    else if u = t.left (t.parent u) then set_left t (t.parent u) v
    else set_right t (t.parent u) v
  set_parent t1 v (t1.parent u)

/-- `subtree_min` (lines 55-61); the first argument is the fuel of the loop. -/
def subtree_min : Nat → rbtree → Nat → Option Nat
  | 0, _, _ => none
  | fuel + 1, t, curr =>
    if curr ≠ t.nil ∧ t.left curr ≠ t.nil then subtree_min fuel t (t.left curr)
    else some curr

/-- `rotate_left` (lines 64-79). -/
def rotate_left (t : rbtree) (x : Nat) : rbtree :=
  let y := t.right x
  let t1 := set_right t x (t.left y)
  let t2 := if t1.left y ≠ t1.nil then set_parent t1 (t1.left y) x else t1
  let t3 := set_parent t2 y (t2.parent x)
  let t4 :=
    if t3.parent x = t3.nil then set_root t3 y
    else if x = t3.left (t3.parent x) then set_left t3 (t3.parent x) y
    else set_right t3 (t3.parent x) y
  let t5 := set_left t4 y x
  set_parent t5 x y

/-- `rotate_right` (lines 82-97). -/
def rotate_right (t : rbtree) (x : Nat) : rbtree :=
  let y := t.left x
  let t1 := set_left t x (t.right y)
  let t2 := if t1.right y ≠ t1.nil then set_parent t1 (t1.right y) x else t1
  let t3 := set_parent t2 y (t2.parent x)
  let t4 :=
    if t3.parent x = t3.nil then set_root t3 y
    else if x = t3.right (t3.parent x) then set_right t3 (t3.parent x) y
    else set_left t3 (t3.parent x) y
  let t5 := set_right t4 y x
  set_parent t5 x y

/-- One pass through the body of the loop of `rebuild_after_insert` (lines 104-147),
entered with `z->parent` RED: the new state and the new `z`. -/
def rebuild_after_insert_body (t : rbtree) (z : Nat) : rbtree × Nat :=
  if t.parent z = t.left (t.parent (t.parent z)) then
    let y := t.right (t.parent (t.parent z))
    if t.color y = RBTREE_RED then
      let t1 := set_color t (t.parent z) RBTREE_BLACK
      let t2 := set_color t1 y RBTREE_BLACK
      let t3 := set_color t2 (t2.parent (t2.parent z)) RBTREE_RED
      (t3, t3.parent (t3.parent z))
    else
      let s := if z = t.right (t.parent z) then (rotate_left t (t.parent z), t.parent z) else (t, z)
      let t1 := s.1
      let z1 := s.2
      let t2 := set_color t1 (t1.parent z1) RBTREE_BLACK
      let t3 := set_color t2 (t2.parent (t2.parent z1)) RBTREE_RED
      (rotate_right t3 (t3.parent (t3.parent z1)), z1)
  else
    let y := t.left (t.parent (t.parent z))
    if t.color y = RBTREE_RED then
      let t1 := set_color t (t.parent z) RBTREE_BLACK
      let t2 := set_color t1 y RBTREE_BLACK
      let t3 := set_color t2 (t2.parent (t2.parent z)) RBTREE_RED
      (t3, t3.parent (t3.parent z))
    else
      let s := if z = t.left (t.parent z) then (rotate_right t (t.parent z), t.parent z) else (t, z)
      let t1 := s.1
      let z1 := s.2
      let t2 := set_color t1 (t1.parent z1) RBTREE_BLACK
      let t3 := set_color t2 (t2.parent (t2.parent z1)) RBTREE_RED
      (rotate_left t3 (t3.parent (t3.parent z1)), z1)

/-- `rebuild_after_insert` (lines 100-150); the first argument is the fuel of the
loop, one unit per evaluation of the loop condition. -/
def rebuild_after_insert : Nat → rbtree → Nat → Option rbtree
  | 0, _, _ => none
  | fuel + 1, t, z =>
    if t.color (t.parent z) = RBTREE_RED then
      rebuild_after_insert fuel (rebuild_after_insert_body t z).1 (rebuild_after_insert_body t z).2
    else some (set_color t t.root RBTREE_BLACK)

/-- The descent loop of `rbtree_insert` (lines 163-170): returns the final `y`. -/
def insert_descend : Nat → rbtree → Nat → Nat → Nat → Option Nat
  | 0, _, _, _, _ => none
  | fuel + 1, t, z, y, x =>
    if x ≠ t.nil then
      if t.key z < t.key x then insert_descend fuel t z x (t.left x)
      else insert_descend fuel t z x (t.right x)
    else some y

/-- `rbtree_insert` (lines 153-181): the new state and the returned node pointer.
`fuel` bounds each of the two loops. -/
def rbtree_insert (fuel : Nat) (t : rbtree) (key : Int) : Option (rbtree × Nat) :=
  let a := calloc_node t
  let z := a.2
  let t1 := set_key a.1 z key
  let t2 := set_color t1 z RBTREE_RED
  let t3 := set_left t2 z t2.nil
  let t4 := set_right t3 z t3.nil
  match insert_descend fuel t4 z t4.nil t4.root with
  | none => none
  | some y =>
    let t5 := set_parent t4 z y
    let t6 :=
      if y = t5.nil then set_root t5 z
      else if t5.key z < t5.key y then set_left t5 y z
      else set_right t5 y z
    match rebuild_after_insert fuel t6 z with
    | none => none
    | some t7 => some (t7, z)

/-- `rbtree_find` (lines 184-197): the node found, or `NULL`. -/
def rbtree_find_loop : Nat → rbtree → Int → Nat → Option Nat
  | 0, _, _, _ => none
  | fuel + 1, t, key, curr =>
    if curr ≠ t.nil then
      if key = t.key curr then some curr
      else if key < t.key curr then rbtree_find_loop fuel t key (t.left curr)
      else rbtree_find_loop fuel t key (t.right curr)
    else some NULL

/-- `rbtree_find` (lines 184-197). -/
def rbtree_find (fuel : Nat) (t : rbtree) (key : Int) : Option Nat :=
  rbtree_find_loop fuel t key t.root

/-- The loop of `rbtree_min` (lines 203-204). -/
def rbtree_min_loop : Nat → rbtree → Nat → Option Nat
  | 0, _, _ => none
  | fuel + 1, t, curr =>
    if curr ≠ t.nil ∧ t.left curr ≠ t.nil then rbtree_min_loop fuel t (t.left curr)
    else some curr

/-- `rbtree_min` (lines 200-206). -/
def rbtree_min (fuel : Nat) (t : rbtree) : Option Nat := rbtree_min_loop fuel t t.root

/-- The loop of `rbtree_max` (lines 212-213). -/
def rbtree_max_loop : Nat → rbtree → Nat → Option Nat
  | 0, _, _ => none
  | fuel + 1, t, curr =>
    if curr ≠ t.nil ∧ t.right curr ≠ t.nil then rbtree_max_loop fuel t (t.right curr)
    else some curr

/-- `rbtree_max` (lines 209-215). -/
def rbtree_max (fuel : Nat) (t : rbtree) : Option Nat := rbtree_max_loop fuel t t.root

/-- Case 1 of `rebuild_after_delete`, `x` a left child (lines 224-231): the state
and the sibling `w` after the `if`. -/
def delete_case1_left (t : rbtree) (x : Nat) : rbtree × Nat :=
  let w := t.right (t.parent x)
  if t.color w = RBTREE_RED then
    let t1 := set_color t w RBTREE_BLACK
    let t2 := set_color t1 (t1.parent x) RBTREE_RED
    let t3 := rotate_left t2 (t2.parent x)
    (t3, t3.right (t3.parent x))
  else (t, w)

/-- Case 3 of `rebuild_after_delete`, `x` a left child (lines 239-245): the state
and the sibling `w` after the `if`. -/
def delete_case3_left (t : rbtree) (x w : Nat) : rbtree × Nat :=
  if t.color (t.right w) = RBTREE_BLACK then
    let t1 := set_color t (t.left w) RBTREE_BLACK
    let t2 := set_color t1 w RBTREE_RED
    let t3 := rotate_right t2 w
    (t3, t3.right (t3.parent x))
  else (t, w)

/-- Case 4 of `rebuild_after_delete`, `x` a left child (lines 246-250): the state
and the new `x`. -/
def delete_case4_left (t : rbtree) (x w : Nat) : rbtree × Nat :=
  let t1 := set_color t w (t.color (t.parent x))
  let t2 := set_color t1 (t1.parent x) RBTREE_BLACK
  let t3 := set_color t2 (t2.right w) RBTREE_BLACK
  let t4 := rotate_left t3 (t3.parent x)
  (t4, t4.root)

/-- Cases 2 to 4 of `rebuild_after_delete`, `x` a left child with sibling `w`
(lines 232-251): the state and the new `x`. -/
def delete_case234_left (t : rbtree) (x w : Nat) : rbtree × Nat :=
  if t.color (t.left w) = RBTREE_BLACK ∧ t.color (t.right w) = RBTREE_BLACK then
    let t1 := set_color t w RBTREE_RED
    (t1, t1.parent x)
  else
    let s := delete_case3_left t x w
    delete_case4_left s.1 x s.2

/-- Case 1 of `rebuild_after_delete`, `x` a right child (lines 255-262). -/
def delete_case1_right (t : rbtree) (x : Nat) : rbtree × Nat :=
  let w := t.left (t.parent x)
  if t.color w = RBTREE_RED then
    let t1 := set_color t w RBTREE_BLACK
    let t2 := set_color t1 (t1.parent x) RBTREE_RED
    let t3 := rotate_right t2 (t2.parent x)
    (t3, t3.left (t3.parent x))
  else (t, w)

/-- Case 3 of `rebuild_after_delete`, `x` a right child (lines 270-276). -/
def delete_case3_right (t : rbtree) (x w : Nat) : rbtree × Nat :=
  if t.color (t.left w) = RBTREE_BLACK then
    let t1 := set_color t (t.right w) RBTREE_BLACK
    let t2 := set_color t1 w RBTREE_RED
    let t3 := rotate_left t2 w
    (t3, t3.left (t3.parent x))
  else (t, w)

/-- Case 4 of `rebuild_after_delete`, `x` a right child (lines 277-281). -/
def delete_case4_right (t : rbtree) (x w : Nat) : rbtree × Nat :=
  let t1 := set_color t w (t.color (t.parent x))
  let t2 := set_color t1 (t1.parent x) RBTREE_BLACK
  let t3 := set_color t2 (t2.left w) RBTREE_BLACK
  let t4 := rotate_right t3 (t3.parent x)
  (t4, t4.root)

/-- Cases 2 to 4 of `rebuild_after_delete`, `x` a right child with sibling `w`
(lines 263-282). -/
def delete_case234_right (t : rbtree) (x w : Nat) : rbtree × Nat :=
  if t.color (t.right w) = RBTREE_BLACK ∧ t.color (t.left w) = RBTREE_BLACK then
    let t1 := set_color t w RBTREE_RED
    (t1, t1.parent x)
  else
    let s := delete_case3_right t x w
    delete_case4_right s.1 x s.2

/-- One pass through the body of the loop of `rebuild_after_delete` (lines 222-283),
entered with `x` not the root and BLACK: the new state and the new `x`. -/
def rebuild_after_delete_body (t : rbtree) (x : Nat) : rbtree × Nat :=
  if x = t.left (t.parent x) then
    let s := delete_case1_left t x
    delete_case234_left s.1 x s.2
  else
    let s := delete_case1_right t x
    delete_case234_right s.1 x s.2

/-- `rebuild_after_delete` (lines 218-286); the first argument is the fuel of the
loop, one unit per evaluation of the loop condition. -/
def rebuild_after_delete : Nat → rbtree → Nat → Option rbtree
  | 0, _, _ => none
  | fuel + 1, t, x =>
    if x ≠ t.root ∧ t.color x = RBTREE_BLACK then
      rebuild_after_delete fuel (rebuild_after_delete_body t x).1 (rebuild_after_delete_body t x).2
    else some (set_color t x RBTREE_BLACK)

/-- Lines 330-336 of `rbtree_erase`: the fixup when the removed colour was BLACK,
then `free(z)`. -/
def rbtree_erase_finish (fuel : Nat) (t : rbtree) (x : Nat) (y_original_color : color_t)
    (z : Nat) : Option rbtree :=
  if y_original_color = RBTREE_BLACK then
    match rebuild_after_delete fuel t x with
    | none => none
    | some t1 => some (free t1 z)
  else some (free t z)

/-- Lines 314-323 of `rbtree_erase`: the successor `y` of `z` is taken out of the right
subtree of `z`, `x` being the right child of `y`. -/
def rbtree_erase_detach (t : rbtree) (z y x : Nat) : rbtree :=
  if t.parent y = z then set_parent t x y
  else
    let a := transplant t y (t.right y)
    let b := set_right a y (a.right z)
    set_parent b (b.right y) y

/-- Lines 324-327 of `rbtree_erase`: the successor `y` takes the place, the left subtree
and the colour of `z`. -/
def rbtree_erase_replace (t : rbtree) (z y : Nat) : rbtree :=
  let t2 := transplant t z y
  let t3 := set_left t2 y (t2.left z)
  let t4 := set_parent t3 (t3.left y) y
  set_color t4 y (t4.color z)

/-- Lines 294-336 of `rbtree_erase`, for a tree pointer and a node pointer that
passed the argument check of line 291. -/
def rbtree_erase_node (fuel : Nat) (t : rbtree) (p : Nat) : Option rbtree :=
  let z := p
  let y := z
  let y_original_color := t.color y
  if t.left z = t.nil then
    let x := t.right z
    rbtree_erase_finish fuel (transplant t z (t.right z)) x y_original_color z
  else if t.right z = t.nil then
    let x := t.left z
    rbtree_erase_finish fuel (transplant t z (t.left z)) x y_original_color z
  else
    match subtree_min fuel t (t.right z) with
    | none => none
    | some y =>
      let y_original_color := t.color y
      let x := t.right y
      rbtree_erase_finish fuel (rbtree_erase_replace (rbtree_erase_detach t z y x) z y) x
        y_original_color z

/-- `rbtree_erase` (lines 289-337): the tree pointer may be `NULL` (`none`); the
result is the state and the returned `int`. -/
def rbtree_erase (fuel : Nat) (t : Option rbtree) (p : Nat) : Option (Option rbtree × Int) :=
  match t with
  | none => some (none, 0)
  | some t =>
    if p = NULL ∨ p = t.nil then some (some t, 0)
    else
      match rbtree_erase_node fuel t p with
      | none => none
      | some t1 => some (some t1, 1)

/-- The cast `(int)nslots` of a `size_t` (64 bits) to `int` (32 bits, two's
complement wrap-around). -/
def int_of_size_t (n : Nat) : Int :=
  if n % 2 ^ 32 < 2 ^ 31 then ((n % 2 ^ 32 : Nat) : Int) else ((n % 2 ^ 32 : Nat) : Int) - 2 ^ 32

/-- An `int` (32 bits) after an arithmetic step: two's complement wrap-around. -/
def wrap_int (x : Int) : Int := (x + 2 ^ 31) % 2 ^ 32 - 2 ^ 31

/-- `in_order_copy` (lines 340-350): the array after the call and the returned index.
The array is a map from index to key; the first argument is the recursion fuel. -/
def in_order_copy : Nat → rbtree → Nat → (Int → Int) → Nat → Int → Option ((Int → Int) × Int)
  | 0, _, _, _, _, _ => none
  | fuel + 1, t, n, arr, nslots, idx =>
    if n = t.nil ∨ idx ≥ int_of_size_t nslots then some (arr, idx)
    else
      match in_order_copy fuel t (t.left n) arr nslots idx with
      | none => none
      | some (arr1, idx1) =>
        let arr2 :=
          if idx1 < int_of_size_t nslots then (fun i => if i = idx1 then t.key n else arr1 i)
          else arr1
        let idx2 := wrap_int (idx1 + 1)
        in_order_copy fuel t (t.right n) arr2 nslots idx2

/-- `rbtree_to_array` (lines 352-358): tree pointer and array pointer may be `NULL`
(`none`); the result is the array after the call and the returned `int`. -/
def rbtree_to_array (fuel : Nat) (t : Option rbtree) (arr : Option (Int → Int)) (n : Nat) :
    Option (Option (Int → Int) × Int) :=
  match t, arr with
  | some t, some arr =>
    if n = 0 then some (some arr, 0)
    else
      match in_order_copy fuel t t.root arr n 0 with
      | none => none
      | some r => some (some r.1, 0)
  | _, a => some (a, 0)

/-! ## Client programs

The claims about sequences of calls are stated for these programs, which call the
operations one after another as the tests of the repository do. -/

/-- The calls `rbtree_insert(t, k)` for the keys of a list, in order: the final state
and the node pointers returned, in order. -/
def insert_all (fuel : Nat) : List Int → rbtree → Option (rbtree × List Nat)
  | [], t => some (t, [])
  | k :: ks, t =>
    match rbtree_insert fuel t k with
    | none => none
    | some (t1, p) =>
      match insert_all fuel ks t1 with
      | none => none
      | some (t2, ps) => some (t2, p :: ps)

/-- The calls `rbtree_erase(t, p)` for the node pointers of a list, in order. -/
def erase_all (fuel : Nat) : List Nat → rbtree → Option rbtree
  | [], t => some t
  | p :: ps, t =>
    match rbtree_erase fuel (some t) p with
    | some (some t1, _) => erase_all fuel ps t1
    | _ => none

/-- The client calls `rbtree_erase(t, rbtree_find(t, k))`: the node found for key `k` is
erased. -/
def erase_key (fuel : Nat) (t : rbtree) (k : Int) : Option rbtree :=
  match rbtree_find fuel t k with
  | none => none
  | some p =>
    match rbtree_erase fuel (some t) p with
    | some (some t1, _) => some t1
    | _ => none

/-! ## The two fixup loops, pass by pass -/

/-- Lines 155-178 of `rbtree_insert`: the new node is allocated, filled in and linked
below the node where the descent ends. The result is the state at the call of
`rebuild_after_insert` and the new node. -/
def insert_attach (fuel : Nat) (t : rbtree) (key : Int) : Option (rbtree × Nat) :=
  let a := calloc_node t
  let z := a.2
  let t1 := set_key a.1 z key
  let t2 := set_color t1 z RBTREE_RED
  let t3 := set_left t2 z t2.nil
  let t4 := set_right t3 z t3.nil
  match insert_descend fuel t4 z t4.nil t4.root with
  | none => none
  | some y =>
    let t5 := set_parent t4 z y
    let t6 :=
      if y = t5.nil then set_root t5 z
      else if t5.key z < t5.key y then set_left t5 y z
      else set_right t5 y z
    some (t6, z)

/-- The test of lines 107 and 129 of `rebuild_after_insert`, negated: the pass through the
body of the loop takes the branch of the BLACK uncle (lines 115-125 or 137-147). -/
def insert_uncle_black (t : rbtree) (z : Nat) : Bool :=
  if t.parent z = t.left (t.parent (t.parent z)) then
    decide (t.color (t.right (t.parent (t.parent z))) ≠ RBTREE_RED)
  else decide (t.color (t.left (t.parent (t.parent z))) ≠ RBTREE_RED)

/-- The number of calls of `rotate_left` and `rotate_right` in one pass through the body of
the loop of `rebuild_after_insert` (lines 104-147): none with a RED uncle, else one for
the inner `if` when it is taken and one more. -/
def rebuild_after_insert_rotations (t : rbtree) (z : Nat) : Nat :=
  if t.parent z = t.left (t.parent (t.parent z)) then
    let y := t.right (t.parent (t.parent z))
    if t.color y = RBTREE_RED then 0
    else (if z = t.right (t.parent z) then 1 else 0) + 1
  else
    let y := t.left (t.parent (t.parent z))
    if t.color y = RBTREE_RED then 0
    else (if z = t.left (t.parent z) then 1 else 0) + 1

/-- `rebuild_after_insert` (lines 100-150) with a count of the rotations it makes. -/
def rebuild_after_insert_count : Nat → rbtree → Nat → Option (rbtree × Nat)
  | 0, _, _ => none
  | fuel + 1, t, z =>
    if t.color (t.parent z) = RBTREE_RED then
      match rebuild_after_insert_count fuel (rebuild_after_insert_body t z).1
          (rebuild_after_insert_body t z).2 with
      | none => none
      | some r => some (r.1, rebuild_after_insert_rotations t z + r.2)
    else some (set_color t t.root RBTREE_BLACK, 0)

/-- The state and `z` when the condition of the loop of `rebuild_after_insert` is
evaluated for the time `i + 1`, or at the end of the loop when it ended before. -/
def rebuild_after_insert_iter : Nat → rbtree → Nat → rbtree × Nat
  | 0, t, z => (t, z)
  | i + 1, t, z =>
    if t.color (t.parent z) = RBTREE_RED then
      rebuild_after_insert_iter i (rebuild_after_insert_body t z).1
        (rebuild_after_insert_body t z).2
    else (t, z)

/-- The state and `x` when the condition of the loop of `rebuild_after_delete` is
evaluated for the time `i + 1`, or at the end of the loop when it ended before. -/
def rebuild_after_delete_iter : Nat → rbtree → Nat → rbtree × Nat
  | 0, t, x => (t, x)
  | i + 1, t, x =>
    if x ≠ t.root ∧ t.color x = RBTREE_BLACK then
      rebuild_after_delete_iter i (rebuild_after_delete_body t x).1
        (rebuild_after_delete_body t x).2
    else (t, x)

/-- Lines 294-328 of `rbtree_erase`: the node is taken out of the tree. The result is the
state at line 330, the node `x` and `y_original_color`. -/
def rbtree_erase_splice (fuel : Nat) (t : rbtree) (p : Nat) :
    Option (rbtree × Nat × color_t) :=
  let z := p
  let y := z
  let y_original_color := t.color y
  if t.left z = t.nil then
    some (transplant t z (t.right z), t.right z, y_original_color)
  else if t.right z = t.nil then
    some (transplant t z (t.left z), t.left z, y_original_color)
  else
    match subtree_min fuel t (t.right z) with
    | none => none
    | some y =>
      some (rbtree_erase_replace (rbtree_erase_detach t z y (t.right y)) z y, t.right y,
        t.color y)

/-- The number of `parent` links from node `x` up to the root; the first argument is the
fuel. -/
def node_depth : Nat → rbtree → Nat → Option Nat
  | 0, _, _ => none
  | fuel + 1, t, x =>
    if x = t.root then some 0
    else
      match node_depth fuel t (t.parent x) with
      | none => none
      | some d => some (d + 1)

/-- The state with the value `v` in the `parent` field of the sentinel. -/
def with_nil_parent (t : rbtree) (v : Nat) : rbtree := set_parent t t.nil v

/-! ## The insertion of _trash/rbtree.c -/

/-- `new_node` of _trash/rbtree.c (lines 223-233): the new cell is RED with key `key`, its
children are the sentinel and its parent is `NULL`. -/
def trash.new_node (t : rbtree) (key : Int) : rbtree × Nat :=
  let a := calloc_node t
  let n := a.2
  let t1 := set_color a.1 n RBTREE_RED
  let t2 := set_key t1 n key
  let t3 := set_left t2 n t2.nil
  let t4 := set_right t3 n t3.nil
  (set_parent t4 n NULL, n)

/-- The loop of `insert_node` of _trash/rbtree.c (lines 247-269); the first argument is
the fuel. -/
def trash.insert_node_loop : Nat → rbtree → Nat → Nat → Option rbtree
  | 0, _, _, _ => none
  | fuel + 1, t, n, curr =>
    if curr ≠ t.nil then
      if t.key n < t.key curr then
        if t.left curr = t.nil then some (set_left (set_parent t n curr) curr n)
        else trash.insert_node_loop fuel t n (t.left curr)
      else
        if t.right curr = t.nil then some (set_right (set_parent t n curr) curr n)
        else trash.insert_node_loop fuel t n (t.right curr)
    else some t

/-- `insert_node` of _trash/rbtree.c (lines 236-270). -/
def trash.insert_node (fuel : Nat) (t : rbtree) (n : Nat) : Option rbtree :=
  if t.root = t.nil then
    let t1 := set_root t n
    some (set_parent t1 n t1.nil)
  else trash.insert_node_loop fuel t n t.root

/-- `rotate_right` of _trash/rbtree.c (lines 273-296). -/
def trash.rotate_right (t : rbtree) (parent : Nat) : rbtree :=
  let leftChild := t.left parent
  let t1 := set_left t parent (t.right leftChild)
  let t2 := if t1.right leftChild ≠ t1.nil then set_parent t1 (t1.right leftChild) parent else t1
  let t3 := set_parent t2 leftChild (t2.parent parent)
  let t4 :=
    if t3.parent parent = t3.nil then set_root t3 leftChild
    else if parent = t3.left (t3.parent parent) then set_left t3 (t3.parent parent) leftChild
    else set_right t3 (t3.parent parent) leftChild
  let t5 := set_right t4 leftChild parent
  set_parent t5 parent leftChild

/-- `rotate_left` of _trash/rbtree.c (lines 299-322). -/
def trash.rotate_left (t : rbtree) (parent : Nat) : rbtree :=
  let rightChild := t.right parent
  let t1 := set_right t parent (t.left rightChild)
  let t2 := if t1.left rightChild ≠ t1.nil then set_parent t1 (t1.left rightChild) parent else t1
  let t3 := set_parent t2 rightChild (t2.parent parent)
  let t4 :=
    if t3.parent parent = t3.nil then set_root t3 rightChild
    else if parent = t3.right (t3.parent parent) then set_right t3 (t3.parent parent) rightChild
    else set_left t3 (t3.parent parent) rightChild
  let t5 := set_left t4 rightChild parent
  set_parent t5 parent rightChild

/-- One pass through the body of the loop of `rebuild_after_insert` of _trash/rbtree.c
(lines 330-387): the new state and the new `n`. With a BLACK uncle the inner rotation is
made at the parent of the new `n` and the grandparent is coloured BLACK, as the file has
it. -/
def trash.rebuild_after_insert_body (t : rbtree) (n : Nat) : rbtree × Nat :=
  if t.parent n = t.left (t.parent (t.parent n)) then
    let uncle := t.right (t.parent (t.parent n))
    if t.color uncle = RBTREE_RED then
      let t1 := set_color t (t.parent n) RBTREE_BLACK
      let t2 := set_color t1 uncle RBTREE_BLACK
      let t3 := set_color t2 (t2.parent (t2.parent n)) RBTREE_RED
      (t3, t3.parent (t3.parent n))
    else
      let s :=
        if n = t.right (t.parent n) then
          (trash.rotate_left t (t.parent (t.parent n)), t.parent n)
        else (t, n)
      let t1 := s.1
      let n1 := s.2
      let t2 := set_color t1 (t1.parent n1) RBTREE_BLACK
      let t3 := set_color t2 (t2.parent (t2.parent n1)) RBTREE_BLACK
      (trash.rotate_right t3 (t3.parent (t3.parent n1)), n1)
  else if t.parent n = t.right (t.parent (t.parent n)) then
    let uncle := t.left (t.parent (t.parent n))
    if t.color uncle = RBTREE_RED then
      let t1 := set_color t (t.parent n) RBTREE_BLACK
      let t2 := set_color t1 uncle RBTREE_BLACK
      let t3 := set_color t2 (t2.parent (t2.parent n)) RBTREE_RED
      (t3, t3.parent (t3.parent n))
    else
      let s :=
        if n = t.left (t.parent n) then
          (trash.rotate_right t (t.parent (t.parent n)), t.parent n)
        else (t, n)
      let t1 := s.1
      let n1 := s.2
      let t2 := set_color t1 (t1.parent n1) RBTREE_BLACK
      let t3 := set_color t2 (t2.parent (t2.parent n1)) RBTREE_BLACK
      (trash.rotate_left t3 (t3.parent (t3.parent n1)), n1)
  else (t, n)

/-- `rebuild_after_insert` of _trash/rbtree.c (lines 325-390); the first argument is the
fuel of the loop. -/
def trash.rebuild_after_insert : Nat → rbtree → Nat → Option rbtree
  | 0, _, _ => none
  | fuel + 1, t, n =>
    if t.root ≠ n ∧ t.color (t.parent n) = RBTREE_RED then
      trash.rebuild_after_insert fuel (trash.rebuild_after_insert_body t n).1
        (trash.rebuild_after_insert_body t n).2
    else some (set_color t t.root RBTREE_BLACK)

/-- `rbtree_insert` of _trash/rbtree.c (lines 213-220): the new state and the returned
node pointer. -/
def trash.rbtree_insert (fuel : Nat) (t : rbtree) (key : Int) : Option (rbtree × Nat) :=
  let a := trash.new_node t key
  match trash.insert_node fuel a.1 a.2 with
  | none => none
  | some t1 =>
    match trash.rebuild_after_insert fuel t1 a.2 with
    | none => none
    | some t2 => some (t2, a.2)

/-- The calls `rbtree_insert(t, k)` of _trash/rbtree.c for the keys of a list, in order. -/
def trash.insert_all (fuel : Nat) : List Int → rbtree → Option (rbtree × List Nat)
  | [], t => some (t, [])
  | k :: ks, t =>
    match trash.rbtree_insert fuel t k with
    | none => none
    | some (t1, p) =>
      match trash.insert_all fuel ks t1 with
      | none => none
      | some (t2, ps) => some (t2, p :: ps)

/-- The number of rotations `rbtree_insert(t, key)` makes: those of its call of
`rebuild_after_insert`. -/
def insert_rotations (fuel : Nat) (t : rbtree) (key : Int) : Option Nat :=
  match insert_attach fuel t key with
  | none => none
  | some r =>
    match rebuild_after_insert_count fuel r.1 r.2 with
    | none => none
    | some c => some c.2

/-- The number of rotations the calls `rbtree_insert(t, k)` for the keys of a list make. -/
def insert_all_rotations (fuel : Nat) : List Int → rbtree → Option Nat
  | [], _ => some 0
  | k :: ks, t =>
    match insert_rotations fuel t k, rbtree_insert fuel t k with
    | some r, some (t1, _) =>
      match insert_all_rotations fuel ks t1 with
      | none => none
      | some rs => some (r + rs)
    | _, _ => none

/-! ## Abstraction: the tree a state holds -/

/-- A binary tree of heap nodes: each node carries its address, colour and key. -/
inductive Tree where
  | leaf : Tree
  | node : Tree → Nat → color_t → Int → Tree → Tree
  deriving DecidableEq, Repr

/-- The tree read off the heap from pointer `p` downwards, to depth `fuel`. -/
def readTree : Nat → rbtree → Nat → Tree
  | 0, _, _ => Tree.leaf
  | fuel + 1, t, p =>
    if p = t.nil then Tree.leaf
    else Tree.node (readTree fuel t (t.left p)) p (t.color p) (t.key p) (readTree fuel t (t.right p))

/-- Pointer to the root of a tree: the sentinel for the empty tree. -/
def Tree.rootp (nil : Nat) : Tree → Nat
  | Tree.leaf => nil
  | Tree.node _ p _ _ _ => p

/-- Colour of the root: the sentinel, hence BLACK, for the empty tree. -/
def Tree.rootColor : Tree → color_t
  | Tree.leaf => RBTREE_BLACK
  | Tree.node _ _ c _ _ => c

/-- Node addresses in in-order. -/
def Tree.ptrs : Tree → List Nat
  | Tree.leaf => []
  | Tree.node l p _ _ r => l.ptrs ++ p :: r.ptrs

/-- Keys in in-order. -/
def Tree.keys : Tree → List Int
  | Tree.leaf => []
  | Tree.node l _ _ k r => l.keys ++ k :: r.keys

/-- The in-order sequence of nodes, each as (address, key). -/
def Tree.nodes : Tree → List (Nat × Int)
  | Tree.leaf => []
  | Tree.node l p _ k r => l.nodes ++ (p, k) :: r.nodes

/-- Number of nodes. -/
def Tree.size : Tree → Nat
  | Tree.leaf => 0
  | Tree.node l _ _ _ r => l.size + 1 + r.size

/-- Number of nodes on the longest root-to-sentinel path. -/
def Tree.height : Tree → Nat
  | Tree.leaf => 0
  | Tree.node l _ _ _ r => max l.height r.height + 1

/-- The heap cells of state `t` hold the tree: every node of the tree sits at its
address with its colour and key, its `left` and `right` fields point to the roots of
its subtrees (to the sentinel for an empty one) and its `parent` field to the node
above it (`par` for the root of the tree). -/
def Rep (t : rbtree) : Tree → Nat → Prop
  | Tree.leaf, _ => True
  | Tree.node l p c k r, par =>
    p ≠ t.nil ∧ t.color p = c ∧ t.key p = k ∧ t.parent p = par ∧
    t.left p = l.rootp t.nil ∧ t.right p = r.rootp t.nil ∧ Rep t l p ∧ Rep t r p

/-- State `t` holds the tree `T`: `t->root` points to its root, whose parent is the
sentinel; the nodes are pairwise distinct allocated cells, none of them `NULL`; the
sentinel is an allocated cell (not `NULL`) coloured BLACK, whose `left` and `right`
fields point to itself. -/
structure Holds (t : rbtree) (T : Tree) : Prop where
  root : t.root = T.rootp t.nil
  rep : Rep t T t.nil
  nodup : T.ptrs.Nodup
  nil_black : t.color t.nil = RBTREE_BLACK
  nil_alloc : 0 < t.nil ∧ t.nil < t.brk
  alloc : ∀ p ∈ T.ptrs, 0 < p ∧ p < t.brk
  nil_left : t.left t.nil = t.nil
  nil_right : t.right t.nil = t.nil

/-! ### The red-black invariants -/

/-- Invariant 2: the root is BLACK, or the tree is empty. -/
def rootBlack (T : Tree) : Prop := T.rootColor = RBTREE_BLACK

/-- Invariant 3: no RED node has a RED child. -/
def noRedRed : Tree → Prop
  | Tree.leaf => True
  | Tree.node l _ c _ r =>
    (c = RBTREE_RED → l.rootColor = RBTREE_BLACK ∧ r.rootColor = RBTREE_BLACK) ∧
    noRedRed l ∧ noRedRed r

/-- The number of BLACK nodes on each root-to-sentinel path, left to right. -/
def blackCounts : Tree → List Nat
  | Tree.leaf => [0]
  | Tree.node l _ c _ r =>
    (blackCounts l ++ blackCounts r).map (fun n => if c = RBTREE_BLACK then n + 1 else n)

/-- Invariant 4: every root-to-sentinel path has the same number of BLACK nodes. -/
def equalBlack (T : Tree) : Prop := ∀ a ∈ blackCounts T, ∀ b ∈ blackCounts T, a = b

/-- The three colour invariants together. -/
def RBInv (T : Tree) : Prop := rootBlack T ∧ noRedRed T ∧ equalBlack T

/-- Invariant 5, BST ordering: every key in a node's left subtree is at most its key
and every key in its right subtree is at least its key. -/
def Tree.bst : Tree → Prop
  | Tree.leaf => True
  | Tree.node l _ _ k r => (∀ a ∈ l.keys, a ≤ k) ∧ (∀ b ∈ r.keys, k ≤ b) ∧ l.bst ∧ r.bst

/-- Black height `n`: every path from the root of the tree to a sentinel passes
through exactly `n` BLACK nodes. -/
def BH : Tree → Nat → Prop
  | Tree.leaf, n => n = 0
  | Tree.node l _ c _ r, n =>
    if c = RBTREE_BLACK then ∃ m, n = m + 1 ∧ BH l m ∧ BH r m else BH l n ∧ BH r n

/-! ### Trees with a hole -/

/-- One step of a path from a node down to a hole: the node (address, colour, key)
and its other subtree. `inL`: the hole is the left child; `inR`: the right child. -/
inductive Frame where
  | inL : Nat → color_t → Int → Tree → Frame
  | inR : Tree → Nat → color_t → Int → Frame
  deriving DecidableEq, Repr

/-- Address of the node of a frame. -/
def Frame.ptr : Frame → Nat
  | Frame.inL p _ _ _ => p
  | Frame.inR _ p _ _ => p

/-- Colour of the node of a frame. -/
def Frame.color : Frame → color_t
  | Frame.inL _ c _ _ => c
  | Frame.inR _ _ c _ => c

/-- Key of the node of a frame. -/
def Frame.key : Frame → Int
  | Frame.inL _ _ k _ => k
  | Frame.inR _ _ _ k => k

/-- The subtree of the frame node that does not contain the hole. -/
def Frame.sib : Frame → Tree
  | Frame.inL _ _ _ r => r
  | Frame.inR l _ _ _ => l

/-- The frame with the hole filled. -/
def Frame.fill : Frame → Tree → Tree
  | Frame.inL p c k r, s => Tree.node s p c k r
  | Frame.inR l p c k, s => Tree.node l p c k s

/-- A context: the frames from the hole up to the root, innermost first; `plug`
fills the hole. -/
def plug : List Frame → Tree → Tree
  | [], s => s
  | f :: fs, s => plug fs (f.fill s)

/-- Address of the node just above the hole: the sentinel at the root. -/
def cpar (nil : Nat) : List Frame → Nat
  | [] => nil
  | f :: _ => f.ptr

/-- The node addresses of a context. -/
def cptrs : List Frame → List Nat
  | [] => []
  | f :: fs => f.ptr :: (f.sib.ptrs ++ cptrs fs)

/-- The heap cells of state `t` hold the context, with `h` the pointer stored where
the hole is (in `t->root` for the empty context). -/
def RepC (t : rbtree) : List Frame → Nat → Prop
  | [], h => t.root = h
  | Frame.inL p c k r :: fs, h =>
    p ≠ t.nil ∧ t.color p = c ∧ t.key p = k ∧ t.parent p = cpar t.nil fs ∧
    t.left p = h ∧ t.right p = r.rootp t.nil ∧ Rep t r p ∧ RepC t fs p
  | Frame.inR l p c k :: fs, h =>
    p ≠ t.nil ∧ t.color p = c ∧ t.key p = k ∧ t.parent p = cpar t.nil fs ∧
    t.left p = l.rootp t.nil ∧ t.right p = h ∧ Rep t l p ∧ RepC t fs p

/-- State `t` holds the context `ctx` with the subtree `s` in its hole; the sentinel
is BLACK with its `left` and `right` fields pointing to itself, and all node addresses
are distinct. -/
structure ZRep (t : rbtree) (ctx : List Frame) (s : Tree) : Prop where
  repc : RepC t ctx (s.rootp t.nil)
  rep : Rep t s (cpar t.nil ctx)
  nodup : (s.ptrs ++ cptrs ctx).Nodup
  nil_black : t.color t.nil = RBTREE_BLACK
  nil_left : t.left t.nil = t.nil
  nil_right : t.right t.nil = t.nil

/-- State `t'` differs from state `t` at most in the cells whose address is in `W`
(and in `t->root`, the allocation mark and the free list). -/
structure SameOff (W : List Nat) (t t' : rbtree) : Prop where
  nil : t'.nil = t.nil
  color : ∀ q, q ∉ W → t'.color q = t.color q
  key : ∀ q, q ∉ W → t'.key q = t.key q
  parent : ∀ q, q ∉ W → t'.parent q = t.parent q
  left : ∀ q, q ∉ W → t'.left q = t.left q
  right : ∀ q, q ∉ W → t'.right q = t.right q

/-- The address of the root of a tree, as a list: empty for the empty tree. -/
def Tree.rootl : Tree → List Nat
  | Tree.leaf => []
  | Tree.node _ p _ _ _ => [p]

/-- The address of the innermost frame of a context, as a list. -/
def chead : List Frame → List Nat
  | [] => []
  | f :: _ => [f.ptr]

/-- The frame with the colour of its node replaced. -/
def Frame.recolor : Frame → color_t → Frame
  | Frame.inL p _ k r, c => Frame.inL p c k r
  | Frame.inR l p _ k, c => Frame.inR l p c k

/-- Facts that no operation on an existing tree changes: the sentinel pointer, the
allocation mark, the free list and the keys stored in the cells. -/
structure SameMeta (t t' : rbtree) : Prop where
  nil : t'.nil = t.nil
  brk : t'.brk = t.brk
  freed : t'.freed = t.freed
  key : t'.key = t.key

/-- The tree with its root coloured BLACK. -/
def Tree.blacken : Tree → Tree
  | Tree.leaf => Tree.leaf
  | Tree.node l p _ k r => Tree.node l p RBTREE_BLACK k r

/-- A RED subtree needs a BLACK node above it: the context is not empty and its
innermost node is BLACK. -/
def RedOK (ctx : List Frame) (c : color_t) : Prop :=
  c = RBTREE_RED → ∃ g gs, ctx = g :: gs ∧ g.color = RBTREE_BLACK

/-- The colour invariants of a context whose hole takes a subtree of black height `n`:
every sibling subtree is a valid red-black subtree of the black height that matches,
and a RED node on the path has a BLACK sibling subtree root and a BLACK parent. -/
def CtxInv : List Frame → Nat → Prop
  | [], _ => True
  | f :: fs, n =>
    BH f.sib n ∧ noRedRed f.sib ∧
      (if f.color = RBTREE_BLACK then CtxInv fs (n + 1)
       else f.sib.rootColor = RBTREE_BLACK ∧ RedOK fs RBTREE_RED ∧ CtxInv fs n)

/-- The nodes of a context that come before the hole in in-order. -/
def cbefore : List Frame → List (Nat × Int)
  | [] => []
  | Frame.inL _ _ _ _ :: fs => cbefore fs
  | Frame.inR l p _ k :: fs => cbefore fs ++ (l.nodes ++ [(p, k)])

/-- The nodes of a context that come after the hole in in-order. -/
def cafter : List Frame → List (Nat × Int)
  | [] => []
  | Frame.inL p _ k r :: fs => ((p, k) :: r.nodes) ++ cafter fs
  | Frame.inR _ _ _ _ :: fs => cafter fs

/-- Colour of the node just above the hole: BLACK (the sentinel) at the root. -/
def cparColor : List Frame → color_t
  | [] => RBTREE_BLACK
  | f :: _ => f.color

/-- The path the descent loop of `rbtree_insert` takes for key `k`: left when `k` is
smaller than the key of the node, right otherwise; the frames passed are pushed on `acc`. -/
def descend (k : Int) : Tree → List Frame → List Frame
  | Tree.leaf, acc => acc
  | Tree.node l p c kk r, acc =>
    if k < kk then descend k l (Frame.inL p c kk r :: acc)
    else descend k r (Frame.inR l p c kk :: acc)

/-- Every turn of the path is the one the descent loop takes for key `k`. -/
def PathOK (k : Int) : List Frame → Prop
  | [] => True
  | Frame.inL _ _ kk _ :: fs => k < kk ∧ PathOK k fs
  | Frame.inR _ _ _ kk :: fs => ¬k < kk ∧ PathOK k fs

/-- State `t` holds the context with the subtree `s` in its hole, and the `parent`
field of the root of `s` points to the node above the hole also when `s` is empty: then
it is the `parent` field of the sentinel, which `rbtree_erase` uses as scratch space. -/
structure DRep (t : rbtree) (ctx : List Frame) (s : Tree) : Prop where
  z : ZRep t ctx s
  par : t.parent (s.rootp t.nil) = cpar t.nil ctx

/-- The colour invariants while `rebuild_after_delete` runs: the subtree at `x` has
black height `n` and is valid once its root is BLACK, and the context is valid for a
subtree of black height `n + 1`: the paths through `x` are one BLACK node short. -/
def DelInv (ctx : List Frame) (X : Tree) (n : Nat) : Prop :=
  BH X n ∧ noRedRed X.blacken ∧ CtxInv ctx (n + 1)

/-- The frames from the leftmost node of a tree up to its root, innermost first: the
path the loop of `subtree_min` walks down. -/
def Tree.minFrames : Tree → List Frame
  | Tree.leaf => []
  | Tree.node l p c k r => if l = Tree.leaf then [] else l.minFrames ++ [Frame.inL p c k r]

/-- The subtree at the leftmost node of a tree. -/
def Tree.minNode : Tree → Tree
  | Tree.leaf => Tree.leaf
  | Tree.node l p c k r => if l = Tree.leaf then Tree.node l p c k r else l.minNode

/-- The uncle-BLACK branch of the body of the loop of `rebuild_after_insert`, the parent
of `z` a left child (lines 116-124), on the tree: the new path to the root and the new
subtree at `z`. `f1` is the frame of the parent, `p2`, `k2` and `U` are the grandparent, its
key and the uncle subtree. -/
def ins_rot_left (f1 : Frame) (p2 : Nat) (k2 : Int) (U : Tree) (rest : List Frame) :
    Tree → List Frame × Tree
  | Z =>
    match f1, Z with
    | Frame.inL p1 _ k1 s1, Z =>
      (Frame.inL p1 RBTREE_BLACK k1 (Tree.node s1 p2 RBTREE_RED k2 U) :: rest, Z)
    | Frame.inR s1 p1 _ k1, Tree.node zl z _ kz zr =>
      (Frame.inL z RBTREE_BLACK kz (Tree.node zr p2 RBTREE_RED k2 U) :: rest,
        Tree.node s1 p1 RBTREE_RED k1 zl)
    | Frame.inR _ _ _ _, Tree.leaf => (rest, Tree.leaf)

/-- The uncle-BLACK branch of the body of the loop of `rebuild_after_insert`, the parent
of `z` a right child (lines 138-146), on the tree. -/
def ins_rot_right (f1 : Frame) (p2 : Nat) (k2 : Int) (U : Tree) (rest : List Frame) :
    Tree → List Frame × Tree
  | Z =>
    match f1, Z with
    | Frame.inR s1 p1 _ k1, Z =>
      (Frame.inR (Tree.node U p2 RBTREE_RED k2 s1) p1 RBTREE_BLACK k1 :: rest, Z)
    | Frame.inL p1 _ k1 s1, Tree.node zl z _ kz zr =>
      (Frame.inR (Tree.node U p2 RBTREE_RED k2 zl) z RBTREE_BLACK kz :: rest,
        Tree.node zr p1 RBTREE_RED k1 s1)
    | Frame.inL _ _ _ _, Tree.leaf => (rest, Tree.leaf)

/-- One pass through the body of the loop of `rebuild_after_insert` (lines 104-147), on
the tree: the new path from `z` to the root and the new subtree at `z`. With a RED uncle
the parent and the uncle turn BLACK, the grandparent RED and `z` moves to the grandparent;
with a BLACK uncle the rotations of `ins_rot_left` or `ins_rot_right` are made. -/
def ins_step : List Frame → Tree → List Frame × Tree
  | f1 :: Frame.inL p2 _ k2 U :: rest, Z =>
    if U.rootColor = RBTREE_RED then
      (rest, Tree.node ((f1.recolor RBTREE_BLACK).fill Z) p2 RBTREE_RED k2 U.blacken)
    else ins_rot_left f1 p2 k2 U rest Z
  | f1 :: Frame.inR U p2 _ k2 :: rest, Z =>
    if U.rootColor = RBTREE_RED then
      (rest, Tree.node U.blacken p2 RBTREE_RED k2 ((f1.recolor RBTREE_BLACK).fill Z))
    else ins_rot_right f1 p2 k2 U rest Z
  | ctx, Z => (ctx, Z)

/-- `rebuild_after_insert` on the tree: `n` bounds the number of evaluations of the loop
condition; at the exit of the loop the root is coloured BLACK. -/
def ins_fix : Nat → List Frame → Tree → Tree
  | 0, ctx, Z => plug ctx Z
  | n + 1, ctx, Z =>
    if cparColor ctx = RBTREE_RED then ins_fix n (ins_step ctx Z).1 (ins_step ctx Z).2
    else (plug ctx Z).blacken

/-- `rbtree_insert` on the tree: the new RED node with address `p` and key `k` is put
where the descent for `k` ends, then the colours are repaired. -/
def Tree.ins (k : Int) (p : Nat) (T : Tree) : Tree :=
  ins_fix (T.height + 1) (descend k T []) (Tree.node Tree.leaf p RBTREE_RED k Tree.leaf)

/-- The states a client reaches from `new_rbtree()` by calls of `rbtree_insert` and by
calls of `rbtree_erase` on nodes of the tree, each with fuel above the height of the tree.
The two lists record the keys inserted and the keys of the nodes erased, latest first. -/
inductive Reach : rbtree → List Int → List Int → Prop
  | new : Reach new_rbtree [] []
  | insert {t t1 : rbtree} {ins del : List Int} (T : Tree) (fuel : Nat) (k : Int) (p : Nat) :
      Reach t ins del → Holds t T → T.height + 1 ≤ fuel →
      rbtree_insert fuel t k = some (t1, p) → Reach t1 (k :: ins) del
  | erase {t t1 : rbtree} {ins del : List Int} (T : Tree) (fuel : Nat) (p : Nat) (r : Int) :
      Reach t ins del → Holds t T → p ∈ T.ptrs → T.height + 1 ≤ fuel →
      rbtree_erase fuel (some t) p = some (some t1, r) → Reach t1 ins (t.key p :: del)

/-- A state for examples: keys 2, 1, 3 inserted into the empty tree. -/
def demo : rbtree :=
  match insert_all 3 [2, 1, 3] new_rbtree with
  | some (t, _) => t
  | none => new_rbtree

/-- The tree the example state holds: the BLACK root 2 at address 2 with the RED
children 1 at address 3 and 3 at address 4. -/
def demoTree : Tree :=
  Tree.node (Tree.node Tree.leaf 3 RBTREE_RED 1 Tree.leaf) 2 RBTREE_BLACK 2
    (Tree.node Tree.leaf 4 RBTREE_RED 3 Tree.leaf)

/-- A state for examples: key 5 inserted into the empty tree. -/
def demo1 : rbtree :=
  match rbtree_insert 1 new_rbtree 5 with
  | some (t, _) => t
  | none => new_rbtree

/-- The scenario of the keys 1 to 7 inserted in ascending order into the empty tree,
then the node found for key 1 erased. -/
def scenario7 : rbtree :=
  match insert_all 8 [1, 2, 3, 4, 5, 6, 7] new_rbtree with
  | none => new_rbtree
  | some (t, _) =>
    match erase_key 8 t 1 with
    | none => new_rbtree
    | some t1 => t1

/-- The tree the state `scenario7` holds. -/
def scenario7Tree : Tree :=
  Tree.node
    (Tree.node Tree.leaf 3 RBTREE_BLACK 2 (Tree.node Tree.leaf 4 RBTREE_RED 3 Tree.leaf))
    5 RBTREE_BLACK 4
    (Tree.node (Tree.node Tree.leaf 6 RBTREE_RED 5 Tree.leaf) 7 RBTREE_BLACK 6
      (Tree.node Tree.leaf 8 RBTREE_RED 7 Tree.leaf))

/-! ## The invariants of the two fixup loops, and a larger example -/

/-- The invariant of the loop of `rebuild_after_insert`: `z` is a RED node with `d` nodes
above it on the path to the root, its subtree is valid and the rest of the tree is valid
around a subtree of that black height. -/
def InsertInv (t : rbtree) (z : Nat) (d : Nat) : Prop :=
  ∃ ctx zl zr kz m, ZRep t ctx (Tree.node zl z RBTREE_RED kz zr) ∧ ctx.length = d ∧
    BH (Tree.node zl z RBTREE_RED kz zr) m ∧ noRedRed (Tree.node zl z RBTREE_RED kz zr) ∧
    CtxInv ctx m

/-- The invariant of the loop of `rebuild_after_delete`: `x` is the root of a subtree
(the sentinel for an empty one) with `d` nodes above it on the path to the root, and the
paths through that subtree are one BLACK node short. -/
def DeleteInv (t : rbtree) (x : Nat) (d : Nat) : Prop :=
  ∃ ctx X n, DRep t ctx X ∧ X.rootp t.nil = x ∧ ctx.length = d ∧ DelInv ctx X n

/-- A state for examples: the keys 1 to 7 inserted in ascending order into the empty
tree. -/
def seven : rbtree :=
  match insert_all 8 [1, 2, 3, 4, 5, 6, 7] new_rbtree with
  | some (t, _) => t
  | none => new_rbtree

/-- The tree the state `seven` holds: the BLACK root 2 with the BLACK child 1 and the RED
child 4, whose children 3 and 6 are BLACK; 5 and 7 are the RED children of 6. -/
def sevenTree : Tree :=
  Tree.node (Tree.node Tree.leaf 2 RBTREE_BLACK 1 Tree.leaf) 3 RBTREE_BLACK 2
    (Tree.node (Tree.node Tree.leaf 4 RBTREE_BLACK 3 Tree.leaf) 5 RBTREE_RED 4
      (Tree.node (Tree.node Tree.leaf 6 RBTREE_RED 5 Tree.leaf) 7 RBTREE_BLACK 6
        (Tree.node Tree.leaf 8 RBTREE_RED 7 Tree.leaf)))

/-! ## The right spine of a tree of equal keys -/

@[simp] theorem upd_same {α : Type} (f : Nat → α) (p : Nat) (v : α) : upd f p v p = v := by
  simp [upd]

theorem upd_ne {α : Type} (f : Nat → α) (p q : Nat) (v : α) (h : q ≠ p) : upd f p v q = f q := by
  simp [upd, h]

theorem upd_apply {α : Type} (f : Nat → α) (p q : Nat) (v : α) :
    upd f p v q = if q = p then v else f q := rfl

/-! ## Reading a field after a store -/

@[simp] theorem set_root_root (t : rbtree) (v : Nat) : (set_root t v).root = v := rfl

@[simp] theorem set_root_nil (t : rbtree) (v : Nat) : (set_root t v).nil = t.nil := rfl

@[simp] theorem set_root_color (t : rbtree) (v : Nat) : (set_root t v).color = t.color := rfl

@[simp] theorem set_root_key (t : rbtree) (v : Nat) : (set_root t v).key = t.key := rfl

@[simp] theorem set_root_parent (t : rbtree) (v : Nat) : (set_root t v).parent = t.parent := rfl

@[simp] theorem set_root_left (t : rbtree) (v : Nat) : (set_root t v).left = t.left := rfl

@[simp] theorem set_root_right (t : rbtree) (v : Nat) : (set_root t v).right = t.right := rfl

@[simp] theorem set_root_brk (t : rbtree) (v : Nat) : (set_root t v).brk = t.brk := rfl

@[simp] theorem set_root_freed (t : rbtree) (v : Nat) : (set_root t v).freed = t.freed := rfl

@[simp] theorem set_color_root (t : rbtree) (p : Nat) (c : color_t) : (set_color t p c).root = t.root := rfl

@[simp] theorem set_color_nil (t : rbtree) (p : Nat) (c : color_t) : (set_color t p c).nil = t.nil := rfl

@[simp] theorem set_color_color (t : rbtree) (p : Nat) (c : color_t) : (set_color t p c).color = upd t.color p c := rfl

@[simp] theorem set_color_key (t : rbtree) (p : Nat) (c : color_t) : (set_color t p c).key = t.key := rfl

@[simp] theorem set_color_parent (t : rbtree) (p : Nat) (c : color_t) : (set_color t p c).parent = t.parent := rfl

@[simp] theorem set_color_left (t : rbtree) (p : Nat) (c : color_t) : (set_color t p c).left = t.left := rfl

@[simp] theorem set_color_right (t : rbtree) (p : Nat) (c : color_t) : (set_color t p c).right = t.right := rfl

@[simp] theorem set_color_brk (t : rbtree) (p : Nat) (c : color_t) : (set_color t p c).brk = t.brk := rfl

@[simp] theorem set_color_freed (t : rbtree) (p : Nat) (c : color_t) : (set_color t p c).freed = t.freed := rfl

@[simp] theorem set_key_root (t : rbtree) (p : Nat) (k : Int) : (set_key t p k).root = t.root := rfl

@[simp] theorem set_key_nil (t : rbtree) (p : Nat) (k : Int) : (set_key t p k).nil = t.nil := rfl

@[simp] theorem set_key_color (t : rbtree) (p : Nat) (k : Int) : (set_key t p k).color = t.color := rfl

@[simp] theorem set_key_key (t : rbtree) (p : Nat) (k : Int) : (set_key t p k).key = upd t.key p k := rfl

@[simp] theorem set_key_parent (t : rbtree) (p : Nat) (k : Int) : (set_key t p k).parent = t.parent := rfl

@[simp] theorem set_key_left (t : rbtree) (p : Nat) (k : Int) : (set_key t p k).left = t.left := rfl

@[simp] theorem set_key_right (t : rbtree) (p : Nat) (k : Int) : (set_key t p k).right = t.right := rfl

@[simp] theorem set_key_brk (t : rbtree) (p : Nat) (k : Int) : (set_key t p k).brk = t.brk := rfl

@[simp] theorem set_key_freed (t : rbtree) (p : Nat) (k : Int) : (set_key t p k).freed = t.freed := rfl

@[simp] theorem set_parent_root (t : rbtree) (p : Nat) (v : Nat) : (set_parent t p v).root = t.root := rfl

@[simp] theorem set_parent_nil (t : rbtree) (p : Nat) (v : Nat) : (set_parent t p v).nil = t.nil := rfl

@[simp] theorem set_parent_color (t : rbtree) (p : Nat) (v : Nat) : (set_parent t p v).color = t.color := rfl

@[simp] theorem set_parent_key (t : rbtree) (p : Nat) (v : Nat) : (set_parent t p v).key = t.key := rfl

@[simp] theorem set_parent_parent (t : rbtree) (p : Nat) (v : Nat) : (set_parent t p v).parent = upd t.parent p v := rfl

@[simp] theorem set_parent_left (t : rbtree) (p : Nat) (v : Nat) : (set_parent t p v).left = t.left := rfl

@[simp] theorem set_parent_right (t : rbtree) (p : Nat) (v : Nat) : (set_parent t p v).right = t.right := rfl

@[simp] theorem set_parent_brk (t : rbtree) (p : Nat) (v : Nat) : (set_parent t p v).brk = t.brk := rfl

@[simp] theorem set_parent_freed (t : rbtree) (p : Nat) (v : Nat) : (set_parent t p v).freed = t.freed := rfl

@[simp] theorem set_left_root (t : rbtree) (p : Nat) (v : Nat) : (set_left t p v).root = t.root := rfl

@[simp] theorem set_left_nil (t : rbtree) (p : Nat) (v : Nat) : (set_left t p v).nil = t.nil := rfl

@[simp] theorem set_left_color (t : rbtree) (p : Nat) (v : Nat) : (set_left t p v).color = t.color := rfl

@[simp] theorem set_left_key (t : rbtree) (p : Nat) (v : Nat) : (set_left t p v).key = t.key := rfl

@[simp] theorem set_left_parent (t : rbtree) (p : Nat) (v : Nat) : (set_left t p v).parent = t.parent := rfl

@[simp] theorem set_left_left (t : rbtree) (p : Nat) (v : Nat) : (set_left t p v).left = upd t.left p v := rfl

@[simp] theorem set_left_right (t : rbtree) (p : Nat) (v : Nat) : (set_left t p v).right = t.right := rfl

@[simp] theorem set_left_brk (t : rbtree) (p : Nat) (v : Nat) : (set_left t p v).brk = t.brk := rfl

@[simp] theorem set_left_freed (t : rbtree) (p : Nat) (v : Nat) : (set_left t p v).freed = t.freed := rfl

@[simp] theorem set_right_root (t : rbtree) (p : Nat) (v : Nat) : (set_right t p v).root = t.root := rfl

@[simp] theorem set_right_nil (t : rbtree) (p : Nat) (v : Nat) : (set_right t p v).nil = t.nil := rfl

@[simp] theorem set_right_color (t : rbtree) (p : Nat) (v : Nat) : (set_right t p v).color = t.color := rfl

@[simp] theorem set_right_key (t : rbtree) (p : Nat) (v : Nat) : (set_right t p v).key = t.key := rfl

@[simp] theorem set_right_parent (t : rbtree) (p : Nat) (v : Nat) : (set_right t p v).parent = t.parent := rfl

@[simp] theorem set_right_left (t : rbtree) (p : Nat) (v : Nat) : (set_right t p v).left = t.left := rfl

@[simp] theorem set_right_right (t : rbtree) (p : Nat) (v : Nat) : (set_right t p v).right = upd t.right p v := rfl

@[simp] theorem set_right_brk (t : rbtree) (p : Nat) (v : Nat) : (set_right t p v).brk = t.brk := rfl

@[simp] theorem set_right_freed (t : rbtree) (p : Nat) (v : Nat) : (set_right t p v).freed = t.freed := rfl

@[simp] theorem free_root (t : rbtree) (p : Nat) : (free t p).root = t.root := rfl

@[simp] theorem free_nil (t : rbtree) (p : Nat) : (free t p).nil = t.nil := rfl

@[simp] theorem free_color (t : rbtree) (p : Nat) : (free t p).color = t.color := rfl

@[simp] theorem free_key (t : rbtree) (p : Nat) : (free t p).key = t.key := rfl

@[simp] theorem free_parent (t : rbtree) (p : Nat) : (free t p).parent = t.parent := rfl

@[simp] theorem free_left (t : rbtree) (p : Nat) : (free t p).left = t.left := rfl

@[simp] theorem free_right (t : rbtree) (p : Nat) : (free t p).right = t.right := rfl

@[simp] theorem free_brk (t : rbtree) (p : Nat) : (free t p).brk = t.brk := rfl

@[simp] theorem free_freed (t : rbtree) (p : Nat) : (free t p).freed = p :: t.freed := rfl

/-! ## Trees and contexts -/

theorem ptrs_plug_perm (ctx : List Frame) (s : Tree) :
    (plug ctx s).ptrs.Perm (s.ptrs ++ cptrs ctx) := by
  induction ctx generalizing s with
  | nil => simp [plug, cptrs]
  | cons f fs ih =>
    refine (ih (f.fill s)).trans ?_
    rw [List.perm_iff_count]
    intro a
    cases f <;>
      simp only [Frame.fill, Tree.ptrs, cptrs, Frame.ptr, Frame.sib, List.count_append,
        List.count_cons] <;> omega

theorem rep_ne_nil {t : rbtree} {T : Tree} {par : Nat} (h : Rep t T par) :
    ∀ p ∈ T.ptrs, p ≠ t.nil := by
  induction T generalizing par with
  | leaf => simp [Tree.ptrs]
  | node l p c k r ihl ihr =>
    obtain ⟨h1, -, -, -, -, -, hl, hr⟩ := h
    intro q hq
    simp only [Tree.ptrs, List.mem_append, List.mem_cons] at hq
    rcases hq with hq | rfl | hq
    · exact ihl hl q hq
    · exact h1
    · exact ihr hr q hq

/-- Frame rule: a tree stays in the heap when no field of its nodes changes. -/
theorem rep_frame {t t' : rbtree} {T : Tree} {par : Nat} (h : Rep t T par)
    (hnil : t'.nil = t.nil)
    (hc : ∀ q ∈ T.ptrs, t'.color q = t.color q)
    (hk : ∀ q ∈ T.ptrs, t'.key q = t.key q)
    (hp : ∀ q ∈ T.ptrs, t'.parent q = t.parent q)
    (hl : ∀ q ∈ T.ptrs, t'.left q = t.left q)
    (hr : ∀ q ∈ T.ptrs, t'.right q = t.right q) : Rep t' T par := by
  induction T generalizing par with
  | leaf => trivial
  | node l p c k r ihl ihr =>
    obtain ⟨h1, h2, h3, h4, h5, h6, h7, h8⟩ := h
    have hpm : p ∈ (Tree.node l p c k r).ptrs := by simp [Tree.ptrs]
    have hlm : ∀ q ∈ l.ptrs, q ∈ (Tree.node l p c k r).ptrs := by
      intro q hq; simp [Tree.ptrs, hq]
    have hrm : ∀ q ∈ r.ptrs, q ∈ (Tree.node l p c k r).ptrs := by
      intro q hq; simp [Tree.ptrs, hq]
    refine ⟨by rw [hnil]; exact h1, by rw [hc p hpm]; exact h2, by rw [hk p hpm]; exact h3,
      by rw [hp p hpm]; exact h4, by rw [hl p hpm, hnil]; exact h5,
      by rw [hr p hpm, hnil]; exact h6, ?_, ?_⟩
    · exact ihl h7 (fun q hq => hc q (hlm q hq)) (fun q hq => hk q (hlm q hq))
        (fun q hq => hp q (hlm q hq)) (fun q hq => hl q (hlm q hq)) (fun q hq => hr q (hlm q hq))
    · exact ihr h8 (fun q hq => hc q (hrm q hq)) (fun q hq => hk q (hrm q hq))
        (fun q hq => hp q (hrm q hq)) (fun q hq => hl q (hrm q hq)) (fun q hq => hr q (hrm q hq))

theorem rep_frameW {W : List Nat} {t t' : rbtree} {T : Tree} {par : Nat}
    (hs : SameOff W t t') (hd : ∀ q ∈ T.ptrs, q ∉ W) (h : Rep t T par) : Rep t' T par :=
  rep_frame h hs.nil (fun q hq => hs.color q (hd q hq)) (fun q hq => hs.key q (hd q hq))
    (fun q hq => hs.parent q (hd q hq)) (fun q hq => hs.left q (hd q hq))
    (fun q hq => hs.right q (hd q hq))

theorem repc_frameW {W : List Nat} {t t' : rbtree} {ctx : List Frame} {h : Nat}
    (hs : SameOff W t t') (hd : ∀ q ∈ cptrs ctx, q ∉ W) (hroot : t'.root = t.root)
    (hc : RepC t ctx h) : RepC t' ctx h := by
  induction ctx generalizing h with
  | nil => simpa [RepC, hroot] using hc
  | cons f fs ih =>
    have hp : f.ptr ∉ W := hd _ (by simp [cptrs])
    have hsib : ∀ q ∈ f.sib.ptrs, q ∉ W := fun q hq => hd q (by simp [cptrs, hq])
    have hfs : ∀ q ∈ cptrs fs, q ∉ W := fun q hq => hd q (by simp [cptrs, hq])
    cases f with
    | inL p c k r =>
      obtain ⟨h1, h2, h3, h4, h5, h6, h7, h8⟩ := hc
      simp only [Frame.ptr, Frame.sib] at hp hsib
      exact ⟨by rw [hs.nil]; exact h1, by rw [hs.color p hp]; exact h2,
        by rw [hs.key p hp]; exact h3, by rw [hs.parent p hp, hs.nil]; exact h4,
        by rw [hs.left p hp]; exact h5, by rw [hs.right p hp, hs.nil]; exact h6,
        rep_frameW hs hsib h7, ih hfs h8⟩
    | inR l p c k =>
      obtain ⟨h1, h2, h3, h4, h5, h6, h7, h8⟩ := hc
      simp only [Frame.ptr, Frame.sib] at hp hsib
      exact ⟨by rw [hs.nil]; exact h1, by rw [hs.color p hp]; exact h2,
        by rw [hs.key p hp]; exact h3, by rw [hs.parent p hp, hs.nil]; exact h4,
        by rw [hs.left p hp, hs.nil]; exact h5, by rw [hs.right p hp]; exact h6,
        rep_frameW hs hsib h7, ih hfs h8⟩

@[simp] theorem rootp_leaf (n : Nat) : Tree.leaf.rootp n = n := rfl

@[simp] theorem rootp_node (n : Nat) (l : Tree) (p : Nat) (c : color_t) (k : Int) (r : Tree) :
    (Tree.node l p c k r).rootp n = p := rfl

@[simp] theorem cpar_nil (n : Nat) : cpar n [] = n := rfl

@[simp] theorem cpar_cons (n : Nat) (f : Frame) (fs : List Frame) : cpar n (f :: fs) = f.ptr := rfl

@[simp] theorem ptrs_leaf : Tree.leaf.ptrs = [] := rfl

@[simp] theorem ptrs_node (l : Tree) (p : Nat) (c : color_t) (k : Int) (r : Tree) :
    (Tree.node l p c k r).ptrs = l.ptrs ++ p :: r.ptrs := rfl

@[simp] theorem cptrs_nil : cptrs [] = [] := rfl

@[simp] theorem cptrs_cons (f : Frame) (fs : List Frame) :
    cptrs (f :: fs) = f.ptr :: (f.sib.ptrs ++ cptrs fs) := rfl

@[simp] theorem frame_ptr_inL (p : Nat) (c : color_t) (k : Int) (r : Tree) :
    (Frame.inL p c k r).ptr = p := rfl

@[simp] theorem frame_ptr_inR (l : Tree) (p : Nat) (c : color_t) (k : Int) :
    (Frame.inR l p c k).ptr = p := rfl

@[simp] theorem frame_sib_inL (p : Nat) (c : color_t) (k : Int) (r : Tree) :
    (Frame.inL p c k r).sib = r := rfl

@[simp] theorem frame_sib_inR (l : Tree) (p : Nat) (c : color_t) (k : Int) :
    (Frame.inR l p c k).sib = l := rfl

@[simp] theorem rep_leaf (t : rbtree) (par : Nat) : Rep t Tree.leaf par := trivial

theorem rep_node (t : rbtree) (l : Tree) (p : Nat) (c : color_t) (k : Int) (r : Tree)
    (par : Nat) :
    Rep t (Tree.node l p c k r) par ↔
      (p ≠ t.nil ∧ t.color p = c ∧ t.key p = k ∧ t.parent p = par ∧
        t.left p = l.rootp t.nil ∧ t.right p = r.rootp t.nil ∧ Rep t l p ∧ Rep t r p) :=
  Iff.rfl

theorem repc_nil (t : rbtree) (h : Nat) : RepC t [] h ↔ t.root = h := Iff.rfl

theorem repc_inL (t : rbtree) (p : Nat) (c : color_t) (k : Int) (r : Tree)
    (fs : List Frame) (h : Nat) :
    RepC t (Frame.inL p c k r :: fs) h ↔
      (p ≠ t.nil ∧ t.color p = c ∧ t.key p = k ∧ t.parent p = cpar t.nil fs ∧
        t.left p = h ∧ t.right p = r.rootp t.nil ∧ Rep t r p ∧ RepC t fs p) :=
  Iff.rfl

theorem repc_inR (t : rbtree) (l : Tree) (p : Nat) (c : color_t) (k : Int)
    (fs : List Frame) (h : Nat) :
    RepC t (Frame.inR l p c k :: fs) h ↔
      (p ≠ t.nil ∧ t.color p = c ∧ t.key p = k ∧ t.parent p = cpar t.nil fs ∧
        t.left p = l.rootp t.nil ∧ t.right p = h ∧ Rep t l p ∧ RepC t fs p) :=
  Iff.rfl

/-! ## Distinct addresses -/

/-- Addresses picked out of a duplicate-free list are pairwise distinct. -/
theorem names_nodup {L W : List Nat} (hnd : L.Nodup) (h : ∀ q, W.count q ≤ L.count q) :
    W.Nodup := by
  rw [List.nodup_iff_count_le_one] at *
  intro q
  exact le_trans (h q) (hnd q)

/-- Two parts of a duplicate-free list share no address. -/
theorem disj_of_count {L A W : List Nat} (hnd : L.Nodup)
    (h : ∀ q, A.count q + W.count q ≤ L.count q) : ∀ q ∈ A, q ∉ W := by
  intro q hq hw
  have h1 := List.count_pos_iff.mpr hq
  have h2 := List.count_pos_iff.mpr hw
  have h3 := List.nodup_iff_count_le_one.mp hnd q
  have h4 := h q
  omega

@[simp] theorem rootl_leaf : Tree.leaf.rootl = [] := rfl

@[simp] theorem rootl_node (l : Tree) (p : Nat) (c : color_t) (k : Int) (r : Tree) :
    (Tree.node l p c k r).rootl = [p] := rfl

@[simp] theorem chead_nil : chead [] = [] := rfl

@[simp] theorem chead_cons (f : Frame) (fs : List Frame) : chead (f :: fs) = [f.ptr] := rfl

theorem repc_ne_nil {t : rbtree} {ctx : List Frame} {h : Nat} (hc : RepC t ctx h) :
    ∀ p ∈ cptrs ctx, p ≠ t.nil := by
  induction ctx generalizing h with
  | nil => simp
  | cons f fs ih =>
    cases f with
    | inL p c k r =>
      obtain ⟨h1, -, -, -, -, -, h7, h8⟩ := hc
      intro q hq
      simp only [cptrs_cons, frame_ptr_inL, frame_sib_inL, List.mem_cons, List.mem_append] at hq
      rcases hq with rfl | hq | hq
      · exact h1
      · exact rep_ne_nil h7 q hq
      · exact ih h8 q hq
    | inR l p c k =>
      obtain ⟨h1, -, -, -, -, -, h7, h8⟩ := hc
      intro q hq
      simp only [cptrs_cons, frame_ptr_inR, frame_sib_inR, List.mem_cons, List.mem_append] at hq
      rcases hq with rfl | hq | hq
      · exact h1
      · exact rep_ne_nil h7 q hq
      · exact ih h8 q hq

/-- A subtree stays in the heap across an update whose footprint `W` misses it. -/
theorem rep_keep {t t' : rbtree} {W L : List Nat} {A : Tree} {par : Nat}
    (hS : SameOff W t t') (hnd : L.Nodup) (hA : Rep t A par)
    (hcount : ∀ q, q ≠ t.nil → A.ptrs.count q + W.count q ≤ L.count q) : Rep t' A par := by
  refine rep_frameW hS ?_ hA
  intro q hq hw
  have h0 := rep_ne_nil hA q hq
  have h1 := List.count_pos_iff.mpr hq
  have h2 := List.count_pos_iff.mpr hw
  have h3 := List.nodup_iff_count_le_one.mp hnd q
  have h4 := hcount q h0
  omega

/-- A context stays in the heap across an update whose footprint `W` misses it. -/
theorem repc_keep {t t' : rbtree} {W L : List Nat} {ctx : List Frame} {h : Nat}
    (hS : SameOff W t t') (hnd : L.Nodup) (hC : RepC t ctx h) (hroot : t'.root = t.root)
    (hcount : ∀ q, q ≠ t.nil → (cptrs ctx).count q + W.count q ≤ L.count q) :
    RepC t' ctx h := by
  refine repc_frameW hS ?_ hroot hC
  intro q hq hw
  have h0 := repc_ne_nil hC q hq
  have h1 := List.count_pos_iff.mpr hq
  have h2 := List.count_pos_iff.mpr hw
  have h3 := List.nodup_iff_count_le_one.mp hnd q
  have h4 := hcount q h0
  omega

theorem rootp_mem (n : Nat) (T : Tree) : T.rootp n = n ∨ T.rootp n ∈ T.ptrs := by
  cases T <;> simp

/-- An address outside a tree is not the pointer to its root. -/
theorem ne_rootp {L : List Nat} {T : Tree} {x n : Nat} (hnd : L.Nodup) (hx : x ≠ n)
    (hcount : ∀ q, [x].count q + T.ptrs.count q ≤ L.count q) : x ≠ T.rootp n := by
  rcases rootp_mem n T with h | h
  · rw [h]; exact hx
  · intro e
    exact disj_of_count hnd hcount x (by simp) (e ▸ h)

theorem nil_not_mem {t : rbtree} {T : Tree} {par : Nat} (h : Rep t T par) :
    t.nil ∉ T.ptrs := fun hm => rep_ne_nil h _ hm rfl

theorem nil_not_mem_ctx {t : rbtree} {ctx : List Frame} {h : Nat} (hc : RepC t ctx h) :
    t.nil ∉ cptrs ctx := fun hm => repc_ne_nil hc _ hm rfl

/-- A subtree stays in the heap across an update whose footprint `W` misses it. -/
theorem rep_frameD {W : List Nat} {t t' : rbtree} {T : Tree} {par : Nat}
    (hs : SameOff W t t') (hd : T.ptrs.Disjoint W) (h : Rep t T par) : Rep t' T par :=
  rep_frameW hs (fun q hq hw => hd hq hw) h

/-- A context stays in the heap across an update whose footprint `W` misses it. -/
theorem repc_frameD {W : List Nat} {t t' : rbtree} {ctx : List Frame} {h : Nat}
    (hs : SameOff W t t') (hd : (cptrs ctx).Disjoint W) (hroot : t'.root = t.root)
    (hc : RepC t ctx h) : RepC t' ctx h :=
  repc_frameW hs (fun q hq hw => hd hq hw) hroot hc

theorem ne_rootp_of_not_mem {T : Tree} {x n : Nat} (hx : x ≠ n) (hm : x ∉ T.ptrs) :
    x ≠ T.rootp n := by
  rcases rootp_mem n T with h | h
  · rw [h]; exact hx
  · intro e; exact hm (e ▸ h)

/-- Non-membership in a cons, with the disequality in both orientations. -/
theorem not_mem_cons_sym {a b : Nat} {l : List Nat} :
    a ∉ b :: l ↔ (¬a = b ∧ ¬b = a) ∧ a ∉ l := by
  simp only [List.mem_cons, not_or]
  constructor
  · rintro ⟨h1, h2⟩; exact ⟨⟨h1, fun e => h1 e.symm⟩, h2⟩
  · rintro ⟨⟨h1, -⟩, h2⟩; exact ⟨h1, h2⟩

/-! ## The rotations, field by field -/

theorem rotate_left_nil (t : rbtree) (x : Nat) : (rotate_left t x).nil = t.nil := by
  simp only [rotate_left]
  split_ifs <;> simp

theorem rotate_left_color (t : rbtree) (x : Nat) : (rotate_left t x).color = t.color := by
  simp only [rotate_left]
  split_ifs <;> simp

theorem rotate_left_key (t : rbtree) (x : Nat) : (rotate_left t x).key = t.key := by
  simp only [rotate_left]
  split_ifs <;> simp

theorem rotate_left_brk (t : rbtree) (x : Nat) : (rotate_left t x).brk = t.brk := by
  simp only [rotate_left]
  split_ifs <;> simp

theorem rotate_left_freed (t : rbtree) (x : Nat) : (rotate_left t x).freed = t.freed := by
  simp only [rotate_left]
  split_ifs <;> simp

theorem rotate_left_root (t : rbtree) (x : Nat) (h1 : x ≠ t.right x)
    (h2 : x ≠ t.left (t.right x)) :
    (rotate_left t x).root = if t.parent x = t.nil then t.right x else t.root := by
  simp [rotate_left, upd_apply, h1, h2, h1.symm, h2.symm, apply_ite rbtree.parent,
    apply_ite rbtree.left, apply_ite rbtree.right, apply_ite rbtree.root, apply_ite rbtree.nil]
  split_ifs <;> (try simp only [upd_apply] at *) <;> (try split_ifs at *) <;> first | rfl | omega

theorem rotate_left_parent (t : rbtree) (x q : Nat) (h1 : x ≠ t.right x)
    (h2 : x ≠ t.left (t.right x)) :
    (rotate_left t x).parent q =
      if q = x then t.right x
      else if q = t.right x then t.parent x
      else if q = t.left (t.right x) ∧ t.left (t.right x) ≠ t.nil then x
      else t.parent q := by
  simp [rotate_left, upd_apply, h1, h2, h1.symm, h2.symm, apply_ite rbtree.parent,
    apply_ite rbtree.left, apply_ite rbtree.right, apply_ite rbtree.root, apply_ite rbtree.nil]
  split_ifs <;> (try simp only [upd_apply] at *) <;> (try split_ifs at *) <;> first | rfl | omega

theorem rotate_left_left (t : rbtree) (x q : Nat) (h1 : x ≠ t.right x)
    (h2 : x ≠ t.left (t.right x)) :
    (rotate_left t x).left q =
      if q = t.right x then x
      else if q = t.parent x ∧ t.parent x ≠ t.nil ∧ x = t.left (t.parent x) then t.right x
      else t.left q := by
  simp [rotate_left, upd_apply, h1, h2, h1.symm, h2.symm, apply_ite rbtree.parent,
    apply_ite rbtree.left, apply_ite rbtree.right, apply_ite rbtree.root, apply_ite rbtree.nil]
  split_ifs <;> (try simp only [upd_apply] at *) <;> (try split_ifs at *) <;> first | rfl | omega

theorem rotate_left_right (t : rbtree) (x q : Nat) (h1 : x ≠ t.right x)
    (h2 : x ≠ t.left (t.right x)) :
    (rotate_left t x).right q =
      if q = t.parent x ∧ t.parent x ≠ t.nil ∧ x ≠ t.left (t.parent x) then t.right x
      else if q = x then t.left (t.right x)
      else t.right q := by
  simp [rotate_left, upd_apply, h1, h2, h1.symm, h2.symm, apply_ite rbtree.parent,
    apply_ite rbtree.left, apply_ite rbtree.right, apply_ite rbtree.root, apply_ite rbtree.nil]
  split_ifs <;> (try simp only [upd_apply] at *) <;> (try split_ifs at *) <;> first | rfl | omega

theorem rotate_left_sameOff (t : rbtree) (x : Nat) (h1 : x ≠ t.right x)
    (h2 : x ≠ t.left (t.right x)) :
    SameOff [x, t.right x, t.left (t.right x), t.parent x] t (rotate_left t x) := by
  refine ⟨rotate_left_nil t x, ?_, ?_, ?_, ?_, ?_⟩
  · intro q _; rw [rotate_left_color]
  · intro q _; rw [rotate_left_key]
  · intro q hq
    simp only [List.mem_cons, List.mem_singleton, List.not_mem_nil, not_or, or_false] at hq
    rw [rotate_left_parent t x q h1 h2]
    split_ifs <;> first | rfl | omega
  all_goals
    intro q hq
    simp only [List.mem_cons, List.mem_singleton, List.not_mem_nil, not_or, or_false] at hq
    first
      | rw [rotate_left_left t x q h1 h2]
      | rw [rotate_left_right t x q h1 h2]
    split_ifs <;> first | rfl | omega

theorem rotate_right_nil (t : rbtree) (x : Nat) : (rotate_right t x).nil = t.nil := by
  simp only [rotate_right]
  split_ifs <;> simp

theorem rotate_right_color (t : rbtree) (x : Nat) : (rotate_right t x).color = t.color := by
  simp only [rotate_right]
  split_ifs <;> simp

theorem rotate_right_key (t : rbtree) (x : Nat) : (rotate_right t x).key = t.key := by
  simp only [rotate_right]
  split_ifs <;> simp

theorem rotate_right_brk (t : rbtree) (x : Nat) : (rotate_right t x).brk = t.brk := by
  simp only [rotate_right]
  split_ifs <;> simp

theorem rotate_right_freed (t : rbtree) (x : Nat) : (rotate_right t x).freed = t.freed := by
  simp only [rotate_right]
  split_ifs <;> simp

theorem rotate_right_root (t : rbtree) (x : Nat) (h1 : x ≠ t.left x)
    (h2 : x ≠ t.right (t.left x)) :
    (rotate_right t x).root = if t.parent x = t.nil then t.left x else t.root := by
  simp [rotate_right, upd_apply, h1, h2, h1.symm, h2.symm, apply_ite rbtree.parent,
    apply_ite rbtree.right, apply_ite rbtree.left, apply_ite rbtree.root, apply_ite rbtree.nil]
  split_ifs <;> (try simp only [upd_apply] at *) <;> (try split_ifs at *) <;> first | rfl | omega

theorem rotate_right_parent (t : rbtree) (x q : Nat) (h1 : x ≠ t.left x)
    (h2 : x ≠ t.right (t.left x)) :
    (rotate_right t x).parent q =
      if q = x then t.left x
      else if q = t.left x then t.parent x
      else if q = t.right (t.left x) ∧ t.right (t.left x) ≠ t.nil then x
      else t.parent q := by
  simp [rotate_right, upd_apply, h1, h2, h1.symm, h2.symm, apply_ite rbtree.parent,
    apply_ite rbtree.right, apply_ite rbtree.left, apply_ite rbtree.root, apply_ite rbtree.nil]
  split_ifs <;> (try simp only [upd_apply] at *) <;> (try split_ifs at *) <;> first | rfl | omega

theorem rotate_right_right (t : rbtree) (x q : Nat) (h1 : x ≠ t.left x)
    (h2 : x ≠ t.right (t.left x)) :
    (rotate_right t x).right q =
      if q = t.left x then x
      else if q = t.parent x ∧ t.parent x ≠ t.nil ∧ x = t.right (t.parent x) then t.left x
      else t.right q := by
  simp [rotate_right, upd_apply, h1, h2, h1.symm, h2.symm, apply_ite rbtree.parent,
    apply_ite rbtree.right, apply_ite rbtree.left, apply_ite rbtree.root, apply_ite rbtree.nil]
  split_ifs <;> (try simp only [upd_apply] at *) <;> (try split_ifs at *) <;> first | rfl | omega

theorem rotate_right_left (t : rbtree) (x q : Nat) (h1 : x ≠ t.left x)
    (h2 : x ≠ t.right (t.left x)) :
    (rotate_right t x).left q =
      if q = t.parent x ∧ t.parent x ≠ t.nil ∧ x ≠ t.right (t.parent x) then t.left x
      else if q = x then t.right (t.left x)
      else t.left q := by
  simp [rotate_right, upd_apply, h1, h2, h1.symm, h2.symm, apply_ite rbtree.parent,
    apply_ite rbtree.right, apply_ite rbtree.left, apply_ite rbtree.root, apply_ite rbtree.nil]
  split_ifs <;> (try simp only [upd_apply] at *) <;> (try split_ifs at *) <;> first | rfl | omega

theorem rotate_right_sameOff (t : rbtree) (x : Nat) (h1 : x ≠ t.left x)
    (h2 : x ≠ t.right (t.left x)) :
    SameOff [x, t.left x, t.right (t.left x), t.parent x] t (rotate_right t x) := by
  refine ⟨rotate_right_nil t x, ?_, ?_, ?_, ?_, ?_⟩
  · intro q _; rw [rotate_right_color]
  · intro q _; rw [rotate_right_key]
  · intro q hq
    simp only [List.mem_cons, List.mem_singleton, List.not_mem_nil, not_or, or_false] at hq
    rw [rotate_right_parent t x q h1 h2]
    split_ifs <;> first | rfl | omega
  all_goals
    intro q hq
    simp only [List.mem_cons, List.mem_singleton, List.not_mem_nil, not_or, or_false] at hq
    first
      | rw [rotate_right_right t x q h1 h2]
      | rw [rotate_right_left t x q h1 h2]
    split_ifs <;> first | rfl | omega

/-! ## The rotations on a tree with a hole -/

set_option maxHeartbeats 1000000 in
/-- `rotate_left` at a node `x` whose right child `y` is a real node turns the subtree
`x(a, y(b, c))` into `y(x(a, b), c)` in place, and leaves the sentinel parent field alone. -/
theorem rotate_left_spec {t : rbtree} {ctx : List Frame} {a b c : Tree} {x y : Nat}
    {cx cy : color_t} {kx ky : Int}
    (h : ZRep t ctx (Tree.node a x cx kx (Tree.node b y cy ky c))) :
    ZRep (rotate_left t x) ctx (Tree.node (Tree.node a x cx kx b) y cy ky c) ∧
    (rotate_left t x).parent t.nil = t.parent t.nil := by
  obtain ⟨hc, hr, hnd, hnb, hnl, hnr⟩ := h
  simp only [rep_node] at hr
  obtain ⟨hx1, hx2, hx3, hx4, hx5, hx6, hx7, hy1, hy2, hy3, hy4, hy5, hy6, hy7, hy8⟩ := hr
  rcases ctx with _ | ⟨(⟨p, c1, k1, r1⟩ | ⟨l1, p, c1, k1⟩), fs⟩ <;>
  rcases b with _ | ⟨bl, pb, cb, kb, br⟩
  all_goals
    simp only [rootp_leaf, rootp_node, cpar_nil, cpar_cons, frame_ptr_inL, frame_ptr_inR,
      repc_nil, repc_inL, repc_inR, rep_node] at hc hx4 hx6 hy5 hy7
    have hN := hnd
    simp only [ptrs_node, ptrs_leaf, cptrs_nil, cptrs_cons, frame_ptr_inL, frame_ptr_inR,
      frame_sib_inL, frame_sib_inR, List.nodup_append, List.nodup_cons, List.mem_append,
      not_mem_cons_sym, not_or, List.disjoint_cons_left, List.disjoint_cons_right,
      List.disjoint_append_left, List.disjoint_append_right, List.nodup_nil,
      List.disjoint_nil_left, List.disjoint_nil_right, List.not_mem_nil, not_false_eq_true,
      true_and, and_true] at hN
    have hnx := Ne.symm hx1
    have hny := Ne.symm hy1
    have hna := nil_not_mem hx7
    have hnc := nil_not_mem hy8
    try have hnpb := Ne.symm hy7.1
    try have hnbl := nil_not_mem hy7.2.2.2.2.2.2.1
    try have hnbr := nil_not_mem hy7.2.2.2.2.2.2.2
    try have hnp := Ne.symm hc.1
    try have hnsib := nil_not_mem hc.2.2.2.2.2.2.1
    try have hnfs := nil_not_mem_ctx hc.2.2.2.2.2.2.2
    have h1 : x ≠ t.right x := by simp [hx6, hN]
    have h2 : x ≠ t.left (t.right x) := by simp [hx6, hy5, hN, hx1]
    have hS := rotate_left_sameOff t x h1 h2
    have hP := fun q => rotate_left_parent t x q h1 h2
    have hL := fun q => rotate_left_left t x q h1 h2
    have hR := fun q => rotate_left_right t x q h1 h2
    have hRt := rotate_left_root t x h1 h2
    rw [hx6, hy5, hx4] at hS
    simp only [hx6, hy5, hx4] at hP hL hR hRt
    have ha := rep_frameD hS (by simp [List.disjoint_cons_right, hN, hna]) hx7
    have hc' := rep_frameD hS (by simp [List.disjoint_cons_right, hN, hnc]) hy8
    try have hbl := rep_frameD hS (by simp [List.disjoint_cons_right, hN, hnbl]) hy7.2.2.2.2.2.2.1
    try have hbr := rep_frameD hS (by simp [List.disjoint_cons_right, hN, hnbr]) hy7.2.2.2.2.2.2.2
    try have hsib := rep_frameD hS (by simp [List.disjoint_cons_right, hN, hnsib]) hc.2.2.2.2.2.2.1
    try have hfs := repc_frameD hS (by simp [List.disjoint_cons_right, hN, hnfs]) (by simp [hRt, hc]) hc.2.2.2.2.2.2.2
    try have hxl := ne_rootp_of_not_mem (T := l1) hx1 (by simp [hN])
    refine ⟨⟨?_, ?_, ?_, ?_, ?_, ?_⟩, ?_⟩
    · simp [repc_nil, repc_inL, repc_inR, rotate_left_nil, rotate_left_color,
        rotate_left_key, *]
    · simp [rep_node, rotate_left_nil, rotate_left_color, rotate_left_key, *]
    · refine (List.Perm.nodup_iff ?_).mp hnd
      rw [List.perm_iff_count]
      clear * -
      intro q
      simp only [ptrs_node, ptrs_leaf, cptrs_nil, cptrs_cons, frame_ptr_inL, frame_ptr_inR,
        frame_sib_inL, frame_sib_inR, List.count_cons, List.count_append, List.count_nil,
        beq_iff_eq]
      omega
    · simpa [rotate_left_nil, rotate_left_color] using hnb
    · first
      | (simp [rotate_left_nil, hL, hR, hnl, hnr, hnx, hny]; done)
      | (simp [rotate_left_nil, hL, hR, hnl, hnr, hnx, hny]
         intro e1 e2
         exact absurd e1.symm e2)
    · first
      | (simp [rotate_left_nil, hL, hR, hnl, hnr, hnx, hny]; done)
      | (simp [rotate_left_nil, hL, hR, hnl, hnr, hnx, hny]
         intro e1 e2
         exact absurd e1.symm e2)
    · simp [*]

set_option maxHeartbeats 1000000 in
/-- `rotate_right` at a node `x` whose left child `y` is a real node turns the subtree
`x(y(c, b), a)` into `y(c, x(b, a))` in place, and leaves the sentinel parent field alone. -/
theorem rotate_right_spec {t : rbtree} {ctx : List Frame} {a b c : Tree} {x y : Nat}
    {cx cy : color_t} {kx ky : Int}
    (h : ZRep t ctx (Tree.node (Tree.node c y cy ky b) x cx kx a)) :
    ZRep (rotate_right t x) ctx (Tree.node c y cy ky (Tree.node b x cx kx a)) ∧
    (rotate_right t x).parent t.nil = t.parent t.nil := by
  obtain ⟨hc, hr, hnd, hnb, hnl, hnr⟩ := h
  simp only [rep_node] at hr
  obtain ⟨hx1, hx2, hx3, hx4, hx6, hx5, ⟨hy1, hy2, hy3, hy4, hy6, hy5, hy8, hy7⟩, hx7⟩ := hr
  rcases ctx with _ | ⟨(⟨p, c1, k1, r1⟩ | ⟨l1, p, c1, k1⟩), fs⟩ <;>
  rcases b with _ | ⟨bl, pb, cb, kb, br⟩
  all_goals
    simp only [rootp_leaf, rootp_node, cpar_nil, cpar_cons, frame_ptr_inL, frame_ptr_inR,
      repc_nil, repc_inL, repc_inR, rep_node] at hc hx4 hx6 hy5 hy7
    have hN := hnd
    simp only [ptrs_node, ptrs_leaf, cptrs_nil, cptrs_cons, frame_ptr_inL, frame_ptr_inR,
      frame_sib_inL, frame_sib_inR, List.nodup_append, List.nodup_cons, List.mem_append,
      not_mem_cons_sym, not_or, List.disjoint_cons_right, List.disjoint_cons_left,
      List.disjoint_append_right, List.disjoint_append_left, List.nodup_nil,
      List.disjoint_nil_right, List.disjoint_nil_left, List.not_mem_nil, not_false_eq_true,
      true_and, and_true] at hN
    have hnx := Ne.symm hx1
    have hny := Ne.symm hy1
    have hna := nil_not_mem hx7
    have hnc := nil_not_mem hy8
    try have hnpb := Ne.symm hy7.1
    try have hnbl := nil_not_mem hy7.2.2.2.2.2.2.1
    try have hnbr := nil_not_mem hy7.2.2.2.2.2.2.2
    try have hnp := Ne.symm hc.1
    try have hnsib := nil_not_mem hc.2.2.2.2.2.2.1
    try have hnfs := nil_not_mem_ctx hc.2.2.2.2.2.2.2
    have h1 : x ≠ t.left x := by simp [hx6, hN]
    have h2 : x ≠ t.right (t.left x) := by simp [hx6, hy5, hN, hx1]
    have hS := rotate_right_sameOff t x h1 h2
    have hP := fun q => rotate_right_parent t x q h1 h2
    have hL := fun q => rotate_right_right t x q h1 h2
    have hR := fun q => rotate_right_left t x q h1 h2
    have hRt := rotate_right_root t x h1 h2
    rw [hx6, hy5, hx4] at hS
    simp only [hx6, hy5, hx4] at hP hL hR hRt
    have ha := rep_frameD hS (by simp [List.disjoint_cons_left, hN, hna]) hx7
    have hc' := rep_frameD hS (by simp [List.disjoint_cons_left, hN, hnc]) hy8
    try have hbl := rep_frameD hS (by simp [List.disjoint_cons_left, hN, hnbl]) hy7.2.2.2.2.2.2.1
    try have hbr := rep_frameD hS (by simp [List.disjoint_cons_left, hN, hnbr]) hy7.2.2.2.2.2.2.2
    try have hsib := rep_frameD hS (by simp [List.disjoint_cons_left, hN, hnsib]) hc.2.2.2.2.2.2.1
    try have hfs := repc_frameD hS (by simp [List.disjoint_cons_left, hN, hnfs]) (by simp [hRt, hc]) hc.2.2.2.2.2.2.2
    try have hxl := ne_rootp_of_not_mem (T := r1) hx1 (by simp [hN])
    refine ⟨⟨?_, ?_, ?_, ?_, ?_, ?_⟩, ?_⟩
    · simp [repc_nil, repc_inL, repc_inR, rotate_right_nil, rotate_right_color,
        rotate_right_key, *]
    · simp [rep_node, rotate_right_nil, rotate_right_color, rotate_right_key, *]
    · refine (List.Perm.nodup_iff ?_).mp hnd
      rw [List.perm_iff_count]
      clear * -
      intro q
      simp only [ptrs_node, ptrs_leaf, cptrs_nil, cptrs_cons, frame_ptr_inL, frame_ptr_inR,
        frame_sib_inL, frame_sib_inR, List.count_cons, List.count_append, List.count_nil,
        beq_iff_eq]
      omega
    · simpa [rotate_right_nil, rotate_right_color] using hnb
    · first
      | (simp [rotate_right_nil, hL, hR, hnl, hnr, hnx, hny]; done)
      | (simp [rotate_right_nil, hL, hR, hnl, hnr, hnx, hny]
         intro e1 e2
         exact absurd e1.symm e2)
    · first
      | (simp [rotate_right_nil, hL, hR, hnl, hnr, hnx, hny]; done)
      | (simp [rotate_right_nil, hL, hR, hnl, hnr, hnx, hny]
         intro e1 e2
         exact absurd e1.symm e2)
    · simp [*]

/-! ## Moving the focus; recolouring -/

/-- Moving the focus one node up: the innermost frame joins the subtree. -/
theorem zrep_up {t : rbtree} {f : Frame} {fs : List Frame} {s : Tree} :
    ZRep t (f :: fs) s ↔ ZRep t fs (f.fill s) := by
  cases f with
  | inL p c k r =>
    constructor
    · rintro ⟨hc, hr, hnd, hnb, hnl, hnr⟩
      simp only [repc_inL, cpar_cons, frame_ptr_inL] at hc hr
      obtain ⟨h1, h2, h3, h4, h5, h6, h7, h8⟩ := hc
      refine ⟨by simpa [Frame.fill] using h8, by simp [Frame.fill, rep_node, *], ?_, hnb, hnl, hnr⟩
      simpa [Frame.fill] using hnd
    · rintro ⟨hc, hr, hnd, hnb, hnl, hnr⟩
      simp only [Frame.fill, rep_node, rootp_node] at hc hr
      obtain ⟨h1, h2, h3, h4, h5, h6, h7, h8⟩ := hr
      refine ⟨by simp [repc_inL, *], by simpa using h7, ?_, hnb, hnl, hnr⟩
      simpa [Frame.fill] using hnd
  | inR l p c k =>
    constructor
    · rintro ⟨hc, hr, hnd, hnb, hnl, hnr⟩
      simp only [repc_inR, cpar_cons, frame_ptr_inR] at hc hr
      obtain ⟨h1, h2, h3, h4, h5, h6, h7, h8⟩ := hc
      refine ⟨by simpa [Frame.fill] using h8, by simp [Frame.fill, rep_node, *], ?_, hnb, hnl, hnr⟩
      refine (List.Perm.nodup_iff ?_).mp hnd
      rw [List.perm_iff_count]
      clear * -
      intro q
      simp only [Frame.fill, ptrs_node, cptrs_cons, frame_ptr_inR, frame_sib_inR,
        List.count_cons, List.count_append]
      omega
    · rintro ⟨hc, hr, hnd, hnb, hnl, hnr⟩
      simp only [Frame.fill, rep_node, rootp_node] at hc hr
      obtain ⟨h1, h2, h3, h4, h5, h6, h7, h8⟩ := hr
      refine ⟨by simp [repc_inR, *], by simpa using h8, ?_, hnb, hnl, hnr⟩
      refine (List.Perm.nodup_iff ?_).mp hnd
      rw [List.perm_iff_count]
      clear * -
      intro q
      simp only [Frame.fill, ptrs_node, cptrs_cons, frame_ptr_inR, frame_sib_inR,
        List.count_cons, List.count_append]
      omega

/-- The focus can be moved all the way to the root. -/
theorem zrep_plug {t : rbtree} {ctx : List Frame} {s : Tree} :
    ZRep t ctx s ↔ ZRep t [] (plug ctx s) := by
  induction ctx generalizing s with
  | nil => rfl
  | cons f fs ih => rw [zrep_up, ih]; rfl

theorem set_color_sameOff (t : rbtree) (p : Nat) (c : color_t) :
    SameOff [p] t (set_color t p c) := by
  refine ⟨rfl, ?_, fun _ _ => rfl, fun _ _ => rfl, fun _ _ => rfl, fun _ _ => rfl⟩
  intro q hq
  simp only [List.mem_singleton] at hq
  simp [upd_apply, hq]

/-- The statement `p->color = c'` on the root of the subtree in focus. -/
theorem zrep_set_color {t : rbtree} {ctx : List Frame} {l r : Tree} {p : Nat}
    {c : color_t} {k : Int} (c' : color_t) (h : ZRep t ctx (Tree.node l p c k r)) :
    ZRep (set_color t p c') ctx (Tree.node l p c' k r) := by
  obtain ⟨hc, hr, hnd, hnb, hnl, hnr⟩ := h
  simp only [rep_node, rootp_node] at hr hc
  obtain ⟨h1, h2, h3, h4, h5, h6, h7, h8⟩ := hr
  have hN := hnd
  simp only [ptrs_node, ptrs_leaf, cptrs_nil, cptrs_cons, frame_ptr_inL, frame_ptr_inR,
    frame_sib_inL, frame_sib_inR, List.nodup_append, List.nodup_cons, List.mem_append,
    not_mem_cons_sym, not_or, List.disjoint_cons_left, List.disjoint_cons_right,
    List.disjoint_append_left, List.disjoint_append_right, List.nodup_nil,
    List.disjoint_nil_left, List.disjoint_nil_right, List.not_mem_nil, not_false_eq_true,
    true_and, and_true] at hN
  have hS := set_color_sameOff t p c'
  refine ⟨?_, ?_, hnd, ?_, hnl, hnr⟩
  · exact repc_frameD hS (by simp [hN]) rfl hc
  · have hl := rep_frameD hS (by simp [hN]) h7
    have hr := rep_frameD hS (by simp [hN]) h8
    simp [rep_node, *]
  · simp [upd_apply, Ne.symm h1, hnb]

theorem color_rootp {t : rbtree} {T : Tree} {par : Nat} (h : Rep t T par)
    (hnb : t.color t.nil = RBTREE_BLACK) : t.color (T.rootp t.nil) = T.rootColor := by
  cases T with
  | leaf => simpa [Tree.rootColor] using hnb
  | node l p c k r => simpa [Tree.rootColor] using h.2.1

theorem sameMeta_refl (t : rbtree) : SameMeta t t := ⟨rfl, rfl, rfl, rfl⟩

theorem sameMeta_trans {t t1 t2 : rbtree} (h1 : SameMeta t t1) (h2 : SameMeta t1 t2) :
    SameMeta t t2 :=
  ⟨h2.nil.trans h1.nil, h2.brk.trans h1.brk, h2.freed.trans h1.freed, h2.key.trans h1.key⟩

theorem sameMeta_set_color (t : rbtree) (p : Nat) (c : color_t) :
    SameMeta t (set_color t p c) := ⟨rfl, rfl, rfl, rfl⟩

theorem sameMeta_rotate_left (t : rbtree) (x : Nat) : SameMeta t (rotate_left t x) :=
  ⟨rotate_left_nil t x, rotate_left_brk t x, rotate_left_freed t x, rotate_left_key t x⟩

theorem sameMeta_rotate_right (t : rbtree) (x : Nat) : SameMeta t (rotate_right t x) :=
  ⟨rotate_right_nil t x, rotate_right_brk t x, rotate_right_freed t x, rotate_right_key t x⟩

@[simp] theorem fill_inL (p : Nat) (c : color_t) (k : Int) (r s : Tree) :
    (Frame.inL p c k r).fill s = Tree.node s p c k r := rfl

@[simp] theorem fill_inR (l : Tree) (p : Nat) (c : color_t) (k : Int) (s : Tree) :
    (Frame.inR l p c k).fill s = Tree.node l p c k s := rfl

/-! ## The body of the loop of `rebuild_after_insert`, case by case -/

/-- Case A of the insertion fixup, parent a left child: the uncle is RED. -/
theorem insert_caseA_left {t : rbtree} {rest : List Frame} {f1 : Frame}
    {zl zr ul ur : Tree} {z p2 u : Nat} {cz c2 : color_t} {kz k2 ku : Int}
    (h : ZRep t (f1 :: Frame.inL p2 c2 k2 (Tree.node ul u RBTREE_RED ku ur) :: rest)
      (Tree.node zl z cz kz zr)) :
    (rebuild_after_insert_body t z).2 = p2 ∧
    ZRep (rebuild_after_insert_body t z).1 rest
      (Tree.node ((f1.recolor RBTREE_BLACK).fill (Tree.node zl z cz kz zr)) p2 RBTREE_RED k2
        (Tree.node ul u RBTREE_BLACK ku ur)) ∧
    SameMeta t (rebuild_after_insert_body t z).1 := by
  have h1 := zrep_up.mp h
  have h2 := zrep_up.mp h1
  have hz := h.rep
  have hf := h1.rep
  have hg := h2.rep
  have hN := h.nodup
  have hE : rebuild_after_insert_body t z =
      (set_color (set_color (set_color t f1.ptr RBTREE_BLACK) u RBTREE_BLACK) p2 RBTREE_RED,
        p2) := by
    cases f1 <;>
      simp only [rep_node, fill_inL, fill_inR, rootp_node, cpar_cons, frame_ptr_inL,
        frame_ptr_inR] at hz hf hg <;>
      simp only [ptrs_node, ptrs_leaf, cptrs_nil, cptrs_cons, frame_ptr_inL, frame_ptr_inR,
    frame_sib_inL, frame_sib_inR, List.nodup_append, List.nodup_cons, List.mem_append,
    not_mem_cons_sym, not_or, List.disjoint_cons_left, List.disjoint_cons_right,
    List.disjoint_append_left, List.disjoint_append_right, List.nodup_nil,
    List.disjoint_nil_left, List.disjoint_nil_right, List.not_mem_nil, not_false_eq_true,
    true_and, and_true] at hN <;>
      simp [rebuild_after_insert_body, hz, hf, hg, hN]
  rw [hE]
  dsimp only
  refine ⟨rfl, ?_, sameMeta_trans (sameMeta_trans (sameMeta_set_color t f1.ptr _)
    (sameMeta_set_color _ u _)) (sameMeta_set_color _ p2 _)⟩
  have a1 : ZRep (set_color t f1.ptr RBTREE_BLACK)
      (Frame.inL p2 c2 k2 (Tree.node ul u RBTREE_RED ku ur) :: rest)
      ((f1.recolor RBTREE_BLACK).fill (Tree.node zl z cz kz zr)) := by
    cases f1 <;> exact zrep_set_color RBTREE_BLACK h1
  have a2 : ZRep (set_color t f1.ptr RBTREE_BLACK)
      (Frame.inR ((f1.recolor RBTREE_BLACK).fill (Tree.node zl z cz kz zr)) p2 c2 k2 :: rest)
      (Tree.node ul u RBTREE_RED ku ur) := by
    have a1' : ZRep (set_color t f1.ptr RBTREE_BLACK) rest
        (Tree.node ((f1.recolor RBTREE_BLACK).fill (Tree.node zl z cz kz zr)) p2 c2 k2
          (Tree.node ul u RBTREE_RED ku ur)) := zrep_up.mp a1
    exact zrep_up.mpr a1'
  have a3 := zrep_up.mp (zrep_set_color RBTREE_BLACK a2)
  exact zrep_set_color RBTREE_RED a3

/-- Case C of the insertion fixup, parent a left child: the uncle is BLACK and `z`
is a left child. -/
theorem insert_caseC_left {t : rbtree} {rest : List Frame}
    {zl zr s1 U : Tree} {z p1 p2 : Nat} {cz c2 : color_t} {kz k1 k2 : Int}
    (h : ZRep t (Frame.inL p1 RBTREE_RED k1 s1 :: Frame.inL p2 c2 k2 U :: rest)
      (Tree.node zl z cz kz zr))
    (hU : U.rootColor = RBTREE_BLACK) :
    (rebuild_after_insert_body t z).2 = z ∧
    ZRep (rebuild_after_insert_body t z).1 rest
      (Tree.node (Tree.node zl z cz kz zr) p1 RBTREE_BLACK k1
        (Tree.node s1 p2 RBTREE_RED k2 U)) ∧
    SameMeta t (rebuild_after_insert_body t z).1 := by
  have h1 := zrep_up.mp h
  have h2 := zrep_up.mp h1
  have hz := h.rep
  have hf := h1.rep
  have hg := h2.rep
  have hN := h.nodup
  simp only [ptrs_node, ptrs_leaf, cptrs_nil, cptrs_cons, frame_ptr_inL, frame_ptr_inR,
    frame_sib_inL, frame_sib_inR, List.nodup_append, List.nodup_cons, List.mem_append,
    not_mem_cons_sym, not_or, List.disjoint_cons_left, List.disjoint_cons_right,
    List.disjoint_append_left, List.disjoint_append_right, List.nodup_nil,
    List.disjoint_nil_left, List.disjoint_nil_right, List.not_mem_nil, not_false_eq_true,
    true_and, and_true] at hN
  simp only [rep_node, fill_inL, fill_inR, rootp_node, cpar_cons, frame_ptr_inL,
    frame_ptr_inR] at hz hf hg
  have hcu : t.color (U.rootp t.nil) = RBTREE_BLACK := by
    rw [color_rootp (show Rep t U p2 by simp [hg]) h.nil_black, hU]
  have hzs : z ≠ s1.rootp t.nil := ne_rootp_of_not_mem hz.1 (by simp [hN])
  have hpu : p1 ≠ U.rootp t.nil := ne_rootp_of_not_mem hf.1 (by simp [hN])
  have hE : rebuild_after_insert_body t z =
      (rotate_right (set_color (set_color t p1 RBTREE_BLACK) p2 RBTREE_RED) p2, z) := by
    simp [rebuild_after_insert_body, hz, hf, hg, hcu, hzs, hpu]
  rw [hE]
  dsimp only
  refine ⟨rfl, ?_, sameMeta_trans (sameMeta_trans (sameMeta_set_color t p1 _)
    (sameMeta_set_color _ p2 _)) (sameMeta_rotate_right _ p2)⟩
  have a1 := zrep_up.mp (zrep_set_color RBTREE_BLACK h1)
  have a2 := zrep_set_color RBTREE_RED a1
  exact (rotate_right_spec a2).1

/-- Case B of the insertion fixup, parent a left child: the uncle is BLACK and `z`
is a right child; after the rotation at the parent Case C applies. -/
theorem insert_caseB_left {t : rbtree} {rest : List Frame}
    {zl zr s1 U : Tree} {z p1 p2 : Nat} {cz c2 : color_t} {kz k1 k2 : Int}
    (h : ZRep t (Frame.inR s1 p1 RBTREE_RED k1 :: Frame.inL p2 c2 k2 U :: rest)
      (Tree.node zl z cz kz zr))
    (hU : U.rootColor = RBTREE_BLACK) :
    (rebuild_after_insert_body t z).2 = p1 ∧
    ZRep (rebuild_after_insert_body t z).1 rest
      (Tree.node (Tree.node s1 p1 RBTREE_RED k1 zl) z RBTREE_BLACK kz
        (Tree.node zr p2 RBTREE_RED k2 U)) ∧
    SameMeta t (rebuild_after_insert_body t z).1 := by
  have h1 := zrep_up.mp h
  have h2 := zrep_up.mp h1
  have hz := h.rep
  have hf := h1.rep
  have hg := h2.rep
  have hN := h.nodup
  simp only [ptrs_node, ptrs_leaf, cptrs_nil, cptrs_cons, frame_ptr_inL, frame_ptr_inR,
    frame_sib_inL, frame_sib_inR, List.nodup_append, List.nodup_cons, List.mem_append,
    not_mem_cons_sym, not_or, List.disjoint_cons_left, List.disjoint_cons_right,
    List.disjoint_append_left, List.disjoint_append_right, List.nodup_nil,
    List.disjoint_nil_left, List.disjoint_nil_right, List.not_mem_nil, not_false_eq_true,
    true_and, and_true] at hN
  simp only [rep_node, fill_inL, fill_inR, rootp_node, cpar_cons, frame_ptr_inL,
    frame_ptr_inR] at hz hf hg
  have hcu : t.color (U.rootp t.nil) = RBTREE_BLACK := by
    rw [color_rootp (show Rep t U p2 by simp [hg]) h.nil_black, hU]
  have hpu : p1 ≠ U.rootp t.nil := ne_rootp_of_not_mem hf.1 (by simp [hN])
  have hzu : z ≠ U.rootp t.nil := ne_rootp_of_not_mem hz.1 (by simp [hN])
  have r1 := (rotate_left_spec h1).1
  have hr1 := r1.rep
  have hr2 := (zrep_up.mp r1).rep
  simp only [rep_node, fill_inL, fill_inR, rootp_node, cpar_cons, frame_ptr_inL,
    frame_ptr_inR] at hr1 hr2
  have hE : rebuild_after_insert_body t z =
      (rotate_right (set_color (set_color (rotate_left t p1) z RBTREE_BLACK) p2 RBTREE_RED)
        p2, p1) := by
    simp [rebuild_after_insert_body, hz, hf, hg, hcu, hr1, hr2, hpu, hzu]
  rw [hE]
  dsimp only
  refine ⟨rfl, ?_, sameMeta_trans (sameMeta_trans (sameMeta_trans (sameMeta_rotate_left t p1)
    (sameMeta_set_color _ z _)) (sameMeta_set_color _ p2 _)) (sameMeta_rotate_right _ p2)⟩
  have a1 := zrep_up.mp (zrep_set_color RBTREE_BLACK r1)
  have a2 := zrep_set_color RBTREE_RED a1
  exact (rotate_right_spec a2).1

/-- Case A of the insertion fixup, parent a right child: the uncle is RED. -/
theorem insert_caseA_right {t : rbtree} {rest : List Frame} {f1 : Frame}
    {zl zr ul ur : Tree} {z p2 u : Nat} {cz c2 : color_t} {kz k2 ku : Int}
    (h : ZRep t (f1 :: Frame.inR (Tree.node ur u RBTREE_RED ku ul) p2 c2 k2 :: rest)
      (Tree.node zr z cz kz zl)) :
    (rebuild_after_insert_body t z).2 = p2 ∧
    ZRep (rebuild_after_insert_body t z).1 rest
      (Tree.node (Tree.node ur u RBTREE_BLACK ku ul) p2 RBTREE_RED k2
        ((f1.recolor RBTREE_BLACK).fill (Tree.node zr z cz kz zl))) ∧
    SameMeta t (rebuild_after_insert_body t z).1 := by
  have h1 := zrep_up.mp h
  have h2 := zrep_up.mp h1
  have hz := h.rep
  have hf := h1.rep
  have hg := h2.rep
  have hN := h.nodup
  have hE : rebuild_after_insert_body t z =
      (set_color (set_color (set_color t f1.ptr RBTREE_BLACK) u RBTREE_BLACK) p2 RBTREE_RED,
        p2) := by
    cases f1 <;>
      simp only [rep_node, fill_inR, fill_inL, rootp_node, cpar_cons, frame_ptr_inR,
        frame_ptr_inL] at hz hf hg <;>
      simp only [ptrs_node, ptrs_leaf, cptrs_nil, cptrs_cons, frame_ptr_inR, frame_ptr_inL,
    frame_sib_inR, frame_sib_inL, List.nodup_append, List.nodup_cons, List.mem_append,
    not_mem_cons_sym, not_or, List.disjoint_cons_right, List.disjoint_cons_left,
    List.disjoint_append_right, List.disjoint_append_left, List.nodup_nil,
    List.disjoint_nil_right, List.disjoint_nil_left, List.not_mem_nil, not_false_eq_true,
    true_and, and_true] at hN <;>
      simp [rebuild_after_insert_body, hz, hf, hg, hN]
  rw [hE]
  dsimp only
  refine ⟨rfl, ?_, sameMeta_trans (sameMeta_trans (sameMeta_set_color t f1.ptr _)
    (sameMeta_set_color _ u _)) (sameMeta_set_color _ p2 _)⟩
  have a1 : ZRep (set_color t f1.ptr RBTREE_BLACK)
      (Frame.inR (Tree.node ur u RBTREE_RED ku ul) p2 c2 k2 :: rest)
      ((f1.recolor RBTREE_BLACK).fill (Tree.node zr z cz kz zl)) := by
    cases f1 <;> exact zrep_set_color RBTREE_BLACK h1
  have a2 : ZRep (set_color t f1.ptr RBTREE_BLACK)
      (Frame.inL p2 c2 k2 ((f1.recolor RBTREE_BLACK).fill (Tree.node zr z cz kz zl)) :: rest)
      (Tree.node ur u RBTREE_RED ku ul) := by
    have a1' : ZRep (set_color t f1.ptr RBTREE_BLACK) rest
        (Tree.node (Tree.node ur u RBTREE_RED ku ul) p2 c2 k2
          ((f1.recolor RBTREE_BLACK).fill (Tree.node zr z cz kz zl))) := zrep_up.mp a1
    exact zrep_up.mpr a1'
  have a3 := zrep_up.mp (zrep_set_color RBTREE_BLACK a2)
  exact zrep_set_color RBTREE_RED a3

/-- Case C of the insertion fixup, parent a right child: the uncle is BLACK and `z`
is a right child. -/
theorem insert_caseC_right {t : rbtree} {rest : List Frame}
    {zl zr s1 U : Tree} {z p1 p2 : Nat} {cz c2 : color_t} {kz k1 k2 : Int}
    (h : ZRep t (Frame.inR s1 p1 RBTREE_RED k1 :: Frame.inR U p2 c2 k2 :: rest)
      (Tree.node zr z cz kz zl))
    (hU : U.rootColor = RBTREE_BLACK) :
    (rebuild_after_insert_body t z).2 = z ∧
    ZRep (rebuild_after_insert_body t z).1 rest
      (Tree.node (Tree.node U p2 RBTREE_RED k2 s1) p1 RBTREE_BLACK k1
        (Tree.node zr z cz kz zl)) ∧
    SameMeta t (rebuild_after_insert_body t z).1 := by
  have h1 := zrep_up.mp h
  have h2 := zrep_up.mp h1
  have hz := h.rep
  have hf := h1.rep
  have hg := h2.rep
  have hN := h.nodup
  simp only [ptrs_node, ptrs_leaf, cptrs_nil, cptrs_cons, frame_ptr_inR, frame_ptr_inL,
    frame_sib_inR, frame_sib_inL, List.nodup_append, List.nodup_cons, List.mem_append,
    not_mem_cons_sym, not_or, List.disjoint_cons_right, List.disjoint_cons_left,
    List.disjoint_append_right, List.disjoint_append_left, List.nodup_nil,
    List.disjoint_nil_right, List.disjoint_nil_left, List.not_mem_nil, not_false_eq_true,
    true_and, and_true] at hN
  simp only [rep_node, fill_inR, fill_inL, rootp_node, cpar_cons, frame_ptr_inR,
    frame_ptr_inL] at hz hf hg
  have hcu : t.color (U.rootp t.nil) = RBTREE_BLACK := by
    rw [color_rootp (show Rep t U p2 by simp [hg]) h.nil_black, hU]
  have hzs : z ≠ s1.rootp t.nil := ne_rootp_of_not_mem hz.1 (by simp [hN])
  have hpu : p1 ≠ U.rootp t.nil := ne_rootp_of_not_mem hf.1 (by simp [hN])
  have hE : rebuild_after_insert_body t z =
      (rotate_left (set_color (set_color t p1 RBTREE_BLACK) p2 RBTREE_RED) p2, z) := by
    simp [rebuild_after_insert_body, hz, hf, hg, hcu, hzs, hpu]
  rw [hE]
  dsimp only
  refine ⟨rfl, ?_, sameMeta_trans (sameMeta_trans (sameMeta_set_color t p1 _)
    (sameMeta_set_color _ p2 _)) (sameMeta_rotate_left _ p2)⟩
  have a1 := zrep_up.mp (zrep_set_color RBTREE_BLACK h1)
  have a2 := zrep_set_color RBTREE_RED a1
  exact (rotate_left_spec a2).1

/-- Case B of the insertion fixup, parent a right child: the uncle is BLACK and `z`
is a left child; after the rotation at the parent Case C applies. -/
theorem insert_caseB_right {t : rbtree} {rest : List Frame}
    {zl zr s1 U : Tree} {z p1 p2 : Nat} {cz c2 : color_t} {kz k1 k2 : Int}
    (h : ZRep t (Frame.inL p1 RBTREE_RED k1 s1 :: Frame.inR U p2 c2 k2 :: rest)
      (Tree.node zr z cz kz zl))
    (hU : U.rootColor = RBTREE_BLACK) :
    (rebuild_after_insert_body t z).2 = p1 ∧
    ZRep (rebuild_after_insert_body t z).1 rest
      (Tree.node (Tree.node U p2 RBTREE_RED k2 zr) z RBTREE_BLACK kz
        (Tree.node zl p1 RBTREE_RED k1 s1)) ∧
    SameMeta t (rebuild_after_insert_body t z).1 := by
  have h1 := zrep_up.mp h
  have h2 := zrep_up.mp h1
  have hz := h.rep
  have hf := h1.rep
  have hg := h2.rep
  have hN := h.nodup
  simp only [ptrs_node, ptrs_leaf, cptrs_nil, cptrs_cons, frame_ptr_inR, frame_ptr_inL,
    frame_sib_inR, frame_sib_inL, List.nodup_append, List.nodup_cons, List.mem_append,
    not_mem_cons_sym, not_or, List.disjoint_cons_right, List.disjoint_cons_left,
    List.disjoint_append_right, List.disjoint_append_left, List.nodup_nil,
    List.disjoint_nil_right, List.disjoint_nil_left, List.not_mem_nil, not_false_eq_true,
    true_and, and_true] at hN
  simp only [rep_node, fill_inR, fill_inL, rootp_node, cpar_cons, frame_ptr_inR,
    frame_ptr_inL] at hz hf hg
  have hcu : t.color (U.rootp t.nil) = RBTREE_BLACK := by
    rw [color_rootp (show Rep t U p2 by simp [hg]) h.nil_black, hU]
  have hpu : p1 ≠ U.rootp t.nil := ne_rootp_of_not_mem hf.1 (by simp [hN])
  have hzu : z ≠ U.rootp t.nil := ne_rootp_of_not_mem hz.1 (by simp [hN])
  have r1 := (rotate_right_spec h1).1
  have hr1 := r1.rep
  have hr2 := (zrep_up.mp r1).rep
  simp only [rep_node, fill_inR, fill_inL, rootp_node, cpar_cons, frame_ptr_inR,
    frame_ptr_inL] at hr1 hr2
  have hE : rebuild_after_insert_body t z =
      (rotate_left (set_color (set_color (rotate_right t p1) z RBTREE_BLACK) p2 RBTREE_RED)
        p2, p1) := by
    simp [rebuild_after_insert_body, hz, hf, hg, hcu, hr1, hr2, hpu, hzu]
  rw [hE]
  dsimp only
  refine ⟨rfl, ?_, sameMeta_trans (sameMeta_trans (sameMeta_trans (sameMeta_rotate_right t p1)
    (sameMeta_set_color _ z _)) (sameMeta_set_color _ p2 _)) (sameMeta_rotate_left _ p2)⟩
  have a1 := zrep_up.mp (zrep_set_color RBTREE_BLACK r1)
  have a2 := zrep_set_color RBTREE_RED a1
  exact (rotate_left_spec a2).1

/-! ## The colour invariants, functionally -/

theorem color_ne_black {c : color_t} : c ≠ RBTREE_BLACK ↔ c = RBTREE_RED := by
  cases c <;> simp

theorem color_ne_red {c : color_t} : c ≠ RBTREE_RED ↔ c = RBTREE_BLACK := by
  cases c <;> simp

@[simp] theorem rootColor_leaf : Tree.leaf.rootColor = RBTREE_BLACK := rfl

@[simp] theorem rootColor_node (l : Tree) (p : Nat) (c : color_t) (k : Int) (r : Tree) :
    (Tree.node l p c k r).rootColor = c := rfl

@[simp] theorem bh_leaf (n : Nat) : BH Tree.leaf n ↔ n = 0 := Iff.rfl

@[simp] theorem bh_black (l : Tree) (p : Nat) (k : Int) (r : Tree) (n : Nat) :
    BH (Tree.node l p RBTREE_BLACK k r) n ↔ ∃ m, n = m + 1 ∧ BH l m ∧ BH r m := by
  simp [BH]

@[simp] theorem bh_red (l : Tree) (p : Nat) (k : Int) (r : Tree) (n : Nat) :
    BH (Tree.node l p RBTREE_RED k r) n ↔ BH l n ∧ BH r n := by
  simp [BH]

@[simp] theorem noRedRed_leaf : noRedRed Tree.leaf := trivial

@[simp] theorem noRedRed_black (l : Tree) (p : Nat) (k : Int) (r : Tree) :
    noRedRed (Tree.node l p RBTREE_BLACK k r) ↔ noRedRed l ∧ noRedRed r := by
  simp [noRedRed]

@[simp] theorem noRedRed_red (l : Tree) (p : Nat) (k : Int) (r : Tree) :
    noRedRed (Tree.node l p RBTREE_RED k r) ↔
      (l.rootColor = RBTREE_BLACK ∧ r.rootColor = RBTREE_BLACK) ∧ noRedRed l ∧ noRedRed r := by
  simp [noRedRed]

theorem bh_unique {T : Tree} {n m : Nat} (h1 : BH T n) (h2 : BH T m) : n = m := by
  induction T generalizing n m with
  | leaf => simp at h1 h2; omega
  | node l p c k r ihl _ =>
    cases c with
    | RBTREE_RED => simp at h1 h2; exact ihl h1.1 h2.1
    | RBTREE_BLACK =>
      simp at h1 h2
      obtain ⟨a, rfl, ha, -⟩ := h1
      obtain ⟨b, rfl, hb, -⟩ := h2
      rw [ihl ha hb]

theorem blackCounts_ne_nil (T : Tree) : blackCounts T ≠ [] := by
  induction T with
  | leaf => simp [blackCounts]
  | node l p c k r ihl _ => simp [blackCounts, ihl]

theorem bh_iff_counts (T : Tree) (n : Nat) : BH T n ↔ ∀ a ∈ blackCounts T, a = n := by
  induction T generalizing n with
  | leaf => simp [blackCounts, eq_comm]
  | node l p c k r ihl ihr =>
    obtain ⟨a0, ha0⟩ := List.exists_mem_of_ne_nil _ (blackCounts_ne_nil l)
    cases c with
    | RBTREE_RED =>
      simp only [bh_red, blackCounts, ihl, ihr, List.mem_map, List.mem_append]
      constructor
      · rintro ⟨h1, h2⟩ a ⟨b, hb | hb, rfl⟩
        · simpa using h1 b hb
        · simpa using h2 b hb
      · intro h
        exact ⟨fun a ha => by simpa using h a ⟨a, Or.inl ha, by simp⟩,
          fun a ha => by simpa using h a ⟨a, Or.inr ha, by simp⟩⟩
    | RBTREE_BLACK =>
      simp only [bh_black, blackCounts, ihl, ihr, List.mem_map, List.mem_append]
      constructor
      · rintro ⟨m, rfl, h1, h2⟩ a ⟨b, hb | hb, rfl⟩
        · simpa using h1 b hb
        · simpa using h2 b hb
      · intro h
        refine ⟨a0, ?_, ?_, ?_⟩
        · simpa using (h (a0 + 1) ⟨a0, Or.inl ha0, by simp⟩).symm
        · intro a ha
          have e1 := h (a + 1) ⟨a, Or.inl ha, by simp⟩
          have e2 := h (a0 + 1) ⟨a0, Or.inl ha0, by simp⟩
          omega
        · intro a ha
          have e1 := h (a + 1) ⟨a, Or.inr ha, by simp⟩
          have e2 := h (a0 + 1) ⟨a0, Or.inl ha0, by simp⟩
          omega

/-- Invariant 4 in its recursive form. -/
theorem equalBlack_iff (T : Tree) : equalBlack T ↔ ∃ n, BH T n := by
  constructor
  · intro h
    obtain ⟨a0, ha0⟩ := List.exists_mem_of_ne_nil _ (blackCounts_ne_nil T)
    exact ⟨a0, (bh_iff_counts T a0).mpr (fun a ha => h a ha a0 ha0)⟩
  · rintro ⟨n, hn⟩ a ha b hb
    rw [bh_iff_counts] at hn
    rw [hn a ha, hn b hb]

/-! ### Colouring the root BLACK -/

@[simp] theorem blacken_leaf : Tree.leaf.blacken = Tree.leaf := rfl

@[simp] theorem blacken_node (l : Tree) (p : Nat) (c : color_t) (k : Int) (r : Tree) :
    (Tree.node l p c k r).blacken = Tree.node l p RBTREE_BLACK k r := rfl

theorem blacken_of_black {T : Tree} (h : T.rootColor = RBTREE_BLACK) : T.blacken = T := by
  cases T with
  | leaf => rfl
  | node l p c k r => simp at h; simp [h]

theorem blacken_nodes (T : Tree) : T.blacken.nodes = T.nodes := by
  cases T <;> rfl

theorem rbinv_blacken {T : Tree} {n : Nat} (h1 : noRedRed T) (h2 : BH T n) :
    RBInv T.blacken := by
  cases T with
  | leaf => exact ⟨rfl, trivial, (equalBlack_iff _).mpr ⟨n, h2⟩⟩
  | node l p c k r =>
    refine ⟨rfl, ?_, (equalBlack_iff _).mpr ?_⟩
    · cases c <;> simp_all
    · cases c
      · exact ⟨n + 1, by simpa using h2⟩
      · exact ⟨n, by simpa using h2⟩

/-! ### Contexts -/

theorem redOK_black (ctx : List Frame) : RedOK ctx RBTREE_BLACK := by
  intro h; cases h

theorem ctxInv_cons_black {f : Frame} {fs : List Frame} {n : Nat}
    (hf : f.color = RBTREE_BLACK) :
    CtxInv (f :: fs) n ↔ BH f.sib n ∧ noRedRed f.sib ∧ CtxInv fs (n + 1) := by
  simp [CtxInv, hf]

theorem ctxInv_cons_red {f : Frame} {fs : List Frame} {n : Nat}
    (hf : f.color = RBTREE_RED) :
    CtxInv (f :: fs) n ↔ BH f.sib n ∧ noRedRed f.sib ∧ f.sib.rootColor = RBTREE_BLACK ∧
      RedOK fs RBTREE_RED ∧ CtxInv fs n := by
  simp [CtxInv, hf]

/-- Filling a valid context with a valid subtree of the right black height gives a
tree that satisfies invariants 3 and 4, and invariant 2 unless the context is empty. -/
theorem plug_inv {ctx : List Frame} {S : Tree} {n : Nat} (hc : CtxInv ctx n) (hb : BH S n)
    (hr : noRedRed S) (hok : RedOK ctx S.rootColor) :
    noRedRed (plug ctx S) ∧ (∃ m, BH (plug ctx S) m) ∧
      (ctx ≠ [] → (plug ctx S).rootColor = RBTREE_BLACK) := by
  induction ctx generalizing S n with
  | nil => exact ⟨hr, ⟨n, hb⟩, fun h => absurd rfl h⟩
  | cons f fs ih =>
    have key : ∀ m, CtxInv fs m → BH (f.fill S) m → noRedRed (f.fill S) →
        RedOK fs (f.fill S).rootColor →
        noRedRed (plug (f :: fs) S) ∧ (∃ m, BH (plug (f :: fs) S) m) ∧
          (f :: fs ≠ [] → (plug (f :: fs) S).rootColor = RBTREE_BLACK) := by
      intro m h1 h2 h3 h4
      obtain ⟨a, b, c⟩ := ih h1 h2 h3 h4
      refine ⟨a, b, fun _ => ?_⟩
      cases fs with
      | nil =>
        have hfc : (f.fill S).rootColor ≠ RBTREE_RED := by
          intro e
          obtain ⟨g, gs, hg, -⟩ := h4 e
          cases hg
        simpa [plug, color_ne_red] using hfc
      | cons g gs => exact c (by simp)
    have hS : f.color = RBTREE_BLACK ∨ S.rootColor = RBTREE_BLACK := by
      rcases hcol : S.rootColor with _ | _
      · obtain ⟨g, gs, hg, hgc⟩ := hok hcol
        cases hg
        exact Or.inl hgc
      · exact Or.inr rfl
    rcases hfc : f.color with _ | _
    · rw [ctxInv_cons_red hfc] at hc
      obtain ⟨c1, c2, c3, c4, c5⟩ := hc
      have hSb : S.rootColor = RBTREE_BLACK := by
        rcases hS with h | h
        · rw [hfc] at h; cases h
        · exact h
      cases f with
      | inL p c k r =>
        simp only [Frame.color] at hfc
        subst hfc
        exact key n c5 (by simpa using ⟨hb, c1⟩) (by simpa using ⟨⟨hSb, c3⟩, hr, c2⟩)
          (by simpa using c4)
      | inR l p c k =>
        simp only [Frame.color] at hfc
        subst hfc
        exact key n c5 (by simpa using ⟨c1, hb⟩) (by simpa using ⟨⟨c3, hSb⟩, c2, hr⟩)
          (by simpa using c4)
    · rw [ctxInv_cons_black hfc] at hc
      obtain ⟨c1, c2, c3⟩ := hc
      cases f with
      | inL p c k r =>
        simp only [Frame.color] at hfc
        subst hfc
        exact key (n + 1) c3 (by simpa using ⟨hb, c1⟩) (by simpa using ⟨hr, c2⟩)
          (by simpa using redOK_black fs)
      | inR l p c k =>
        simp only [Frame.color] at hfc
        subst hfc
        exact key (n + 1) c3 (by simpa using ⟨c1, hb⟩) (by simpa using ⟨c2, hr⟩)
          (by simpa using redOK_black fs)

/-! ## The loop of `rebuild_after_insert` -/

/-- A valid red-black tree, cut at any node, leaves a valid context and a valid
subtree of matching black height. -/
theorem ctx_of_inv {ctx : List Frame} {S : Tree} {m : Nat} (h1 : noRedRed (plug ctx S))
    (h2 : BH (plug ctx S) m) (h3 : (plug ctx S).rootColor = RBTREE_BLACK) :
    ∃ n, CtxInv ctx n ∧ BH S n ∧ noRedRed S ∧ RedOK ctx S.rootColor := by
  induction ctx generalizing S with
  | nil =>
    refine ⟨m, trivial, h2, h1, ?_⟩
    intro e
    simp [plug, e] at h3
  | cons f fs ih =>
    obtain ⟨n', a, b, c, d⟩ := ih (S := f.fill S) h1 h2 h3
    cases f with
    | inL p cf k r =>
      cases cf with
      | RBTREE_RED =>
        simp only [fill_inL, bh_red, noRedRed_red, rootColor_node] at b c d
        refine ⟨n', (ctxInv_cons_red (f := Frame.inL p RBTREE_RED k r) rfl).mpr ⟨b.2, c.2.2, c.1.2, d, a⟩, b.1, c.2.1, ?_⟩
        intro e; rw [c.1.1] at e; cases e
      | RBTREE_BLACK =>
        simp only [fill_inL, bh_black, noRedRed_black, rootColor_node] at b c d
        obtain ⟨n, rfl, b1, b2⟩ := b
        exact ⟨n, (ctxInv_cons_black (f := Frame.inL p RBTREE_BLACK k r) rfl).mpr ⟨b2, c.2, a⟩, b1, c.1, fun _ => ⟨_, _, rfl, rfl⟩⟩
    | inR l p cf k =>
      cases cf with
      | RBTREE_RED =>
        simp only [fill_inR, bh_red, noRedRed_red, rootColor_node] at b c d
        refine ⟨n', (ctxInv_cons_red (f := Frame.inR l p RBTREE_RED k) rfl).mpr ⟨b.1, c.2.1, c.1.1, d, a⟩, b.2, c.2.2, ?_⟩
        intro e; rw [c.1.2] at e; cases e
      | RBTREE_BLACK =>
        simp only [fill_inR, bh_black, noRedRed_black, rootColor_node] at b c d
        obtain ⟨n, rfl, b1, b2⟩ := b
        exact ⟨n, (ctxInv_cons_black (f := Frame.inR l p RBTREE_BLACK k) rfl).mpr ⟨b1, c.1, a⟩, b2, c.2, fun _ => ⟨_, _, rfl, rfl⟩⟩

@[simp] theorem nodes_leaf : Tree.leaf.nodes = [] := rfl

@[simp] theorem nodes_node (l : Tree) (p : Nat) (c : color_t) (k : Int) (r : Tree) :
    (Tree.node l p c k r).nodes = l.nodes ++ (p, k) :: r.nodes := rfl

/-- The in-order sequence of a filled context: what comes before the hole, the
subtree, what comes after. -/
theorem nodes_plug (ctx : List Frame) (S : Tree) :
    (plug ctx S).nodes = cbefore ctx ++ S.nodes ++ cafter ctx := by
  induction ctx generalizing S with
  | nil => simp [plug, cbefore, cafter]
  | cons f fs ih =>
    cases f <;> simp [plug, ih, cbefore, cafter]

theorem nodes_plug_congr (ctx : List Frame) {S S' : Tree} (h : S.nodes = S'.nodes) :
    (plug ctx S).nodes = (plug ctx S').nodes := by
  rw [nodes_plug, nodes_plug, h]

theorem ptrs_eq_nodes (T : Tree) : T.ptrs = T.nodes.map Prod.fst := by
  induction T with
  | leaf => rfl
  | node l p c k r ihl ihr => simp [ihl, ihr]

theorem keys_eq_nodes (T : Tree) : T.keys = T.nodes.map Prod.snd := by
  induction T with
  | leaf => rfl
  | node l p c k r ihl ihr => simp [Tree.keys, ihl, ihr]

theorem height_plug (ctx : List Frame) (S : Tree) :
    ctx.length + S.height ≤ (plug ctx S).height := by
  induction ctx generalizing S with
  | nil => simp [plug]
  | cons f fs ih =>
    have := ih (f.fill S)
    cases f <;> simp [plug, Tree.height] at * <;> omega

theorem color_cpar {t : rbtree} {ctx : List Frame} {h : Nat} (hc : RepC t ctx h)
    (hnb : t.color t.nil = RBTREE_BLACK) : t.color (cpar t.nil ctx) = cparColor ctx := by
  rcases ctx with _ | ⟨(⟨p, c, k, r⟩ | ⟨l, p, c, k⟩), fs⟩
  · simpa [cparColor] using hnb
  · simpa [cparColor, Frame.color] using hc.2.1
  · simpa [cparColor, Frame.color] using hc.2.1

/-- The last statement of both fixups on the root: `t->root->color = RBTREE_BLACK`. -/
theorem zrep_blacken_root {t : rbtree} {T : Tree} (h : ZRep t [] T) :
    ZRep (set_color t t.root RBTREE_BLACK) [] T.blacken := by
  cases T with
  | leaf =>
    obtain ⟨hc, -, hnd, hnb, hnl, hnr⟩ := h
    exact ⟨hc, trivial, hnd, by simp [upd_apply, hnb], hnl, hnr⟩
  | node l p c k r =>
    have hroot : t.root = p := h.repc
    rw [hroot]
    exact zrep_set_color RBTREE_BLACK h

/-- The loop of `rebuild_after_insert` stops when the parent of `z` is BLACK. -/
theorem insert_exit {t : rbtree} {ctx : List Frame} {zl zr : Tree} {z : Nat}
    {cz : color_t} {kz : Int} (h : ZRep t ctx (Tree.node zl z cz kz zr))
    (hcol : cparColor ctx = RBTREE_BLACK) (fuel : Nat) :
    rebuild_after_insert (fuel + 1) t z = some (set_color t t.root RBTREE_BLACK) ∧
    ZRep (set_color t t.root RBTREE_BLACK) [] (plug ctx (Tree.node zl z cz kz zr)).blacken := by
  have hp : t.parent z = cpar t.nil ctx := h.rep.2.2.2.1
  have hc := color_cpar h.repc h.nil_black
  refine ⟨?_, zrep_blacken_root (zrep_plug.mp h)⟩
  simp [rebuild_after_insert, hp, hc, hcol]

theorem exit_inv {ctx : List Frame} {Z : Tree} {m : Nat} (hcol : cparColor ctx = RBTREE_BLACK)
    (hci : CtxInv ctx m) (hb : BH Z m) (hr : noRedRed Z) : RBInv (plug ctx Z).blacken := by
  cases ctx with
  | nil => exact rbinv_blacken hr hb
  | cons f fs =>
    obtain ⟨a, ⟨n, b⟩, -⟩ := plug_inv hci hb hr (fun _ => ⟨f, fs, rfl, hcol⟩)
    exact rbinv_blacken a b

@[simp] theorem recolor_inL (p : Nat) (c c' : color_t) (k : Int) (r : Tree) :
    (Frame.inL p c k r).recolor c' = Frame.inL p c' k r := rfl

@[simp] theorem recolor_inR (l : Tree) (p : Nat) (c c' : color_t) (k : Int) :
    (Frame.inR l p c k).recolor c' = Frame.inR l p c' k := rfl

@[simp] theorem color_inL (p : Nat) (c : color_t) (k : Int) (r : Tree) :
    (Frame.inL p c k r).color = c := rfl

@[simp] theorem color_inR (l : Tree) (p : Nat) (c : color_t) (k : Int) :
    (Frame.inR l p c k).color = c := rfl

theorem rootColor_red {T : Tree} (h : T.rootColor = RBTREE_RED) :
    ∃ l p k r, T = Tree.node l p RBTREE_RED k r := by
  cases T with
  | leaf => cases h
  | node l p c k r => simp at h; subst h; exact ⟨l, p, k, r, rfl⟩

/-- One pass through the loop body of `rebuild_after_insert` with the parent of `z` RED
and a left child: the loop invariant holds again, on a shorter path to the root. -/
theorem insert_step_left {t : rbtree} {rest : List Frame} {f1 : Frame} {zl zr U : Tree}
    {z p2 : Nat} {c2 : color_t} {kz k2 : Int} {m : Nat}
    (h : ZRep t (f1 :: Frame.inL p2 c2 k2 U :: rest) (Tree.node zl z RBTREE_RED kz zr))
    (hf1 : f1.color = RBTREE_RED) (hc2 : c2 = RBTREE_BLACK)
    (hb : BH (Tree.node zl z RBTREE_RED kz zr) m)
    (hr : noRedRed (Tree.node zl z RBTREE_RED kz zr))
    (hci : CtxInv (f1 :: Frame.inL p2 c2 k2 U :: rest) m) :
    ∃ ctx1 zl1 z1 kz1 zr1 m1,
      ins_step (f1 :: Frame.inL p2 c2 k2 U :: rest) (Tree.node zl z RBTREE_RED kz zr) =
        (ctx1, Tree.node zl1 z1 RBTREE_RED kz1 zr1) ∧
      (rebuild_after_insert_body t z).2 = z1 ∧
      ZRep (rebuild_after_insert_body t z).1 ctx1 (Tree.node zl1 z1 RBTREE_RED kz1 zr1) ∧
      ctx1.length < rest.length + 2 ∧
      BH (Tree.node zl1 z1 RBTREE_RED kz1 zr1) m1 ∧
      noRedRed (Tree.node zl1 z1 RBTREE_RED kz1 zr1) ∧
      CtxInv ctx1 m1 ∧
      (plug ctx1 (Tree.node zl1 z1 RBTREE_RED kz1 zr1)).nodes =
        (plug (f1 :: Frame.inL p2 c2 k2 U :: rest) (Tree.node zl z RBTREE_RED kz zr)).nodes ∧
      SameMeta t (rebuild_after_insert_body t z).1 := by
  subst hc2
  rw [ctxInv_cons_red hf1, ctxInv_cons_black (by rfl)] at hci
  obtain ⟨s1b, s1r, s1c, -, ub, ur, hci3⟩ := hci
  simp only [frame_sib_inL, frame_sib_inR] at ub ur
  simp only [bh_red, noRedRed_red] at hb hr
  rcases hU : U.rootColor with _ | _
  · obtain ⟨ul, u, ku, ur', rfl⟩ := rootColor_red hU
    obtain ⟨e1, e2, e3⟩ := insert_caseA_left h
    simp only [bh_red, noRedRed_red] at ub ur
    refine ⟨rest, _, p2, k2, _, m + 1, by simp [ins_step], e1, e2, by omega, ?_, ?_, hci3,
      ?_, e3⟩
    · cases f1 <;> simp_all
    · cases f1 <;> simp_all
    · simp only [plug]
      apply nodes_plug_congr
      cases f1 <;> simp
  · cases f1 with
    | inL p1 c1 k1 s1 =>
      simp only [color_inL] at hf1
      subst hf1
      simp only [frame_sib_inL, frame_sib_inR] at s1b s1r s1c
      obtain ⟨e1, e2, e3⟩ := insert_caseC_left h hU
      refine ⟨Frame.inL p1 RBTREE_BLACK k1 (Tree.node s1 p2 RBTREE_RED k2 U) :: rest, zl, z, kz,
        zr, m, by simp [ins_step, ins_rot_left, hU], e1, zrep_up.mpr e2, by simp, by simp_all,
        by simp_all, ?_, ?_, e3⟩
      · rw [ctxInv_cons_black (by rfl)]
        simp_all
      · simp only [plug]
        apply nodes_plug_congr
        simp
    | inR s1 p1 c1 k1 =>
      simp only [color_inR] at hf1
      subst hf1
      simp only [frame_sib_inL, frame_sib_inR] at s1b s1r s1c
      obtain ⟨e1, e2, e3⟩ := insert_caseB_left h hU
      refine ⟨Frame.inL z RBTREE_BLACK kz (Tree.node zr p2 RBTREE_RED k2 U) :: rest, s1, p1, k1,
        zl, m, by simp [ins_step, ins_rot_left, hU], e1, zrep_up.mpr e2, by simp, by simp_all,
        by simp_all, ?_, ?_, e3⟩
      · rw [ctxInv_cons_black (by rfl)]
        simp_all
      · simp only [plug]
        apply nodes_plug_congr
        simp

/-- One pass through the loop body of `rebuild_after_insert` with the parent of `z` RED
and a right child: the loop invariant holds again, on a shorter path to the root. -/
theorem insert_step_right {t : rbtree} {rest : List Frame} {f1 : Frame} {zl zr U : Tree}
    {z p2 : Nat} {c2 : color_t} {kz k2 : Int} {m : Nat}
    (h : ZRep t (f1 :: Frame.inR U p2 c2 k2 :: rest) (Tree.node zr z RBTREE_RED kz zl))
    (hf1 : f1.color = RBTREE_RED) (hc2 : c2 = RBTREE_BLACK)
    (hb : BH (Tree.node zr z RBTREE_RED kz zl) m)
    (hr : noRedRed (Tree.node zr z RBTREE_RED kz zl))
    (hci : CtxInv (f1 :: Frame.inR U p2 c2 k2 :: rest) m) :
    ∃ ctx1 zl1 z1 kz1 zr1 m1,
      ins_step (f1 :: Frame.inR U p2 c2 k2 :: rest) (Tree.node zr z RBTREE_RED kz zl) =
        (ctx1, Tree.node zr1 z1 RBTREE_RED kz1 zl1) ∧
      (rebuild_after_insert_body t z).2 = z1 ∧
      ZRep (rebuild_after_insert_body t z).1 ctx1 (Tree.node zr1 z1 RBTREE_RED kz1 zl1) ∧
      ctx1.length < rest.length + 2 ∧
      BH (Tree.node zr1 z1 RBTREE_RED kz1 zl1) m1 ∧
      noRedRed (Tree.node zr1 z1 RBTREE_RED kz1 zl1) ∧
      CtxInv ctx1 m1 ∧
      (plug ctx1 (Tree.node zr1 z1 RBTREE_RED kz1 zl1)).nodes =
        (plug (f1 :: Frame.inR U p2 c2 k2 :: rest) (Tree.node zr z RBTREE_RED kz zl)).nodes ∧
      SameMeta t (rebuild_after_insert_body t z).1 := by
  subst hc2
  rw [ctxInv_cons_red hf1, ctxInv_cons_black (by rfl)] at hci
  obtain ⟨s1b, s1r, s1c, -, ub, ur, hci3⟩ := hci
  simp only [frame_sib_inR, frame_sib_inL] at ub ur
  simp only [bh_red, noRedRed_red] at hb hr
  rcases hU : U.rootColor with _ | _
  · obtain ⟨ul, u, ku, ur', rfl⟩ := rootColor_red hU
    obtain ⟨e1, e2, e3⟩ := insert_caseA_right h
    simp only [bh_red, noRedRed_red] at ub ur
    refine ⟨rest, _, p2, k2, _, m + 1, by simp [ins_step], e1, e2, by omega, ?_, ?_, hci3,
      ?_, e3⟩
    · cases f1 <;> simp_all
    · cases f1 <;> simp_all
    · simp only [plug]
      apply nodes_plug_congr
      cases f1 <;> simp
  · cases f1 with
    | inR s1 p1 c1 k1 =>
      simp only [color_inR] at hf1
      subst hf1
      simp only [frame_sib_inR, frame_sib_inL] at s1b s1r s1c
      obtain ⟨e1, e2, e3⟩ := insert_caseC_right h hU
      refine ⟨Frame.inR (Tree.node U p2 RBTREE_RED k2 s1) p1 RBTREE_BLACK k1 :: rest, zl, z, kz,
        zr, m, by simp [ins_step, ins_rot_right, hU], e1, zrep_up.mpr e2, by simp, by simp_all,
        by simp_all, ?_, ?_, e3⟩
      · rw [ctxInv_cons_black (by rfl)]
        simp_all
      · simp only [plug]
        apply nodes_plug_congr
        simp
    | inL p1 c1 k1 s1 =>
      simp only [color_inL] at hf1
      subst hf1
      simp only [frame_sib_inR, frame_sib_inL] at s1b s1r s1c
      obtain ⟨e1, e2, e3⟩ := insert_caseB_right h hU
      refine ⟨Frame.inR (Tree.node U p2 RBTREE_RED k2 zr) z RBTREE_BLACK kz :: rest, s1, p1, k1,
        zl, m, by simp [ins_step, ins_rot_right, hU], e1, zrep_up.mpr e2, by simp, by simp_all,
        by simp_all, ?_, ?_, e3⟩
      · rw [ctxInv_cons_black (by rfl)]
        simp_all
      · simp only [plug]
        apply nodes_plug_congr
        simp

/-- One pass through the loop body of `rebuild_after_insert` with the parent of `z` RED:
the loop invariant holds again, on a shorter path to the root. -/
theorem insert_step {t : rbtree} {ctx : List Frame} {zl zr : Tree} {z : Nat} {kz : Int}
    {m : Nat} (h : ZRep t ctx (Tree.node zl z RBTREE_RED kz zr))
    (hcol : cparColor ctx = RBTREE_RED)
    (hb : BH (Tree.node zl z RBTREE_RED kz zr) m)
    (hr : noRedRed (Tree.node zl z RBTREE_RED kz zr)) (hci : CtxInv ctx m) :
    ∃ ctx1 zl1 z1 kz1 zr1 m1,
      ins_step ctx (Tree.node zl z RBTREE_RED kz zr) =
        (ctx1, Tree.node zl1 z1 RBTREE_RED kz1 zr1) ∧
      (rebuild_after_insert_body t z).2 = z1 ∧
      ZRep (rebuild_after_insert_body t z).1 ctx1 (Tree.node zl1 z1 RBTREE_RED kz1 zr1) ∧
      ctx1.length < ctx.length ∧
      BH (Tree.node zl1 z1 RBTREE_RED kz1 zr1) m1 ∧
      noRedRed (Tree.node zl1 z1 RBTREE_RED kz1 zr1) ∧
      CtxInv ctx1 m1 ∧
      (plug ctx1 (Tree.node zl1 z1 RBTREE_RED kz1 zr1)).nodes =
        (plug ctx (Tree.node zl z RBTREE_RED kz zr)).nodes ∧
      SameMeta t (rebuild_after_insert_body t z).1 := by
  rcases ctx with _ | ⟨f1, ctx2⟩
  · cases hcol
  have hf1 : f1.color = RBTREE_RED := hcol
  have hci' := hci
  rw [ctxInv_cons_red hf1] at hci'
  obtain ⟨-, -, -, hok, -⟩ := hci'
  obtain ⟨f2, rest, rfl, hf2⟩ := hok rfl
  cases f2 with
  | inL p2 c2 k2 U =>
    obtain ⟨ctx1, a, z1, kz1, b, m1, e0, e1, e2, e3, e4⟩ :=
      insert_step_left h hf1 hf2 hb hr hci
    exact ⟨ctx1, a, z1, kz1, b, m1, e0, e1, e2, by simpa using e3, e4⟩
  | inR U p2 c2 k2 =>
    obtain ⟨ctx1, a, z1, kz1, b, m1, e0, e1, e2, e3, e4⟩ :=
      insert_step_right h hf1 hf2 hb hr hci
    exact ⟨ctx1, b, z1, kz1, a, m1, e0, e1, e2, by simpa using e3, e4⟩

/-- `rebuild_after_insert` terminates, restores the colour invariants and does what
`ins_fix` does on the tree: started on a RED node `z` whose subtree and context are valid,
with fuel for one loop test per node on the path to the root and one more, it returns a
state that holds the red-black tree `ins_fix` computes, with the same in-order sequence of
nodes. -/
theorem rebuild_after_insert_exact (N : Nat) :
    ∀ (ctx : List Frame) (t : rbtree) (zl zr : Tree) (z : Nat) (kz : Int) (m : Nat),
      ctx.length ≤ N → ZRep t ctx (Tree.node zl z RBTREE_RED kz zr) →
      BH (Tree.node zl z RBTREE_RED kz zr) m → noRedRed (Tree.node zl z RBTREE_RED kz zr) →
      CtxInv ctx m → ∀ fuel, N + 1 ≤ fuel → ∀ n, N + 1 ≤ n →
      ∃ t', rebuild_after_insert fuel t z = some t' ∧
        ZRep t' [] (ins_fix n ctx (Tree.node zl z RBTREE_RED kz zr)) ∧
        RBInv (ins_fix n ctx (Tree.node zl z RBTREE_RED kz zr)) ∧
        (ins_fix n ctx (Tree.node zl z RBTREE_RED kz zr)).nodes =
          (plug ctx (Tree.node zl z RBTREE_RED kz zr)).nodes ∧ SameMeta t t' := by
  induction N with
  | zero =>
    intro ctx t zl zr z kz m hlen h hb hr hci fuel hfuel n hn
    obtain ⟨fuel', rfl⟩ : ∃ f', fuel = f' + 1 := ⟨fuel - 1, by omega⟩
    obtain ⟨n', rfl⟩ : ∃ n', n = n' + 1 := ⟨n - 1, by omega⟩
    have hctx : ctx = [] := List.length_eq_zero.mp (by omega)
    subst hctx
    obtain ⟨e1, e2⟩ := insert_exit h rfl fuel'
    have hfix : ins_fix (n' + 1) [] (Tree.node zl z RBTREE_RED kz zr) =
        (plug [] (Tree.node zl z RBTREE_RED kz zr)).blacken := by
      simp [ins_fix, cparColor]
    rw [hfix]
    exact ⟨_, e1, e2, exit_inv rfl hci hb hr, blacken_nodes _, sameMeta_set_color _ _ _⟩
  | succ N ih =>
    intro ctx t zl zr z kz m hlen h hb hr hci fuel hfuel n hn
    obtain ⟨fuel', rfl⟩ : ∃ f', fuel = f' + 1 := ⟨fuel - 1, by omega⟩
    obtain ⟨n', rfl⟩ : ∃ n', n = n' + 1 := ⟨n - 1, by omega⟩
    rcases hcol : cparColor ctx with _ | _
    · obtain ⟨ctx1, zl1, z1, kz1, zr1, m1, e0, e1, e2, e3, e4, e5, e6, e7, e8⟩ :=
        insert_step h hcol hb hr hci
      obtain ⟨t', r1, r2, r3, r4, r5⟩ :=
        ih ctx1 _ zl1 zr1 z1 kz1 m1 (by omega) e2 e4 e5 e6 fuel' (by omega) n' (by omega)
      have hfix : ins_fix (n' + 1) ctx (Tree.node zl z RBTREE_RED kz zr) =
          ins_fix n' ctx1 (Tree.node zl1 z1 RBTREE_RED kz1 zr1) := by
        simp [ins_fix, hcol, e0]
      rw [hfix]
      refine ⟨t', ?_, r2, r3, r4.trans e7, sameMeta_trans e8 r5⟩
      have hp : t.parent z = cpar t.nil ctx := h.rep.2.2.2.1
      have hc := color_cpar h.repc h.nil_black
      rw [← e1] at r1
      simpa [rebuild_after_insert, hp, hc, hcol] using r1
    · obtain ⟨e1, e2⟩ := insert_exit h hcol fuel'
      have hfix : ins_fix (n' + 1) ctx (Tree.node zl z RBTREE_RED kz zr) =
          (plug ctx (Tree.node zl z RBTREE_RED kz zr)).blacken := by
        simp [ins_fix, hcol]
      rw [hfix]
      exact ⟨_, e1, e2, exit_inv hcol hci hb hr, blacken_nodes _, sameMeta_set_color _ _ _⟩

/-- `rebuild_after_insert` terminates and restores the colour invariants: started on a
RED node `z` whose subtree and context are valid, with fuel for one loop test per node on
the path to the root and two more, it returns a state that holds a red-black tree with
the same in-order sequence of nodes. -/
theorem rebuild_after_insert_spec (N : Nat) :
    ∀ (ctx : List Frame) (t : rbtree) (zl zr : Tree) (z : Nat) (kz : Int) (m : Nat),
      ctx.length ≤ N → ZRep t ctx (Tree.node zl z RBTREE_RED kz zr) →
      BH (Tree.node zl z RBTREE_RED kz zr) m → noRedRed (Tree.node zl z RBTREE_RED kz zr) →
      CtxInv ctx m → ∀ fuel, N + 1 ≤ fuel →
      ∃ t' T', rebuild_after_insert fuel t z = some t' ∧ ZRep t' [] T' ∧ RBInv T' ∧
        T'.nodes = (plug ctx (Tree.node zl z RBTREE_RED kz zr)).nodes ∧ SameMeta t t' := by
  intro ctx t zl zr z kz m hlen h hb hr hci fuel hfuel
  obtain ⟨t', r1, r2, r3, r4, r5⟩ :=
    rebuild_after_insert_exact N ctx t zl zr z kz m hlen h hb hr hci fuel hfuel (N + 1)
      (le_refl _)
  exact ⟨t', _, r1, r2, r3, r4, r5⟩

/-! ## `rbtree_insert` -/

theorem descend_plug (k : Int) (S : Tree) (acc : List Frame) :
    plug (descend k S acc) Tree.leaf = plug acc S := by
  induction S generalizing acc with
  | leaf => rfl
  | node l p c kk r ihl ihr =>
    simp only [descend]
    split_ifs
    · rw [ihl]; rfl
    · rw [ihr]; rfl

theorem descend_pathOK (k : Int) (S : Tree) (acc : List Frame) (h : PathOK k acc) :
    PathOK k (descend k S acc) := by
  induction S generalizing acc with
  | leaf => exact h
  | node l p c kk r ihl ihr =>
    simp only [descend]
    split_ifs with hk
    · exact ihl _ ⟨hk, h⟩
    · exact ihr _ ⟨hk, h⟩

@[simp] theorem height_leaf : Tree.leaf.height = 0 := rfl

@[simp] theorem height_node (l : Tree) (p : Nat) (c : color_t) (k : Int) (r : Tree) :
    (Tree.node l p c k r).height = max l.height r.height + 1 := rfl

/-- The descent loop of `rbtree_insert` follows `descend` and returns the node above the
sentinel slot it reaches. -/
theorem insert_descend_spec {t : rbtree} {z : Nat} (S : Tree) :
    ∀ (acc : List Frame) (fuel : Nat), ZRep t acc S → S.height + 1 ≤ fuel →
      insert_descend fuel t z (cpar t.nil acc) (S.rootp t.nil) =
        some (cpar t.nil (descend (t.key z) S acc)) := by
  induction S with
  | leaf =>
    intro acc fuel _ hf
    obtain ⟨fuel', rfl⟩ : ∃ f', fuel = f' + 1 := ⟨fuel - 1, by omega⟩
    simp [insert_descend, descend]
  | node l p c kk r ihl ihr =>
    intro acc fuel h hf
    obtain ⟨fuel', rfl⟩ : ∃ f', fuel = f' + 1 := ⟨fuel - 1, by omega⟩
    have hr := h.rep
    simp only [rep_node] at hr
    obtain ⟨h1, -, h3, -, h5, h6, -, -⟩ := hr
    simp only [height_node] at hf
    have hL : ZRep t (Frame.inL p c kk r :: acc) l := zrep_up.mpr h
    have hR : ZRep t (Frame.inR l p c kk :: acc) r := zrep_up.mpr h
    have e1 := ihl _ fuel' hL (by omega)
    have e2 := ihr _ fuel' hR (by omega)
    simp only [cpar_cons, frame_ptr_inL, frame_ptr_inR] at e1 e2
    by_cases hk : t.key z < kk <;>
      simp [insert_descend, descend, h3, h1, hk, h5, h6, e1, e2]

/-- Lines 171-177 of `rbtree_insert`: the new node `z` is linked below the node the
descent ended at, on the side its key selects. -/
theorem insert_link {t : rbtree} {ctx : List Frame} {z : Nat} {k : Int}
    (h : ZRep t ctx Tree.leaf) (hz0 : z ≠ t.nil) (hzc : z ∉ cptrs ctx) (hk : t.key z = k)
    (hcol : t.color z = RBTREE_RED) (hl : t.left z = t.nil) (hr : t.right z = t.nil)
    (hp : PathOK k ctx) :
    ZRep
      (if cpar t.nil ctx = (set_parent t z (cpar t.nil ctx)).nil then
          set_root (set_parent t z (cpar t.nil ctx)) z
        else if (set_parent t z (cpar t.nil ctx)).key z <
            (set_parent t z (cpar t.nil ctx)).key (cpar t.nil ctx) then
          set_left (set_parent t z (cpar t.nil ctx)) (cpar t.nil ctx) z
        else set_right (set_parent t z (cpar t.nil ctx)) (cpar t.nil ctx) z)
      ctx (Tree.node Tree.leaf z RBTREE_RED k Tree.leaf) := by
  obtain ⟨hc, -, hnd, hnb, hnl, hnr⟩ := h
  have hz0' := Ne.symm hz0
  rcases ctx with _ | ⟨(⟨p, c, kk, r⟩ | ⟨l, p, c, kk⟩), fs⟩
  · simp only [repc_nil, rootp_leaf] at hc
    simp only [cpar_nil, set_parent_nil, if_true]
    refine ⟨by simp [repc_nil], by simp [rep_node, *], by simp, by simp [upd_apply, *],
      by simpa using hnl, by simpa using hnr⟩
  · simp only [repc_inL, rootp_leaf] at hc
    simp only [cptrs_cons, frame_ptr_inL, frame_sib_inL, not_mem_cons_sym, List.mem_append,
      not_or] at hzc
    have hS : SameOff [z, p] t (set_left (set_parent t z p) p z) := by
      refine ⟨rfl, fun _ _ => rfl, fun _ _ => rfl, ?_, ?_, fun _ _ => rfl⟩ <;>
        intro q hq <;>
        simp only [List.mem_cons, List.mem_singleton, List.not_mem_nil, not_or, or_false]
          at hq <;>
        simp [upd_apply, hq]
    have hN := hnd
    simp only [ptrs_node, ptrs_leaf, cptrs_nil, cptrs_cons, frame_ptr_inL, frame_ptr_inR,
      frame_sib_inL, frame_sib_inR, List.nodup_append, List.nodup_cons, List.mem_append,
      not_mem_cons_sym, not_or, List.disjoint_cons_left, List.disjoint_cons_right,
      List.disjoint_append_left, List.disjoint_append_right, List.nodup_nil,
      List.disjoint_nil_left, List.disjoint_nil_right, List.not_mem_nil, not_false_eq_true,
      true_and, and_true, List.nil_append] at hN
    have hsib := rep_frameD hS (by simp [hN, hzc]) hc.2.2.2.2.2.2.1
    have hfs := repc_frameD hS (by simp [hN, hzc]) rfl hc.2.2.2.2.2.2.2
    have hkk : k < kk := hp.1
    simp only [cpar_cons, frame_ptr_inL, set_parent_nil, set_parent_key, hc.1, if_false, hk,
      hc.2.2.1, hkk, if_true]
    refine ⟨?_, ?_, ?_, ?_, ?_, ?_⟩
    · simp [repc_inL, upd_apply, *]
    · simp [rep_node, upd_apply, *]
    · simp [hN, hzc, List.nodup_cons, List.nodup_append]
    · simpa using hnb
    · simp [upd_apply, Ne.symm hc.1, hnl]
    · simp [upd_apply, Ne.symm hc.1, hnr]
  · simp only [repc_inR, rootp_leaf] at hc
    simp only [cptrs_cons, frame_ptr_inR, frame_sib_inR, not_mem_cons_sym, List.mem_append,
      not_or] at hzc
    have hS : SameOff [z, p] t (set_right (set_parent t z p) p z) := by
      refine ⟨rfl, fun _ _ => rfl, fun _ _ => rfl, ?_, fun _ _ => rfl, ?_⟩ <;>
        intro q hq <;>
        simp only [List.mem_cons, List.mem_singleton, List.not_mem_nil, not_or, or_false]
          at hq <;>
        simp [upd_apply, hq]
    have hN := hnd
    simp only [ptrs_node, ptrs_leaf, cptrs_nil, cptrs_cons, frame_ptr_inL, frame_ptr_inR,
      frame_sib_inL, frame_sib_inR, List.nodup_append, List.nodup_cons, List.mem_append,
      not_mem_cons_sym, not_or, List.disjoint_cons_left, List.disjoint_cons_right,
      List.disjoint_append_left, List.disjoint_append_right, List.nodup_nil,
      List.disjoint_nil_left, List.disjoint_nil_right, List.not_mem_nil, not_false_eq_true,
      true_and, and_true, List.nil_append] at hN
    have hsib := rep_frameD hS (by simp [hN, hzc]) hc.2.2.2.2.2.2.1
    have hfs := repc_frameD hS (by simp [hN, hzc]) rfl hc.2.2.2.2.2.2.2
    have hkk : ¬k < kk := hp.1
    simp only [cpar_cons, frame_ptr_inR, set_parent_nil, set_parent_key, hc.1, if_false, hk,
      hc.2.2.1, hkk]
    refine ⟨?_, ?_, ?_, ?_, ?_, ?_⟩
    · simp [repc_inR, upd_apply, *]
    · simp [rep_node, upd_apply, *]
    · simp [hN, hzc, List.nodup_cons, List.nodup_append]
    · simpa using hnb
    · simp [upd_apply, Ne.symm hc.1, hnl]
    · simp [upd_apply, Ne.symm hc.1, hnr]

theorem holds_iff {t : rbtree} {T : Tree} :
    Holds t T ↔ ZRep t [] T ∧ (0 < t.nil ∧ t.nil < t.brk) ∧
      ∀ p ∈ T.ptrs, 0 < p ∧ p < t.brk := by
  constructor
  · rintro ⟨h1, h2, h3, h4, h5, h6, h7, h8⟩
    exact ⟨⟨by simpa [repc_nil] using h1, by simpa using h2, by simpa using h3, h4, h7, h8⟩,
      h5, h6⟩
  · rintro ⟨⟨h1, h2, h3, h4, h7, h8⟩, h5, h6⟩
    exact ⟨by simpa [repc_nil] using h1, by simpa using h2, by simpa using h3, h4, h5, h6,
      h7, h8⟩

theorem mem_cptrs_plug {ctx : List Frame} {S : Tree} {p : Nat} (h : p ∈ cptrs ctx) :
    p ∈ (plug ctx S).ptrs :=
  (ptrs_plug_perm ctx S).mem_iff.mpr (List.mem_append_right _ h)

theorem mem_plug_ptrs {ctx : List Frame} {S : Tree} {p : Nat} (h : p ∈ (plug ctx S).ptrs) :
    p ∈ S.ptrs ∨ p ∈ cptrs ctx :=
  List.mem_append.mp ((ptrs_plug_perm ctx S).mem_iff.mp h)

theorem link_meta (t : rbtree) (z y : Nat) :
    SameMeta t
      (if y = (set_parent t z y).nil then set_root (set_parent t z y) z
        else if (set_parent t z y).key z < (set_parent t z y).key y then
          set_left (set_parent t z y) y z
        else set_right (set_parent t z y) y z) := by
  split_ifs <;> exact ⟨rfl, rfl, rfl, rfl⟩

/-- `rbtree_insert` on a state that holds a red-black tree does what `Tree.ins` does on
the tree: with fuel above the height of the tree it returns the freshly allocated node and
a state that holds the red-black tree `T.ins k t.brk`; its in-order sequence of nodes is
the old one with the new node put where the descent ended. The key `k` is stored in the
new cell and no other cell changes its key. -/
theorem rbtree_insert_exact {t : rbtree} {T : Tree} (h : Holds t T) (hrb : RBInv T) (k : Int)
    (fuel : Nat) (hf : T.height + 1 ≤ fuel) :
    ∃ t', rbtree_insert fuel t k = some (t', t.brk) ∧ Holds t' (T.ins k t.brk) ∧
      RBInv (T.ins k t.brk) ∧
      (T.ins k t.brk).nodes = (plug (descend k T [])
        (Tree.node Tree.leaf t.brk RBTREE_RED k Tree.leaf)).nodes ∧
      t'.nil = t.nil ∧ t'.brk = t.brk + 1 ∧ t'.freed = t.freed ∧
      t'.key = upd t.key t.brk k := by
  unfold Tree.ins
  obtain ⟨hz, hna, hal⟩ := holds_iff.mp h
  obtain ⟨t4, ht4⟩ : ∃ t4, t4 = set_right (set_left (set_color (set_key (calloc_node t).1 t.brk k)
      t.brk RBTREE_RED) t.brk t.nil) t.brk t.nil := ⟨_, rfl⟩
  have hzn : t.brk ≠ t.nil := by omega
  have hzT : t.brk ∉ T.ptrs := fun hm => by have := hal _ hm; omega
  have f1 : t4.nil = t.nil := by rw [ht4]; rfl
  have f2 : t4.root = t.root := by rw [ht4]; rfl
  have f3 : t4.key t.brk = k := by rw [ht4]; simp [calloc_node]
  have f4 : t4.color t.brk = RBTREE_RED := by rw [ht4]; simp [calloc_node]
  have f5 : t4.left t.brk = t4.nil := by rw [ht4]; simp [calloc_node]
  have f6 : t4.right t.brk = t4.nil := by rw [ht4]; simp [calloc_node]
  have f7 : t4.brk = t.brk + 1 := by rw [ht4]; rfl
  have f8 : t4.freed = t.freed := by rw [ht4]; rfl
  have hS : SameOff [t.brk] t t4 := by
    rw [ht4]
    refine ⟨rfl, ?_, ?_, ?_, ?_, ?_⟩ <;> intro q hq <;>
      simp only [List.mem_singleton] at hq <;> simp [calloc_node, upd_apply, hq]
  have h4 : ZRep t4 [] T := by
    refine ⟨?_, ?_, hz.nodup, ?_, ?_, ?_⟩
    · simpa [repc_nil, f1, f2] using hz.repc
    · have := rep_frameD hS (by simpa using hzT) hz.rep
      simpa [f1] using this
    · rw [f1, hS.color _ (by simpa using Ne.symm hzn)]; exact hz.nil_black
    · rw [f1, hS.left _ (by simpa using Ne.symm hzn)]; exact hz.nil_left
    · rw [f1, hS.right _ (by simpa using Ne.symm hzn)]; exact hz.nil_right
  have hctx : ZRep t4 (descend k T []) Tree.leaf :=
    zrep_plug.mpr (by rw [descend_plug]; exact h4)
  have hdesc := insert_descend_spec (z := t.brk) T [] fuel h4 hf
  rw [f3] at hdesc
  simp only [cpar_nil] at hdesc
  have hroot : T.rootp t4.nil = t4.root := by simpa [repc_nil] using h4.repc.symm
  rw [hroot] at hdesc
  have hzc : t.brk ∉ cptrs (descend k T []) := fun hm => by
    have := mem_cptrs_plug (S := Tree.leaf) hm
    rw [descend_plug] at this
    exact hzT this
  have hlink := insert_link hctx (by rw [f1]; exact hzn) hzc f3 f4 f5 f6
    (descend_pathOK k T [] trivial)
  obtain ⟨m, hm⟩ := (equalBlack_iff T).mp hrb.2.2
  obtain ⟨n, c1, c2, -, -⟩ := @ctx_of_inv (descend k T []) Tree.leaf m
    (by rw [descend_plug]; exact hrb.2.1) (by rw [descend_plug]; exact hm)
    (by rw [descend_plug]; exact hrb.1)
  have hn : n = 0 := by simpa using c2
  subst hn
  have hlen : (descend k T []).length ≤ T.height := by
    have := height_plug (descend k T []) Tree.leaf
    rw [descend_plug] at this
    simpa [plug] using this
  obtain ⟨t7, g1, g2, g3, g4, g5⟩ := rebuild_after_insert_exact (descend k T []).length
    (descend k T []) _ Tree.leaf Tree.leaf t.brk k 0 (le_refl _) hlink (by simp) (by simp) c1
    fuel (by omega) (T.height + 1) (by omega)
  refine ⟨t7, ?_, ?_, g3, g4, ?_, ?_, ?_, ?_⟩
  · have hdef : rbtree_insert fuel t k =
        (match insert_descend fuel t4 t.brk t4.nil t4.root with
        | none => none
        | some y =>
          match rebuild_after_insert fuel
              (if y = (set_parent t4 t.brk y).nil then set_root (set_parent t4 t.brk y) t.brk
              else if (set_parent t4 t.brk y).key t.brk < (set_parent t4 t.brk y).key y then
                set_left (set_parent t4 t.brk y) y t.brk
              else set_right (set_parent t4 t.brk y) y t.brk) t.brk with
          | none => none
          | some t7 => some (t7, t.brk)) := by
      rw [ht4]; rfl
    rw [hdef, hdesc]
    simp only [g1]
  · have hm6 := sameMeta_trans (link_meta t4 t.brk (cpar t4.nil (descend k T []))) g5
    refine holds_iff.mpr ⟨g2, ?_, ?_⟩
    · rw [hm6.nil, hm6.brk, f1, f7]
      omega
    · intro p hp
      rw [hm6.brk, f7]
      rw [ptrs_eq_nodes, g4, ← ptrs_eq_nodes] at hp
      rcases mem_plug_ptrs hp with hp | hp
      · have : p = t.brk := by simpa using hp
        omega
      · have h1 := mem_cptrs_plug (S := Tree.leaf) hp
        rw [descend_plug] at h1
        have := hal p h1
        omega
  · have hm6 := sameMeta_trans (link_meta t4 t.brk (cpar t4.nil (descend k T []))) g5
    rw [hm6.nil, f1]
  · have hm6 := sameMeta_trans (link_meta t4 t.brk (cpar t4.nil (descend k T []))) g5
    rw [hm6.brk, f7]
  · have hm6 := sameMeta_trans (link_meta t4 t.brk (cpar t4.nil (descend k T []))) g5
    rw [hm6.freed, f8]
  · have hm6 := sameMeta_trans (link_meta t4 t.brk (cpar t4.nil (descend k T []))) g5
    rw [hm6.key, ht4]
    funext q
    simp only [calloc_node, set_right_key, set_left_key, set_color_key, set_key_key, upd_apply]
    split_ifs <;> rfl

/-- `rbtree_insert` on a state that holds a red-black tree: with fuel above the height of
the tree it returns the freshly allocated node and a state that holds a red-black tree whose
in-order sequence of nodes is the old one with the new node put where the descent ended. -/
theorem rbtree_insert_spec {t : rbtree} {T : Tree} (h : Holds t T) (hrb : RBInv T) (k : Int)
    (fuel : Nat) (hf : T.height + 1 ≤ fuel) :
    ∃ t' T', rbtree_insert fuel t k = some (t', t.brk) ∧ Holds t' T' ∧ RBInv T' ∧
      T'.nodes = (plug (descend k T [])
        (Tree.node Tree.leaf t.brk RBTREE_RED k Tree.leaf)).nodes ∧
      t'.nil = t.nil ∧ t'.brk = t.brk + 1 ∧ t'.freed = t.freed := by
  obtain ⟨t', r1, r2, r3, r4, r5, r6, r7, -⟩ := rbtree_insert_exact h hrb k fuel hf
  exact ⟨t', _, r1, r2, r3, r4, r5, r6, r7⟩

/-! ## `rbtree_erase`: taking the node out -/

theorem transplant_nil (t : rbtree) (u v : Nat) : (transplant t u v).nil = t.nil := by
  simp only [transplant]; split_ifs <;> simp

theorem transplant_color (t : rbtree) (u v : Nat) : (transplant t u v).color = t.color := by
  simp only [transplant]; split_ifs <;> simp

theorem transplant_key (t : rbtree) (u v : Nat) : (transplant t u v).key = t.key := by
  simp only [transplant]; split_ifs <;> simp

theorem transplant_brk (t : rbtree) (u v : Nat) : (transplant t u v).brk = t.brk := by
  simp only [transplant]; split_ifs <;> simp

theorem transplant_freed (t : rbtree) (u v : Nat) : (transplant t u v).freed = t.freed := by
  simp only [transplant]; split_ifs <;> simp

theorem sameMeta_transplant (t : rbtree) (u v : Nat) : SameMeta t (transplant t u v) :=
  ⟨transplant_nil t u v, transplant_brk t u v, transplant_freed t u v, transplant_key t u v⟩

theorem transplant_root (t : rbtree) (u v : Nat) :
    (transplant t u v).root = if t.parent u = t.nil then v else t.root := by
  simp only [transplant]; split_ifs <;> simp

theorem transplant_parent (t : rbtree) (u v q : Nat) :
    (transplant t u v).parent q = if q = v then t.parent u else t.parent q := by
  simp only [transplant, apply_ite rbtree.parent, apply_ite rbtree.left, apply_ite rbtree.right,
    set_root_parent, set_left_parent, set_right_parent, set_parent_parent, set_root_left,
    set_left_left, set_right_left, set_parent_left, set_root_right, set_left_right,
    set_right_right, set_parent_right, upd_apply]
  split_ifs <;> (try simp only [upd_apply] at *) <;> (try split_ifs at *) <;>
    first | rfl | omega

theorem transplant_left (t : rbtree) (u v q : Nat) :
    (transplant t u v).left q =
      if t.parent u ≠ t.nil ∧ u = t.left (t.parent u) ∧ q = t.parent u then v
      else t.left q := by
  simp only [transplant, apply_ite rbtree.parent, apply_ite rbtree.left, apply_ite rbtree.right,
    set_root_parent, set_left_parent, set_right_parent, set_parent_parent, set_root_left,
    set_left_left, set_right_left, set_parent_left, set_root_right, set_left_right,
    set_right_right, set_parent_right, upd_apply]
  split_ifs <;> (try simp only [upd_apply] at *) <;> (try split_ifs at *) <;>
    first | rfl | omega

theorem transplant_right (t : rbtree) (u v q : Nat) :
    (transplant t u v).right q =
      if t.parent u ≠ t.nil ∧ u ≠ t.left (t.parent u) ∧ q = t.parent u then v
      else t.right q := by
  simp only [transplant, apply_ite rbtree.parent, apply_ite rbtree.left, apply_ite rbtree.right,
    set_root_parent, set_left_parent, set_right_parent, set_parent_parent, set_root_left,
    set_left_left, set_right_left, set_parent_left, set_root_right, set_left_right,
    set_right_right, set_parent_right, upd_apply]
  split_ifs <;> (try simp only [upd_apply] at *) <;> (try split_ifs at *) <;>
    first | rfl | omega

theorem transplant_sameOff (t : rbtree) (u v : Nat) :
    SameOff [t.parent u, v] t (transplant t u v) := by
  refine ⟨transplant_nil t u v, ?_, ?_, ?_, ?_, ?_⟩
  · intro q _; rw [transplant_color]
  · intro q _; rw [transplant_key]
  all_goals
    intro q hq
    simp only [List.mem_cons, List.mem_singleton, List.not_mem_nil, not_or, or_false] at hq
    first
      | rw [transplant_parent]
      | rw [transplant_left]
      | rw [transplant_right]
    split_ifs <;> first | rfl | omega

/-- `rbtree_erase`, first branch (lines 299-303): a node without left child is
replaced by its right subtree. -/
theorem erase_no_left {t : rbtree} {ctx : List Frame} {r : Tree} {z : Nat} {c : color_t}
    {k : Int} (h : ZRep t ctx (Tree.node Tree.leaf z c k r)) :
    DRep (transplant t z (t.right z)) ctx r := by
  obtain ⟨hc, hr, hnd, hnb, hnl, hnr⟩ := h
  simp only [rep_node] at hr
  obtain ⟨hx1, hx2, hx3, hx4, hx5, hx6, hx7, hx8⟩ := hr
  rcases ctx with _ | ⟨(⟨p, c1, k1, r1⟩ | ⟨l1, p, c1, k1⟩), fs⟩ <;>
  rcases r with _ | ⟨rl, pr, cr, kr, rr⟩
  all_goals
    simp only [rootp_leaf, rootp_node, cpar_nil, cpar_cons, frame_ptr_inL, frame_ptr_inR,
      repc_nil, repc_inL, repc_inR, rep_node] at hc hx4 hx5 hx6 hx8
    have hN := hnd
    simp only [ptrs_node, ptrs_leaf, cptrs_nil, cptrs_cons, frame_ptr_inL, frame_ptr_inR,
      frame_sib_inL, frame_sib_inR, List.nodup_append, List.nodup_cons, List.mem_append,
      not_mem_cons_sym, not_or, List.disjoint_cons_left, List.disjoint_cons_right,
      List.disjoint_append_left, List.disjoint_append_right, List.nodup_nil,
      List.disjoint_nil_left, List.disjoint_nil_right, List.not_mem_nil, not_false_eq_true,
      true_and, and_true, List.nil_append, List.append_nil] at hN
    have hnx := Ne.symm hx1
    try have hnpr := Ne.symm hx8.1
    try have hnrl := nil_not_mem hx8.2.2.2.2.2.2.1
    try have hnrr := nil_not_mem hx8.2.2.2.2.2.2.2
    try have hnp := Ne.symm hc.1
    try have hnsib := nil_not_mem hc.2.2.2.2.2.2.1
    try have hnfs := nil_not_mem_ctx hc.2.2.2.2.2.2.2
    have hS := transplant_sameOff t z (t.right z)
    have hP := fun q => transplant_parent t z (t.right z) q
    have hL := fun q => transplant_left t z (t.right z) q
    have hR := fun q => transplant_right t z (t.right z) q
    have hRt := transplant_root t z (t.right z)
    rw [hx6, hx4] at hS
    simp only [hx6, hx4] at hP hL hR hRt
    try have hrl := rep_frameD hS (by simp [hN, hnrl]) hx8.2.2.2.2.2.2.1
    try have hrr := rep_frameD hS (by simp [hN, hnrr]) hx8.2.2.2.2.2.2.2
    try have hsib := rep_frameD hS (by simp [hN, hnsib]) hc.2.2.2.2.2.2.1
    try have hfs := repc_frameD hS (by simp [hN, hnfs]) (by simp [hRt, hc]) hc.2.2.2.2.2.2.2
    try have hxl := ne_rootp_of_not_mem (T := l1) hx1 (by simp [hN])
    refine ⟨⟨?_, ?_, ?_, ?_, ?_, ?_⟩, ?_⟩
    · simp [repc_nil, repc_inL, repc_inR, transplant_nil, transplant_color,
        transplant_key, *]
    · simp [rep_node, transplant_nil, transplant_color, transplant_key, *]
    · refine names_nodup hnd ?_
      clear * -
      intro q
      simp only [ptrs_node, ptrs_leaf, cptrs_nil, cptrs_cons, frame_ptr_inL, frame_ptr_inR,
        frame_sib_inL, frame_sib_inR, List.count_cons, List.count_append, List.count_nil,
        beq_iff_eq]
      omega
    · simpa [transplant_nil, transplant_color] using hnb
    · simp [transplant_nil, hL, hR, hnl, hnr, *]
    · simp [transplant_nil, hL, hR, hnl, hnr, *]
    · simp [transplant_nil, *]

/-- `rbtree_erase`, second branch (lines 304-308): a node without right child is
replaced by its left subtree. -/
theorem erase_no_right {t : rbtree} {ctx : List Frame} {r : Tree} {z : Nat} {c : color_t}
    {k : Int} (h : ZRep t ctx (Tree.node r z c k Tree.leaf)) :
    DRep (transplant t z (t.left z)) ctx r := by
  obtain ⟨hc, hr, hnd, hnb, hnl, hnr⟩ := h
  simp only [rep_node] at hr
  obtain ⟨hx1, hx2, hx3, hx4, hx6, hx5, hx8, hx7⟩ := hr
  rcases ctx with _ | ⟨(⟨p, c1, k1, r1⟩ | ⟨l1, p, c1, k1⟩), fs⟩ <;>
  rcases r with _ | ⟨rl, pr, cr, kr, rr⟩
  all_goals
    simp only [rootp_leaf, rootp_node, cpar_nil, cpar_cons, frame_ptr_inR, frame_ptr_inL,
      repc_nil, repc_inR, repc_inL, rep_node] at hc hx4 hx5 hx6 hx8
    have hN := hnd
    simp only [ptrs_node, ptrs_leaf, cptrs_nil, cptrs_cons, frame_ptr_inR, frame_ptr_inL,
      frame_sib_inR, frame_sib_inL, List.nodup_append, List.nodup_cons, List.mem_append,
      not_mem_cons_sym, not_or, List.disjoint_cons_right, List.disjoint_cons_left,
      List.disjoint_append_right, List.disjoint_append_left, List.nodup_nil,
      List.disjoint_nil_right, List.disjoint_nil_left, List.not_mem_nil, not_false_eq_true,
      true_and, and_true, List.nil_append, List.append_nil] at hN
    have hnx := Ne.symm hx1
    try have hnpr := Ne.symm hx8.1
    try have hnrl := nil_not_mem hx8.2.2.2.2.2.2.1
    try have hnrr := nil_not_mem hx8.2.2.2.2.2.2.2
    try have hnp := Ne.symm hc.1
    try have hnsib := nil_not_mem hc.2.2.2.2.2.2.1
    try have hnfs := nil_not_mem_ctx hc.2.2.2.2.2.2.2
    have hS := transplant_sameOff t z (t.left z)
    have hP := fun q => transplant_parent t z (t.left z) q
    have hL := fun q => transplant_right t z (t.left z) q
    have hR := fun q => transplant_left t z (t.left z) q
    have hRt := transplant_root t z (t.left z)
    rw [hx6, hx4] at hS
    simp only [hx6, hx4] at hP hL hR hRt
    try have hrl := rep_frameD hS (by simp [hN, hnrl]) hx8.2.2.2.2.2.2.1
    try have hrr := rep_frameD hS (by simp [hN, hnrr]) hx8.2.2.2.2.2.2.2
    try have hsib := rep_frameD hS (by simp [hN, hnsib]) hc.2.2.2.2.2.2.1
    try have hfs := repc_frameD hS (by simp [hN, hnfs]) (by simp [hRt, hc]) hc.2.2.2.2.2.2.2
    try have hxl := ne_rootp_of_not_mem (T := l1) hx1 (by simp [hN])
    refine ⟨⟨?_, ?_, ?_, ?_, ?_, ?_⟩, ?_⟩
    · simp [repc_nil, repc_inR, repc_inL, transplant_nil, transplant_color,
        transplant_key, *]
    · simp [rep_node, transplant_nil, transplant_color, transplant_key, *]
    · refine names_nodup hnd ?_
      clear * -
      intro q
      simp only [ptrs_node, ptrs_leaf, cptrs_nil, cptrs_cons, frame_ptr_inR, frame_ptr_inL,
        frame_sib_inR, frame_sib_inL, List.count_cons, List.count_append, List.count_nil,
        beq_iff_eq]
      omega
    · simpa [transplant_nil, transplant_color] using hnb
    · simp [transplant_nil, hL, hR, hnl, hnr, *]
    · simp [transplant_nil, hL, hR, hnl, hnr, *]
    · simp [transplant_nil, *]

theorem sameOff_trans {W1 W2 : List Nat} {t t1 t2 : rbtree} (h1 : SameOff W1 t t1)
    (h2 : SameOff W2 t1 t2) : SameOff (W1 ++ W2) t t2 := by
  have a : ∀ q, q ∉ W1 ++ W2 → q ∉ W1 := fun q hq hm => hq (List.mem_append_left _ hm)
  have b : ∀ q, q ∉ W1 ++ W2 → q ∉ W2 := fun q hq hm => hq (List.mem_append_right _ hm)
  exact ⟨h2.nil.trans h1.nil,
    fun q hq => (h2.color q (b q hq)).trans (h1.color q (a q hq)),
    fun q hq => (h2.key q (b q hq)).trans (h1.key q (a q hq)),
    fun q hq => (h2.parent q (b q hq)).trans (h1.parent q (a q hq)),
    fun q hq => (h2.left q (b q hq)).trans (h1.left q (a q hq)),
    fun q hq => (h2.right q (b q hq)).trans (h1.right q (a q hq))⟩

theorem set_parent_sameOff (t : rbtree) (p v : Nat) : SameOff [p] t (set_parent t p v) := by
  refine ⟨rfl, fun _ _ => rfl, fun _ _ => rfl, ?_, fun _ _ => rfl, fun _ _ => rfl⟩
  intro q hq
  simp only [List.mem_singleton] at hq
  simp [upd_apply, hq]

theorem set_left_sameOff (t : rbtree) (p v : Nat) : SameOff [p] t (set_left t p v) := by
  refine ⟨rfl, fun _ _ => rfl, fun _ _ => rfl, fun _ _ => rfl, ?_, fun _ _ => rfl⟩
  intro q hq
  simp only [List.mem_singleton] at hq
  simp [upd_apply, hq]

theorem set_right_sameOff (t : rbtree) (p v : Nat) : SameOff [p] t (set_right t p v) := by
  refine ⟨rfl, fun _ _ => rfl, fun _ _ => rfl, fun _ _ => rfl, fun _ _ => rfl, ?_⟩
  intro q hq
  simp only [List.mem_singleton] at hq
  simp [upd_apply, hq]

@[simp] theorem cptrs_append (a b : List Frame) : cptrs (a ++ b) = cptrs a ++ cptrs b := by
  induction a with
  | nil => rfl
  | cons f fs ih => simp [ih]

theorem plug_append (a b : List Frame) (S : Tree) : plug (a ++ b) S = plug b (plug a S) := by
  induction a generalizing S with
  | nil => rfl
  | cons f fs ih => simp [plug, ih]

/-- The focus can be moved up through several frames at once. -/
theorem zrep_append {t : rbtree} {a b : List Frame} {S : Tree} :
    ZRep t (a ++ b) S ↔ ZRep t b (plug a S) := by
  induction a generalizing S with
  | nil => rfl
  | cons f fs ih =>
    rw [List.cons_append, zrep_up, ih]
    rfl

theorem erase_replace_nil (t : rbtree) (z y : Nat) :
    (rbtree_erase_replace t z y).nil = t.nil := by
  simp [rbtree_erase_replace, transplant_nil]

theorem erase_replace_key (t : rbtree) (z y : Nat) :
    (rbtree_erase_replace t z y).key = t.key := by
  simp [rbtree_erase_replace, transplant_key]

theorem erase_replace_brk (t : rbtree) (z y : Nat) :
    (rbtree_erase_replace t z y).brk = t.brk := by
  simp [rbtree_erase_replace, transplant_brk]

theorem erase_replace_freed (t : rbtree) (z y : Nat) :
    (rbtree_erase_replace t z y).freed = t.freed := by
  simp [rbtree_erase_replace, transplant_freed]

theorem erase_replace_root (t : rbtree) (z y : Nat) :
    (rbtree_erase_replace t z y).root = if t.parent z = t.nil then y else t.root := by
  simp [rbtree_erase_replace, transplant_root]

theorem erase_replace_color (t : rbtree) (z y q : Nat) :
    (rbtree_erase_replace t z y).color q = if q = y then t.color z else t.color q := by
  simp [rbtree_erase_replace, transplant_color, upd_apply]

theorem erase_replace_parent (t : rbtree) (z y q : Nat) :
    (rbtree_erase_replace t z y).parent q =
      if q = (transplant t z y).left z then y
      else if q = y then t.parent z else t.parent q := by
  simp [rbtree_erase_replace, transplant_parent, upd_apply]

theorem erase_replace_left (t : rbtree) (z y q : Nat) :
    (rbtree_erase_replace t z y).left q =
      if q = y then (transplant t z y).left z else (transplant t z y).left q := by
  simp [rbtree_erase_replace, upd_apply]

theorem erase_replace_right (t : rbtree) (z y q : Nat) :
    (rbtree_erase_replace t z y).right q = (transplant t z y).right q := by
  simp [rbtree_erase_replace]

theorem erase_replace_sameOff (t : rbtree) (z y : Nat) :
    SameOff [t.parent z, y, (transplant t z y).left z] t (rbtree_erase_replace t z y) := by
  refine ⟨erase_replace_nil t z y, ?_, ?_, ?_, ?_, ?_⟩
  · intro q hq
    simp only [List.mem_cons, List.mem_singleton, List.not_mem_nil, not_or, or_false] at hq
    rw [erase_replace_color, if_neg hq.2.1]
  · intro q _; rw [erase_replace_key]
  · intro q hq
    simp only [List.mem_cons, List.mem_singleton, List.not_mem_nil, not_or, or_false] at hq
    rw [erase_replace_parent, if_neg hq.2.2, if_neg hq.2.1]
  · intro q hq
    simp only [List.mem_cons, List.mem_singleton, List.not_mem_nil, not_or, or_false] at hq
    rw [erase_replace_left, if_neg hq.2.1, transplant_left, if_neg (fun h => hq.1 h.2.2)]
  · intro q hq
    simp only [List.mem_cons, List.mem_singleton, List.not_mem_nil, not_or, or_false] at hq
    rw [erase_replace_right, transplant_right, if_neg (fun h => hq.1 h.2.2)]

theorem sameMeta_erase_replace (t : rbtree) (z y : Nat) :
    SameMeta t (rbtree_erase_replace t z y) :=
  ⟨erase_replace_nil t z y, erase_replace_brk t z y, erase_replace_freed t z y,
    erase_replace_key t z y⟩

/-- `rbtree_erase`, third branch with the successor `y` the right child of `z`
(lines 316 and 324-327): `y` moves up into the place of `z`. -/
theorem erase_succ_child {t : rbtree} {ctx : List Frame} {ll lr yr : Tree}
    {z y pl : Nat} {c cy cl : color_t} {k ky kl : Int}
    (h : ZRep t ctx (Tree.node (Tree.node ll pl cl kl lr) z c k (Tree.node Tree.leaf y cy ky yr))) :
    DRep (rbtree_erase_replace (set_parent t (t.right y) y) z y)
      (Frame.inR (Tree.node ll pl cl kl lr) y c ky :: ctx) yr := by
  obtain ⟨hc, hr, hnd, hnb, hsl, hsr⟩ := h
  simp only [rep_node] at hr
  obtain ⟨hz1, hz2, hz3, hz4, hz5, hz6, ⟨hl1, hl2, hl3, hl4, hl5, hl6, hl7, hl8⟩,
    hy1, hy2, hy3, hy4, hy5, hy6, hy7, hy8⟩ := hr
  rcases ctx with _ | ⟨(⟨p, c1, k1, r1⟩ | ⟨l1, p, c1, k1⟩), fs⟩ <;>
  rcases yr with _ | ⟨yl, py, cpy, kpy, yrr⟩
  all_goals
    simp only [rootp_leaf, rootp_node, cpar_nil, cpar_cons, frame_ptr_inL, frame_ptr_inR,
      repc_nil, repc_inL, repc_inR, rep_node] at hc hz4 hz5 hz6 hy5 hy6 hy8
    have hN := hnd
    simp only [ptrs_node, ptrs_leaf, cptrs_nil, cptrs_cons, frame_ptr_inL, frame_ptr_inR,
      frame_sib_inL, frame_sib_inR, List.nodup_append, List.nodup_cons, List.mem_append,
      not_mem_cons_sym, not_or, List.disjoint_cons_left, List.disjoint_cons_right,
      List.disjoint_append_left, List.disjoint_append_right, List.nodup_nil,
      List.disjoint_nil_left, List.disjoint_nil_right, List.not_mem_nil, not_false_eq_true,
      true_and, and_true, List.nil_append, List.append_nil] at hN
    have hnz := Ne.symm hz1
    have hny := Ne.symm hy1
    have hnl := Ne.symm hl1
    have hnll := nil_not_mem hl7
    have hnlr := nil_not_mem hl8
    try have hnpy := Ne.symm hy8.1
    try have hnyl := nil_not_mem hy8.2.2.2.2.2.2.1
    try have hnyrr := nil_not_mem hy8.2.2.2.2.2.2.2
    try have hnp := Ne.symm hc.1
    try have hnsib := nil_not_mem hc.2.2.2.2.2.2.1
    try have hnfs := nil_not_mem_ctx hc.2.2.2.2.2.2.2
    try have hxl := ne_rootp_of_not_mem (T := l1) hz1 (by simp [hN])
    have e1 : (set_parent t (t.right y) y).parent z = t.parent z := by
      simp [upd_apply, hy6, hN, hz1]
    have e2 : (transplant (set_parent t (t.right y) y) z y).left z = pl := by
      simp [transplant_left, upd_apply, hy6, hz5, hz4, hN, hz1, hc]
    have hS := sameOff_trans (set_parent_sameOff t (t.right y) y)
      (erase_replace_sameOff (set_parent t (t.right y) y) z y)
    have hP := fun q => erase_replace_parent (set_parent t (t.right y) y) z y q
    have hL := fun q => erase_replace_left (set_parent t (t.right y) y) z y q
    have hR := fun q => erase_replace_right (set_parent t (t.right y) y) z y q
    have hC := fun q => erase_replace_color (set_parent t (t.right y) y) z y q
    have hRt := erase_replace_root (set_parent t (t.right y) y) z y
    have hNil := erase_replace_nil (set_parent t (t.right y) y) z y
    have hK := erase_replace_key (set_parent t (t.right y) y) z y
    rw [e1, e2, hy6, hz4] at hS
    simp only [e1, e2, hz4, transplant_left, transplant_right, set_parent_parent, set_parent_nil,
      set_parent_left, set_parent_right, set_parent_color, set_parent_root, set_parent_key,
      upd_apply, hy6] at hP hL hR hC hRt hNil hK
    try simp only [if_neg hz1] at hP hL hR hC hRt
    simp [hN, hz5, hz6, hy5] at hP hL hR hC hRt
    have hll := rep_frameD hS (by simp [hN, hnll]) hl7
    have hlr := rep_frameD hS (by simp [hN, hnlr]) hl8
    try have hyl := rep_frameD hS (by simp [hN, hnyl]) hy8.2.2.2.2.2.2.1
    try have hyrr := rep_frameD hS (by simp [hN, hnyrr]) hy8.2.2.2.2.2.2.2
    try have hsib := rep_frameD hS (by simp [hN, hnsib]) hc.2.2.2.2.2.2.1
    try have hfs := repc_frameD hS (by simp [hN, hnfs]) (by simp [hRt, hc]) hc.2.2.2.2.2.2.2
    refine ⟨⟨?_, ?_, ?_, ?_, ?_, ?_⟩, ?_⟩
    · simp [repc_nil, repc_inL, repc_inR, rep_node, hN, *]
    · simp [rep_node, hN, *]
    · refine names_nodup hnd ?_
      clear * -
      intro q
      simp only [ptrs_node, ptrs_leaf, cptrs_nil, cptrs_cons, frame_ptr_inL, frame_ptr_inR,
        frame_sib_inL, frame_sib_inR, List.count_cons, List.count_append, List.count_nil,
        beq_iff_eq]
      omega
    · simp [hN, *]
    · simp [hN, *]
    · simp [hN, *]
    · simp [hN, *]

/-- `rbtree_erase`, third branch with the successor `y` deeper in the right subtree
(lines 321-327), after `y` was taken out of the tree by `transplant`: `y` takes the
place of `z`. -/
theorem erase_succ_deep {t : rbtree} {ctx : List Frame} {ll lr rl rr : Tree}
    {z y pl pr : Nat} {c cl cr : color_t} {k kl kr : Int}
    (h : ZRep t ctx (Tree.node (Tree.node ll pl cl kl lr) z c k (Tree.node rl pr cr kr rr)))
    (hy : y ≠ t.nil)
    (hf : y ∉ (Tree.node (Tree.node ll pl cl kl lr) z c k (Tree.node rl pr cr kr rr)).ptrs ++
      cptrs ctx) :
    ZRep (rbtree_erase_replace (set_parent (set_right t y (t.right z))
        ((set_right t y (t.right z)).right y) y) z y) ctx
      (Tree.node (Tree.node ll pl cl kl lr) y c (t.key y) (Tree.node rl pr cr kr rr)) ∧
    ∀ q, q ≠ pl → q ≠ y → q ≠ pr →
      (rbtree_erase_replace (set_parent (set_right t y (t.right z))
        ((set_right t y (t.right z)).right y) y) z y).parent q = t.parent q := by
  obtain ⟨hc, hr, hnd, hnb, hsl, hsr⟩ := h
  simp only [rep_node] at hr
  obtain ⟨hz1, hz2, hz3, hz4, hz5, hz6, ⟨hl1, hl2, hl3, hl4, hl5, hl6, hl7, hl8⟩,
    hr1, hr2, hr3, hr4, hr5, hr6, hr7, hr8⟩ := hr
  simp only [rootp_node] at hz5 hz6
  rw [hz6]
  have e0 : (set_right t y pr).right y = pr := by simp [upd_apply]
  rw [e0]
  rcases ctx with _ | ⟨(⟨p, c1, k1, r1⟩ | ⟨l1, p, c1, k1⟩), fs⟩
  all_goals
    simp only [rootp_leaf, rootp_node, cpar_nil, cpar_cons, frame_ptr_inL, frame_ptr_inR,
      repc_nil, repc_inL, repc_inR, rep_node] at hc hz4
    have hN := hnd
    simp only [ptrs_node, ptrs_leaf, cptrs_nil, cptrs_cons, frame_ptr_inL, frame_ptr_inR,
      frame_sib_inL, frame_sib_inR, List.nodup_append, List.nodup_cons, List.mem_append,
      not_mem_cons_sym, not_or, List.disjoint_cons_left, List.disjoint_cons_right,
      List.disjoint_append_left, List.disjoint_append_right, List.nodup_nil,
      List.disjoint_nil_left, List.disjoint_nil_right, List.not_mem_nil, not_false_eq_true,
      true_and, and_true, List.nil_append, List.append_nil] at hN
    have hF := hf
    simp only [ptrs_node, ptrs_leaf, cptrs_nil, cptrs_cons, frame_ptr_inL, frame_ptr_inR,
      frame_sib_inL, frame_sib_inR, List.nodup_append, List.nodup_cons, List.mem_append,
      not_mem_cons_sym, not_or, List.disjoint_cons_left, List.disjoint_cons_right,
      List.disjoint_append_left, List.disjoint_append_right, List.nodup_nil,
      List.disjoint_nil_left, List.disjoint_nil_right, List.not_mem_nil, not_false_eq_true,
      true_and, and_true, List.nil_append, List.append_nil] at hF
    have hnz := Ne.symm hz1
    have hny := Ne.symm hy
    have hnl := Ne.symm hl1
    have hnr := Ne.symm hr1
    have hnll := nil_not_mem hl7
    have hnlr := nil_not_mem hl8
    have hnrl := nil_not_mem hr7
    have hnrr := nil_not_mem hr8
    try have hnp := Ne.symm hc.1
    try have hnsib := nil_not_mem hc.2.2.2.2.2.2.1
    try have hnfs := nil_not_mem_ctx hc.2.2.2.2.2.2.2
    try have hxl := ne_rootp_of_not_mem (T := l1) hz1 (by simp [hN])
    have e1 : (set_parent (set_right t y pr) pr y).parent z = t.parent z := by
      simp [upd_apply, hN]
    have e2 : (transplant (set_parent (set_right t y pr) pr y) z y).left z = pl := by
      simp [transplant_left, upd_apply, hz5, hz4, hN, hz1, hc]
    have hS := sameOff_trans (sameOff_trans (set_right_sameOff t y pr)
      (set_parent_sameOff (set_right t y pr) pr y))
      (erase_replace_sameOff (set_parent (set_right t y pr) pr y) z y)
    have hP := fun q => erase_replace_parent (set_parent (set_right t y pr) pr y) z y q
    have hL := fun q => erase_replace_left (set_parent (set_right t y pr) pr y) z y q
    have hR := fun q => erase_replace_right (set_parent (set_right t y pr) pr y) z y q
    have hC := fun q => erase_replace_color (set_parent (set_right t y pr) pr y) z y q
    have hRt := erase_replace_root (set_parent (set_right t y pr) pr y) z y
    have hNil := erase_replace_nil (set_parent (set_right t y pr) pr y) z y
    have hK := erase_replace_key (set_parent (set_right t y pr) pr y) z y
    rw [e1, e2, hz4] at hS
    simp only [e1, e2, hz4, transplant_left, transplant_right, set_parent_parent, set_parent_nil,
      set_parent_left, set_parent_right, set_parent_color, set_parent_root, set_parent_key,
      set_right_parent, set_right_nil, set_right_left, set_right_right, set_right_color,
      set_right_root, set_right_key, upd_apply, hz6] at hP hL hR hC hRt hNil hK
    try simp only [if_neg hz1] at hP hL hR hC hRt
    simp [hN, hF, hz5, hz6] at hP hL hR hC hRt
    have hll := rep_frameD hS (by simp [hN, hF, hnll]) hl7
    have hlr := rep_frameD hS (by simp [hN, hF, hnlr]) hl8
    have hrl := rep_frameD hS (by simp [hN, hF, hnrl]) hr7
    have hrr := rep_frameD hS (by simp [hN, hF, hnrr]) hr8
    try have hsib := rep_frameD hS (by simp [hN, hF, hnsib]) hc.2.2.2.2.2.2.1
    try have hfs := repc_frameD hS (by simp [hN, hF, hnfs]) (by simp [hRt, hc]) hc.2.2.2.2.2.2.2
    refine ⟨⟨?_, ?_, ?_, ?_, ?_, ?_⟩, ?_⟩
    · simp [repc_nil, repc_inL, repc_inR, rep_node, hN, hF, *]
    · simp [rep_node, hN, hF, *]
    · simp only [ptrs_node, ptrs_leaf, cptrs_nil, cptrs_cons, frame_ptr_inL, frame_ptr_inR,
        frame_sib_inL, frame_sib_inR, List.nodup_append, List.nodup_cons, List.mem_append,
        not_mem_cons_sym, not_or, List.disjoint_cons_left, List.disjoint_cons_right,
        List.disjoint_append_left, List.disjoint_append_right, List.nodup_nil,
        List.disjoint_nil_left, List.disjoint_nil_right, List.not_mem_nil, not_false_eq_true,
        true_and, and_true, List.nil_append, List.append_nil]
      simp [hN, hF]
    · simp [hN, hF, *]
    · simp [hN, hF, *]
    · simp [hN, hF, *]
    · intro q q1 q2 q3
      simp [hP, q1, q2, q3]

/-! ## The body of the loop of `rebuild_after_delete`, case by case -/

theorem drep_node {t : rbtree} {ctx : List Frame} {l r : Tree} {p : Nat} {c : color_t}
    {k : Int} (h : ZRep t ctx (Tree.node l p c k r)) : DRep t ctx (Tree.node l p c k r) := by
  have hr := h.rep
  simp only [rep_node] at hr
  exact ⟨h, hr.2.2.2.1⟩

/-- The scratch `parent` field of the sentinel survives a step that leaves it alone. -/
theorem drep_mk {t t' : rbtree} {ctx ctx' : List Frame} {X : Tree} (h : DRep t ctx X)
    (hz : ZRep t' ctx' X) (hnil : t'.nil = t.nil) (hp : t'.parent t.nil = t.parent t.nil)
    (hc : cpar t.nil ctx' = cpar t.nil ctx) : DRep t' ctx' X := by
  refine ⟨hz, ?_⟩
  cases X with
  | leaf =>
    have := h.par
    simp only [rootp_leaf] at this ⊢
    rw [hnil, hp, hc, this]
  | node l p c k r =>
    have hr := hz.rep
    simp only [rep_node] at hr
    exact hr.2.2.2.1

/-- Case 1 of the deletion fixup, `x` a left child: the sibling `w` is RED. After the
rotation at the parent the sibling of `x` is the near child of `w`. -/
theorem delete_case1_left_spec {t : rbtree} {rest : List Frame} {X wn wf : Tree} {p w : Nat}
    {cp : color_t} {kp kw : Int}
    (h : DRep t (Frame.inL p cp kp (Tree.node wn w RBTREE_RED kw wf) :: rest) X) :
    (delete_case1_left t (X.rootp t.nil)).2 = wn.rootp t.nil ∧
    DRep (delete_case1_left t (X.rootp t.nil)).1
      (Frame.inL p RBTREE_RED kp wn :: Frame.inL w RBTREE_BLACK kw wf :: rest) X ∧
    SameMeta t (delete_case1_left t (X.rootp t.nil)).1 := by
  have hx := h.par
  simp only [cpar_cons, frame_ptr_inL, frame_ptr_inR] at hx
  have h1 := zrep_up.mp h.z
  have hy := h1.rep
  simp only [rep_node, fill_inL, fill_inR, rootp_node] at hy
  obtain ⟨hy1, hy2, hy3, hy4, hy5, hy6, hy7, hy8⟩ := hy
  obtain ⟨hw1, hw2, hw3, hw4, hw5, hw6, hw7, hw8⟩ := hy8
  have a1 : ZRep t (Frame.inR X p cp kp :: rest) (Tree.node wn w RBTREE_RED kw wf) :=
    zrep_up.mpr h1
  have a2 := zrep_up.mp (zrep_set_color RBTREE_BLACK a1)
  have a3 := zrep_set_color RBTREE_RED a2
  obtain ⟨a4, a4p⟩ := rotate_left_spec a3
  have a5 : ZRep (rotate_left (set_color (set_color t w RBTREE_BLACK) p RBTREE_RED) p)
      (Frame.inL w RBTREE_BLACK kw wf :: rest) (Tree.node X p RBTREE_RED kp wn) :=
    zrep_up.mpr a4
  have a6 : ZRep (rotate_left (set_color (set_color t w RBTREE_BLACK) p RBTREE_RED) p)
      (Frame.inL p RBTREE_RED kp wn :: Frame.inL w RBTREE_BLACK kw wf :: rest) X :=
    zrep_up.mpr a5
  have d6 := drep_mk h a6 (by simp [rotate_left_nil, rotate_right_nil])
    (by simpa using a4p) rfl
  have hp6 := d6.par
  have hr5 := a5.rep
  simp only [rep_node, rotate_left_nil, rotate_right_nil, set_color_nil, cpar_cons,
    frame_ptr_inL, frame_ptr_inR] at hr5 hp6
  obtain ⟨hx1, hx2, hx3, hx4, hx5, hx6, hx7, hx8⟩ := hr5
  have hE : delete_case1_left t (X.rootp t.nil) =
      (rotate_left (set_color (set_color t w RBTREE_BLACK) p RBTREE_RED) p,
        wn.rootp t.nil) := by
    simp [delete_case1_left, hx, hy6, hw2, hp6, hx6]
  rw [hE]
  exact ⟨rfl, d6, sameMeta_trans (sameMeta_trans (sameMeta_set_color t w _)
    (sameMeta_set_color _ p _)) (sameMeta_rotate_left _ p)⟩

/-- Case 1 of the deletion fixup does nothing when the sibling is BLACK. -/
theorem delete_case1_left_skip {t : rbtree} {rest : List Frame} {X wn wf : Tree} {p w : Nat}
    {cp : color_t} {kp kw : Int}
    (h : DRep t (Frame.inL p cp kp (Tree.node wn w RBTREE_BLACK kw wf) :: rest) X) :
    delete_case1_left t (X.rootp t.nil) = (t, w) := by
  have hx := h.par
  simp only [cpar_cons, frame_ptr_inL, frame_ptr_inR] at hx
  have hy := (zrep_up.mp h.z).rep
  simp only [rep_node, fill_inL, fill_inR, rootp_node] at hy
  obtain ⟨hy1, hy2, hy3, hy4, hy5, hy6, hy7, hy8⟩ := hy
  obtain ⟨hw1, hw2, hw3, hw4, hw5, hw6, hw7, hw8⟩ := hy8
  simp [delete_case1_left, hx, hy6, hw2]

/-- Case 2 of the deletion fixup, `x` a left child: the sibling `w` has two BLACK
children; `w` turns RED and `x` moves up to the parent. -/
theorem delete_case2_left_spec {t : rbtree} {rest : List Frame} {X wn wf : Tree} {p w : Nat}
    {cp cw : color_t} {kp kw : Int}
    (h : DRep t (Frame.inL p cp kp (Tree.node wn w cw kw wf) :: rest) X)
    (hn : wn.rootColor = RBTREE_BLACK) (hf : wf.rootColor = RBTREE_BLACK) :
    (delete_case234_left t (X.rootp t.nil) w).2 = p ∧
    ZRep (delete_case234_left t (X.rootp t.nil) w).1 rest
      (Tree.node X p cp kp (Tree.node wn w RBTREE_RED kw wf)) ∧
    SameMeta t (delete_case234_left t (X.rootp t.nil) w).1 := by
  have hx := h.par
  simp only [cpar_cons, frame_ptr_inL, frame_ptr_inR] at hx
  have h1 := zrep_up.mp h.z
  have hy := h1.rep
  simp only [rep_node, fill_inL, fill_inR, rootp_node] at hy
  obtain ⟨hy1, hy2, hy3, hy4, hy5, hy6, hy7, hy8⟩ := hy
  obtain ⟨hw1, hw2, hw3, hw4, hw5, hw6, hw7, hw8⟩ := hy8
  have hcn : t.color (wn.rootp t.nil) = RBTREE_BLACK := by
    rw [color_rootp hw7 h.z.nil_black, hn]
  have hcf : t.color (wf.rootp t.nil) = RBTREE_BLACK := by
    rw [color_rootp hw8 h.z.nil_black, hf]
  have a1 : ZRep t (Frame.inR X p cp kp :: rest) (Tree.node wn w cw kw wf) :=
    zrep_up.mpr h1
  have a2 := zrep_up.mp (zrep_set_color RBTREE_RED a1)
  have hE : delete_case234_left t (X.rootp t.nil) w = (set_color t w RBTREE_RED, p) := by
    simp [delete_case234_left, hx, hw5, hw6, hcn, hcf]
  rw [hE]
  exact ⟨rfl, a2, sameMeta_set_color t w _⟩

/-- Case 3 of the deletion fixup, `x` a left child: the far child of the sibling `w`
is BLACK and the near child is a node; after the rotation at `w` the near child is the
sibling of `x`, with `w` as its RED far child. -/
theorem delete_case3_left_spec {t : rbtree} {rest : List Frame} {X a b wf : Tree}
    {p w n : Nat} {cp cw cn : color_t} {kp kw kn : Int}
    (h : DRep t (Frame.inL p cp kp (Tree.node (Tree.node a n cn kn b) w cw kw wf) :: rest) X)
    (hf : wf.rootColor = RBTREE_BLACK) :
    (delete_case3_left t (X.rootp t.nil) w).2 = n ∧
    DRep (delete_case3_left t (X.rootp t.nil) w).1
      (Frame.inL p cp kp (Tree.node a n RBTREE_BLACK kn (Tree.node b w RBTREE_RED kw wf)) ::
        rest) X ∧
    SameMeta t (delete_case3_left t (X.rootp t.nil) w).1 := by
  have hx := h.par
  simp only [cpar_cons, frame_ptr_inL, frame_ptr_inR] at hx
  have h1 := zrep_up.mp h.z
  have hy := h1.rep
  simp only [rep_node, fill_inL, fill_inR, rootp_node] at hy
  obtain ⟨hy1, hy2, hy3, hy4, hy5, hy6, hy7, hy8⟩ := hy
  obtain ⟨hw1, hw2, hw3, hw4, hw5, hw6, hw7, hw8⟩ := hy8
  have hcf : t.color (wf.rootp t.nil) = RBTREE_BLACK := by
    rw [color_rootp hw8 h.z.nil_black, hf]
  have a1 : ZRep t (Frame.inR X p cp kp :: rest)
      (Tree.node (Tree.node a n cn kn b) w cw kw wf) := zrep_up.mpr h1
  have a2 : ZRep t (Frame.inL w cw kw wf :: Frame.inR X p cp kp :: rest)
      (Tree.node a n cn kn b) := zrep_up.mpr a1
  have a3 := zrep_up.mp (zrep_set_color RBTREE_BLACK a2)
  have a4 := zrep_set_color RBTREE_RED a3
  obtain ⟨a5, a5p⟩ := rotate_right_spec a4
  have a6 := zrep_up.mp a5
  have a7 : ZRep (rotate_right (set_color (set_color t n RBTREE_BLACK) w RBTREE_RED) w)
      (Frame.inL p cp kp (Tree.node a n RBTREE_BLACK kn (Tree.node b w RBTREE_RED kw wf)) ::
        rest) X := zrep_up.mpr a6
  have d7 := drep_mk h a7 (by simp [rotate_left_nil, rotate_right_nil])
    (by simpa using a5p) rfl
  have hp7 := d7.par
  have hr6 := a6.rep
  simp only [rep_node, rotate_left_nil, rotate_right_nil, set_color_nil, cpar_cons,
    frame_ptr_inL, frame_ptr_inR, fill_inL, fill_inR, rootp_node] at hr6 hp7
  obtain ⟨hx1, hx2, hx3, hx4, hx5, hx6, hx7, hx8⟩ := hr6
  have hE : delete_case3_left t (X.rootp t.nil) w =
      (rotate_right (set_color (set_color t n RBTREE_BLACK) w RBTREE_RED) w, n) := by
    simp [delete_case3_left, hx, hw5, hw6, hcf, hp7, hx6]
  rw [hE]
  exact ⟨rfl, d7, sameMeta_trans (sameMeta_trans (sameMeta_set_color t n _)
    (sameMeta_set_color _ w _)) (sameMeta_rotate_right _ w)⟩

/-- Case 3 of the deletion fixup does nothing when the far child of the sibling is RED. -/
theorem delete_case3_left_skip {t : rbtree} {rest : List Frame} {X wn a b : Tree}
    {p w f : Nat} {cp cw : color_t} {kp kw kf : Int}
    (h : DRep t (Frame.inL p cp kp (Tree.node wn w cw kw (Tree.node a f RBTREE_RED kf b)) ::
      rest) X) :
    delete_case3_left t (X.rootp t.nil) w = (t, w) := by
  have hy := (zrep_up.mp h.z).rep
  simp only [rep_node, fill_inL, fill_inR, rootp_node] at hy
  obtain ⟨hy1, hy2, hy3, hy4, hy5, hy6, hy7, hy8⟩ := hy
  obtain ⟨hw1, hw2, hw3, hw4, hw5, hw6, hw7, hw8⟩ := hy8
  obtain ⟨hx1, hx2, hx3, hx4, hx5, hx6, hx7, hx8⟩ := hw8
  simp [delete_case3_left, hw6, hx2]

/-- Case 4 of the deletion fixup, `x` a left child: the far child of the sibling `w`
is a node; after the recolouring and the rotation at the parent, `w` stands where the
parent stood, with the colour of the parent, and `x` is the root. -/
theorem delete_case4_left_spec {t : rbtree} {rest : List Frame} {X wn a b : Tree}
    {p w f : Nat} {cp cw cf : color_t} {kp kw kf : Int}
    (h : DRep t (Frame.inL p cp kp (Tree.node wn w cw kw (Tree.node a f cf kf b)) ::
      rest) X) :
    (delete_case4_left t (X.rootp t.nil) w).2 = (delete_case4_left t (X.rootp t.nil) w).1.root ∧
    ZRep (delete_case4_left t (X.rootp t.nil) w).1 rest
      (Tree.node (Tree.node X p RBTREE_BLACK kp wn) w cp kw
        (Tree.node a f RBTREE_BLACK kf b)) ∧
    SameMeta t (delete_case4_left t (X.rootp t.nil) w).1 := by
  have hx := h.par
  simp only [cpar_cons, frame_ptr_inL, frame_ptr_inR] at hx
  have h1 := zrep_up.mp h.z
  have hy := h1.rep
  simp only [rep_node, fill_inL, fill_inR, rootp_node] at hy
  obtain ⟨hy1, hy2, hy3, hy4, hy5, hy6, hy7, hy8⟩ := hy
  obtain ⟨hw1, hw2, hw3, hw4, hw5, hw6, hw7, hw8⟩ := hy8
  have a1 : ZRep t (Frame.inR X p cp kp :: rest)
      (Tree.node wn w cw kw (Tree.node a f cf kf b)) := zrep_up.mpr h1
  have a2 := zrep_up.mp (zrep_set_color cp a1)
  have a3 := zrep_set_color RBTREE_BLACK a2
  have a4 : ZRep (set_color (set_color t w cp) p RBTREE_BLACK)
      (Frame.inR X p RBTREE_BLACK kp :: rest)
      (Tree.node wn w cp kw (Tree.node a f cf kf b)) := zrep_up.mpr a3
  have a5 : ZRep (set_color (set_color t w cp) p RBTREE_BLACK)
      (Frame.inR wn w cp kw :: Frame.inR X p RBTREE_BLACK kp :: rest)
      (Tree.node a f cf kf b) := zrep_up.mpr a4
  have a6 := zrep_up.mp (zrep_up.mp (zrep_set_color RBTREE_BLACK a5))
  obtain ⟨a7, -⟩ := rotate_left_spec a6
  have hE : delete_case4_left t (X.rootp t.nil) w =
      (rotate_left (set_color (set_color (set_color t w cp) p RBTREE_BLACK) f RBTREE_BLACK) p,
        (rotate_left (set_color (set_color (set_color t w cp) p RBTREE_BLACK) f
          RBTREE_BLACK) p).root) := by
    simp [delete_case4_left, hx, hy2, hw6]
  rw [hE]
  exact ⟨rfl, a7, sameMeta_trans (sameMeta_trans (sameMeta_trans (sameMeta_set_color t w _)
    (sameMeta_set_color _ p _)) (sameMeta_set_color _ f _)) (sameMeta_rotate_left _ p)⟩

/-- Case 1 of the deletion fixup, `x` a right child: the sibling `w` is RED. After the
rotation at the parent the sibling of `x` is the near child of `w`. -/
theorem delete_case1_right_spec {t : rbtree} {rest : List Frame} {X wn wf : Tree} {p w : Nat}
    {cp : color_t} {kp kw : Int}
    (h : DRep t (Frame.inR (Tree.node wf w RBTREE_RED kw wn) p cp kp :: rest) X) :
    (delete_case1_right t (X.rootp t.nil)).2 = wn.rootp t.nil ∧
    DRep (delete_case1_right t (X.rootp t.nil)).1
      (Frame.inR wn p RBTREE_RED kp :: Frame.inR wf w RBTREE_BLACK kw :: rest) X ∧
    SameMeta t (delete_case1_right t (X.rootp t.nil)).1 := by
  have hx := h.par
  simp only [cpar_cons, frame_ptr_inR, frame_ptr_inL] at hx
  have h1 := zrep_up.mp h.z
  have hy := h1.rep
  simp only [rep_node, fill_inR, fill_inL, rootp_node] at hy
  obtain ⟨hy1, hy2, hy3, hy4, hy6, hy5, hy8, hy7⟩ := hy
  obtain ⟨hw1, hw2, hw3, hw4, hw6, hw5, hw8, hw7⟩ := hy8
  have a1 : ZRep t (Frame.inL p cp kp X :: rest) (Tree.node wf w RBTREE_RED kw wn) :=
    zrep_up.mpr h1
  have a2 := zrep_up.mp (zrep_set_color RBTREE_BLACK a1)
  have a3 := zrep_set_color RBTREE_RED a2
  obtain ⟨a4, a4p⟩ := rotate_right_spec a3
  have a5 : ZRep (rotate_right (set_color (set_color t w RBTREE_BLACK) p RBTREE_RED) p)
      (Frame.inR wf w RBTREE_BLACK kw :: rest) (Tree.node wn p RBTREE_RED kp X) :=
    zrep_up.mpr a4
  have a6 : ZRep (rotate_right (set_color (set_color t w RBTREE_BLACK) p RBTREE_RED) p)
      (Frame.inR wn p RBTREE_RED kp :: Frame.inR wf w RBTREE_BLACK kw :: rest) X :=
    zrep_up.mpr a5
  have d6 := drep_mk h a6 (by simp [rotate_right_nil, rotate_left_nil])
    (by simpa using a4p) rfl
  have hp6 := d6.par
  have hr5 := a5.rep
  simp only [rep_node, rotate_right_nil, rotate_left_nil, set_color_nil, cpar_cons,
    frame_ptr_inR, frame_ptr_inL] at hr5 hp6
  obtain ⟨hx1, hx2, hx3, hx4, hx6, hx5, hx8, hx7⟩ := hr5
  have hE : delete_case1_right t (X.rootp t.nil) =
      (rotate_right (set_color (set_color t w RBTREE_BLACK) p RBTREE_RED) p,
        wn.rootp t.nil) := by
    simp [delete_case1_right, hx, hy6, hw2, hp6, hx6]
  rw [hE]
  exact ⟨rfl, d6, sameMeta_trans (sameMeta_trans (sameMeta_set_color t w _)
    (sameMeta_set_color _ p _)) (sameMeta_rotate_right _ p)⟩

/-- Case 1 of the deletion fixup does nothing when the sibling is BLACK. -/
theorem delete_case1_right_skip {t : rbtree} {rest : List Frame} {X wn wf : Tree} {p w : Nat}
    {cp : color_t} {kp kw : Int}
    (h : DRep t (Frame.inR (Tree.node wf w RBTREE_BLACK kw wn) p cp kp :: rest) X) :
    delete_case1_right t (X.rootp t.nil) = (t, w) := by
  have hx := h.par
  simp only [cpar_cons, frame_ptr_inR, frame_ptr_inL] at hx
  have hy := (zrep_up.mp h.z).rep
  simp only [rep_node, fill_inR, fill_inL, rootp_node] at hy
  obtain ⟨hy1, hy2, hy3, hy4, hy6, hy5, hy8, hy7⟩ := hy
  obtain ⟨hw1, hw2, hw3, hw4, hw6, hw5, hw8, hw7⟩ := hy8
  simp [delete_case1_right, hx, hy6, hw2]

/-- Case 2 of the deletion fixup, `x` a right child: the sibling `w` has two BLACK
children; `w` turns RED and `x` moves up to the parent. -/
theorem delete_case2_right_spec {t : rbtree} {rest : List Frame} {X wn wf : Tree} {p w : Nat}
    {cp cw : color_t} {kp kw : Int}
    (h : DRep t (Frame.inR (Tree.node wf w cw kw wn) p cp kp :: rest) X)
    (hn : wn.rootColor = RBTREE_BLACK) (hf : wf.rootColor = RBTREE_BLACK) :
    (delete_case234_right t (X.rootp t.nil) w).2 = p ∧
    ZRep (delete_case234_right t (X.rootp t.nil) w).1 rest
      (Tree.node (Tree.node wf w RBTREE_RED kw wn) p cp kp X) ∧
    SameMeta t (delete_case234_right t (X.rootp t.nil) w).1 := by
  have hx := h.par
  simp only [cpar_cons, frame_ptr_inR, frame_ptr_inL] at hx
  have h1 := zrep_up.mp h.z
  have hy := h1.rep
  simp only [rep_node, fill_inR, fill_inL, rootp_node] at hy
  obtain ⟨hy1, hy2, hy3, hy4, hy6, hy5, hy8, hy7⟩ := hy
  obtain ⟨hw1, hw2, hw3, hw4, hw6, hw5, hw8, hw7⟩ := hy8
  have hcn : t.color (wn.rootp t.nil) = RBTREE_BLACK := by
    rw [color_rootp hw7 h.z.nil_black, hn]
  have hcf : t.color (wf.rootp t.nil) = RBTREE_BLACK := by
    rw [color_rootp hw8 h.z.nil_black, hf]
  have a1 : ZRep t (Frame.inL p cp kp X :: rest) (Tree.node wf w cw kw wn) :=
    zrep_up.mpr h1
  have a2 := zrep_up.mp (zrep_set_color RBTREE_RED a1)
  have hE : delete_case234_right t (X.rootp t.nil) w = (set_color t w RBTREE_RED, p) := by
    simp [delete_case234_right, hx, hw5, hw6, hcn, hcf]
  rw [hE]
  exact ⟨rfl, a2, sameMeta_set_color t w _⟩

/-- Case 3 of the deletion fixup, `x` a right child: the far child of the sibling `w`
is BLACK and the near child is a node; after the rotation at `w` the near child is the
sibling of `x`, with `w` as its RED far child. -/
theorem delete_case3_right_spec {t : rbtree} {rest : List Frame} {X a b wf : Tree}
    {p w n : Nat} {cp cw cn : color_t} {kp kw kn : Int}
    (h : DRep t (Frame.inR (Tree.node wf w cw kw (Tree.node b n cn kn a)) p cp kp :: rest) X)
    (hf : wf.rootColor = RBTREE_BLACK) :
    (delete_case3_right t (X.rootp t.nil) w).2 = n ∧
    DRep (delete_case3_right t (X.rootp t.nil) w).1
      (Frame.inR (Tree.node (Tree.node wf w RBTREE_RED kw b) n RBTREE_BLACK kn a) p cp kp ::
        rest) X ∧
    SameMeta t (delete_case3_right t (X.rootp t.nil) w).1 := by
  have hx := h.par
  simp only [cpar_cons, frame_ptr_inR, frame_ptr_inL] at hx
  have h1 := zrep_up.mp h.z
  have hy := h1.rep
  simp only [rep_node, fill_inR, fill_inL, rootp_node] at hy
  obtain ⟨hy1, hy2, hy3, hy4, hy6, hy5, hy8, hy7⟩ := hy
  obtain ⟨hw1, hw2, hw3, hw4, hw6, hw5, hw8, hw7⟩ := hy8
  have hcf : t.color (wf.rootp t.nil) = RBTREE_BLACK := by
    rw [color_rootp hw8 h.z.nil_black, hf]
  have a1 : ZRep t (Frame.inL p cp kp X :: rest)
      (Tree.node wf w cw kw (Tree.node b n cn kn a)) := zrep_up.mpr h1
  have a2 : ZRep t (Frame.inR wf w cw kw :: Frame.inL p cp kp X :: rest)
      (Tree.node b n cn kn a) := zrep_up.mpr a1
  have a3 := zrep_up.mp (zrep_set_color RBTREE_BLACK a2)
  have a4 := zrep_set_color RBTREE_RED a3
  obtain ⟨a5, a5p⟩ := rotate_left_spec a4
  have a6 := zrep_up.mp a5
  have a7 : ZRep (rotate_left (set_color (set_color t n RBTREE_BLACK) w RBTREE_RED) w)
      (Frame.inR (Tree.node (Tree.node wf w RBTREE_RED kw b) n RBTREE_BLACK kn a) p cp kp ::
        rest) X := zrep_up.mpr a6
  have d7 := drep_mk h a7 (by simp [rotate_right_nil, rotate_left_nil])
    (by simpa using a5p) rfl
  have hp7 := d7.par
  have hr6 := a6.rep
  simp only [rep_node, rotate_right_nil, rotate_left_nil, set_color_nil, cpar_cons,
    frame_ptr_inR, frame_ptr_inL, fill_inR, fill_inL, rootp_node] at hr6 hp7
  obtain ⟨hx1, hx2, hx3, hx4, hx6, hx5, hx8, hx7⟩ := hr6
  have hE : delete_case3_right t (X.rootp t.nil) w =
      (rotate_left (set_color (set_color t n RBTREE_BLACK) w RBTREE_RED) w, n) := by
    simp [delete_case3_right, hx, hw5, hw6, hcf, hp7, hx6]
  rw [hE]
  exact ⟨rfl, d7, sameMeta_trans (sameMeta_trans (sameMeta_set_color t n _)
    (sameMeta_set_color _ w _)) (sameMeta_rotate_left _ w)⟩

/-- Case 3 of the deletion fixup does nothing when the far child of the sibling is RED. -/
theorem delete_case3_right_skip {t : rbtree} {rest : List Frame} {X wn a b : Tree}
    {p w f : Nat} {cp cw : color_t} {kp kw kf : Int}
    (h : DRep t (Frame.inR (Tree.node (Tree.node b f RBTREE_RED kf a) w cw kw wn) p cp kp ::
      rest) X) :
    delete_case3_right t (X.rootp t.nil) w = (t, w) := by
  have hy := (zrep_up.mp h.z).rep
  simp only [rep_node, fill_inR, fill_inL, rootp_node] at hy
  obtain ⟨hy1, hy2, hy3, hy4, hy6, hy5, hy8, hy7⟩ := hy
  obtain ⟨hw1, hw2, hw3, hw4, hw6, hw5, hw8, hw7⟩ := hy8
  obtain ⟨hx1, hx2, hx3, hx4, hx6, hx5, hx8, hx7⟩ := hw8
  simp [delete_case3_right, hw6, hx2]

/-- Case 4 of the deletion fixup, `x` a right child: the far child of the sibling `w`
is a node; after the recolouring and the rotation at the parent, `w` stands where the
parent stood, with the colour of the parent, and `x` is the root. -/
theorem delete_case4_right_spec {t : rbtree} {rest : List Frame} {X wn a b : Tree}
    {p w f : Nat} {cp cw cf : color_t} {kp kw kf : Int}
    (h : DRep t (Frame.inR (Tree.node (Tree.node b f cf kf a) w cw kw wn) p cp kp ::
      rest) X) :
    (delete_case4_right t (X.rootp t.nil) w).2 = (delete_case4_right t (X.rootp t.nil) w).1.root ∧
    ZRep (delete_case4_right t (X.rootp t.nil) w).1 rest
      (Tree.node (Tree.node b f RBTREE_BLACK kf a) w cp kw
        (Tree.node wn p RBTREE_BLACK kp X)) ∧
    SameMeta t (delete_case4_right t (X.rootp t.nil) w).1 := by
  have hx := h.par
  simp only [cpar_cons, frame_ptr_inR, frame_ptr_inL] at hx
  have h1 := zrep_up.mp h.z
  have hy := h1.rep
  simp only [rep_node, fill_inR, fill_inL, rootp_node] at hy
  obtain ⟨hy1, hy2, hy3, hy4, hy6, hy5, hy8, hy7⟩ := hy
  obtain ⟨hw1, hw2, hw3, hw4, hw6, hw5, hw8, hw7⟩ := hy8
  have a1 : ZRep t (Frame.inL p cp kp X :: rest)
      (Tree.node (Tree.node b f cf kf a) w cw kw wn) := zrep_up.mpr h1
  have a2 := zrep_up.mp (zrep_set_color cp a1)
  have a3 := zrep_set_color RBTREE_BLACK a2
  have a4 : ZRep (set_color (set_color t w cp) p RBTREE_BLACK)
      (Frame.inL p RBTREE_BLACK kp X :: rest)
      (Tree.node (Tree.node b f cf kf a) w cp kw wn) := zrep_up.mpr a3
  have a5 : ZRep (set_color (set_color t w cp) p RBTREE_BLACK)
      (Frame.inL w cp kw wn :: Frame.inL p RBTREE_BLACK kp X :: rest)
      (Tree.node b f cf kf a) := zrep_up.mpr a4
  have a6 := zrep_up.mp (zrep_up.mp (zrep_set_color RBTREE_BLACK a5))
  obtain ⟨a7, -⟩ := rotate_right_spec a6
  have hE : delete_case4_right t (X.rootp t.nil) w =
      (rotate_right (set_color (set_color (set_color t w cp) p RBTREE_BLACK) f RBTREE_BLACK) p,
        (rotate_right (set_color (set_color (set_color t w cp) p RBTREE_BLACK) f
          RBTREE_BLACK) p).root) := by
    simp [delete_case4_right, hx, hy2, hw6]
  rw [hE]
  exact ⟨rfl, a7, sameMeta_trans (sameMeta_trans (sameMeta_trans (sameMeta_set_color t w _)
    (sameMeta_set_color _ p _)) (sameMeta_set_color _ f _)) (sameMeta_rotate_right _ p)⟩

/-! ## The colour invariants through the loop of `rebuild_after_delete` -/

theorem noRedRed_blacken {T : Tree} (h : noRedRed T) : noRedRed T.blacken := by
  cases T with
  | leaf => trivial
  | node l p c k r => cases c <;> simp_all

theorem bh_blacken {T : Tree} {n : Nat} (h : BH T n) (hc : T.rootColor = RBTREE_RED) :
    BH T.blacken (n + 1) := by
  cases T with
  | leaf => simp at hc
  | node l p c k r =>
    simp only [rootColor_node] at hc
    subst hc
    simpa using h

/-- A valid context filled with a valid subtree is a tree fit for the exit of the loop. -/
theorem delInv_root {rest : List Frame} {S : Tree} {k : Nat} (hc : CtxInv rest k)
    (hb : BH S k) (hr : noRedRed S) (hok : RedOK rest S.rootColor) :
    ∃ m, DelInv [] (plug rest S) m := by
  obtain ⟨a, ⟨m, b⟩, -⟩ := plug_inv hc hb hr hok
  exact ⟨m, b, noRedRed_blacken a, trivial⟩

/-- At the exit of the loop of `rebuild_after_delete` (`x` is the root, or RED) the
tree with `x` coloured BLACK is a valid red-black tree. -/
theorem delInv_done {ctx : List Frame} {X : Tree} {n : Nat} (hi : DelInv ctx X n)
    (hx : ctx = [] ∨ X.rootColor = RBTREE_RED) : RBInv (plug ctx X.blacken) := by
  obtain ⟨hb, hr, hc⟩ := hi
  cases ctx with
  | nil =>
    cases X with
    | leaf => exact rbinv_blacken hr hb
    | node l p c k r =>
      cases c
      · exact rbinv_blacken (T := (Tree.node l p RBTREE_RED k r).blacken) hr
          (bh_blacken hb rfl)
      · exact rbinv_blacken (T := Tree.node l p RBTREE_BLACK k r) hr hb
  | cons f fs =>
    rcases hx with hx | hx
    · cases hx
    · obtain ⟨a, ⟨m, b⟩, c⟩ := plug_inv hc (bh_blacken hb hx) hr (by
        cases X with
        | leaf => exact redOK_black _
        | node l p c k r => exact redOK_black _)
      refine ⟨c (by simp), a, (equalBlack_iff _).mpr ⟨m, b⟩⟩

/-- Invariants through case 1 of the deletion fixup, `x` a left child. -/
theorem delInv_case1_left {rest : List Frame} {X wn wf : Tree} {p w : Nat} {cp : color_t}
    {kp kw : Int} {n : Nat}
    (hi : DelInv (Frame.inL p cp kp (Tree.node wn w RBTREE_RED kw wf) :: rest) X n) :
    DelInv (Frame.inL p RBTREE_RED kp wn :: Frame.inL w RBTREE_BLACK kw wf :: rest) X n ∧
    ∃ a q kq b, wn = Tree.node a q RBTREE_BLACK kq b := by
  obtain ⟨hb, hr, hc⟩ := hi
  cases cp with
  | RBTREE_RED => simp [CtxInv, Frame.sib, Frame.color] at hc
  | RBTREE_BLACK =>
    simp only [CtxInv, Frame.sib, Frame.color, bh_red, noRedRed_red, if_true] at hc
    obtain ⟨hbs, ⟨hcs, hrs⟩, hrest⟩ := hc
    refine ⟨⟨hb, hr, ?_⟩, ?_⟩
    · simp only [CtxInv, Frame.sib, Frame.color, if_true, reduceCtorEq, if_false]
      have ok : RedOK (Frame.inL w RBTREE_BLACK kw wf :: rest) RBTREE_RED :=
        fun _ => ⟨_, _, rfl, rfl⟩
      simp [hbs, hcs, hrs, hrest, ok]
    · cases wn with
      | leaf => simp at hbs
      | node a q cq kq b =>
        simp only [rootColor_node] at hcs
        simp [hcs]

/-- Invariants through case 2 of the deletion fixup, `x` a left child. -/
theorem delInv_case2_left {rest : List Frame} {X wn wf : Tree} {p w : Nat} {cp : color_t}
    {kp kw : Int} {n : Nat}
    (hi : DelInv (Frame.inL p cp kp (Tree.node wn w RBTREE_BLACK kw wf) :: rest) X n)
    (hX : X.rootColor = RBTREE_BLACK)
    (hn : wn.rootColor = RBTREE_BLACK) (hf : wf.rootColor = RBTREE_BLACK) :
    ∃ m, DelInv rest (Tree.node X p cp kp (Tree.node wn w RBTREE_RED kw wf)) m := by
  obtain ⟨hb, hr, hc⟩ := hi
  rw [blacken_of_black hX] at hr
  cases cp with
  | RBTREE_RED =>
    simp only [CtxInv, Frame.sib, Frame.color, bh_black, noRedRed_black, reduceCtorEq,
      if_false] at hc
    obtain ⟨⟨m, hm, hbs⟩, hrs, -, -, hrest⟩ := hc
    have hm' : m = n := by omega
    subst hm'
    exact ⟨m, by simp [*], by simp [*], hrest⟩
  | RBTREE_BLACK =>
    simp only [CtxInv, Frame.sib, Frame.color, bh_black, noRedRed_black, if_true] at hc
    obtain ⟨⟨m, hm, hbs⟩, hrs, hrest⟩ := hc
    have hm' : m = n := by omega
    subst hm'
    exact ⟨m + 1, by simp [*], by simp [*], hrest⟩

/-- Invariants through case 4 of the deletion fixup, `x` a left child. -/
theorem delInv_case4_left {rest : List Frame} {X wn a b : Tree} {p w f : Nat}
    {cp : color_t} {kp kw kf : Int} {n : Nat}
    (hi : DelInv (Frame.inL p cp kp
      (Tree.node wn w RBTREE_BLACK kw (Tree.node a f RBTREE_RED kf b)) :: rest) X n)
    (hX : X.rootColor = RBTREE_BLACK) :
    ∃ m, DelInv [] (plug rest (Tree.node (Tree.node X p RBTREE_BLACK kp wn) w cp kw
      (Tree.node a f RBTREE_BLACK kf b))) m := by
  obtain ⟨hb, hr, hc⟩ := hi
  rw [blacken_of_black hX] at hr
  cases cp with
  | RBTREE_RED =>
    simp only [CtxInv, Frame.sib, Frame.color, bh_black, bh_red, noRedRed_black, noRedRed_red,
      reduceCtorEq, if_false] at hc
    obtain ⟨⟨m, hm, hbs⟩, hrs, -, ok, hrest⟩ := hc
    have hm' : m = n := by omega
    subst hm'
    exact delInv_root hrest (by simp [*]) (by simp [*]) ok
  | RBTREE_BLACK =>
    simp only [CtxInv, Frame.sib, Frame.color, bh_black, bh_red, noRedRed_black, noRedRed_red,
      if_true] at hc
    obtain ⟨⟨m, hm, hbs⟩, hrs, hrest⟩ := hc
    have hm' : m = n := by omega
    subst hm'
    exact delInv_root hrest (by simp [*]) (by simp [*]) (redOK_black _)

/-- Invariants through cases 3 and 4 of the deletion fixup, `x` a left child. -/
theorem delInv_case3_left {rest : List Frame} {X a b wf : Tree} {p w q : Nat}
    {cp : color_t} {kp kw kq : Int} {n : Nat}
    (hi : DelInv (Frame.inL p cp kp
      (Tree.node (Tree.node a q RBTREE_RED kq b) w RBTREE_BLACK kw wf) :: rest) X n)
    (hX : X.rootColor = RBTREE_BLACK) :
    ∃ m, DelInv [] (plug rest (Tree.node (Tree.node X p RBTREE_BLACK kp a) q cp kq
      (Tree.node b w RBTREE_BLACK kw wf))) m := by
  obtain ⟨hb, hr, hc⟩ := hi
  rw [blacken_of_black hX] at hr
  cases cp with
  | RBTREE_RED =>
    simp only [CtxInv, Frame.sib, Frame.color, bh_black, bh_red, noRedRed_black, noRedRed_red,
      reduceCtorEq, if_false] at hc
    obtain ⟨⟨m, hm, hbs⟩, hrs, -, ok, hrest⟩ := hc
    have hm' : m = n := by omega
    subst hm'
    exact delInv_root hrest (by simp [*]) (by simp [*]) ok
  | RBTREE_BLACK =>
    simp only [CtxInv, Frame.sib, Frame.color, bh_black, bh_red, noRedRed_black, noRedRed_red,
      if_true] at hc
    obtain ⟨⟨m, hm, hbs⟩, hrs, hrest⟩ := hc
    have hm' : m = n := by omega
    subst hm'
    exact delInv_root hrest (by simp [*]) (by simp [*]) (redOK_black _)

/-- Invariants through case 1 of the deletion fixup, `x` a right child. -/
theorem delInv_case1_right {rest : List Frame} {X wn wf : Tree} {p w : Nat} {cp : color_t}
    {kp kw : Int} {n : Nat}
    (hi : DelInv (Frame.inR (Tree.node wf w RBTREE_RED kw wn) p cp kp :: rest) X n) :
    DelInv (Frame.inR wn p RBTREE_RED kp :: Frame.inR wf w RBTREE_BLACK kw :: rest) X n ∧
    ∃ a q kq b, wn = Tree.node b q RBTREE_BLACK kq a := by
  obtain ⟨hb, hr, hc⟩ := hi
  cases cp with
  | RBTREE_RED => simp [CtxInv, Frame.sib, Frame.color] at hc
  | RBTREE_BLACK =>
    simp only [CtxInv, Frame.sib, Frame.color, bh_red, noRedRed_red, if_true] at hc
    obtain ⟨hbs, ⟨hcs, hrs⟩, hrest⟩ := hc
    refine ⟨⟨hb, hr, ?_⟩, ?_⟩
    · simp only [CtxInv, Frame.sib, Frame.color, if_true, reduceCtorEq, if_false]
      have ok : RedOK (Frame.inR wf w RBTREE_BLACK kw :: rest) RBTREE_RED :=
        fun _ => ⟨_, _, rfl, rfl⟩
      simp [hbs, hcs, hrs, hrest, ok]
    · cases wn with
      | leaf => simp at hbs
      | node a q cq kq b =>
        simp only [rootColor_node] at hcs
        simp [hcs]

/-- Invariants through case 2 of the deletion fixup, `x` a right child. -/
theorem delInv_case2_right {rest : List Frame} {X wn wf : Tree} {p w : Nat} {cp : color_t}
    {kp kw : Int} {n : Nat}
    (hi : DelInv (Frame.inR (Tree.node wf w RBTREE_BLACK kw wn) p cp kp :: rest) X n)
    (hX : X.rootColor = RBTREE_BLACK)
    (hn : wn.rootColor = RBTREE_BLACK) (hf : wf.rootColor = RBTREE_BLACK) :
    ∃ m, DelInv rest (Tree.node (Tree.node wf w RBTREE_RED kw wn) p cp kp X) m := by
  obtain ⟨hb, hr, hc⟩ := hi
  rw [blacken_of_black hX] at hr
  cases cp with
  | RBTREE_RED =>
    simp only [CtxInv, Frame.sib, Frame.color, bh_black, noRedRed_black, reduceCtorEq,
      if_false] at hc
    obtain ⟨⟨m, hm, hbs⟩, hrs, -, -, hrest⟩ := hc
    have hm' : m = n := by omega
    subst hm'
    exact ⟨m, by simp [*], by simp [*], hrest⟩
  | RBTREE_BLACK =>
    simp only [CtxInv, Frame.sib, Frame.color, bh_black, noRedRed_black, if_true] at hc
    obtain ⟨⟨m, hm, hbs⟩, hrs, hrest⟩ := hc
    have hm' : m = n := by omega
    subst hm'
    exact ⟨m + 1, by simp [*], by simp [*], hrest⟩

/-- Invariants through case 4 of the deletion fixup, `x` a right child. -/
theorem delInv_case4_right {rest : List Frame} {X wn a b : Tree} {p w f : Nat}
    {cp : color_t} {kp kw kf : Int} {n : Nat}
    (hi : DelInv (Frame.inR (Tree.node (Tree.node b f RBTREE_RED kf a) w RBTREE_BLACK kw wn) p cp
      kp :: rest) X n)
    (hX : X.rootColor = RBTREE_BLACK) :
    ∃ m, DelInv [] (plug rest (Tree.node (Tree.node b f RBTREE_BLACK kf a) w cp kw
      (Tree.node wn p RBTREE_BLACK kp X))) m := by
  obtain ⟨hb, hr, hc⟩ := hi
  rw [blacken_of_black hX] at hr
  cases cp with
  | RBTREE_RED =>
    simp only [CtxInv, Frame.sib, Frame.color, bh_black, bh_red, noRedRed_black, noRedRed_red,
      reduceCtorEq, if_false] at hc
    obtain ⟨⟨m, hm, hbs⟩, hrs, -, ok, hrest⟩ := hc
    have hm' : m = n := by omega
    subst hm'
    exact delInv_root hrest (by simp [*]) (by simp [*]) ok
  | RBTREE_BLACK =>
    simp only [CtxInv, Frame.sib, Frame.color, bh_black, bh_red, noRedRed_black, noRedRed_red,
      if_true] at hc
    obtain ⟨⟨m, hm, hbs⟩, hrs, hrest⟩ := hc
    have hm' : m = n := by omega
    subst hm'
    exact delInv_root hrest (by simp [*]) (by simp [*]) (redOK_black _)

/-- Invariants through cases 3 and 4 of the deletion fixup, `x` a right child. -/
theorem delInv_case3_right {rest : List Frame} {X a b wf : Tree} {p w q : Nat}
    {cp : color_t} {kp kw kq : Int} {n : Nat}
    (hi : DelInv (Frame.inR (Tree.node wf w RBTREE_BLACK kw (Tree.node b q RBTREE_RED kq a)) p cp
      kp :: rest) X n)
    (hX : X.rootColor = RBTREE_BLACK) :
    ∃ m, DelInv [] (plug rest (Tree.node (Tree.node wf w RBTREE_BLACK kw b) q cp kq
      (Tree.node a p RBTREE_BLACK kp X))) m := by
  obtain ⟨hb, hr, hc⟩ := hi
  rw [blacken_of_black hX] at hr
  cases cp with
  | RBTREE_RED =>
    simp only [CtxInv, Frame.sib, Frame.color, bh_black, bh_red, noRedRed_black, noRedRed_red,
      reduceCtorEq, if_false] at hc
    obtain ⟨⟨m, hm, hbs⟩, hrs, -, ok, hrest⟩ := hc
    have hm' : m = n := by omega
    subst hm'
    exact delInv_root hrest (by simp [*]) (by simp [*]) ok
  | RBTREE_BLACK =>
    simp only [CtxInv, Frame.sib, Frame.color, bh_black, bh_red, noRedRed_black, noRedRed_red,
      if_true] at hc
    obtain ⟨⟨m, hm, hbs⟩, hrs, hrest⟩ := hc
    have hm' : m = n := by omega
    subst hm'
    exact delInv_root hrest (by simp [*]) (by simp [*]) (redOK_black _)

/-! ## The loop of `rebuild_after_delete` -/

theorem plug_node (ctx : List Frame) (l : Tree) (p : Nat) (c : color_t) (k : Int) (r : Tree) :
    ∃ l' p' c' k' r', plug ctx (Tree.node l p c k r) = Tree.node l' p' c' k' r' := by
  induction ctx generalizing l p c k r with
  | nil => exact ⟨l, p, c, k, r, rfl⟩
  | cons f fs ih =>
    cases f with
    | inL q cq kq s => exact ih _ _ _ _ _
    | inR s q cq kq => exact ih _ _ _ _ _

/-- A state that holds a node in a context holds the whole tree, with `t->root` at
its root. -/
theorem drep_root {t : rbtree} {ctx : List Frame} {l r : Tree} {p : Nat} {c : color_t}
    {k : Int} (h : ZRep t ctx (Tree.node l p c k r)) :
    DRep t [] (plug ctx (Tree.node l p c k r)) ∧
      t.root = (plug ctx (Tree.node l p c k r)).rootp t.nil := by
  have hz := zrep_plug.mp h
  refine ⟨?_, hz.repc⟩
  obtain ⟨l', p', c', k', r', e⟩ := plug_node ctx l p c k r
  rw [e] at hz ⊢
  exact drep_node hz

theorem rootp_plug_mem (n : Nat) (f : Frame) (fs : List Frame) (X : Tree) :
    (plug (f :: fs) X).rootp n ∈ cptrs (f :: fs) := by
  induction fs generalizing f X with
  | nil => cases f <;> simp [plug]
  | cons g gs ih =>
    have := ih g (f.fill X)
    simp only [plug] at this ⊢
    simp only [cptrs_cons] at this ⊢
    exact List.mem_cons_of_mem _ (List.mem_append_right _ this)

/-- Below a non-empty context `x` is not the root. -/
theorem rootp_ne_root {t : rbtree} {f : Frame} {fs : List Frame} {X : Tree}
    (h : ZRep t (f :: fs) X) : X.rootp t.nil ≠ t.root := by
  have hroot : t.root = (plug (f :: fs) X).rootp t.nil := (zrep_plug.mp h).repc
  have hm := rootp_plug_mem t.nil f fs X
  rw [← hroot] at hm
  intro e
  rcases rootp_mem t.nil X with h1 | h1
  · rw [h1] at e
    exact nil_not_mem_ctx h.repc (e ▸ hm)
  · have hd := (List.nodup_append.mp h.nodup).2.2
    exact hd h1 (e ▸ hm)

/-- Case 4 of the deletion fixup reached directly, `x` a left child: the far child
of the sibling is RED. -/
theorem delete_case234_left_far {t : rbtree} {rest : List Frame} {X wn a b : Tree}
    {p w f : Nat} {cp cw : color_t} {kp kw kf : Int}
    (h : DRep t (Frame.inL p cp kp (Tree.node wn w cw kw (Tree.node a f RBTREE_RED kf b)) ::
      rest) X) :
    (delete_case234_left t (X.rootp t.nil) w).2 =
      (delete_case234_left t (X.rootp t.nil) w).1.root ∧
    ZRep (delete_case234_left t (X.rootp t.nil) w).1 rest
      (Tree.node (Tree.node X p RBTREE_BLACK kp wn) w cp kw
        (Tree.node a f RBTREE_BLACK kf b)) ∧
    SameMeta t (delete_case234_left t (X.rootp t.nil) w).1 := by
  have hy := (zrep_up.mp h.z).rep
  simp only [rep_node, fill_inL, fill_inR, rootp_node] at hy
  obtain ⟨hy1, hy2, hy3, hy4, hy5, hy6, hy7, hy8⟩ := hy
  obtain ⟨hw1, hw2, hw3, hw4, hw5, hw6, hw7, hw8⟩ := hy8
  obtain ⟨hx1, hx2, hx3, hx4, hx5, hx6, hx7, hx8⟩ := hw8
  have hE : delete_case234_left t (X.rootp t.nil) w =
      delete_case4_left t (X.rootp t.nil) w := by
    simp [delete_case234_left, delete_case3_left_skip h, hw6, hx2]
  rw [hE]
  exact delete_case4_left_spec h

/-- Cases 3 and 4 of the deletion fixup, `x` a left child: the far child of the
sibling is BLACK and the near child is RED. -/
theorem delete_case234_left_near {t : rbtree} {rest : List Frame} {X a b wf : Tree}
    {p w q : Nat} {cp cw : color_t} {kp kw kq : Int}
    (h : DRep t (Frame.inL p cp kp (Tree.node (Tree.node a q RBTREE_RED kq b) w cw kw wf) ::
      rest) X)
    (hf : wf.rootColor = RBTREE_BLACK) :
    (delete_case234_left t (X.rootp t.nil) w).2 =
      (delete_case234_left t (X.rootp t.nil) w).1.root ∧
    ZRep (delete_case234_left t (X.rootp t.nil) w).1 rest
      (Tree.node (Tree.node X p RBTREE_BLACK kp a) q cp kq
        (Tree.node b w RBTREE_BLACK kw wf)) ∧
    SameMeta t (delete_case234_left t (X.rootp t.nil) w).1 := by
  have hy := (zrep_up.mp h.z).rep
  simp only [rep_node, fill_inL, fill_inR, rootp_node] at hy
  obtain ⟨hy1, hy2, hy3, hy4, hy5, hy6, hy7, hy8⟩ := hy
  obtain ⟨hw1, hw2, hw3, hw4, hw5, hw6, hw7, hw8⟩ := hy8
  obtain ⟨hx1, hx2, hx3, hx4, hx5, hx6, hx7, hx8⟩ := hw7
  obtain ⟨e1, d, m⟩ := delete_case3_left_spec h hf
  have hE : delete_case234_left t (X.rootp t.nil) w =
      delete_case4_left (delete_case3_left t (X.rootp t.nil) w).1 (X.rootp t.nil) q := by
    simp [delete_case234_left, hw5, hx2, e1]
  rw [hE]
  have r := delete_case4_left_spec d
  rw [m.nil] at r
  exact ⟨r.1, r.2.1, sameMeta_trans m r.2.2⟩

/-- Case 4 of the deletion fixup reached directly, `x` a right child: the far child
of the sibling is RED. -/
theorem delete_case234_right_far {t : rbtree} {rest : List Frame} {X wn a b : Tree}
    {p w f : Nat} {cp cw : color_t} {kp kw kf : Int}
    (h : DRep t (Frame.inR (Tree.node (Tree.node b f RBTREE_RED kf a) w cw kw wn) p cp kp ::
      rest) X) :
    (delete_case234_right t (X.rootp t.nil) w).2 =
      (delete_case234_right t (X.rootp t.nil) w).1.root ∧
    ZRep (delete_case234_right t (X.rootp t.nil) w).1 rest
      (Tree.node (Tree.node b f RBTREE_BLACK kf a) w cp kw
        (Tree.node wn p RBTREE_BLACK kp X)) ∧
    SameMeta t (delete_case234_right t (X.rootp t.nil) w).1 := by
  have hy := (zrep_up.mp h.z).rep
  simp only [rep_node, fill_inR, fill_inL, rootp_node] at hy
  obtain ⟨hy1, hy2, hy3, hy4, hy6, hy5, hy8, hy7⟩ := hy
  obtain ⟨hw1, hw2, hw3, hw4, hw6, hw5, hw8, hw7⟩ := hy8
  obtain ⟨hx1, hx2, hx3, hx4, hx6, hx5, hx8, hx7⟩ := hw8
  have hE : delete_case234_right t (X.rootp t.nil) w =
      delete_case4_right t (X.rootp t.nil) w := by
    simp [delete_case234_right, delete_case3_right_skip h, hw6, hx2]
  rw [hE]
  exact delete_case4_right_spec h

/-- Cases 3 and 4 of the deletion fixup, `x` a right child: the far child of the
sibling is BLACK and the near child is RED. -/
theorem delete_case234_right_near {t : rbtree} {rest : List Frame} {X a b wf : Tree}
    {p w q : Nat} {cp cw : color_t} {kp kw kq : Int}
    (h : DRep t (Frame.inR (Tree.node wf w cw kw (Tree.node b q RBTREE_RED kq a)) p cp kp ::
      rest) X)
    (hf : wf.rootColor = RBTREE_BLACK) :
    (delete_case234_right t (X.rootp t.nil) w).2 =
      (delete_case234_right t (X.rootp t.nil) w).1.root ∧
    ZRep (delete_case234_right t (X.rootp t.nil) w).1 rest
      (Tree.node (Tree.node wf w RBTREE_BLACK kw b) q cp kq
        (Tree.node a p RBTREE_BLACK kp X)) ∧
    SameMeta t (delete_case234_right t (X.rootp t.nil) w).1 := by
  have hy := (zrep_up.mp h.z).rep
  simp only [rep_node, fill_inR, fill_inL, rootp_node] at hy
  obtain ⟨hy1, hy2, hy3, hy4, hy6, hy5, hy8, hy7⟩ := hy
  obtain ⟨hw1, hw2, hw3, hw4, hw6, hw5, hw8, hw7⟩ := hy8
  obtain ⟨hx1, hx2, hx3, hx4, hx6, hx5, hx8, hx7⟩ := hw7
  obtain ⟨e1, d, m⟩ := delete_case3_right_spec h hf
  have hE : delete_case234_right t (X.rootp t.nil) w =
      delete_case4_right (delete_case3_right t (X.rootp t.nil) w).1 (X.rootp t.nil) q := by
    simp [delete_case234_right, hw5, hx2, e1]
  rw [hE]
  have r := delete_case4_right_spec d
  rw [m.nil] at r
  exact ⟨r.1, r.2.1, sameMeta_trans m r.2.2⟩

/-- One pass through the body of the loop of `rebuild_after_delete` from case 2 on, `x` a
left child with a BLACK sibling: the invariant holds again, either at the parent of `x`
or at the root. -/
theorem delete_black_left {t : rbtree} {rest : List Frame} {X wn wf : Tree} {p w : Nat}
    {cp : color_t} {kp kw : Int} {n : Nat}
    (h : DRep t (Frame.inL p cp kp (Tree.node wn w RBTREE_BLACK kw wf) :: rest) X)
    (hX : X.rootColor = RBTREE_BLACK)
    (hi : DelInv (Frame.inL p cp kp (Tree.node wn w RBTREE_BLACK kw wf) :: rest) X n) :
    ∃ ctx' X' n', (delete_case234_left t (X.rootp t.nil) w).2 = X'.rootp t.nil ∧
      DRep (delete_case234_left t (X.rootp t.nil) w).1 ctx' X' ∧
      SameMeta t (delete_case234_left t (X.rootp t.nil) w).1 ∧
      (plug ctx' X').nodes =
        (plug (Frame.inL p cp kp (Tree.node wn w RBTREE_BLACK kw wf) :: rest) X).nodes ∧
      DelInv ctx' X' n' ∧ (ctx' = rest ∧ X'.rootColor = cp ∨ ctx' = []) := by
  by_cases hf : wf.rootColor = RBTREE_BLACK
  · by_cases hn : wn.rootColor = RBTREE_BLACK
    · obtain ⟨e, z, m⟩ := delete_case2_left_spec h hn hf
      obtain ⟨n', i⟩ := delInv_case2_left hi hX hn hf
      exact ⟨rest, Tree.node X p cp kp (Tree.node wn w RBTREE_RED kw wf), n', e, drep_node z,
        m, nodes_plug_congr rest (by simp), i, Or.inl ⟨rfl, rfl⟩⟩
    · cases wn with
      | leaf => exact absurd rfl hn
      | node a q cq kq b =>
        cases cq with
        | RBTREE_BLACK => exact absurd rfl hn
        | RBTREE_RED =>
          obtain ⟨e, z, m⟩ := delete_case234_left_near h hf
          obtain ⟨n', i⟩ := delInv_case3_left hi hX
          obtain ⟨d, hroot⟩ := drep_root z
          rw [m.nil] at hroot
          exact ⟨[], _, n', e.trans hroot, d, m, nodes_plug_congr rest (by simp), i,
            Or.inr rfl⟩
  · cases wf with
    | leaf => exact absurd rfl hf
    | node a f cf kf b =>
      cases cf with
      | RBTREE_BLACK => exact absurd rfl hf
      | RBTREE_RED =>
        obtain ⟨e, z, m⟩ := delete_case234_left_far h
        obtain ⟨n', i⟩ := delInv_case4_left hi hX
        obtain ⟨d, hroot⟩ := drep_root z
        rw [m.nil] at hroot
        exact ⟨[], _, n', e.trans hroot, d, m, nodes_plug_congr rest (by simp), i,
          Or.inr rfl⟩

/-- One pass through the body of the loop of `rebuild_after_delete`, `x` a left
child: the invariant holds again, nearer to the root or at a RED node. -/
theorem delete_step_left {t : rbtree} {rest : List Frame} {X W : Tree} {p : Nat}
    {cp : color_t} {kp : Int} {n : Nat}
    (h : DRep t (Frame.inL p cp kp W :: rest) X)
    (hX : X.rootColor = RBTREE_BLACK)
    (hi : DelInv (Frame.inL p cp kp W :: rest) X n) :
    ∃ ctx' X' n', (rebuild_after_delete_body t (X.rootp t.nil)).2 = X'.rootp t.nil ∧
      DRep (rebuild_after_delete_body t (X.rootp t.nil)).1 ctx' X' ∧
      SameMeta t (rebuild_after_delete_body t (X.rootp t.nil)).1 ∧
      (plug ctx' X').nodes = (plug (Frame.inL p cp kp W :: rest) X).nodes ∧
      DelInv ctx' X' n' ∧ (ctx'.length < rest.length + 1 ∨ X'.rootColor = RBTREE_RED) := by
  have hx := h.par
  simp only [cpar_cons, frame_ptr_inL, frame_ptr_inR] at hx
  cases W with
  | leaf =>
    obtain ⟨-, -, hc⟩ := hi
    simp [CtxInv, Frame.sib] at hc
  | node wn w cw kw wf =>
    have hy := (zrep_up.mp h.z).rep
    simp only [rep_node, fill_inL, fill_inR, rootp_node] at hy
    obtain ⟨hy1, hy2, hy3, hy4, hy5, hy6, hy7, hy8⟩ := hy
    have hN := h.z.nodup
    simp only [ptrs_node, ptrs_leaf, cptrs_nil, cptrs_cons, frame_ptr_inL, frame_ptr_inR,
      frame_sib_inL, frame_sib_inR, List.nodup_append, List.nodup_cons, List.mem_append,
      not_mem_cons_sym, not_or, List.disjoint_cons_left, List.disjoint_cons_right,
      List.disjoint_append_left, List.disjoint_append_right, List.nodup_nil,
      List.disjoint_nil_left, List.disjoint_nil_right, List.not_mem_nil, not_false_eq_true,
      true_and, and_true, List.nil_append, List.append_nil] at hN
    have hxw : w ≠ X.rootp t.nil := ne_rootp_of_not_mem hy8.1 (by simp [hN])
    have hB : rebuild_after_delete_body t (X.rootp t.nil) =
        delete_case234_left (delete_case1_left t (X.rootp t.nil)).1 (X.rootp t.nil)
          (delete_case1_left t (X.rootp t.nil)).2 := by
      simp [rebuild_after_delete_body, hx, hy5, hy6, hxw, Ne.symm hxw]
    rw [hB]
    cases cw with
    | RBTREE_RED =>
      obtain ⟨e1, d1, m1⟩ := delete_case1_left_spec h
      obtain ⟨i1, a, q, kq, b, rfl⟩ := delInv_case1_left hi
      simp only [rootp_node] at e1
      rw [e1]
      obtain ⟨ctx', X', n', r1, r2, r3, r4, r5, r6⟩ := delete_black_left d1 hX i1
      rw [m1.nil] at r1 r2 r3
      refine ⟨ctx', X', n', r1, r2, sameMeta_trans m1 r3,
        r4.trans (nodes_plug_congr rest (by simp)), r5, ?_⟩
      rcases r6 with ⟨-, r6⟩ | r6
      · exact Or.inr r6
      · exact Or.inl (by rw [r6]; simp)
    | RBTREE_BLACK =>
      rw [delete_case1_left_skip h]
      obtain ⟨ctx', X', n', r1, r2, r3, r4, r5, r6⟩ := delete_black_left h hX hi
      refine ⟨ctx', X', n', r1, r2, r3, r4, r5, Or.inl ?_⟩
      rcases r6 with ⟨r6, -⟩ | r6 <;> rw [r6] <;> simp

/-- One pass through the body of the loop of `rebuild_after_delete` from case 2 on, `x` a
right child with a BLACK sibling: the invariant holds again, either at the parent of `x`
or at the root. -/
theorem delete_black_right {t : rbtree} {rest : List Frame} {X wn wf : Tree} {p w : Nat}
    {cp : color_t} {kp kw : Int} {n : Nat}
    (h : DRep t (Frame.inR (Tree.node wf w RBTREE_BLACK kw wn) p cp kp :: rest) X)
    (hX : X.rootColor = RBTREE_BLACK)
    (hi : DelInv (Frame.inR (Tree.node wf w RBTREE_BLACK kw wn) p cp kp :: rest) X n) :
    ∃ ctx' X' n', (delete_case234_right t (X.rootp t.nil) w).2 = X'.rootp t.nil ∧
      DRep (delete_case234_right t (X.rootp t.nil) w).1 ctx' X' ∧
      SameMeta t (delete_case234_right t (X.rootp t.nil) w).1 ∧
      (plug ctx' X').nodes =
        (plug (Frame.inR (Tree.node wf w RBTREE_BLACK kw wn) p cp kp :: rest) X).nodes ∧
      DelInv ctx' X' n' ∧ (ctx' = rest ∧ X'.rootColor = cp ∨ ctx' = []) := by
  by_cases hf : wf.rootColor = RBTREE_BLACK
  · by_cases hn : wn.rootColor = RBTREE_BLACK
    · obtain ⟨e, z, m⟩ := delete_case2_right_spec h hn hf
      obtain ⟨n', i⟩ := delInv_case2_right hi hX hn hf
      exact ⟨rest, Tree.node (Tree.node wf w RBTREE_RED kw wn) p cp kp X, n', e, drep_node z,
        m, nodes_plug_congr rest (by simp), i, Or.inl ⟨rfl, rfl⟩⟩
    · cases wn with
      | leaf => exact absurd rfl hn
      | node a q cq kq b =>
        cases cq with
        | RBTREE_BLACK => exact absurd rfl hn
        | RBTREE_RED =>
          obtain ⟨e, z, m⟩ := delete_case234_right_near h hf
          obtain ⟨n', i⟩ := delInv_case3_right hi hX
          obtain ⟨d, hroot⟩ := drep_root z
          rw [m.nil] at hroot
          exact ⟨[], _, n', e.trans hroot, d, m, nodes_plug_congr rest (by simp), i,
            Or.inr rfl⟩
  · cases wf with
    | leaf => exact absurd rfl hf
    | node a f cf kf b =>
      cases cf with
      | RBTREE_BLACK => exact absurd rfl hf
      | RBTREE_RED =>
        obtain ⟨e, z, m⟩ := delete_case234_right_far h
        obtain ⟨n', i⟩ := delInv_case4_right hi hX
        obtain ⟨d, hroot⟩ := drep_root z
        rw [m.nil] at hroot
        exact ⟨[], _, n', e.trans hroot, d, m, nodes_plug_congr rest (by simp), i,
          Or.inr rfl⟩

/-- One pass through the body of the loop of `rebuild_after_delete`, `x` a right
child: the invariant holds again, nearer to the root or at a RED node. -/
theorem delete_step_right {t : rbtree} {rest : List Frame} {X W : Tree} {p : Nat}
    {cp : color_t} {kp : Int} {n : Nat}
    (h : DRep t (Frame.inR W p cp kp :: rest) X)
    (hX : X.rootColor = RBTREE_BLACK)
    (hi : DelInv (Frame.inR W p cp kp :: rest) X n) :
    ∃ ctx' X' n', (rebuild_after_delete_body t (X.rootp t.nil)).2 = X'.rootp t.nil ∧
      DRep (rebuild_after_delete_body t (X.rootp t.nil)).1 ctx' X' ∧
      SameMeta t (rebuild_after_delete_body t (X.rootp t.nil)).1 ∧
      (plug ctx' X').nodes = (plug (Frame.inR W p cp kp :: rest) X).nodes ∧
      DelInv ctx' X' n' ∧ (ctx'.length < rest.length + 1 ∨ X'.rootColor = RBTREE_RED) := by
  have hx := h.par
  simp only [cpar_cons, frame_ptr_inR, frame_ptr_inL] at hx
  cases W with
  | leaf =>
    obtain ⟨-, -, hc⟩ := hi
    simp [CtxInv, Frame.sib] at hc
  | node wn w cw kw wf =>
    have hy := (zrep_up.mp h.z).rep
    simp only [rep_node, fill_inR, fill_inL, rootp_node] at hy
    obtain ⟨hy1, hy2, hy3, hy4, hy6, hy5, hy8, hy7⟩ := hy
    have hN := h.z.nodup
    simp only [ptrs_node, ptrs_leaf, cptrs_nil, cptrs_cons, frame_ptr_inR, frame_ptr_inL,
      frame_sib_inR, frame_sib_inL, List.nodup_append, List.nodup_cons, List.mem_append,
      not_mem_cons_sym, not_or, List.disjoint_cons_right, List.disjoint_cons_left,
      List.disjoint_append_right, List.disjoint_append_left, List.nodup_nil,
      List.disjoint_nil_right, List.disjoint_nil_left, List.not_mem_nil, not_false_eq_true,
      true_and, and_true, List.nil_append, List.append_nil] at hN
    have hxw : w ≠ X.rootp t.nil := ne_rootp_of_not_mem hy8.1 (by simp [hN])
    have hB : rebuild_after_delete_body t (X.rootp t.nil) =
        delete_case234_right (delete_case1_right t (X.rootp t.nil)).1 (X.rootp t.nil)
          (delete_case1_right t (X.rootp t.nil)).2 := by
      simp [rebuild_after_delete_body, hx, hy5, hy6, hxw, Ne.symm hxw]
    rw [hB]
    cases cw with
    | RBTREE_RED =>
      obtain ⟨e1, d1, m1⟩ := delete_case1_right_spec h
      obtain ⟨i1, a, q, kq, b, rfl⟩ := delInv_case1_right hi
      simp only [rootp_node] at e1
      rw [e1]
      obtain ⟨ctx', X', n', r1, r2, r3, r4, r5, r6⟩ := delete_black_right d1 hX i1
      rw [m1.nil] at r1 r2 r3
      refine ⟨ctx', X', n', r1, r2, sameMeta_trans m1 r3,
        r4.trans (nodes_plug_congr rest (by simp)), r5, ?_⟩
      rcases r6 with ⟨-, r6⟩ | r6
      · exact Or.inr r6
      · exact Or.inl (by rw [r6]; simp)
    | RBTREE_BLACK =>
      rw [delete_case1_right_skip h]
      obtain ⟨ctx', X', n', r1, r2, r3, r4, r5, r6⟩ := delete_black_right h hX hi
      refine ⟨ctx', X', n', r1, r2, r3, r4, r5, Or.inl ?_⟩
      rcases r6 with ⟨r6, -⟩ | r6 <;> rw [r6] <;> simp

/-- One pass through the body of the loop of `rebuild_after_delete`: the invariant holds
again, nearer to the root or at a RED node. -/
theorem delete_step {t : rbtree} {f : Frame} {rest : List Frame} {X : Tree} {n : Nat}
    (h : DRep t (f :: rest) X) (hX : X.rootColor = RBTREE_BLACK)
    (hi : DelInv (f :: rest) X n) :
    ∃ ctx' X' n', (rebuild_after_delete_body t (X.rootp t.nil)).2 = X'.rootp t.nil ∧
      DRep (rebuild_after_delete_body t (X.rootp t.nil)).1 ctx' X' ∧
      SameMeta t (rebuild_after_delete_body t (X.rootp t.nil)).1 ∧
      (plug ctx' X').nodes = (plug (f :: rest) X).nodes ∧
      DelInv ctx' X' n' ∧ (ctx'.length < rest.length + 1 ∨ X'.rootColor = RBTREE_RED) := by
  cases f with
  | inL p cp kp W => exact delete_step_left h hX hi
  | inR W p cp kp => exact delete_step_right h hX hi

/-- The loop of `rebuild_after_delete` stops when `x` is the root or RED, and colours
`x` BLACK. -/
theorem delete_exit {t : rbtree} {ctx : List Frame} {X : Tree} (h : DRep t ctx X)
    (hx : ctx = [] ∨ X.rootColor = RBTREE_RED) (fuel : Nat) :
    rebuild_after_delete (fuel + 1) t (X.rootp t.nil) =
      some (set_color t (X.rootp t.nil) RBTREE_BLACK) ∧
    ZRep (set_color t (X.rootp t.nil) RBTREE_BLACK) [] (plug ctx X.blacken) := by
  have hcol := color_rootp h.z.rep h.z.nil_black
  constructor
  · rcases hx with hx | hx
    · subst hx
      have hroot : t.root = X.rootp t.nil := h.z.repc
      simp [rebuild_after_delete, hroot]
    · simp [rebuild_after_delete, hcol, hx]
  · cases X with
    | leaf =>
      rcases hx with hx | hx
      · subst hx
        obtain ⟨hc, -, hnd, hnb, hnl, hnr⟩ := h.z
        exact ⟨hc, trivial, hnd, by simp [upd_apply, hnb], hnl, hnr⟩
      · simp at hx
    | node l p c k r =>
      exact zrep_plug.mp (zrep_set_color RBTREE_BLACK h.z)

/-- The loop of `rebuild_after_delete` goes on while `x` is BLACK and not the root. -/
theorem delete_continue {t : rbtree} {f : Frame} {rest : List Frame} {X : Tree}
    (h : DRep t (f :: rest) X) (hX : X.rootColor = RBTREE_BLACK) (fuel : Nat) :
    rebuild_after_delete (fuel + 1) t (X.rootp t.nil) =
      rebuild_after_delete fuel (rebuild_after_delete_body t (X.rootp t.nil)).1
        (rebuild_after_delete_body t (X.rootp t.nil)).2 := by
  have hcol := color_rootp h.z.rep h.z.nil_black
  have hne := rootp_ne_root h.z
  simp [rebuild_after_delete, hcol, hX, hne]

/-- `rebuild_after_delete` terminates and restores the colour invariants: started on
a subtree `x` that is one BLACK node short, in a valid context, with fuel for one loop
test per node on the path to the root and two more, it returns a state that holds a
red-black tree with the same in-order sequence of nodes. -/
theorem rebuild_after_delete_spec (N : Nat) :
    ∀ (ctx : List Frame) (t : rbtree) (X : Tree) (n : Nat),
      ctx.length ≤ N → DRep t ctx X → DelInv ctx X n → ∀ fuel, N + 2 ≤ fuel →
      ∃ t' T', rebuild_after_delete fuel t (X.rootp t.nil) = some t' ∧ ZRep t' [] T' ∧
        RBInv T' ∧ T'.nodes = (plug ctx X).nodes ∧ SameMeta t t' := by
  have hexit : ∀ (ctx : List Frame) (t : rbtree) (X : Tree) (n : Nat), DRep t ctx X →
      DelInv ctx X n → (ctx = [] ∨ X.rootColor = RBTREE_RED) → ∀ fuel, 1 ≤ fuel →
      ∃ t' T', rebuild_after_delete fuel t (X.rootp t.nil) = some t' ∧ ZRep t' [] T' ∧
        RBInv T' ∧ T'.nodes = (plug ctx X).nodes ∧ SameMeta t t' := by
    intro ctx t X n h hi hx fuel hfuel
    obtain ⟨fuel', rfl⟩ : ∃ f', fuel = f' + 1 := ⟨fuel - 1, by omega⟩
    obtain ⟨e1, e2⟩ := delete_exit h hx fuel'
    exact ⟨_, _, e1, e2, delInv_done hi hx, nodes_plug_congr ctx (blacken_nodes X),
      sameMeta_set_color _ _ _⟩
  induction N with
  | zero =>
    intro ctx t X n hlen h hi fuel hfuel
    exact hexit ctx t X n h hi (Or.inl (List.length_eq_zero.mp (by omega))) fuel (by omega)
  | succ N ih =>
    intro ctx t X n hlen h hi fuel hfuel
    rcases ctx with _ | ⟨f, rest⟩
    · exact hexit [] t X n h hi (Or.inl rfl) fuel (by omega)
    rcases hX : X.rootColor with _ | _
    · exact hexit _ t X n h hi (Or.inr hX) fuel (by omega)
    obtain ⟨fuel', rfl⟩ : ∃ f', fuel = f' + 1 := ⟨fuel - 1, by omega⟩
    rw [delete_continue h hX fuel']
    obtain ⟨ctx', X', n', r1, r2, r3, r4, r5, r6⟩ := delete_step h hX hi
    rw [r1]
    have key : ∃ t' T', rebuild_after_delete fuel'
        (rebuild_after_delete_body t (X.rootp t.nil)).1
        (X'.rootp t.nil) = some t' ∧
        ZRep t' [] T' ∧ RBInv T' ∧ T'.nodes = (plug ctx' X').nodes ∧
        SameMeta (rebuild_after_delete_body t (X.rootp t.nil)).1 t' := by
      rcases r6 with r6 | r6
      · have := ih ctx' _ X' n' (by simp at hlen; omega) r2 r5 fuel' (by omega)
        rwa [r3.nil] at this
      · have := hexit ctx' _ X' n' r2 r5 (Or.inr r6) fuel' (by omega)
        rwa [r3.nil] at this
    obtain ⟨t', T', k1, k2, k3, k4, k5⟩ := key
    exact ⟨t', T', k1, k2, k3, k4.trans r4, sameMeta_trans r3 k5⟩

/-! ## `rbtree_erase` -/

theorem plug_min (T : Tree) : plug T.minFrames T.minNode = T := by
  induction T with
  | leaf => rfl
  | node l p c k r ihl _ =>
    by_cases hl : l = Tree.leaf
    · simp [Tree.minFrames, Tree.minNode, hl, plug]
    · simp [Tree.minFrames, Tree.minNode, hl, plug_append, ihl, plug]

theorem minNode_node {T : Tree} (h : T ≠ Tree.leaf) :
    ∃ y cy ky yr, T.minNode = Tree.node Tree.leaf y cy ky yr := by
  induction T with
  | leaf => exact absurd rfl h
  | node l p c k r ihl _ =>
    by_cases hl : l = Tree.leaf
    · exact ⟨p, c, k, r, by simp [Tree.minNode, hl]⟩
    · obtain ⟨y, cy, ky, yr, e⟩ := ihl hl
      exact ⟨y, cy, ky, yr, by simp [Tree.minNode, hl, e]⟩

theorem cbefore_append (a b : List Frame) : cbefore (a ++ b) = cbefore b ++ cbefore a := by
  induction a with
  | nil => simp [cbefore]
  | cons f fs ih => cases f <;> simp [cbefore, ih]

theorem cafter_append (a b : List Frame) : cafter (a ++ b) = cafter a ++ cafter b := by
  induction a with
  | nil => simp [cafter]
  | cons f fs ih => cases f <;> simp [cafter, ih]

/-- No node of the tree comes before its leftmost node. -/
theorem cbefore_min (T : Tree) : cbefore T.minFrames = [] := by
  induction T with
  | leaf => rfl
  | node l p c k r ihl _ =>
    by_cases hl : l = Tree.leaf
    · simp [Tree.minFrames, hl, cbefore]
    · simp [Tree.minFrames, hl, cbefore_append, ihl, cbefore]

theorem length_min (T : Tree) : T.minFrames.length + 1 ≤ T.height ∨ T = Tree.leaf := by
  induction T with
  | leaf => exact Or.inr rfl
  | node l p c k r ihl _ =>
    left
    by_cases hl : l = Tree.leaf
    · simp [Tree.minFrames, hl, Tree.height]
    · rcases ihl with h | h
      · simp [Tree.minFrames, hl, Tree.height]
        omega
      · exact absurd h hl

/-- `subtree_min` returns the leftmost node of the subtree, given fuel for its height. -/
theorem subtree_min_spec {t : rbtree} (T : Tree) :
    ∀ {par : Nat} (fuel : Nat), Rep t T par → T ≠ Tree.leaf → T.height ≤ fuel →
      subtree_min fuel t (T.rootp t.nil) = some (T.minNode.rootp t.nil) := by
  induction T with
  | leaf => intro par fuel _ h; exact absurd rfl h
  | node l p c k r ihl _ =>
    intro par fuel hr _ hf
    simp only [rep_node] at hr
    obtain ⟨h1, h2, h3, h4, h5, h6, h7, h8⟩ := hr
    obtain ⟨fuel', rfl⟩ : ∃ f', fuel = f' + 1 := ⟨fuel - 1, by simp [Tree.height] at hf; omega⟩
    by_cases hl : l = Tree.leaf
    · subst hl
      simp [subtree_min, Tree.minNode, h5]
    · have hln : l.rootp t.nil ≠ t.nil := by
        cases l with
        | leaf => exact absurd rfl hl
        | node a q cq kq b =>
          simp only [rep_node] at h7
          simpa using h7.1
      have := ihl fuel' h7 hl (by simp [Tree.height] at hf; omega)
      simp [subtree_min, Tree.minNode, hl, h1, h5, hln, this]

theorem sameMeta_set_parent (t : rbtree) (p v : Nat) : SameMeta t (set_parent t p v) :=
  ⟨rfl, rfl, rfl, rfl⟩

theorem sameMeta_set_right (t : rbtree) (p v : Nat) : SameMeta t (set_right t p v) :=
  ⟨rfl, rfl, rfl, rfl⟩

theorem plug_cons_node (f : Frame) (fs : List Frame) (S : Tree) :
    ∃ l p c k r, plug (f :: fs) S = Tree.node l p c k r := by
  cases f with
  | inL q cq kq s => exact plug_node fs _ _ _ _ _
  | inR s q cq kq => exact plug_node fs _ _ _ _ _

/-- `rbtree_erase`, third branch (lines 309-328): the leftmost node `y` of the right
subtree of `z` takes the place and the colour of `z`; `x`, the right child of `y`, stands
where `y` stood. -/
theorem erase_two_children {t : rbtree} {ctx : List Frame} {ll lr R : Tree} {z pl : Nat}
    {c cl : color_t} {k kl : Int}
    (h : ZRep t ctx (Tree.node (Tree.node ll pl cl kl lr) z c k R)) (hR : R ≠ Tree.leaf) :
    ∃ y cy ky yr, R.minNode = Tree.node Tree.leaf y cy ky yr ∧ t.color y = cy ∧
      t.right y = yr.rootp t.nil ∧
      DRep (rbtree_erase_replace (rbtree_erase_detach t z y (t.right y)) z y)
        (R.minFrames ++ Frame.inR (Tree.node ll pl cl kl lr) y c ky :: ctx) yr ∧
      SameMeta t (rbtree_erase_replace (rbtree_erase_detach t z y (t.right y)) z y) := by
  obtain ⟨y, cy, ky, yr, hY⟩ := minNode_node hR
  have hplug := plug_min R
  rw [hY] at hplug
  have hzR : ZRep t (Frame.inR (Tree.node ll pl cl kl lr) z c k :: ctx) R := zrep_up.mpr h
  have hzY : ZRep t (R.minFrames ++ Frame.inR (Tree.node ll pl cl kl lr) z c k :: ctx)
      (Tree.node Tree.leaf y cy ky yr) := zrep_append.mpr (by rw [hplug]; exact hzR)
  have hry := hzY.rep
  simp only [rep_node] at hry
  obtain ⟨hy1, hy2, hy3, hy4, hy5, hy6, hy7, hy8⟩ := hry
  refine ⟨y, cy, ky, yr, hY, hy2, hy6, ?_⟩
  rcases hcr : R.minFrames with _ | ⟨f, cr⟩
  · rw [hcr] at hplug hzY hy4
    simp only [plug] at hplug
    subst hplug
    simp only [List.nil_append, cpar_cons, frame_ptr_inR] at hy4 hzY ⊢
    have hE : rbtree_erase_detach t z y (t.right y) = set_parent t (t.right y) y := by
      simp [rbtree_erase_detach, hy4]
    rw [hE]
    exact ⟨erase_succ_child h, sameMeta_trans (sameMeta_set_parent t _ y)
      (sameMeta_erase_replace _ z y)⟩
  · rw [hcr] at hplug hzY hy4
    simp only [List.cons_append, cpar_cons] at hy4
    have hnd := hzY.nodup
    simp only [List.cons_append, ptrs_node, ptrs_leaf, List.nil_append, cptrs_cons,
      cptrs_append, frame_ptr_inR, frame_sib_inR] at hnd
    have hfz : f.ptr ≠ z := by
      intro e
      have h1 := hnd
      rw [e] at h1
      simp [List.nodup_cons, List.nodup_append] at h1
    have hE : rbtree_erase_detach t z y (t.right y) =
        set_parent (set_right (transplant t y (t.right y)) y
          ((transplant t y (t.right y)).right z))
          ((set_right (transplant t y (t.right y)) y
            ((transplant t y (t.right y)).right z)).right y) y := by
      simp [rbtree_erase_detach, hy4, hfz]
    rw [hE]
    have hd := erase_no_left hzY
    have hdz := hd.z
    have ha : ZRep (transplant t y (t.right y)) ctx
        (Tree.node (Tree.node ll pl cl kl lr) z c k (plug (f :: cr) yr)) :=
      zrep_up.mp ((zrep_append (a := f :: cr)).mp hdz)
    obtain ⟨rl, pr, crr, kr, rr, hnode⟩ := plug_cons_node f cr yr
    have hprm : pr ∈ cptrs (f :: cr) := by
      have := rootp_plug_mem 0 f cr yr
      rwa [hnode] at this
    have hperm := fun q => (ptrs_plug_perm (f :: cr) yr).mem_iff (a := q)
    rw [hnode] at ha hperm
    have hyn : y ≠ (transplant t y (t.right y)).nil := by rw [transplant_nil]; exact hy1
    have hfresh : y ∉ (Tree.node (Tree.node ll pl cl kl lr) z c k
        (Tree.node rl pr crr kr rr)).ptrs ++ cptrs ctx := by
      have h1 := (List.nodup_cons.mp hnd).1
      intro hm
      apply h1
      rw [ptrs_node, List.mem_append, List.mem_append, List.mem_cons, hperm] at hm
      simp only [List.mem_append, List.mem_cons, cptrs_cons, ptrs_node] at hm ⊢
      tauto
    obtain ⟨hfin, hpar⟩ := erase_succ_deep ha hyn hfresh
    rw [transplant_key, hy3] at hfin
    rw [← hnode] at hfin
    have hz' : ZRep (rbtree_erase_replace (set_parent (set_right (transplant t y (t.right y)) y
          ((transplant t y (t.right y)).right z))
          ((set_right (transplant t y (t.right y)) y
            ((transplant t y (t.right y)).right z)).right y) y) z y)
        (f :: cr ++ Frame.inR (Tree.node ll pl cl kl lr) y c ky :: ctx) yr := by
      have : ZRep _ (Frame.inR (Tree.node ll pl cl kl lr) y c ky :: ctx) (plug (f :: cr) yr) :=
        zrep_up.mpr hfin
      exact (zrep_append (a := f :: cr)).mpr this
    have hnd2 := hdz.nodup
    simp only [List.cons_append, cptrs_cons, cptrs_append, frame_ptr_inR, frame_sib_inR,
      ptrs_node] at hnd2
    have hdis := (List.nodup_append.mp hnd2).2.2
    have har := ha.rep
    simp only [rep_node, transplant_nil] at har
    have hq1 : yr.rootp t.nil ≠ pl := Ne.symm (ne_rootp_of_not_mem har.2.2.2.2.2.2.1.1
      (fun hm => hdis hm (by simp)))
    have hq2 : yr.rootp t.nil ≠ y := Ne.symm (ne_rootp_of_not_mem hy1
      (fun hm => (List.nodup_cons.mp hnd).1 (by simp [hm])))
    have hq3 : yr.rootp t.nil ≠ pr := Ne.symm (ne_rootp_of_not_mem har.2.2.2.2.2.2.2.1
      (fun hm => hdis hm (by
        simp only [cptrs_cons] at hprm
        simp only [List.mem_cons, List.mem_append] at hprm ⊢
        tauto)))
    refine ⟨⟨hz', ?_⟩, sameMeta_trans (sameMeta_transplant t y _)
      (sameMeta_trans (sameMeta_trans (sameMeta_set_right _ y _) (sameMeta_set_parent _ _ y))
        (sameMeta_erase_replace _ z y))⟩
    have hp := hd.par
    simp only [transplant_nil, List.cons_append, cpar_cons] at hp
    simp only [erase_replace_nil, set_parent_nil, set_right_nil, transplant_nil,
      List.cons_append, cpar_cons]
    rw [hpar _ hq1 hq2 hq3, hp]

/-- Invariants after a node `z` without left child is taken out of a red-black tree,
its other subtree standing in its place, in a context with the colours of the one `z`
was in: if `z` was BLACK the paths through the subtree are one BLACK node short, if it
was RED the tree is a red-black tree. -/
theorem takeout_no_left {ctx ctx' : List Frame} {R : Tree} {z : Nat} {c : color_t} {k : Int}
    (hrb : RBInv (plug ctx (Tree.node Tree.leaf z c k R)))
    (hci : ∀ n, CtxInv ctx n → CtxInv ctx' n) (hne : ctx' = [] → ctx = []) :
    (c = RBTREE_BLACK → ∃ n, DelInv ctx' R n) ∧
    (c = RBTREE_RED → RBInv (plug ctx' R)) := by
  obtain ⟨hroot, hnr, heq⟩ := hrb
  obtain ⟨m, hm⟩ := (equalBlack_iff _).mp heq
  obtain ⟨n, c1, c2, c3, c4⟩ := ctx_of_inv hnr hm hroot
  constructor
  · rintro rfl
    simp only [bh_black, bh_leaf, noRedRed_black] at c2 c3
    obtain ⟨m', rfl, hbs⟩ := c2
    exact ⟨m', by tauto, noRedRed_blacken (by tauto), hci _ c1⟩
  · rintro rfl
    simp only [bh_red, bh_leaf, noRedRed_red, rootColor_leaf] at c2 c3
    have hRc : R.rootColor = RBTREE_BLACK := by tauto
    have hbR : BH R n := by tauto
    have hrR : noRedRed R := by tauto
    obtain ⟨a, ⟨m2, b⟩, r⟩ := plug_inv (hci _ c1) hbR hrR (by rw [hRc]; exact redOK_black _)
    refine ⟨?_, a, (equalBlack_iff _).mpr ⟨m2, b⟩⟩
    by_cases hctx : ctx' = []
    · have := hne hctx
      subst this
      simp [plug, rootBlack] at hroot
    · exact r hctx

/-- Invariants after a node `z` without right child is taken out of a red-black tree,
its other subtree standing in its place, in a context with the colours of the one `z`
was in: if `z` was BLACK the paths through the subtree are one BLACK node short, if it
was RED the tree is a red-black tree. -/
theorem takeout_no_right {ctx ctx' : List Frame} {R : Tree} {z : Nat} {c : color_t} {k : Int}
    (hrb : RBInv (plug ctx (Tree.node R z c k Tree.leaf)))
    (hci : ∀ n, CtxInv ctx n → CtxInv ctx' n) (hne : ctx' = [] → ctx = []) :
    (c = RBTREE_BLACK → ∃ n, DelInv ctx' R n) ∧
    (c = RBTREE_RED → RBInv (plug ctx' R)) := by
  obtain ⟨hroot, hnr, heq⟩ := hrb
  obtain ⟨m, hm⟩ := (equalBlack_iff _).mp heq
  obtain ⟨n, c1, c2, c3, c4⟩ := ctx_of_inv hnr hm hroot
  constructor
  · rintro rfl
    simp only [bh_black, bh_leaf, noRedRed_black] at c2 c3
    obtain ⟨m', rfl, hbs⟩ := c2
    exact ⟨m', by tauto, noRedRed_blacken (by tauto), hci _ c1⟩
  · rintro rfl
    simp only [bh_red, bh_leaf, noRedRed_red, rootColor_leaf] at c2 c3
    have hRc : R.rootColor = RBTREE_BLACK := by tauto
    have hbR : BH R n := by tauto
    have hrR : noRedRed R := by tauto
    obtain ⟨a, ⟨m2, b⟩, r⟩ := plug_inv (hci _ c1) hbR hrR (by rw [hRc]; exact redOK_black _)
    refine ⟨?_, a, (equalBlack_iff _).mpr ⟨m2, b⟩⟩
    by_cases hctx : ctx' = []
    · have := hne hctx
      subst this
      simp [plug, rootBlack] at hroot
    · exact r hctx

theorem redOK_swap {F F' : Frame} (hc : F.color = F'.color) (cr ctx : List Frame)
    (c : color_t) (h : RedOK (cr ++ F :: ctx) c) : RedOK (cr ++ F' :: ctx) c := by
  intro e
  obtain ⟨g, gs, hg, hcol⟩ := h e
  cases cr with
  | nil =>
    simp only [List.nil_append, List.cons.injEq] at hg
    obtain ⟨rfl, rfl⟩ := hg
    exact ⟨F', _, rfl, hc ▸ hcol⟩
  | cons f fs =>
    simp only [List.cons_append, List.cons.injEq] at hg
    obtain ⟨rfl, rfl⟩ := hg
    exact ⟨_, _, rfl, hcol⟩

/-- The colour invariants of a context do not depend on the address and key of a node. -/
theorem ctxInv_swap {F F' : Frame} (hc : F.color = F'.color) (hs : F.sib = F'.sib)
    (cr ctx : List Frame) : ∀ n, CtxInv (cr ++ F :: ctx) n → CtxInv (cr ++ F' :: ctx) n := by
  induction cr with
  | nil =>
    intro n h
    simp only [List.nil_append, CtxInv] at h ⊢
    rw [← hc, ← hs]
    exact h
  | cons f fs ih =>
    intro n h
    simp only [List.cons_append, CtxInv] at h ⊢
    refine ⟨h.1, h.2.1, ?_⟩
    have h3 := h.2.2
    split_ifs at h3 ⊢ with hf
    · exact ih _ h3
    · exact ⟨h3.1, redOK_swap hc fs ctx _ h3.2.1, ih _ h3.2.2⟩

/-- Invariants after a node `z` with two children is taken out of a red-black tree, the
leftmost node `y` of its right subtree standing in its place with its colour. -/
theorem takeout_two {ctx : List Frame} {L R yr : Tree} {z y : Nat} {c cy : color_t}
    {k ky : Int} (hrb : RBInv (plug ctx (Tree.node L z c k R)))
    (hY : R.minNode = Tree.node Tree.leaf y cy ky yr) :
    (cy = RBTREE_BLACK → ∃ n, DelInv (R.minFrames ++ Frame.inR L y c ky :: ctx) yr n) ∧
    (cy = RBTREE_RED → RBInv (plug (R.minFrames ++ Frame.inR L y c ky :: ctx) yr)) := by
  have e : plug ctx (Tree.node L z c k R) =
      plug (R.minFrames ++ Frame.inR L z c k :: ctx) (Tree.node Tree.leaf y cy ky yr) := by
    rw [plug_append, ← hY, plug_min]
    rfl
  rw [e] at hrb
  exact takeout_no_left hrb
    (@ctxInv_swap (Frame.inR L z c k) (Frame.inR L y c ky) rfl rfl _ _)
    (fun h => by simp at h)

theorem zrep_free {t : rbtree} {T : Tree} (z : Nat) (h : ZRep t [] T) :
    ZRep (free t z) [] T := by
  have hS : SameOff [] t (free t z) :=
    ⟨rfl, fun _ _ => rfl, fun _ _ => rfl, fun _ _ => rfl, fun _ _ => rfl, fun _ _ => rfl⟩
  exact ⟨h.repc, rep_frameD hS (by simp) h.rep, h.nodup, h.nil_black, h.nil_left,
    h.nil_right⟩

/-- Lines 330-336 of `rbtree_erase`: the fixup, if the colour taken out was BLACK, and
`free(z)` leave a red-black tree with the same nodes. -/
theorem erase_finish_spec {t : rbtree} {ctx : List Frame} {X : Tree} {c0 : color_t}
    {fuel : Nat} (z : Nat) (hd : DRep t ctx X)
    (hb : c0 = RBTREE_BLACK → ∃ n, DelInv ctx X n)
    (hr : c0 = RBTREE_RED → RBInv (plug ctx X)) (hf : ctx.length + 2 ≤ fuel) :
    ∃ t' T', rbtree_erase_finish fuel t (X.rootp t.nil) c0 z = some t' ∧ ZRep t' [] T' ∧
      RBInv T' ∧ T'.nodes = (plug ctx X).nodes ∧ t'.nil = t.nil ∧ t'.brk = t.brk ∧
      t'.freed = z :: t.freed ∧ t'.key = t.key := by
  cases c0 with
  | RBTREE_RED =>
    exact ⟨free t z, plug ctx X, by simp [rbtree_erase_finish],
      zrep_free z (zrep_plug.mp hd.z), hr rfl, rfl, rfl, rfl, rfl, rfl⟩
  | RBTREE_BLACK =>
    obtain ⟨n, hi⟩ := hb rfl
    obtain ⟨t1, T1, r1, r2, r3, r4, r5⟩ :=
      rebuild_after_delete_spec ctx.length ctx t X n (le_refl _) hd hi fuel hf
    refine ⟨free t1 z, T1, by simp [rbtree_erase_finish, r1], zrep_free z r2, r3, r4,
      r5.nil, r5.brk, ?_, r5.key⟩
    show z :: t1.freed = z :: t.freed
    rw [r5.freed]

set_option maxHeartbeats 1000000 in
/-- Lines 294-336 of `rbtree_erase` on a node `z` of a red-black tree: with fuel above
the height of the tree the call returns a state that holds a red-black tree whose
in-order sequence of nodes is the old one without `z`; `z` is freed. -/
theorem erase_node_spec {t : rbtree} {ctx : List Frame} {L R : Tree} {z : Nat}
    {c : color_t} {k : Int} {fuel : Nat} (h : ZRep t ctx (Tree.node L z c k R))
    (hrb : RBInv (plug ctx (Tree.node L z c k R)))
    (hf : (plug ctx (Tree.node L z c k R)).height + 1 ≤ fuel) :
    ∃ t' T', rbtree_erase_node fuel t z = some t' ∧ ZRep t' [] T' ∧ RBInv T' ∧
      T'.nodes = cbefore ctx ++ (L.nodes ++ R.nodes) ++ cafter ctx ∧ t'.nil = t.nil ∧
      t'.brk = t.brk ∧ t'.freed = z :: t.freed ∧ t'.key = t.key := by
  have hr := h.rep
  simp only [rep_node] at hr
  obtain ⟨h1, h2, h3, h4, h5, h6, h7, h8⟩ := hr
  have hlen := height_plug ctx (Tree.node L z c k R)
  simp only [Tree.height] at hlen
  cases L with
  | leaf =>
    simp only [rootp_leaf] at h5
    have hE : rbtree_erase_node fuel t z =
        rbtree_erase_finish fuel (transplant t z (t.right z)) (R.rootp t.nil) c z := by
      simp [rbtree_erase_node, h5, h6, h2]
    have hd := erase_no_left h
    obtain ⟨ib, ir⟩ := takeout_no_left hrb (fun _ x => x) id
    obtain ⟨t', T', r1, r2, r3, r4, r5, r6, r7, r8⟩ :=
      @erase_finish_spec _ _ _ _ fuel z hd ib ir (by omega)
    rw [transplant_nil] at r1 r5
    rw [transplant_brk] at r6
    rw [transplant_freed] at r7
    rw [transplant_key] at r8
    exact ⟨t', T', by rw [hE]; exact r1, r2, r3, by rw [r4, nodes_plug]; simp, r5, r6, r7, r8⟩
  | node ll pl cl kl lr =>
    have hpl : pl ≠ t.nil := by
      simp only [rep_node] at h7
      exact h7.1
    simp only [rootp_node] at h5
    cases R with
    | leaf =>
      simp only [rootp_leaf] at h6
      have hE : rbtree_erase_node fuel t z =
          rbtree_erase_finish fuel (transplant t z (t.left z))
            ((Tree.node ll pl cl kl lr).rootp t.nil) c z := by
        simp [rbtree_erase_node, h5, h6, h2, hpl]
      have hd := erase_no_right h
      obtain ⟨ib, ir⟩ := takeout_no_right hrb (fun _ x => x) id
      obtain ⟨t', T', r1, r2, r3, r4, r5, r6, r7, r8⟩ :=
        @erase_finish_spec _ _ _ _ fuel z hd ib ir (by omega)
      rw [transplant_nil] at r1 r5
      rw [transplant_brk] at r6
      rw [transplant_freed] at r7
      rw [transplant_key] at r8
      exact ⟨t', T', by rw [hE]; exact r1, r2, r3, by rw [r4, nodes_plug]; simp, r5, r6, r7,
        r8⟩
    | node rl pr cr kr rr =>
      have hpr : pr ≠ t.nil := by
        simp only [rep_node] at h8
        exact h8.1
      simp only [rootp_node] at h6
      obtain ⟨y, cy, ky, yr, hY, e1, e2, hd, hm⟩ :=
        erase_two_children (R := Tree.node rl pr cr kr rr) h (by simp)
      have hsub := subtree_min_spec (t := t) (Tree.node rl pr cr kr rr) fuel h8 (by simp)
        (by omega)
      rw [hY] at hsub
      simp only [rootp_node] at hsub
      have hE : rbtree_erase_node fuel t z =
          rbtree_erase_finish fuel
            (rbtree_erase_replace (rbtree_erase_detach t z y (t.right y)) z y)
            (yr.rootp t.nil) cy z := by
        simp [rbtree_erase_node, h5, h6, hpl, hpr, hsub, e1, e2]
      obtain ⟨ib, ir⟩ := takeout_two hrb hY
      have hl : (Tree.node rl pr cr kr rr).minFrames.length + 1 ≤
          (Tree.node rl pr cr kr rr).height := by
        rcases length_min (Tree.node rl pr cr kr rr) with hl | hl
        · exact hl
        · cases hl
      obtain ⟨t', T', r1, r2, r3, r4, r5, r6, r7, r8⟩ :=
        @erase_finish_spec _ _ _ _ fuel z hd ib ir (by
          simp only [List.length_append, List.length_cons]
          omega)
      rw [hm.nil] at r1 r5
      rw [hm.brk] at r6
      rw [hm.freed] at r7
      rw [hm.key] at r8
      refine ⟨t', T', by rw [hE]; exact r1, r2, r3, ?_, r5, r6, r7, r8⟩
      have hRn := congrArg Tree.nodes (plug_min (Tree.node rl pr cr kr rr))
      rw [hY, nodes_plug, cbefore_min] at hRn
      rw [r4, nodes_plug, ← hRn]
      simp [cbefore_append, cafter_append, cbefore, cafter, cbefore_min]

theorem exists_focus {p : Nat} (T : Tree) :
    ∀ acc : List Frame, p ∈ T.ptrs →
      ∃ ctx L c k R, plug acc T = plug ctx (Tree.node L p c k R) := by
  induction T with
  | leaf => intro acc h; simp at h
  | node l q c k r ihl ihr =>
    intro acc h
    simp only [ptrs_node, List.mem_append, List.mem_cons] at h
    rcases h with h | h | h
    · exact ihl (Frame.inL q c k r :: acc) h
    · subst h
      exact ⟨acc, l, c, k, r, rfl⟩
    · exact ihr (Frame.inR l q c k :: acc) h

/-- Taking one node out of a list of nodes with distinct addresses. -/
theorem filter_ne_mid (a b : List (Nat × Int)) (p : Nat) (k : Int)
    (hnd : ((a ++ (p, k) :: b).map Prod.fst).Nodup) :
    (a ++ (p, k) :: b).filter (fun n => decide (n.1 ≠ p)) = a ++ b := by
  simp only [List.map_append, List.map_cons, List.nodup_append, List.nodup_cons] at hnd
  obtain ⟨-, ⟨hb, -⟩, hd⟩ := hnd
  have ha : ∀ n ∈ a, n.1 ≠ p := by
    intro n hn e
    exact hd (List.mem_map_of_mem Prod.fst hn) (by simp [e])
  have hb' : ∀ n ∈ b, n.1 ≠ p := by
    intro n hn e
    exact hb (by rw [← e]; exact List.mem_map_of_mem Prod.fst hn)
  rw [List.filter_append, List.filter_cons]
  simp only [ne_eq, not_true_eq_false, decide_False, Bool.false_eq_true, if_false]
  rw [List.filter_eq_self.mpr (by simpa using ha), List.filter_eq_self.mpr (by simpa using hb')]

/-- `rbtree_erase` on a node `p` of a state that holds a red-black tree: with fuel above
the height of the tree the call returns 1 and a state that holds a red-black tree whose
in-order sequence of nodes is the old one without `p`; the cell `p` is freed, nothing is
allocated and no key stored in a cell changes. -/
theorem rbtree_erase_spec {t : rbtree} {T : Tree} (h : Holds t T) (hrb : RBInv T) {p : Nat}
    (hp : p ∈ T.ptrs) (fuel : Nat) (hf : T.height + 1 ≤ fuel) :
    ∃ t' T', rbtree_erase fuel (some t) p = some (some t', 1) ∧ Holds t' T' ∧ RBInv T' ∧
      T'.nodes = T.nodes.filter (fun n => decide (n.1 ≠ p)) ∧
      t'.nil = t.nil ∧ t'.brk = t.brk ∧ t'.freed = p :: t.freed ∧ t'.key = t.key := by
  obtain ⟨hz, hna, hal⟩ := holds_iff.mp h
  obtain ⟨ctx, L, c, k, R, hT⟩ := exists_focus T [] hp
  simp only [plug] at hT
  subst hT
  have hzf := zrep_plug.mpr hz
  obtain ⟨t', T', r1, r2, r3, r4, r5, r6, r7, r8⟩ := erase_node_spec hzf hrb hf
  have hpn : p ≠ t.nil := by
    have := hzf.rep
    simp only [rep_node] at this
    exact this.1
  have hp0 : p ≠ NULL := by
    have := (hal p hp).1
    simp only [NULL]
    omega
  have hnodes : T'.nodes =
      (plug ctx (Tree.node L p c k R)).nodes.filter (fun n => decide (n.1 ≠ p)) := by
    have hnd := hz.nodup
    simp only [cptrs_nil, List.append_nil] at hnd
    rw [ptrs_eq_nodes, nodes_plug, nodes_node] at hnd
    rw [r4, nodes_plug, nodes_node]
    have := filter_ne_mid (cbefore ctx ++ L.nodes) (R.nodes ++ cafter ctx) p k
      (by simpa [List.append_assoc] using hnd)
    simpa [List.append_assoc] using this.symm
  refine ⟨t', T', ?_, holds_iff.mpr ⟨r2, by rw [r5, r6]; exact hna, ?_⟩, r3, hnodes, r5, r6,
    r7, r8⟩
  · simp [rbtree_erase, hp0, hpn, r1]
  · intro q hq
    rw [r6]
    apply hal
    rw [ptrs_eq_nodes] at hq ⊢
    rw [hnodes] at hq
    obtain ⟨n, hn, rfl⟩ := List.mem_map.mp hq
    exact List.mem_map_of_mem _ (List.mem_filter.mp hn).1

/-! ## Facts for client programs -/

theorem holds_new : Holds new_rbtree Tree.leaf :=
  ⟨rfl, trivial, List.nodup_nil, rfl, by decide, by simp, rfl, rfl⟩

theorem rbinv_leaf : RBInv Tree.leaf :=
  ⟨rfl, trivial, by intro a ha b hb; simp [blackCounts] at ha hb; omega⟩

theorem size_eq_nodes (T : Tree) : T.size = T.nodes.length := by
  induction T with
  | leaf => rfl
  | node l p c k r ihl ihr => simp [Tree.size, ihl, ihr]; omega

theorem height_le_size (T : Tree) : T.height ≤ T.size := by
  induction T with
  | leaf => simp [Tree.height, Tree.size]
  | node l p c k r ihl ihr => simp [Tree.height, Tree.size]; omega

theorem keys_length (T : Tree) : T.keys.length = T.size := by
  rw [keys_eq_nodes, size_eq_nodes, List.length_map]

/-- The key stored in the cell of a node of the tree is the key of that node. -/
theorem key_of_node {t : rbtree} {T : Tree} {par p : Nat} {k : Int} (h : Rep t T par)
    (hm : (p, k) ∈ T.nodes) : t.key p = k := by
  induction T generalizing par with
  | leaf => simp at hm
  | node l q c kk r ihl ihr =>
    simp only [rep_node] at h
    simp only [nodes_node, List.mem_append, List.mem_cons, Prod.mk.injEq] at hm
    rcases hm with hm | ⟨rfl, rfl⟩ | hm
    · exact ihl h.2.2.2.2.2.2.1 hm
    · exact h.2.2.1
    · exact ihr h.2.2.2.2.2.2.2 hm

theorem node_of_ptr {t : rbtree} {T : Tree} {par p : Nat} (h : Rep t T par)
    (hm : p ∈ T.ptrs) : (p, t.key p) ∈ T.nodes := by
  rw [ptrs_eq_nodes] at hm
  obtain ⟨⟨q, k⟩, hn, rfl⟩ := List.mem_map.mp hm
  rw [key_of_node h hn]
  exact hn

/-- The keys of the tree are the keys stored in the cells of its nodes. -/
theorem mem_keys_iff {t : rbtree} {T : Tree} {par : Nat} (h : Rep t T par) (k : Int) :
    k ∈ T.keys ↔ ∃ q ∈ T.ptrs, t.key q = k := by
  constructor
  · intro hk
    rw [keys_eq_nodes] at hk
    obtain ⟨⟨q, k'⟩, hn, rfl⟩ := List.mem_map.mp hk
    refine ⟨q, ?_, key_of_node h hn⟩
    rw [ptrs_eq_nodes]
    exact List.mem_map_of_mem Prod.fst hn
  · rintro ⟨q, hq, rfl⟩
    rw [keys_eq_nodes]
    exact List.mem_map_of_mem Prod.snd (node_of_ptr h hq)

/-- BST ordering says that the in-order sequence of keys is non-decreasing. -/
theorem bst_iff_sorted (T : Tree) : T.bst ↔ T.keys.Sorted (· ≤ ·) := by
  induction T with
  | leaf => simp [Tree.bst, Tree.keys]
  | node l p c k r ihl ihr =>
    simp only [Tree.bst, Tree.keys, List.Sorted, List.pairwise_append, List.pairwise_cons,
      List.mem_cons, forall_eq_or_imp]
    rw [ihl, ihr]
    simp only [List.Sorted]
    constructor
    · rintro ⟨h1, h2, h3, h4⟩
      exact ⟨h3, ⟨h2, h4⟩, fun a ha => ⟨h1 a ha, fun b hb => le_trans (h1 a ha) (h2 b hb)⟩⟩
    · rintro ⟨h3, ⟨h2, h4⟩, h5⟩
      exact ⟨fun a ha => (h5 a ha).1, h2, h3, h4⟩

/-- The in-order sequence of nodes around a node of the tree. -/
theorem nodes_split {t : rbtree} {T : Tree} (h : Holds t T) {p : Nat} (hp : p ∈ T.ptrs) :
    ∃ a b, T.nodes = a ++ (p, t.key p) :: b ∧
      T.nodes.filter (fun n => decide (n.1 ≠ p)) = a ++ b := by
  obtain ⟨a, b, hab⟩ := List.append_of_mem (node_of_ptr h.rep hp)
  refine ⟨a, b, hab, ?_⟩
  rw [hab]
  apply filter_ne_mid
  rw [← hab, ← ptrs_eq_nodes]
  exact h.nodup

/-- On the path the descent of `rbtree_insert` takes for key `k` through a tree in BST
order, every node before the hole has a key at most `k` and every node after it a key
above `k`. -/
theorem path_bounds (k : Int) (ctx : List Frame) (hp : PathOK k ctx)
    (hs : ((cbefore ctx ++ cafter ctx).map Prod.snd).Sorted (· ≤ ·)) :
    (∀ n ∈ cbefore ctx, n.2 ≤ k) ∧ (∀ n ∈ cafter ctx, k < n.2) := by
  induction ctx with
  | nil => simp [cbefore, cafter]
  | cons f fs ih =>
    cases f with
    | inL p c kk r =>
      obtain ⟨hk, hp'⟩ := hp
      simp only [cbefore, cafter] at hs ⊢
      have hsub : (cbefore fs ++ cafter fs).Sublist
          (cbefore fs ++ (((p, kk) :: r.nodes) ++ cafter fs)) :=
        List.Sublist.append_left (List.sublist_append_right _ _) _
      obtain ⟨i1, i2⟩ := ih hp' (List.Pairwise.sublist (hsub.map Prod.snd) hs)
      refine ⟨i1, ?_⟩
      have hsub2 : ((p, kk) :: r.nodes).Sublist
          (cbefore fs ++ (((p, kk) :: r.nodes) ++ cafter fs)) :=
        (List.sublist_append_left _ _).trans (List.sublist_append_right _ _)
      have h2 := List.Pairwise.sublist (hsub2.map Prod.snd) hs
      simp only [List.map_cons, List.pairwise_cons] at h2
      intro n hn
      simp only [List.mem_append, List.mem_cons] at hn
      rcases hn with (rfl | hn) | hn
      · exact hk
      · exact lt_of_lt_of_le hk (h2.1 n.2 (List.mem_map_of_mem Prod.snd hn))
      · exact i2 n hn
    | inR l p c kk =>
      obtain ⟨hk, hp'⟩ := hp
      have hkk : kk ≤ k := not_lt.mp hk
      simp only [cbefore, cafter] at hs ⊢
      have hsub : (cbefore fs ++ cafter fs).Sublist
          (cbefore fs ++ (l.nodes ++ [(p, kk)]) ++ cafter fs) :=
        List.Sublist.append_right (List.sublist_append_left _ _) _
      obtain ⟨i1, i2⟩ := ih hp' (List.Pairwise.sublist (hsub.map Prod.snd) hs)
      refine ⟨?_, i2⟩
      have hsub2 : (l.nodes ++ [(p, kk)]).Sublist
          (cbefore fs ++ (l.nodes ++ [(p, kk)]) ++ cafter fs) :=
        (List.sublist_append_right _ _).trans (List.sublist_append_left _ _)
      have h2 := List.Pairwise.sublist (hsub2.map Prod.snd) hs
      simp only [List.map_append, List.map_cons, List.map_nil, List.pairwise_append,
        List.mem_singleton] at h2
      intro n hn
      simp only [List.mem_append, List.mem_cons, List.mem_singleton, List.not_mem_nil,
        or_false] at hn
      rcases hn with hn | hn | rfl
      · exact i1 n hn
      · exact le_trans (h2.2.2 n.2 (List.mem_map_of_mem Prod.snd hn) kk rfl) hkk
      · exact hkk

/-- Putting a key between the nodes below it and the nodes above it keeps the in-order
sequence of keys non-decreasing. -/
theorem sorted_insert_mid (a b : List (Nat × Int)) (p : Nat) (k : Int)
    (hs : ((a ++ b).map Prod.snd).Sorted (· ≤ ·)) (ha : ∀ n ∈ a, n.2 ≤ k)
    (hb : ∀ n ∈ b, k < n.2) : ((a ++ (p, k) :: b).map Prod.snd).Sorted (· ≤ ·) := by
  simp only [List.map_append, List.map_cons, List.Sorted, List.pairwise_append,
    List.pairwise_cons, List.mem_cons, List.mem_map, forall_exists_index, and_imp,
    Prod.forall, forall_eq_or_imp] at hs ⊢
  obtain ⟨h1, h2, h3⟩ := hs
  refine ⟨h1, ⟨?_, h2⟩, ?_⟩
  · intro x q y hq hx
    subst hx
    exact le_of_lt (hb (q, y) hq)
  · intro x q y hq hx
    subst hx
    refine ⟨ha (q, y) hq, ?_⟩
    intro z q' y' hq' hz
    subst hz
    exact h3 y q y hq rfl y' q' y' hq' rfl

/-- `rbtree_insert` on a state that holds a red-black tree, with the place of the new
node: the nodes before it are the old nodes on the left of the path of the descent, the
nodes after it are the old nodes on the right of that path; in a tree in BST order the
former have keys at most `k`, the latter keys above `k`, and the new tree is in BST order. -/
theorem rbtree_insert_pos {t : rbtree} {T : Tree} (h : Holds t T) (hrb : RBInv T) (k : Int)
    (fuel : Nat) (hf : T.height + 1 ≤ fuel) :
    ∃ t' T' a b, rbtree_insert fuel t k = some (t', t.brk) ∧ Holds t' T' ∧ RBInv T' ∧
      T.nodes = a ++ b ∧ T'.nodes = a ++ (t.brk, k) :: b ∧
      (T.bst → (∀ n ∈ a, n.2 ≤ k) ∧ (∀ n ∈ b, k < n.2) ∧ T'.bst) ∧
      t'.nil = t.nil ∧ t'.brk = t.brk + 1 ∧ t'.freed = t.freed := by
  obtain ⟨t', T', r1, r2, r3, r4, r5, r6, r7⟩ := rbtree_insert_spec h hrb k fuel hf
  have hT : T.nodes = cbefore (descend k T []) ++ cafter (descend k T []) := by
    have := congrArg Tree.nodes (descend_plug k T [])
    rw [nodes_plug] at this
    simpa [plug] using this.symm
  have hT' : T'.nodes = cbefore (descend k T []) ++ (t.brk, k) :: cafter (descend k T []) := by
    rw [r4, nodes_plug]
    simp
  refine ⟨t', T', _, _, r1, r2, r3, hT, hT', ?_, r5, r6, r7⟩
  intro hb
  have hs : ((cbefore (descend k T []) ++ cafter (descend k T [])).map Prod.snd).Sorted
      (· ≤ ·) := by
    rw [← hT, ← keys_eq_nodes]
    exact (bst_iff_sorted T).mp hb
  obtain ⟨b1, b2⟩ := path_bounds k _ (descend_pathOK k T [] trivial) hs
  refine ⟨b1, b2, (bst_iff_sorted T').mpr ?_⟩
  rw [keys_eq_nodes, hT']
  exact sorted_insert_mid _ _ _ _ hs b1 b2

/-- `rbtree_erase` keeps the in-order sequence of keys non-decreasing. -/
theorem sorted_filter (T : Tree) (p : Nat) (T' : Tree)
    (h : T'.nodes = T.nodes.filter (fun n => decide (n.1 ≠ p))) (hb : T.bst) : T'.bst := by
  rw [bst_iff_sorted] at hb ⊢
  rw [keys_eq_nodes] at hb ⊢
  rw [h]
  exact List.Pairwise.sublist ((List.filter_sublist _).map Prod.snd) hb

/-- The loop of `rbtree_find` on a subtree in BST order: it returns a node of the subtree
with the key, when the subtree has one, and `NULL` otherwise. -/
theorem rbtree_find_loop_spec {t : rbtree} (key : Int) (T : Tree) :
    ∀ {par : Nat} (fuel : Nat), Rep t T par → T.bst → T.height + 1 ≤ fuel →
      (key ∈ T.keys → ∃ p, rbtree_find_loop fuel t key (T.rootp t.nil) = some p ∧
        p ∈ T.ptrs ∧ t.key p = key) ∧
      (key ∉ T.keys → rbtree_find_loop fuel t key (T.rootp t.nil) = some NULL) := by
  induction T with
  | leaf =>
    intro par fuel _ _ hf
    obtain ⟨fuel', rfl⟩ : ∃ f', fuel = f' + 1 := ⟨fuel - 1, by omega⟩
    simp [rbtree_find_loop, Tree.keys]
  | node l p c kk r ihl ihr =>
    intro par fuel hr hb hf
    simp only [rep_node] at hr
    obtain ⟨h1, h2, h3, h4, h5, h6, h7, h8⟩ := hr
    obtain ⟨b1, b2, b3, b4⟩ := hb
    simp only [Tree.height] at hf
    obtain ⟨fuel', rfl⟩ : ∃ f', fuel = f' + 1 := ⟨fuel - 1, by omega⟩
    have il := ihl fuel' h7 b3 (by omega)
    have ir := ihr fuel' h8 b4 (by omega)
    simp only [rootp_node, Tree.keys, List.mem_append, List.mem_cons, ptrs_node]
    rcases lt_trichotomy key kk with hlt | heq | hgt
    · have hne : key ≠ kk := ne_of_lt hlt
      have hnr : key ∉ r.keys := fun hm => absurd (b2 key hm) (not_le.mpr hlt)
      have hE : rbtree_find_loop (fuel' + 1) t key p =
          rbtree_find_loop fuel' t key (l.rootp t.nil) := by
        simp [rbtree_find_loop, h1, h3, hne, hlt, h5]
      rw [hE]
      constructor
      · intro hm
        have hml : key ∈ l.keys := by tauto
        obtain ⟨q, e1, e2, e3⟩ := il.1 hml
        exact ⟨q, e1, Or.inl e2, e3⟩
      · intro hm
        exact il.2 (by tauto)
    · subst heq
      have hE : rbtree_find_loop (fuel' + 1) t key p = some p := by
        simp [rbtree_find_loop, h1, h3]
      rw [hE]
      exact ⟨fun _ => ⟨p, rfl, Or.inr (Or.inl rfl), h3⟩, fun hm => absurd (Or.inr (Or.inl rfl)) hm⟩
    · have hne : key ≠ kk := ne_of_gt hgt
      have hnl : key ∉ l.keys := fun hm => absurd (b1 key hm) (not_le.mpr hgt)
      have hE : rbtree_find_loop (fuel' + 1) t key p =
          rbtree_find_loop fuel' t key (r.rootp t.nil) := by
        simp [rbtree_find_loop, h1, h3, hne, not_lt.mpr (le_of_lt hgt), h6]
      rw [hE]
      constructor
      · intro hm
        have hmr : key ∈ r.keys := by tauto
        obtain ⟨q, e1, e2, e3⟩ := ir.1 hmr
        exact ⟨q, e1, Or.inr (Or.inr e2), e3⟩
      · intro hm
        exact ir.2 (by tauto)

/-- `rbtree_find` on a state that holds a tree in BST order. -/
theorem rbtree_find_spec {t : rbtree} {T : Tree} (h : Holds t T) (hb : T.bst) (key : Int)
    (fuel : Nat) (hf : T.height + 1 ≤ fuel) :
    (key ∈ T.keys → ∃ p, rbtree_find fuel t key = some p ∧ p ∈ T.ptrs ∧ t.key p = key ∧
      p ≠ NULL) ∧
    (key ∉ T.keys → rbtree_find fuel t key = some NULL) := by
  have := rbtree_find_loop_spec key T fuel h.rep hb hf
  rw [← h.root] at this
  refine ⟨fun hm => ?_, this.2⟩
  obtain ⟨p, e1, e2, e3⟩ := this.1 hm
  refine ⟨p, e1, e2, e3, ?_⟩
  have := (h.alloc p e2).1
  simp only [NULL]
  omega

/-- The loop of `rbtree_min` on a non-empty subtree in BST order returns a node of the
subtree whose key is at most every key of the subtree. -/
theorem rbtree_min_loop_spec {t : rbtree} (T : Tree) :
    ∀ {par : Nat} (fuel : Nat), Rep t T par → T ≠ Tree.leaf → T.height ≤ fuel →
      ∃ p, rbtree_min_loop fuel t (T.rootp t.nil) = some p ∧ p ∈ T.ptrs ∧
        (T.bst → ∀ k ∈ T.keys, t.key p ≤ k) := by
  induction T with
  | leaf => intro par fuel _ h; exact absurd rfl h
  | node l p c kk r ihl _ =>
    intro par fuel hr _ hf
    simp only [rep_node] at hr
    obtain ⟨h1, h2, h3, h4, h5, h6, h7, h8⟩ := hr
    simp only [Tree.height] at hf
    obtain ⟨fuel', rfl⟩ : ∃ f', fuel = f' + 1 := ⟨fuel - 1, by omega⟩
    simp only [rootp_node, ptrs_node, Tree.keys, List.mem_append, List.mem_cons]
    by_cases hl : l = Tree.leaf
    · subst hl
      refine ⟨p, by simp [rbtree_min_loop, h5], Or.inr (Or.inl rfl), ?_⟩
      rintro ⟨-, b2, -, -⟩ k hk
      simp only [Tree.keys, List.not_mem_nil, false_or] at hk
      rcases hk with rfl | hk
      · exact le_of_eq h3
      · rw [h3]; exact b2 k hk
    · have hln : l.rootp t.nil ≠ t.nil := by
        cases l with
        | leaf => exact absurd rfl hl
        | node a q cq kq b =>
          simp only [rep_node] at h7
          simpa using h7.1
      obtain ⟨q, e1, e2, e3⟩ := ihl fuel' h7 hl (by omega)
      refine ⟨q, by simp [rbtree_min_loop, h1, h5, hln, e1], Or.inl e2, ?_⟩
      rintro ⟨b1, b2, b3, -⟩ k hk
      have hq : t.key q ≤ kk := b1 _ ((mem_keys_iff h7 _).mpr ⟨q, e2, rfl⟩)
      rcases hk with hk | rfl | hk
      · exact e3 b3 k hk
      · exact hq
      · exact le_trans hq (b2 k hk)

/-- The loop of `rbtree_max` on a non-empty subtree in BST order returns a node of the
subtree whose key is at least every key of the subtree. -/
theorem rbtree_max_loop_spec {t : rbtree} (T : Tree) :
    ∀ {par : Nat} (fuel : Nat), Rep t T par → T ≠ Tree.leaf → T.height ≤ fuel →
      ∃ p, rbtree_max_loop fuel t (T.rootp t.nil) = some p ∧ p ∈ T.ptrs ∧
        (T.bst → ∀ k ∈ T.keys, k ≤ t.key p) := by
  induction T with
  | leaf => intro par fuel _ h; exact absurd rfl h
  | node l p c kk r _ ihr =>
    intro par fuel hr _ hf
    simp only [rep_node] at hr
    obtain ⟨h1, h2, h3, h4, h5, h6, h7, h8⟩ := hr
    simp only [Tree.height] at hf
    obtain ⟨fuel', rfl⟩ : ∃ f', fuel = f' + 1 := ⟨fuel - 1, by omega⟩
    simp only [rootp_node, ptrs_node, Tree.keys, List.mem_append, List.mem_cons]
    by_cases hl : r = Tree.leaf
    · subst hl
      refine ⟨p, by simp [rbtree_max_loop, h6], Or.inr (Or.inl rfl), ?_⟩
      rintro ⟨b1, -, -, -⟩ k hk
      simp only [Tree.keys, List.not_mem_nil, or_false] at hk
      rcases hk with hk | rfl
      · rw [h3]; exact b1 k hk
      · exact le_of_eq h3.symm
    · have hrn : r.rootp t.nil ≠ t.nil := by
        cases r with
        | leaf => exact absurd rfl hl
        | node a q cq kq b =>
          simp only [rep_node] at h8
          simpa using h8.1
      obtain ⟨q, e1, e2, e3⟩ := ihr fuel' h8 hl (by omega)
      refine ⟨q, by simp [rbtree_max_loop, h1, h6, hrn, e1], Or.inr (Or.inr e2), ?_⟩
      rintro ⟨b1, b2, -, b4⟩ k hk
      have hq : kk ≤ t.key q := b2 _ ((mem_keys_iff h8 _).mpr ⟨q, e2, rfl⟩)
      rcases hk with hk | rfl | hk
      · exact le_trans (b1 k hk) hq
      · exact hq
      · exact e3 b4 k hk

theorem int_of_size_t_small {n : Nat} (h : n < 2 ^ 31) : int_of_size_t n = (n : Int) := by
  have h1 : n % 2 ^ 32 = n := Nat.mod_eq_of_lt (by omega)
  simp only [int_of_size_t, h1]
  rw [if_pos h]

theorem wrap_int_small {x : Int} (h1 : -2 ^ 31 ≤ x) (h2 : x < 2 ^ 31) : wrap_int x = x := by
  simp only [wrap_int]
  rw [Int.emod_eq_of_lt (by omega) (by omega)]
  omega

/-- `in_order_copy` on a subtree, for a capacity and a tree that fit an `int`: the keys of
the subtree are written in order from index `idx` on, as far as the capacity reaches;
nothing else is written; the returned index is at least the index after the last key
written. -/
theorem in_order_copy_spec {t : rbtree} {nslots : Nat} (hn : nslots < 2 ^ 31) (T : Tree) :
    ∀ {par : Nat} (fuel : Nat) (arr : Int → Int) (idx : Int), Rep t T par →
      T.height + 1 ≤ fuel → 0 ≤ idx → idx + (T.size : Int) < 2 ^ 31 →
      ∃ arr' idx', in_order_copy fuel t (T.rootp t.nil) arr nslots idx = some (arr', idx') ∧
        idx' ≤ idx + (T.size : Int) ∧ min (idx + (T.size : Int)) (nslots : Int) ≤ idx' ∧
        idx ≤ idx' ∧
        (∀ j : Nat, j < T.size → idx + (j : Int) < (nslots : Int) →
          arr' (idx + (j : Int)) = T.keys.getD j 0) ∧
        (∀ i : Int, (i < idx ∨ idx + (T.size : Int) ≤ i ∨ (nslots : Int) ≤ i) →
          arr' i = arr i) := by
  induction T with
  | leaf =>
    intro par fuel arr idx _ hf h0 _
    obtain ⟨fuel', rfl⟩ : ∃ f', fuel = f' + 1 := ⟨fuel - 1, by omega⟩
    refine ⟨arr, idx, by simp [in_order_copy], by simp [Tree.size], by simp [Tree.size],
      le_refl _, ?_, fun _ _ => rfl⟩
    intro j hj
    simp [Tree.size] at hj
  | node l p c kk r ihl ihr =>
    intro par fuel arr idx hr hf h0 hsz
    simp only [rep_node] at hr
    obtain ⟨h1, h2, h3, h4, h5, h6, h7, h8⟩ := hr
    simp only [Tree.height] at hf
    obtain ⟨fuel', rfl⟩ : ∃ f', fuel = f' + 1 := ⟨fuel - 1, by omega⟩
    have hN := int_of_size_t_small hn
    simp only [rootp_node]
    have hsize : ((Tree.node l p c kk r).size : Int) = (l.size : Int) + 1 + (r.size : Int) := by
      simp [Tree.size]
    rw [hsize] at hsz ⊢
    by_cases hg : (nslots : Int) ≤ idx
    · refine ⟨arr, idx, by simp [in_order_copy, hN, hg], by omega, by omega, le_refl _, ?_,
        fun _ _ => rfl⟩
      intro j _ hj
      omega
    · obtain ⟨arr1, idx1, e1, a1, a2, a3, a4, a5⟩ :=
        ihl fuel' arr idx h7 (by omega) h0 (by omega)
      obtain ⟨arr', idx', e2, c1, c2, c3, c4, c5⟩ :=
        ihr fuel' (if idx1 < (nslots : Int) then (fun i => if i = idx1 then kk else arr1 i)
          else arr1) (idx1 + 1) h8 (by omega) (by omega) (by omega)
      have hw : wrap_int (idx1 + 1) = idx1 + 1 := wrap_int_small (by omega) (by omega)
      refine ⟨arr', idx', ?_, by omega, ?_, by omega, ?_, ?_⟩
      · simp only [in_order_copy, h1, hN, false_or, ge_iff_le, hg, if_false, h5, e1, h3, hw,
          h6]
        exact e2
      · rcases lt_or_le idx1 (nslots : Int) with hlt | hge
        · have : idx1 = idx + (l.size : Int) := by
            rcases le_total (idx + (l.size : Int)) (nslots : Int) with h | h
            · rw [min_eq_left h] at a2; omega
            · rw [min_eq_right h] at a2; omega
          rw [this] at c2
          have e : idx + ↑l.size + 1 + ↑r.size = idx + (↑l.size + 1 + ↑r.size) := by ring
          rw [e] at c2
          exact c2
        · have : min (idx1 + 1 + (r.size : Int)) (nslots : Int) = nslots :=
            min_eq_right (by omega)
          rw [this] at c2
          exact le_trans (min_le_right _ _) c2
      · intro j hj hjn
        simp only [Tree.size] at hj
        simp only [Tree.keys]
        rcases lt_trichotomy j l.size with hjl | hjl | hjl
        · have hi1 : idx + (j : Int) < idx1 := by
            rcases le_total (idx + (l.size : Int)) (nslots : Int) with h | h
            · rw [min_eq_left h] at a2; omega
            · rw [min_eq_right h] at a2; omega
          rw [c5 _ (Or.inl (by omega))]
          rw [List.getD_append _ _ _ _ (by rw [keys_length]; exact hjl)]
          rw [← a4 j hjl hjn]
          have hne : idx + (j : Int) ≠ idx1 := by omega
          split_ifs <;> simp [hne]
        · subst hjl
          have hi1 : idx1 = idx + (l.size : Int) := by
            rw [min_eq_left (by omega)] at a2; omega
          rw [c5 _ (Or.inl (by omega))]
          rw [List.getD_append_right _ _ _ _ (by rw [keys_length])]
          rw [keys_length, Nat.sub_self, List.getD_cons_zero]
          rw [if_pos (by omega)]
          simp [hi1]
        · have hi1 : idx1 = idx + (l.size : Int) := by
            rw [min_eq_left (by omega)] at a2; omega
          obtain ⟨j', rfl⟩ : ∃ j', j = l.size + 1 + j' := ⟨j - (l.size + 1), by omega⟩
          have := c4 j' (by omega) (by push_cast at hjn ⊢; omega)
          rw [List.getD_append_right _ _ _ _ (by rw [keys_length]; omega)]
          rw [keys_length]
          have e : l.size + 1 + j' - l.size = j' + 1 := by omega
          rw [e, List.getD_cons_succ, ← this]
          congr 1
          push_cast
          omega
      · intro i hi
        have hi2 : i < idx1 + 1 ∨ idx1 + 1 + (r.size : Int) ≤ i ∨ (nslots : Int) ≤ i := by
          omega
        rw [c5 i hi2]
        have hne : (if idx1 < (nslots : Int) then (fun i => if i = idx1 then kk else arr1 i)
            else arr1) i = arr1 i := by
          split_ifs with h
          · have hi1 : idx1 = idx + (l.size : Int) := by
              rw [min_eq_left (by omega)] at a2; omega
            have : i ≠ idx1 := by omega
            simp [this]
          · rfl
        rw [hne]
        exact a5 i (by omega)

/-- `rbtree_to_array` on a state that holds a tree, for a capacity and a tree that fit an
`int`: it returns 0; the first `min(size, n)` slots hold the first keys in in-order and no
other slot is written. -/
theorem rbtree_to_array_spec {t : rbtree} {T : Tree} (h : Holds t T) {n : Nat}
    (hn : n < 2 ^ 31) (hsz : T.size < 2 ^ 31) (arr : Int → Int) (fuel : Nat)
    (hf : T.height + 1 ≤ fuel) :
    ∃ arr', rbtree_to_array fuel (some t) (some arr) n = some (some arr', 0) ∧
      (∀ j : Nat, j < min T.size n → arr' (j : Int) = T.keys.getD j 0) ∧
      (∀ i : Int, (i < 0 ∨ ((min T.size n : Nat) : Int) ≤ i) → arr' i = arr i) := by
  by_cases h0 : n = 0
  · subst h0
    exact ⟨arr, by simp [rbtree_to_array], by simp, fun _ _ => rfl⟩
  · obtain ⟨arr', idx', e1, -, -, -, e4, e5⟩ :=
      in_order_copy_spec hn T fuel arr 0 h.rep hf (le_refl _) (by omega)
    rw [← h.root] at e1
    refine ⟨arr', by simp [rbtree_to_array, h0, e1], ?_, ?_⟩
    · intro j hj
      have := e4 j (by omega) (by simp only [zero_add]; exact_mod_cast (by omega : j < n))
      simpa using this
    · intro i hi
      apply e5
      rcases hi with hi | hi
      · exact Or.inl hi
      · rcases le_total T.size n with hle | hle
        · rw [min_eq_left hle] at hi
          exact Or.inr (Or.inl (by simpa using hi))
        · rw [min_eq_right hle] at hi
          exact Or.inr (Or.inr hi)

/-- A state holds at most one tree below a given pointer. -/
theorem rep_unique {t : rbtree} (T : Tree) :
    ∀ {T' : Tree} {par par' : Nat}, Rep t T par → Rep t T' par' →
      T.rootp t.nil = T'.rootp t.nil → T = T' := by
  induction T with
  | leaf =>
    intro T' par par' _ h' e
    cases T' with
    | leaf => rfl
    | node l p c k r =>
      simp only [rep_node] at h'
      simp only [rootp_leaf, rootp_node] at e
      exact absurd e.symm h'.1
  | node l p c k r ihl ihr =>
    intro T' par par' h h' e
    simp only [rep_node] at h
    obtain ⟨h1, h2, h3, h4, h5, h6, h7, h8⟩ := h
    cases T' with
    | leaf =>
      simp only [rootp_leaf, rootp_node] at e
      exact absurd e h1
    | node l' p' c' k' r' =>
      simp only [rep_node] at h'
      obtain ⟨g1, g2, g3, g4, g5, g6, g7, g8⟩ := h'
      simp only [rootp_node] at e
      subst e
      have el := ihl h7 g7 (h5.symm.trans g5)
      have er := ihr h8 g8 (h6.symm.trans g6)
      rw [el, er, ← h2, ← h3, g2, g3]

theorem holds_unique {t : rbtree} {T T' : Tree} (h : Holds t T) (h' : Holds t T') : T = T' :=
  rep_unique T h.rep h'.rep (h.root.symm.trans h'.root)

theorem ptrs_length (T : Tree) : T.ptrs.length = T.size := by
  rw [ptrs_eq_nodes, size_eq_nodes, List.length_map]

theorem holds_leaf_root {t : rbtree} (h : Holds t Tree.leaf) : t.root = t.nil := h.root

theorem ptrs_nil_leaf {T : Tree} (h : T.ptrs = []) : T = Tree.leaf := by
  cases T with
  | leaf => rfl
  | node l p c k r => simp at h

/-- The calls of `rbtree_insert` for a list of keys, started on a state that holds a
red-black tree in BST order, with fuel above the final number of nodes: the calls return
and leave a red-black tree in BST order whose keys are the old keys and the keys of the
list, and whose nodes are the old nodes and the nodes returned. -/
theorem insert_all_spec (ks : List Int) :
    ∀ {t : rbtree} {T : Tree} (fuel : Nat), Holds t T → RBInv T → T.bst →
      T.size + ks.length + 1 ≤ fuel →
      ∃ t' ps T', insert_all fuel ks t = some (t', ps) ∧ Holds t' T' ∧ RBInv T' ∧ T'.bst ∧
        T'.keys.Perm (ks ++ T.keys) ∧ T'.ptrs.Perm (ps ++ T.ptrs) ∧
        ps.length = ks.length ∧ t'.freed = t.freed := by
  induction ks with
  | nil =>
    intro t T fuel h hrb hb _
    exact ⟨t, [], T, rfl, h, hrb, hb, List.Perm.refl _, List.Perm.refl _, rfl, rfl⟩
  | cons k ks ih =>
    intro t T fuel h hrb hb hf
    have hh := height_le_size T
    simp only [List.length_cons] at hf
    obtain ⟨t1, T1, a, b, r1, r2, r3, r4, r5, r6, -, -, r9⟩ :=
      rbtree_insert_pos h hrb k fuel (by omega)
    obtain ⟨-, -, hb1⟩ := r6 hb
    have hk1 : T1.keys.Perm (k :: T.keys) := by
      rw [keys_eq_nodes, keys_eq_nodes, r4, r5]
      simp only [List.map_append, List.map_cons]
      exact List.perm_middle
    have hp1 : T1.ptrs.Perm (t.brk :: T.ptrs) := by
      rw [ptrs_eq_nodes, ptrs_eq_nodes, r4, r5]
      simp only [List.map_append, List.map_cons]
      exact List.perm_middle
    have hs1 : T1.size = T.size + 1 := by
      rw [← keys_length, ← keys_length, hk1.length_eq]
      rfl
    obtain ⟨t', ps, T', e1, e2, e3, e4, e5, e6, e7, e8⟩ := ih fuel r2 r3 hb1 (by omega)
    refine ⟨t', t.brk :: ps, T', by simp [insert_all, r1, e1], e2, e3, e4, ?_, ?_, by simp [e7],
      e8.trans r9⟩
    · refine e5.trans ?_
      refine (List.Perm.append_left ks hk1).trans ?_
      simpa using List.perm_middle
    · refine e6.trans ?_
      refine (List.Perm.append_left ps hp1).trans ?_
      simpa using List.perm_middle

/-- The calls of `rbtree_erase` for the nodes of a red-black tree, each once, in any
order, with fuel above the number of nodes: the calls return and leave the empty tree. -/
theorem erase_all_spec (qs : List Nat) :
    ∀ {t : rbtree} {T : Tree} (fuel : Nat), Holds t T → RBInv T → qs.Perm T.ptrs →
      T.size + 1 ≤ fuel →
      ∃ t', erase_all fuel qs t = some t' ∧ Holds t' Tree.leaf ∧
        t'.freed = qs.reverse ++ t.freed := by
  induction qs with
  | nil =>
    intro t T fuel h _ hp _
    have : T = Tree.leaf := ptrs_nil_leaf (List.Perm.eq_nil hp.symm)
    subst this
    exact ⟨t, rfl, h, rfl⟩
  | cons q qs ih =>
    intro t T fuel h hrb hp hf
    have hh := height_le_size T
    have hq : q ∈ T.ptrs := hp.subset (List.mem_cons_self _ _)
    obtain ⟨t1, T1, r1, r2, r3, r4, r5, r6, r7, r8⟩ :=
      rbtree_erase_spec h hrb hq fuel (by omega)
    have hp1 : T1.ptrs = T.ptrs.erase q := by
      rw [ptrs_eq_nodes, r4, ptrs_eq_nodes, List.Nodup.erase_eq_filter
        (by rw [← ptrs_eq_nodes]; exact h.nodup)]
      rw [List.filter_map]
      congr 1
      apply List.filter_congr
      intro x _
      by_cases hx : x.1 = q <;> simp [hx]
    have hperm : qs.Perm T1.ptrs := by
      rw [hp1]
      exact List.cons_perm_iff_perm_erase.mp hp |>.2
    have hs1 : T1.size + 1 = T.size := by
      rw [← ptrs_length, ← ptrs_length, hp1, List.length_erase_of_mem hq]
      have : 0 < T.ptrs.length := List.length_pos_of_mem hq
      omega
    obtain ⟨t', e1, e2, e3⟩ := ih fuel r2 r3 hperm (by omega)
    refine ⟨t', by simp [erase_all, r1, e1], e2, ?_⟩
    rw [e3, r7]
    simp

/-- Every state a client reaches holds a red-black tree in BST order whose keys are the
keys inserted and not erased. -/
theorem reach_inv {t : rbtree} {ins del : List Int} (h : Reach t ins del) :
    ∃ T, Holds t T ∧ RBInv T ∧ T.bst ∧ (T.keys ++ del).Perm ins := by
  induction h with
  | new => exact ⟨Tree.leaf, holds_new, rbinv_leaf, trivial, List.Perm.refl _⟩
  | @insert t t1 ins del T0 fuel k p _ h0 hf hcall ih =>
    obtain ⟨T, i1, i2, i3, i4⟩ := ih
    have := holds_unique h0 i1
    subst this
    obtain ⟨t', T', a, b, r1, r2, r3, r4, r5, r6, -⟩ := rbtree_insert_pos i1 i2 k fuel hf
    rw [r1] at hcall
    simp only [Option.some.injEq, Prod.mk.injEq] at hcall
    obtain ⟨rfl, rfl⟩ := hcall
    obtain ⟨-, -, hb1⟩ := r6 i3
    refine ⟨T', r2, r3, hb1, ?_⟩
    have hk1 : T'.keys.Perm (k :: T0.keys) := by
      rw [keys_eq_nodes, keys_eq_nodes, r4, r5]
      simp only [List.map_append, List.map_cons]
      exact List.perm_middle
    exact (List.Perm.append_right del hk1).trans (List.Perm.cons k i4)
  | @erase t t1 ins del T0 fuel p r _ h0 hp hf hcall ih =>
    obtain ⟨T, i1, i2, i3, i4⟩ := ih
    have := holds_unique h0 i1
    subst this
    obtain ⟨t', T', r1, r2, r3, r4, -⟩ := rbtree_erase_spec i1 i2 hp fuel hf
    rw [r1] at hcall
    simp only [Option.some.injEq, Prod.mk.injEq] at hcall
    obtain ⟨rfl, -⟩ := hcall
    refine ⟨T', r2, r3, sorted_filter T0 p T' r4 i3, ?_⟩
    obtain ⟨a, b, hab, hfil⟩ := nodes_split i1 hp
    have hk : T0.keys.Perm (t.key p :: T'.keys) := by
      rw [keys_eq_nodes, keys_eq_nodes, r4, hfil, hab]
      simp only [List.map_append, List.map_cons]
      exact List.perm_middle
    refine List.Perm.trans ?_ i4
    refine List.Perm.trans ?_ (List.Perm.append_right del hk.symm)
    simpa using List.perm_middle

/-- A subtree of black height `b` without RED-RED edges has at least `2^b - 1` nodes and
height at most `2b`, one more when its root is RED. -/
theorem balance_aux (T : Tree) :
    ∀ b, noRedRed T → BH T b →
      2 ^ b ≤ T.size + 1 ∧
        T.height ≤ 2 * b + (if T.rootColor = RBTREE_RED then 1 else 0) := by
  induction T with
  | leaf =>
    intro b _ hb
    simp only [bh_leaf] at hb
    subst hb
    simp [Tree.size, Tree.height]
  | node l p c k r ihl ihr =>
    intro b hr hb
    cases c with
    | RBTREE_RED =>
      simp only [bh_red, noRedRed_red] at hb hr
      obtain ⟨⟨cl, cr⟩, nl, nr⟩ := hr
      obtain ⟨l1, l2⟩ := ihl b nl hb.1
      obtain ⟨r1, r2⟩ := ihr b nr hb.2
      rw [cl] at l2
      rw [cr] at r2
      simp only [reduceCtorEq, if_false, add_zero] at l2 r2
      simp only [Tree.size, Tree.height, rootColor_node, if_true]
      constructor
      · omega
      · omega
    | RBTREE_BLACK =>
      simp only [bh_black, noRedRed_black] at hb hr
      obtain ⟨m, rfl, bl, br⟩ := hb
      obtain ⟨l1, l2⟩ := ihl m hr.1 bl
      obtain ⟨r1, r2⟩ := ihr m hr.2 br
      simp only [Tree.size, Tree.height, rootColor_node, reduceCtorEq, if_false, add_zero]
      constructor
      · rw [pow_succ]
        omega
      · have : l.height ≤ 2 * m + 1 := by split_ifs at l2 <;> omega
        have : r.height ≤ 2 * m + 1 := by split_ifs at r2 <;> omega
        omega

/-- A red-black tree with `n` nodes and height `h` has `2^ceil(h/2) <= n + 1`. -/
theorem rb_balanced {T : Tree} (h : RBInv T) : 2 ^ ((T.height + 1) / 2) ≤ T.size + 1 := by
  obtain ⟨h1, h2, h3⟩ := h
  obtain ⟨b, hb⟩ := (equalBlack_iff T).mp h3
  obtain ⟨a1, a2⟩ := balance_aux T b h2 hb
  have hc : T.rootColor = RBTREE_BLACK := h1
  rw [hc] at a2
  simp only [reduceCtorEq, if_false, add_zero] at a2
  have : (T.height + 1) / 2 ≤ b := by omega
  exact le_trans (Nat.pow_le_pow_right (by norm_num) this) a1

/-- `rotate_left` at a node of the tree with a real right child leaves a state that
holds a tree with the same in-order sequence of nodes. -/
theorem rotate_left_holds {t : rbtree} {T : Tree} (h : Holds t T) {x : Nat}
    (hx : x ∈ T.ptrs) (hr : t.right x ≠ t.nil) :
    ∃ T', Holds (rotate_left t x) T' ∧ T'.nodes = T.nodes ∧ T'.size = T.size := by
  obtain ⟨hz, hna, hal⟩ := holds_iff.mp h
  obtain ⟨ctx, a, cx, kx, R, hT⟩ := exists_focus T [] hx
  simp only [plug] at hT
  subst hT
  have hzf := zrep_plug.mpr hz
  have hrep := hzf.rep
  simp only [rep_node] at hrep
  cases R with
  | leaf => exact absurd hrep.2.2.2.2.2.1 hr
  | node b y cy ky c =>
    obtain ⟨hz', -⟩ := rotate_left_spec hzf
    have hn : (plug ctx (Tree.node (Tree.node a x cx kx b) y cy ky c)).nodes =
        (plug ctx (Tree.node a x cx kx (Tree.node b y cy ky c))).nodes :=
      nodes_plug_congr ctx (by simp)
    refine ⟨plug ctx (Tree.node (Tree.node a x cx kx b) y cy ky c), ?_, hn, ?_⟩
    · refine holds_iff.mpr ⟨zrep_plug.mp hz', ?_, ?_⟩
      · rw [rotate_left_nil, rotate_left_brk]; exact hna
      · intro q hq
        rw [rotate_left_brk]
        apply hal
        rw [ptrs_eq_nodes] at hq ⊢
        rwa [hn] at hq
    · rw [size_eq_nodes, size_eq_nodes, hn]

/-- `rotate_right` at a node of the tree with a real left child leaves a state that
holds a tree with the same in-order sequence of nodes. -/
theorem rotate_right_holds {t : rbtree} {T : Tree} (h : Holds t T) {x : Nat}
    (hx : x ∈ T.ptrs) (hr : t.left x ≠ t.nil) :
    ∃ T', Holds (rotate_right t x) T' ∧ T'.nodes = T.nodes ∧ T'.size = T.size := by
  obtain ⟨hz, hna, hal⟩ := holds_iff.mp h
  obtain ⟨ctx, L, cx, kx, a, hT⟩ := exists_focus T [] hx
  simp only [plug] at hT
  subst hT
  have hzf := zrep_plug.mpr hz
  have hrep := hzf.rep
  simp only [rep_node] at hrep
  cases L with
  | leaf => exact absurd hrep.2.2.2.2.1 hr
  | node c y cy ky b =>
    obtain ⟨hz', -⟩ := rotate_right_spec hzf
    have hn : (plug ctx (Tree.node c y cy ky (Tree.node b x cx kx a))).nodes =
        (plug ctx (Tree.node (Tree.node c y cy ky b) x cx kx a)).nodes :=
      nodes_plug_congr ctx (by simp)
    refine ⟨plug ctx (Tree.node c y cy ky (Tree.node b x cx kx a)), ?_, hn, ?_⟩
    · refine holds_iff.mpr ⟨zrep_plug.mp hz', ?_, ?_⟩
      · rw [rotate_right_nil, rotate_right_brk]; exact hna
      · intro q hq
        rw [rotate_right_brk]
        apply hal
        rw [ptrs_eq_nodes] at hq ⊢
        rwa [hn] at hq
    · rw [size_eq_nodes, size_eq_nodes, hn]

/-- In a state that holds a tree the `parent` field of every real child points back to
the node whose `left` or `right` field points to it. -/
theorem rep_links {t : rbtree} (T : Tree) :
    ∀ {par : Nat}, Rep t T par → ∀ q ∈ T.ptrs,
      (t.left q ≠ t.nil → t.parent (t.left q) = q) ∧
      (t.right q ≠ t.nil → t.parent (t.right q) = q) := by
  induction T with
  | leaf => intro par _ q hq; simp at hq
  | node l p c k r ihl ihr =>
    intro par h q hq
    simp only [rep_node] at h
    obtain ⟨h1, h2, h3, h4, h5, h6, h7, h8⟩ := h
    simp only [ptrs_node, List.mem_append, List.mem_cons] at hq
    rcases hq with hq | rfl | hq
    · exact ihl h7 q hq
    · constructor
      · intro hne
        cases l with
        | leaf => exact absurd h5 hne
        | node a x cx kx b =>
          simp only [rep_node] at h7
          rw [h5]
          exact h7.2.2.2.1
      · intro hne
        cases r with
        | leaf => exact absurd h6 hne
        | node a x cx kx b =>
          simp only [rep_node] at h8
          rw [h6]
          exact h8.2.2.2.1
    · exact ihr h8 q hq

theorem holds_demo : Holds demo demoTree := by
  constructor
  · rfl
  · simp only [demoTree, Rep, Tree.rootp]
    decide
  · decide
  · rfl
  · decide
  · decide
  · rfl
  · rfl

theorem rbinv_demo : RBInv demoTree := by
  refine ⟨rfl, by simp [demoTree], (equalBlack_iff _).mpr ⟨1, by simp [demoTree]⟩⟩

theorem bst_demo : demoTree.bst := by
  simp [demoTree, Tree.bst, Tree.keys]

theorem holds_demo1 : Holds demo1 (Tree.node Tree.leaf 2 RBTREE_BLACK 5 Tree.leaf) := by
  constructor
  · rfl
  · simp only [Rep, Tree.rootp]
    decide
  · decide
  · rfl
  · decide
  · decide
  · rfl
  · rfl

theorem reach_demo1 : Reach demo1 [5] [] :=
  Reach.insert Tree.leaf 1 5 2 Reach.new holds_new (by decide) rfl

theorem holds_scenario7 : Holds scenario7 scenario7Tree := by
  constructor
  · rfl
  · simp only [scenario7Tree, Rep, Tree.rootp]
    decide
  · decide
  · rfl
  · decide
  · decide
  · rfl
  · rfl

theorem rbinv_scenario7 : RBInv scenario7Tree := by
  refine ⟨rfl, by simp [scenario7Tree], (equalBlack_iff _).mpr ⟨2, by simp [scenario7Tree]⟩⟩


/-! ### The in-order successor and the place of a new node -/

/-- The in-order sequence of a non-empty tree starts with its leftmost node. -/
theorem nodes_min {T : Tree} (h : T ≠ Tree.leaf) :
    ∃ y cy ky yr rest, T.minNode = Tree.node Tree.leaf y cy ky yr ∧
      T.nodes = (y, ky) :: rest := by
  obtain ⟨y, cy, ky, yr, e⟩ := minNode_node h
  refine ⟨y, cy, ky, yr, yr.nodes ++ cafter T.minFrames, e, ?_⟩
  have := nodes_plug T.minFrames T.minNode
  rw [plug_min, cbefore_min, e] at this
  simpa [Tree.nodes] using this

/-- For a node `p` with a real right child, `subtree_min(t, p->right)` returns the node
that follows `p` in the in-order sequence. -/
theorem successor_spec {t : rbtree} {T : Tree} (h : Holds t T) {p : Nat} (hp : p ∈ T.ptrs)
    (hr : t.right p ≠ t.nil) (fuel : Nat) (hf : T.height + 1 ≤ fuel) :
    ∃ y a b, subtree_min fuel t (t.right p) = some y ∧ y ≠ p ∧
      T.nodes = a ++ (p, t.key p) :: (y, t.key y) :: b := by
  obtain ⟨ctx, L, c, k, R, hT⟩ := exists_focus T [] hp
  simp only [plug] at hT
  have hz := zrep_plug.mpr (hT ▸ (holds_iff.mp h).1)
  obtain ⟨-, -, hk, -, -, hR, -, hRr⟩ := (rep_node _ _ _ _ _ _ _).mp hz.rep
  have hne : R ≠ Tree.leaf := by
    intro e
    rw [hR, e] at hr
    exact hr rfl
  obtain ⟨y, cy, ky, yr, rest, e1, e2⟩ := nodes_min hne
  have hh := height_plug ctx (Tree.node L p c k R)
  rw [← hT, height_node] at hh
  have hsm := subtree_min_spec R fuel hRr hne (by omega)
  rw [← hR, e1, rootp_node] at hsm
  have hky : t.key y = ky := key_of_node hRr (by rw [e2]; simp)
  have hn : T.nodes = (cbefore ctx ++ L.nodes) ++ (p, t.key p) :: (y, t.key y) :: (rest ++ cafter ctx) := by
    rw [hT, nodes_plug, nodes_node, e2, hk, hky]
    simp
  refine ⟨y, _, _, hsm, ?_, hn⟩
  have hnd := h.nodup
  rw [ptrs_eq_nodes, hn] at hnd
  simp only [List.map_append, List.map_cons, List.nodup_append, List.nodup_cons,
    List.mem_cons, not_or] at hnd
  intro e
  exact hnd.2.1.1.1 e.symm

/-- In the in-order sequence after an insertion, every node that comes after the new
node `p` has a key above `k`. -/
theorem pairwise_after_new (a b : List (Nat × Int)) (p : Nat) (k : Int)
    (hnd : ((a ++ (p, k) :: b).map Prod.fst).Nodup) (hb : ∀ n ∈ b, k < n.2) :
    (a ++ (p, k) :: b).Pairwise (fun x y => x.1 = p → k < y.2) := by
  simp only [List.map_append, List.map_cons, List.nodup_append, List.nodup_cons] at hnd
  obtain ⟨-, ⟨hpb, -⟩, hd⟩ := hnd
  have ha : ∀ n ∈ a, n.1 ≠ p := by
    intro n hn e
    exact hd (List.mem_map_of_mem Prod.fst hn) (by simp [e])
  have hb' : ∀ n ∈ b, n.1 ≠ p := by
    intro n hn e
    exact hpb (e ▸ List.mem_map_of_mem Prod.fst hn)
  rw [List.pairwise_append, List.pairwise_cons]
  refine ⟨List.pairwise_of_forall_mem_list (fun x hx _ _ e => absurd e (ha x hx)),
    ⟨fun y hy _ => hb y hy,
      List.pairwise_of_forall_mem_list (fun x hx _ _ e => absurd e (hb' x hx))⟩,
    fun x hx _ _ e => absurd e (ha x hx)⟩

/-- A new node with key `k` is in the right subtree of every ancestor with key `k`. -/
theorem new_right_of_equal {T' : Tree} (a b : List (Nat × Int)) (p : Nat) (k : Int)
    (hn : T'.nodes = a ++ (p, k) :: b) (hnd : T'.ptrs.Nodup) (hb : ∀ n ∈ b, k < n.2)
    (ctx : List Frame) (L : Tree) (q : Nat) (c : color_t) (R : Tree)
    (hT : T' = plug ctx (Tree.node L q c k R)) (hp : p ∈ L.ptrs ∨ p ∈ R.ptrs) :
    p ∈ R.ptrs := by
  rcases hp with hp | hp
  · exfalso
    rw [ptrs_eq_nodes, hn] at hnd
    have hpw := pairwise_after_new a b p k hnd hb
    rw [← hn, hT, nodes_plug, nodes_node] at hpw
    rw [ptrs_eq_nodes] at hp
    obtain ⟨⟨p0, k0⟩, hm, e⟩ := List.mem_map.mp hp
    simp only at e
    subst e
    have h1 := (List.pairwise_append.mp (List.pairwise_append.mp hpw).1).2.1
    have h2 := (List.pairwise_append.mp h1).2.2 _ hm (q, k) (by simp) rfl
    exact lt_irrefl _ h2
  · exact hp

/-! ### Three keys inserted in ascending order -/

theorem ins_first (a : Int) (p : Nat) :
    Tree.leaf.ins a p = Tree.node Tree.leaf p RBTREE_BLACK a Tree.leaf := by
  simp [Tree.ins, Tree.height, descend, ins_fix, cparColor, plug, Tree.blacken]

theorem ins_second {a b : Int} (hab : a < b) (p q : Nat) :
    (Tree.node Tree.leaf p RBTREE_BLACK a Tree.leaf).ins b q =
      Tree.node Tree.leaf p RBTREE_BLACK a (Tree.node Tree.leaf q RBTREE_RED b Tree.leaf) := by
  have h1 : ¬ b < a := not_lt.mpr hab.le
  simp [Tree.ins, Tree.height, descend, ins_fix, cparColor, plug, Tree.blacken, h1,
    Frame.color, Frame.fill]

theorem ins_third {a b c : Int} (hab : a < b) (hbc : b < c) (p q r : Nat) :
    (Tree.node Tree.leaf p RBTREE_BLACK a
      (Tree.node Tree.leaf q RBTREE_RED b Tree.leaf)).ins c r =
      Tree.node (Tree.node Tree.leaf p RBTREE_RED a Tree.leaf) q RBTREE_BLACK b
        (Tree.node Tree.leaf r RBTREE_RED c Tree.leaf) := by
  have h1 : ¬ c < b := not_lt.mpr hbc.le
  have h2 : ¬ c < a := not_lt.mpr (hab.trans hbc).le
  simp [Tree.ins, Tree.height, descend, ins_fix, ins_step, ins_rot_right, cparColor, plug,
    Tree.blacken, h1, h2, Frame.color, Frame.fill, Tree.rootColor]


/-! ### Example: the keys 1 to 7 inserted in ascending order, then an erase -/

theorem holds_seven : Holds seven sevenTree := by
  constructor
  · rfl
  · simp only [sevenTree, Rep, Tree.rootp]
    decide
  · decide
  · rfl
  · decide
  · decide
  · rfl
  · rfl

theorem rbinv_seven : RBInv sevenTree := by
  refine ⟨rfl, by simp [sevenTree], (equalBlack_iff _).mpr ⟨2, by simp [sevenTree]⟩⟩

/-- The calls of `rbtree_insert` for a list of keys lead from a reached state to a reached
state. -/
theorem reach_insert_all (ks : List Int) :
    ∀ {t : rbtree} {T : Tree} {ins del : List Int} (fuel : Nat), Reach t ins del →
      Holds t T → RBInv T → T.size + ks.length + 1 ≤ fuel →
      ∃ t' ps, insert_all fuel ks t = some (t', ps) ∧ Reach t' (ks.reverse ++ ins) del := by
  induction ks with
  | nil => intro t T ins del fuel hr _ _ _; exact ⟨t, [], rfl, hr⟩
  | cons k ks ih =>
    intro t T ins del fuel hr h hrb hf
    have hh := height_le_size T
    simp only [List.length_cons] at hf
    obtain ⟨t1, T1, r1, r2, r3, r4, -⟩ := rbtree_insert_spec h hrb k fuel (by omega)
    have hs1 : T1.size = T.size + 1 := by
      rw [size_eq_nodes, size_eq_nodes, r4, nodes_plug]
      have := congrArg List.length (nodes_plug (descend k T []) Tree.leaf)
      rw [descend_plug] at this
      simp only [plug, Tree.nodes, List.length_append, List.length_nil] at this
      simp only [Tree.nodes, List.length_append, List.length_cons, List.length_nil,
        List.nil_append]
      omega
    have hr1 := Reach.insert T fuel k t.brk hr h (by omega) r1
    obtain ⟨t', ps, e, hr'⟩ := ih fuel hr1 r2 r3 (by omega)
    refine ⟨t', t.brk :: ps, ?_, ?_⟩
    · simp only [insert_all, r1, e]
    · simpa using hr'

theorem reach_seven : Reach seven [7, 6, 5, 4, 3, 2, 1] [] := by
  obtain ⟨t', ps, e, hr⟩ := reach_insert_all [1, 2, 3, 4, 5, 6, 7] 8 Reach.new holds_new
    rbinv_leaf (by decide)
  have e' : insert_all 8 [1, 2, 3, 4, 5, 6, 7] new_rbtree = some (seven, [2, 3, 4, 5, 6, 7, 8]) :=
    rfl
  rw [e'] at e
  simp only [Option.some.injEq, Prod.mk.injEq] at e
  rw [e.1]
  exact hr

theorem reach_scenario7 : Reach scenario7 [7, 6, 5, 4, 3, 2, 1] [1] :=
  Reach.erase sevenTree 8 2 1 reach_seven holds_seven (by decide) (by decide) rfl

/-! ## The properties of the specification -/

/-- C1: for every state that holds a tree satisfying the red-black colour invariants (the
root is BLACK or the tree is empty; no RED node has a RED child; every root-to-sentinel
path has the same number of BLACK nodes) and every key `k`, `rbtree_insert(t, k)` returns,
given fuel above the height of the tree, and the state afterwards holds a tree that
satisfies the same three invariants. -/
theorem insert_preserves_invariants {t : rbtree} {T : Tree} (h : Holds t T) (hrb : RBInv T)
    (k : Int) (fuel : Nat) (hf : T.height + 1 ≤ fuel) :
    ∃ t' p T', rbtree_insert fuel t k = some (t', p) ∧ Holds t' T' ∧
      rootBlack T' ∧ noRedRed T' ∧ equalBlack T' := by
  obtain ⟨t', T', r1, r2, r3, -⟩ := rbtree_insert_spec h hrb k fuel hf
  exact ⟨t', t.brk, T', r1, r2, r3.1, r3.2.1, r3.2.2⟩

theorem insert_preserves_invariants_witness :
    Holds demo demoTree ∧ RBInv demoTree ∧ demoTree.height + 1 ≤ 3 ∧
      ∃ t' p T', rbtree_insert 3 demo 5 = some (t', p) ∧ Holds t' T' ∧
        rootBlack T' ∧ noRedRed T' ∧ equalBlack T' :=
  ⟨holds_demo, rbinv_demo, by decide,
    insert_preserves_invariants holds_demo rbinv_demo 5 3 (by decide)⟩

/-- C2: for every state that holds a tree satisfying the red-black colour invariants and
every node `p` of that tree, whatever its children (no left child, no right child, or two
real children with the successor its right child or deeper), `rbtree_erase(t, p)`
returns 1, given fuel above the height of the tree, and the state afterwards holds a tree
that satisfies the same three invariants. -/
theorem erase_preserves_invariants {t : rbtree} {T : Tree} (h : Holds t T) (hrb : RBInv T)
    {p : Nat} (hp : p ∈ T.ptrs) (fuel : Nat) (hf : T.height + 1 ≤ fuel) :
    ∃ t' T', rbtree_erase fuel (some t) p = some (some t', 1) ∧ Holds t' T' ∧
      rootBlack T' ∧ noRedRed T' ∧ equalBlack T' := by
  obtain ⟨t', T', r1, r2, r3, -⟩ := rbtree_erase_spec h hrb hp fuel hf
  exact ⟨t', T', r1, r2, r3.1, r3.2.1, r3.2.2⟩

theorem erase_preserves_invariants_witness :
    Holds demo demoTree ∧ RBInv demoTree ∧ 2 ∈ demoTree.ptrs ∧ demoTree.height + 1 ≤ 3 ∧
      ∃ t' T', rbtree_erase 3 (some demo) 2 = some (some t', 1) ∧ Holds t' T' ∧
        rootBlack T' ∧ noRedRed T' ∧ equalBlack T' :=
  ⟨holds_demo, rbinv_demo, by decide, by decide,
    erase_preserves_invariants holds_demo rbinv_demo (by decide) 3 (by decide)⟩

/-- C3: for every state that holds a red-black tree in BST order (every key in the left
subtree of a node is at most its key, every key in its right subtree at least its key),
after `rbtree_insert(t, k)`, for every key `k`, and after `rbtree_erase(t, p)`, for every
node `p` of the tree, the state holds a tree in BST order, whose in-order sequence of keys
is non-decreasing; equal keys are allowed. -/
theorem bst_order_preserved {t : rbtree} {T : Tree} (h : Holds t T) (hrb : RBInv T)
    (hb : T.bst) (fuel : Nat) (hf : T.height + 1 ≤ fuel) :
    (∀ k : Int, ∃ t' p T', rbtree_insert fuel t k = some (t', p) ∧ Holds t' T' ∧ T'.bst ∧
      T'.keys.Sorted (· ≤ ·)) ∧
    (∀ p ∈ T.ptrs, ∃ t' T', rbtree_erase fuel (some t) p = some (some t', 1) ∧ Holds t' T' ∧
      T'.bst ∧ T'.keys.Sorted (· ≤ ·)) := by
  constructor
  · intro k
    obtain ⟨t', T', a, b, r1, r2, -, -, -, r6, -⟩ := rbtree_insert_pos h hrb k fuel hf
    obtain ⟨-, -, hb'⟩ := r6 hb
    exact ⟨t', t.brk, T', r1, r2, hb', (bst_iff_sorted T').mp hb'⟩
  · intro p hp
    obtain ⟨t', T', r1, r2, -, r4, -⟩ := rbtree_erase_spec h hrb hp fuel hf
    have hb' := sorted_filter T p T' r4 hb
    exact ⟨t', T', r1, r2, hb', (bst_iff_sorted T').mp hb'⟩

theorem bst_order_preserved_witness :
    Holds demo demoTree ∧ RBInv demoTree ∧ demoTree.bst ∧ demoTree.height + 1 ≤ 3 ∧
      (∃ t' p T', rbtree_insert 3 demo 2 = some (t', p) ∧ Holds t' T' ∧ T'.bst ∧
        T'.keys.Sorted (· ≤ ·)) ∧
      (∃ t' T', rbtree_erase 3 (some demo) 2 = some (some t', 1) ∧ Holds t' T' ∧ T'.bst ∧
        T'.keys.Sorted (· ≤ ·)) :=
  ⟨holds_demo, rbinv_demo, bst_demo, by decide,
    (bst_order_preserved holds_demo rbinv_demo bst_demo 3 (by decide)).1 2,
    (bst_order_preserved holds_demo rbinv_demo bst_demo 3 (by decide)).2 2 (by decide)⟩

/-- C4: for every state that holds a red-black tree and every key `k`, `rbtree_insert(t, k)`
returns a node of the tree the state holds afterwards (so a node reachable from the
root), which is not a node of the old tree and holds key `k`; the multiset of keys
afterwards is the multiset before plus one occurrence of `k`, and the number of nodes
grows by one. -/
theorem insert_adds_one_key {t : rbtree} {T : Tree} (h : Holds t T) (hrb : RBInv T)
    (k : Int) (fuel : Nat) (hf : T.height + 1 ≤ fuel) :
    ∃ t' p T', rbtree_insert fuel t k = some (t', p) ∧ Holds t' T' ∧
      p ∈ T'.ptrs ∧ p ∉ T.ptrs ∧ t'.key p = k ∧
      (T'.keys : Multiset Int) = k ::ₘ (T.keys : Multiset Int) ∧ T'.size = T.size + 1 := by
  obtain ⟨t', T', a, b, r1, r2, -, r4, r5, -⟩ := rbtree_insert_pos h hrb k fuel hf
  have hmem : (t.brk, k) ∈ T'.nodes := by rw [r5]; simp
  have hk : T'.keys.Perm (k :: T.keys) := by
    rw [keys_eq_nodes, keys_eq_nodes, r4, r5]
    simp only [List.map_append, List.map_cons]
    exact List.perm_middle
  refine ⟨t', t.brk, T', r1, r2, ?_, ?_, key_of_node r2.rep hmem, ?_, ?_⟩
  · rw [ptrs_eq_nodes]
    exact List.mem_map_of_mem Prod.fst hmem
  · intro hm
    have := (h.alloc _ hm).2
    omega
  · rw [Multiset.cons_coe]
    exact Multiset.coe_eq_coe.mpr hk
  · rw [← keys_length, ← keys_length, hk.length_eq]
    rfl

theorem insert_adds_one_key_witness :
    Holds demo demoTree ∧ RBInv demoTree ∧ demoTree.height + 1 ≤ 3 ∧
      ∃ t' p T', rbtree_insert 3 demo 2 = some (t', p) ∧ Holds t' T' ∧
        p ∈ T'.ptrs ∧ p ∉ demoTree.ptrs ∧ t'.key p = 2 ∧
        (T'.keys : Multiset Int) = 2 ::ₘ (demoTree.keys : Multiset Int) ∧
        T'.size = demoTree.size + 1 :=
  ⟨holds_demo, rbinv_demo, by decide, insert_adds_one_key holds_demo rbinv_demo 2 3 (by decide)⟩

/-- C5: for every state that holds a red-black tree and every node `p` of it (so `p` is
not the sentinel), `rbtree_erase(t, p)` returns 1; the multiset of keys afterwards is the
multiset before minus one occurrence of the key of `p`, so other nodes with the same key
remain, and the number of nodes drops by one. -/
theorem erase_removes_one_key {t : rbtree} {T : Tree} (h : Holds t T) (hrb : RBInv T)
    {p : Nat} (hp : p ∈ T.ptrs) (fuel : Nat) (hf : T.height + 1 ≤ fuel) :
    ∃ t' T', rbtree_erase fuel (some t) p = some (some t', 1) ∧ Holds t' T' ∧
      p ≠ t.nil ∧
      (T'.keys : Multiset Int) = (T.keys : Multiset Int).erase (t.key p) ∧
      T'.size + 1 = T.size := by
  obtain ⟨t', T', r1, r2, -, r4, -⟩ := rbtree_erase_spec h hrb hp fuel hf
  obtain ⟨a, b, hab, hfil⟩ := nodes_split h hp
  have hk : T.keys.Perm (t.key p :: T'.keys) := by
    rw [keys_eq_nodes, keys_eq_nodes, r4, hfil, hab]
    simp only [List.map_append, List.map_cons]
    exact List.perm_middle
  refine ⟨t', T', r1, r2, fun e => nil_not_mem h.rep (e ▸ hp), ?_, ?_⟩
  · have : (T.keys : Multiset Int) = t.key p ::ₘ (T'.keys : Multiset Int) := by
      rw [Multiset.cons_coe]
      exact Multiset.coe_eq_coe.mpr hk
    rw [this, Multiset.erase_cons_head]
  · rw [← keys_length, ← keys_length, hk.length_eq]
    rfl

theorem erase_removes_one_key_witness :
    Holds demo demoTree ∧ RBInv demoTree ∧ 3 ∈ demoTree.ptrs ∧ demoTree.height + 1 ≤ 3 ∧
      ∃ t' T', rbtree_erase 3 (some demo) 3 = some (some t', 1) ∧ Holds t' T' ∧
        3 ≠ demo.nil ∧
        (T'.keys : Multiset Int) = (demoTree.keys : Multiset Int).erase (demo.key 3) ∧
        T'.size + 1 = demoTree.size :=
  ⟨holds_demo, rbinv_demo, by decide, by decide,
    erase_removes_one_key holds_demo rbinv_demo (by decide) 3 (by decide)⟩

/-- C6: for every state that holds a tree whose in-order key sequence is non-decreasing and
every key `k`, `rbtree_find(t, k)` returns (given fuel above the height) a node of the tree
whose key equals `k` if and only if some node of the tree has key `k`, and returns `NULL`
when no node has key `k`; consequently, if the state was reached from the empty tree by
inserts and erases, `rbtree_find(t, k)` returns a node (not `NULL`) if and only if `k` was
inserted more times than a node with key `k` was erased. -/
theorem find_correct {t : rbtree} {T : Tree} (h : Holds t T) (hs : T.keys.Sorted (· ≤ ·))
    (k : Int) (fuel : Nat) (hf : T.height + 1 ≤ fuel) :
    ((∃ p, rbtree_find fuel t k = some p ∧ p ∈ T.ptrs ∧ t.key p = k) ↔
      ∃ q ∈ T.ptrs, t.key q = k) ∧
    ((¬ ∃ q ∈ T.ptrs, t.key q = k) → rbtree_find fuel t k = some NULL) ∧
    (∀ ins del : List Int, Reach t ins del →
      ((∃ p, rbtree_find fuel t k = some p ∧ p ≠ NULL) ↔ del.count k < ins.count k)) := by
  have hb := (bst_iff_sorted T).mpr hs
  obtain ⟨f1, f2⟩ := rbtree_find_spec h hb k fuel hf
  have hm := mem_keys_iff h.rep k
  refine ⟨⟨fun ⟨p, _, hp, hk⟩ => ⟨p, hp, hk⟩, fun hq => ?_⟩,
    fun hn => f2 (fun hk => hn (hm.mp hk)), ?_⟩
  · obtain ⟨p, e, hp, hk, -⟩ := f1 (hm.mpr hq)
    exact ⟨p, e, hp, hk⟩
  · intro ins del hr
    obtain ⟨T0, h0, -, -, hperm⟩ := reach_inv hr
    have hT := holds_unique h0 h
    subst hT
    have hc : ins.count k = T0.keys.count k + del.count k := by
      rw [← hperm.count_eq, List.count_append]
    constructor
    · rintro ⟨p, e, hne⟩
      by_cases hk : k ∈ T0.keys
      · have := List.count_pos_iff.mpr hk
        omega
      · rw [f2 hk] at e
        exact absurd (Option.some.inj e).symm hne
    · intro hlt
      have hk : k ∈ T0.keys := List.count_pos_iff.mp (by omega)
      obtain ⟨p, e, -, -, hne⟩ := f1 hk
      exact ⟨p, e, hne⟩

theorem find_correct_witness :
    Holds scenario7 scenario7Tree ∧ scenario7Tree.keys.Sorted (· ≤ ·) ∧
      scenario7Tree.height + 1 ≤ 4 ∧ Reach scenario7 [7, 6, 5, 4, 3, 2, 1] [1] ∧
      rbtree_find 4 scenario7 3 = some 4 ∧ rbtree_find 4 scenario7 1 = some NULL ∧
      (((∃ p, rbtree_find 4 scenario7 3 = some p ∧ p ∈ scenario7Tree.ptrs ∧
            scenario7.key p = 3) ↔
          ∃ q ∈ scenario7Tree.ptrs, scenario7.key q = 3) ∧
        ((¬ ∃ q ∈ scenario7Tree.ptrs, scenario7.key q = 3) →
          rbtree_find 4 scenario7 3 = some NULL) ∧
        (∀ ins del : List Int, Reach scenario7 ins del →
          ((∃ p, rbtree_find 4 scenario7 3 = some p ∧ p ≠ NULL) ↔
            del.count 3 < ins.count 3))) ∧
      ((∃ p, rbtree_find 4 scenario7 1 = some p ∧ p ≠ NULL) ↔
        ([1] : List Int).count 1 < ([7, 6, 5, 4, 3, 2, 1] : List Int).count 1) :=
  ⟨holds_scenario7, by simp [scenario7Tree, Tree.keys], by decide, reach_scenario7, rfl, rfl,
    find_correct holds_scenario7 (by simp [scenario7Tree, Tree.keys]) 3 4 (by decide),
    (find_correct holds_scenario7 (by simp [scenario7Tree, Tree.keys]) 1 4 (by decide)).2.2
      [7, 6, 5, 4, 3, 2, 1] [1] reach_scenario7⟩

/-- C8, amended: `rbtree_to_array(t, arr, n)` returns 0 in every case, not the number of
keys written: when `t` is `NULL`, when `arr` is `NULL`, and, for a state that holds a
tree with fewer than 2^31 nodes and n <= INT_MAX, after writing exactly the slots
0 .. min(size, n) - 1 (the first min(size, n) keys in order) and leaving every other slot
as it was. -/
theorem to_array_returns_zero {t : rbtree} {T : Tree} (h : Holds t T) {n : Nat}
    (hn : n ≤ 2 ^ 31 - 1) (hsz : T.size < 2 ^ 31) (arr : Int → Int) (fuel : Nat)
    (hf : T.height + 1 ≤ fuel) :
    (∀ a, rbtree_to_array fuel none a n = some (a, 0)) ∧
    rbtree_to_array fuel (some t) none n = some (none, 0) ∧
    ∃ arr', rbtree_to_array fuel (some t) (some arr) n = some (some arr', 0) ∧
      (∀ j : Nat, j < min T.size n → arr' (j : Int) = T.keys.getD j 0) ∧
      (∀ i : Int, (i < 0 ∨ ((min T.size n : Nat) : Int) ≤ i) → arr' i = arr i) :=
  ⟨fun _ => rfl, rfl, rbtree_to_array_spec h (by omega) hsz arr fuel hf⟩

theorem to_array_returns_zero_witness :
    Holds demo demoTree ∧ 3 ≤ 2 ^ 31 - 1 ∧ demoTree.size < 2 ^ 31 ∧ demoTree.height + 1 ≤ 3 ∧
      ∃ arr', rbtree_to_array 3 (some demo) (some (fun _ => 0)) 3 = some (some arr', 0) ∧
        (∀ j : Nat, j < min demoTree.size 3 → arr' (j : Int) = demoTree.keys.getD j 0) ∧
        (∀ i : Int, (i < 0 ∨ ((min demoTree.size 3 : Nat) : Int) ≤ i) →
          arr' i = (fun _ => 0) i) :=
  ⟨holds_demo, by decide, by decide, by decide,
    (to_array_returns_zero holds_demo (by decide) (by decide) (fun _ => 0) 3
      (by decide)).2.2⟩

/-- C8, counterexample: on the state that holds the tree with the three keys 1, 2, 3,
`rbtree_to_array(t, arr, 3)` writes the three keys and returns 0, which is not
min(size, n) = 3. -/
theorem to_array_count_counterexample :
    Holds demo demoTree ∧
      ∃ arr', rbtree_to_array 3 (some demo) (some (fun _ => 0)) 3 = some (some arr', 0) ∧
        arr' 0 = 1 ∧ arr' 1 = 2 ∧ arr' 2 = 3 ∧
        (0 : Int) ≠ ((min demoTree.size 3 : Nat) : Int) :=
  ⟨holds_demo, _, rfl, rfl, rfl, rfl, by decide⟩

/-- C9: `rbtree_erase(t, p)` returns 0 and leaves the state (root, and the key, colour and
links of every node) as it was when `t` is `NULL`, when `p` is `NULL`, and when `p` is the
sentinel `t->nil`; for a state that holds a red-black tree and every node `p` of the tree,
`p` is neither `NULL` nor the sentinel and `rbtree_erase(t, p)` returns 1. -/
theorem erase_invalid_arguments {t : rbtree} {T : Tree} (h : Holds t T) (hrb : RBInv T)
    (fuel : Nat) (hf : T.height + 1 ≤ fuel) :
    (∀ p, rbtree_erase fuel none p = some (none, 0)) ∧
    rbtree_erase fuel (some t) NULL = some (some t, 0) ∧
    rbtree_erase fuel (some t) t.nil = some (some t, 0) ∧
    (∀ p ∈ T.ptrs, p ≠ NULL ∧ p ≠ t.nil ∧
      ∃ t', rbtree_erase fuel (some t) p = some (some t', 1)) := by
  refine ⟨fun _ => rfl, by simp [rbtree_erase], by simp [rbtree_erase], fun p hp => ?_⟩
  obtain ⟨t', T', r1, -⟩ := rbtree_erase_spec h hrb hp fuel hf
  have := h.alloc p hp
  exact ⟨fun e => by rw [e, NULL] at this; omega, fun e => nil_not_mem h.rep (e ▸ hp),
    t', r1⟩

theorem erase_invalid_arguments_witness :
    Holds demo demoTree ∧ RBInv demoTree ∧ demoTree.height + 1 ≤ 3 ∧
      rbtree_erase 3 (some demo) NULL = some (some demo, 0) ∧
      (2 ≠ NULL ∧ 2 ≠ demo.nil ∧ ∃ t', rbtree_erase 3 (some demo) 2 = some (some t', 1)) :=
  ⟨holds_demo, rbinv_demo, by decide,
    (erase_invalid_arguments holds_demo rbinv_demo 3 (by decide)).2.1,
    (erase_invalid_arguments holds_demo rbinv_demo 3 (by decide)).2.2.2 2 (by decide)⟩

/-- C10: for every list of keys (duplicates allowed), the calls of `rbtree_insert` on the
empty tree return one node per key, and for every order `qs` of the nodes returned, the
calls of `rbtree_erase` on them in that order return and leave the tree empty:
`t->root == t->nil`; every node erased has been freed. -/
theorem erase_all_leaves_empty (ks : List Int) (fuel : Nat) (hf : ks.length + 1 ≤ fuel) :
    ∃ t ps, insert_all fuel ks new_rbtree = some (t, ps) ∧ ps.length = ks.length ∧
      ∀ qs : List Nat, qs.Perm ps →
        ∃ t', erase_all fuel qs t = some t' ∧ t'.root = t'.nil ∧ t'.freed = qs.reverse := by
  obtain ⟨t, ps, T, e1, hT, hrb, -, hperm, hps, hl, hfr⟩ :=
    insert_all_spec ks fuel holds_new rbinv_leaf trivial (by simpa [Tree.size] using hf)
  have hlen : T.size = ks.length := by
    rw [← keys_length, hperm.length_eq]
    simp [Tree.keys]
  refine ⟨t, ps, e1, hl, fun qs hq => ?_⟩
  obtain ⟨t', e2, h2, h3⟩ :=
    erase_all_spec qs fuel hT hrb (hq.trans (by simpa [Tree.ptrs] using hps.symm)) (by omega)
  exact ⟨t', e2, h2.root, by rw [h3, hfr]; simp [new_rbtree]⟩

theorem erase_all_leaves_empty_witness :
    [(2 : Int), 1, 3].length + 1 ≤ 4 ∧
      ∃ t ps, insert_all 4 [2, 1, 3] new_rbtree = some (t, ps) ∧
        ps.length = [(2 : Int), 1, 3].length ∧
        ∀ qs : List Nat, qs.Perm ps →
          ∃ t', erase_all 4 qs t = some t' ∧ t'.root = t'.nil ∧ t'.freed = qs.reverse :=
  ⟨by decide, erase_all_leaves_empty [2, 1, 3] 4 (by decide)⟩

/-- C11: for every state that holds a non-empty tree in BST order, `rbtree_min(t)` returns
(given fuel above the height) a node of the tree whose key is <= the key of every node of
the tree, and `rbtree_max(t)` returns a node whose key is >= the key of every node; for
a state that holds the empty tree both return the sentinel `t->nil`. -/
theorem min_max_correct {t : rbtree} {T : Tree} (h : Holds t T) (hb : T.bst) (fuel : Nat)
    (hf : T.height + 1 ≤ fuel) :
    (t.root ≠ t.nil →
      (∃ p, rbtree_min fuel t = some p ∧ p ∈ T.ptrs ∧ ∀ q ∈ T.ptrs, t.key p ≤ t.key q) ∧
      (∃ p, rbtree_max fuel t = some p ∧ p ∈ T.ptrs ∧ ∀ q ∈ T.ptrs, t.key q ≤ t.key p)) ∧
    (t.root = t.nil → rbtree_min fuel t = some t.nil ∧ rbtree_max fuel t = some t.nil) := by
  have hkey : ∀ q ∈ T.ptrs, t.key q ∈ T.keys := fun q hq =>
    (mem_keys_iff h.rep _).mpr ⟨q, hq, rfl⟩
  constructor
  · intro hne
    have hT : T ≠ Tree.leaf := by
      intro e
      rw [h.root, e] at hne
      exact hne rfl
    obtain ⟨p, e1, hp, hmin⟩ := rbtree_min_loop_spec T fuel h.rep hT (by omega)
    obtain ⟨p', e2, hp', hmax⟩ := rbtree_max_loop_spec T fuel h.rep hT (by omega)
    rw [← h.root] at e1 e2
    exact ⟨⟨p, e1, hp, fun q hq => hmin hb _ (hkey q hq)⟩,
      ⟨p', e2, hp', fun q hq => hmax hb _ (hkey q hq)⟩⟩
  · intro he
    obtain ⟨n, rfl⟩ : ∃ n, fuel = n + 1 := ⟨fuel - 1, by omega⟩
    simp [rbtree_min, rbtree_max, rbtree_min_loop, rbtree_max_loop, he]

theorem min_max_correct_witness :
    Holds demo demoTree ∧ demoTree.bst ∧ demoTree.height + 1 ≤ 3 ∧ demo.root ≠ demo.nil ∧
      (∃ p, rbtree_min 3 demo = some p ∧ p ∈ demoTree.ptrs ∧
        ∀ q ∈ demoTree.ptrs, demo.key p ≤ demo.key q) ∧
      (∃ p, rbtree_max 3 demo = some p ∧ p ∈ demoTree.ptrs ∧
        ∀ q ∈ demoTree.ptrs, demo.key q ≤ demo.key p) :=
  ⟨holds_demo, bst_demo, by decide, by decide,
    (min_max_correct holds_demo bst_demo 3 (by decide)).1 (by decide)⟩

/-- C12, amended: for every state that holds a red-black tree and every node `p` of it
with two real children, `rbtree_erase(t, p)` returns 1 and it is `p` itself that is
detached from the tree and freed; the in-order successor `y` of `p` (the minimum of the
right subtree of `p`, as `subtree_min` returns it) stays in the tree, keeps its own key and
takes the place of `p` in the in-order sequence; no key is copied between nodes. -/
theorem erase_two_children_frees_target {t : rbtree} {T : Tree} (h : Holds t T)
    (hrb : RBInv T) {p : Nat} (hp : p ∈ T.ptrs) (hl : t.left p ≠ t.nil)
    (hr : t.right p ≠ t.nil) (fuel : Nat) (hf : T.height + 1 ≤ fuel) :
    ∃ y t' T' a b, subtree_min fuel t (t.right p) = some y ∧ y ≠ p ∧
      rbtree_erase fuel (some t) p = some (some t', 1) ∧ Holds t' T' ∧
      p ∉ T'.ptrs ∧ t'.freed = p :: t.freed ∧
      y ∈ T'.ptrs ∧ t'.key y = t.key y ∧ t'.key = t.key ∧
      T.nodes = a ++ (p, t.key p) :: (y, t.key y) :: b ∧
      T'.nodes = a ++ (y, t.key y) :: b := by
  obtain ⟨y, a, b, e1, hne, hn⟩ := successor_spec h hp hr fuel hf
  obtain ⟨t', T', r1, r2, -, r4, -, -, r7, r8⟩ := rbtree_erase_spec h hrb hp fuel hf
  have hnd := h.nodup
  rw [ptrs_eq_nodes, hn] at hnd
  rw [hn, filter_ne_mid a _ p _ hnd] at r4
  refine ⟨y, t', T', a, b, e1, hne, r1, r2, ?_, r7, ?_, by rw [r8], r8, hn, r4⟩
  · rw [ptrs_eq_nodes, r4]
    simp only [List.map_append, List.map_cons, List.nodup_append, List.nodup_cons,
      List.mem_cons, List.mem_append, not_or] at hnd ⊢
    exact ⟨fun hm => hnd.2.2 hm (by simp), hnd.2.1.1.1, hnd.2.1.1.2⟩
  · rw [ptrs_eq_nodes, r4]
    simp

theorem erase_two_children_frees_target_witness :
    Holds demo demoTree ∧ RBInv demoTree ∧ 2 ∈ demoTree.ptrs ∧ demo.left 2 ≠ demo.nil ∧
      demo.right 2 ≠ demo.nil ∧ demoTree.height + 1 ≤ 3 ∧
      ∃ y t' T' a b, subtree_min 3 demo (demo.right 2) = some y ∧ y ≠ 2 ∧
        rbtree_erase 3 (some demo) 2 = some (some t', 1) ∧ Holds t' T' ∧
        2 ∉ T'.ptrs ∧ t'.freed = 2 :: demo.freed ∧
        y ∈ T'.ptrs ∧ t'.key y = demo.key y ∧ t'.key = demo.key ∧
        demoTree.nodes = a ++ (2, demo.key 2) :: (y, demo.key y) :: b ∧
        T'.nodes = a ++ (y, demo.key y) :: b :=
  ⟨holds_demo, rbinv_demo, by decide, by decide, by decide, by decide,
    erase_two_children_frees_target holds_demo rbinv_demo (by decide) (by decide) (by decide) 3
      (by decide)⟩

/-- C12, counterexample: in the state that holds the BLACK root 2 (address 2) with the RED
children 1 (address 3) and 3 (address 4), the root has two real children and its successor
is the node at address 4. After `rbtree_erase` of the root, the node at address 2 is not
in the tree and is the one freed, its key is still 2, and the successor at address 4 is the
new root with its own key 3: the erased node neither stays in the tree nor takes the key of
the successor, and the node of the successor is not freed. -/
theorem erase_two_children_counterexample :
    Holds demo demoTree ∧ demo.left 2 ≠ demo.nil ∧ demo.right 2 ≠ demo.nil ∧
      subtree_min 3 demo (demo.right 2) = some 4 ∧
      ∃ t', rbtree_erase 3 (some demo) 2 = some (some t', 1) ∧
        Holds t' (Tree.node (Tree.node Tree.leaf 3 RBTREE_RED 1 Tree.leaf) 4 RBTREE_BLACK 3
          Tree.leaf) ∧
        2 ∉ (Tree.node (Tree.node Tree.leaf 3 RBTREE_RED 1 Tree.leaf) 4 RBTREE_BLACK 3
          Tree.leaf).ptrs ∧
        t'.freed = [2] ∧ t'.key 2 = 2 ∧ t'.root = 4 ∧ t'.key 4 = 3 := by
  refine ⟨holds_demo, by decide, by decide, rfl, _, rfl, ?_, by decide, rfl, rfl, rfl, rfl⟩
  constructor
  · rfl
  · simp only [Rep, Tree.rootp]
    decide
  · decide
  · rfl
  · decide
  · decide
  · rfl
  · rfl

/-- C13: for every state that holds a red-black tree and every node `p` of it (also one
with two real children), `rbtree_erase(t, p)` returns 1 and the node detached and freed is
`p` itself: `p` is no longer a node of the tree, every other node of the old tree is still
a node of the tree and holds the same key as before, and no node is added. -/
theorem erase_detaches_target {t : rbtree} {T : Tree} (h : Holds t T) (hrb : RBInv T)
    {p : Nat} (hp : p ∈ T.ptrs) (fuel : Nat) (hf : T.height + 1 ≤ fuel) :
    ∃ t' T', rbtree_erase fuel (some t) p = some (some t', 1) ∧ Holds t' T' ∧
      p ∉ T'.ptrs ∧ t'.freed = p :: t.freed ∧
      (∀ q ∈ T.ptrs, q ≠ p → q ∈ T'.ptrs ∧ t'.key q = t.key q) ∧
      (∀ q ∈ T'.ptrs, q ∈ T.ptrs) := by
  obtain ⟨t', T', r1, r2, -, r4, -, -, r7, r8⟩ := rbtree_erase_spec h hrb hp fuel hf
  have hmem : ∀ q, q ∈ T'.ptrs ↔ q ∈ T.ptrs ∧ q ≠ p := by
    intro q
    rw [ptrs_eq_nodes, ptrs_eq_nodes, r4]
    simp only [List.mem_map, List.mem_filter, decide_eq_true_eq]
    constructor
    · rintro ⟨n, ⟨hn, hne⟩, rfl⟩
      exact ⟨⟨n, hn, rfl⟩, hne⟩
    · rintro ⟨⟨n, hn, rfl⟩, hne⟩
      exact ⟨n, ⟨hn, hne⟩, rfl⟩
  exact ⟨t', T', r1, r2, fun hm => ((hmem p).mp hm).2 rfl, r7,
    fun q hq hne => ⟨(hmem q).mpr ⟨hq, hne⟩, by rw [r8]⟩, fun q hq => ((hmem q).mp hq).1⟩

theorem erase_detaches_target_witness :
    Holds demo demoTree ∧ RBInv demoTree ∧ 2 ∈ demoTree.ptrs ∧ demoTree.height + 1 ≤ 3 ∧
      ∃ t' T', rbtree_erase 3 (some demo) 2 = some (some t', 1) ∧ Holds t' T' ∧
        2 ∉ T'.ptrs ∧ t'.freed = 2 :: demo.freed ∧
        (∀ q ∈ demoTree.ptrs, q ≠ 2 → q ∈ T'.ptrs ∧ t'.key q = demo.key q) ∧
        (∀ q ∈ T'.ptrs, q ∈ demoTree.ptrs) :=
  ⟨holds_demo, rbinv_demo, by decide, by decide,
    erase_detaches_target holds_demo rbinv_demo (by decide) 3 (by decide)⟩

/-- C14: in every state reached from the empty tree by calls of `rbtree_insert` and
`rbtree_erase`, the sentinel `t->nil` is coloured BLACK and its `left` and `right` links
point to the sentinel itself. -/
theorem sentinel_stable {t : rbtree} {ins del : List Int} (h : Reach t ins del) :
    t.color t.nil = RBTREE_BLACK ∧ t.left t.nil = t.nil ∧ t.right t.nil = t.nil := by
  obtain ⟨T, hT, -⟩ := reach_inv h
  exact ⟨hT.nil_black, hT.nil_left, hT.nil_right⟩

theorem sentinel_stable_witness :
    Reach scenario7 [7, 6, 5, 4, 3, 2, 1] [1] ∧ seven.parent seven.nil = 1 ∧
      scenario7.parent scenario7.nil = 3 ∧
      (scenario7.color scenario7.nil = RBTREE_BLACK ∧
        scenario7.left scenario7.nil = scenario7.nil ∧
        scenario7.right scenario7.nil = scenario7.nil) :=
  ⟨reach_scenario7, rfl, rfl, sentinel_stable reach_scenario7⟩

/-- C15: every state reached from the empty tree by calls of `rbtree_insert` and
`rbtree_erase` holds a tree with n nodes and height h (the number of nodes on the longest
root-to-sentinel path) such that 2^ceil(h/2) <= n + 1, and so h <= 2*log2(n+1). -/
theorem reachable_balanced {t : rbtree} {ins del : List Int} (h : Reach t ins del) :
    ∃ T, Holds t T ∧ 2 ^ ((T.height + 1) / 2) ≤ T.size + 1 ∧
      T.height ≤ 2 * Nat.log 2 (T.size + 1) := by
  obtain ⟨T, hT, hrb, -⟩ := reach_inv h
  have hb := rb_balanced hrb
  refine ⟨T, hT, hb, ?_⟩
  have := Nat.le_log_of_pow_le (by decide : 1 < 2) hb
  omega

theorem reachable_balanced_witness :
    Reach scenario7 [7, 6, 5, 4, 3, 2, 1] [1] ∧
      ∃ T, Holds scenario7 T ∧ 2 ^ ((T.height + 1) / 2) ≤ T.size + 1 ∧
        T.height ≤ 2 * Nat.log 2 (T.size + 1) :=
  ⟨reach_scenario7, reachable_balanced reach_scenario7⟩

/-- C16: for every three keys a < b < c inserted in ascending order into the empty tree,
the three calls of `rbtree_insert` return and the state holds the tree with root `b`
coloured BLACK, left child `a` and right child `c` both coloured RED and both without real
children, and `rbtree_to_array` with capacity 3 returns and writes `a`, `b`, `c` into the
slots 0, 1, 2. -/
theorem insert_three_ascending (a b c : Int) (hab : a < b) (hbc : b < c) (arr : Int → Int) :
    ∃ t ps arr', insert_all 3 [a, b, c] new_rbtree = some (t, ps) ∧
      Holds t (Tree.node (Tree.node Tree.leaf 2 RBTREE_RED a Tree.leaf) 3 RBTREE_BLACK b
        (Tree.node Tree.leaf 4 RBTREE_RED c Tree.leaf)) ∧
      (t.key t.root = b ∧ t.color t.root = RBTREE_BLACK) ∧
      (t.key (t.left t.root) = a ∧ t.color (t.left t.root) = RBTREE_RED ∧
        t.left (t.left t.root) = t.nil ∧ t.right (t.left t.root) = t.nil) ∧
      (t.key (t.right t.root) = c ∧ t.color (t.right t.root) = RBTREE_RED ∧
        t.left (t.right t.root) = t.nil ∧ t.right (t.right t.root) = t.nil) ∧
      rbtree_to_array 3 (some t) (some arr) 3 = some (some arr', 0) ∧
      arr' 0 = a ∧ arr' 1 = b ∧ arr' 2 = c := by
  obtain ⟨t1, e1, h1, rb1, -, -, k1, -⟩ :=
    rbtree_insert_exact holds_new rbinv_leaf a 3 (by simp [Tree.height])
  have hk1 : new_rbtree.brk = 2 := rfl
  rw [hk1] at e1 h1 rb1 k1
  rw [ins_first] at h1 rb1
  obtain ⟨t2, e2, h2, rb2, -, -, k2, -⟩ :=
    rbtree_insert_exact h1 rb1 b 3 (by simp [Tree.height])
  rw [k1] at e2 h2 rb2 k2
  simp only [Nat.reduceAdd] at e2 h2 rb2 k2
  rw [ins_second hab] at h2 rb2
  obtain ⟨t3, e3, h3, rb3, -⟩ :=
    rbtree_insert_exact h2 rb2 c 3 (by simp [Tree.height])
  rw [k2] at e3 h3
  rw [ins_third hab hbc] at h3
  obtain ⟨arr', e4, hw, -⟩ :=
    rbtree_to_array_spec h3 (n := 3) (by decide) (by simp [Tree.size]) arr 3
      (by simp [Tree.height])
  have hroot := h3.root
  have hrep := h3.rep
  simp only [rootp_node] at hroot
  simp only [Rep, Tree.rootp] at hrep
  obtain ⟨-, x2, x3, -, x5, x6, ⟨-, y2, y3, -, y5, y6, -⟩, ⟨-, z2, z3, -, z5, z6, -⟩⟩ := hrep
  refine ⟨t3, [2, 3, 4], arr', by simp [insert_all, e1, e2, e3], h3, ?_, ?_, ?_, e4, ?_, ?_, ?_⟩
  · rw [hroot]
    exact ⟨x3, x2⟩
  · rw [hroot, x5]
    exact ⟨y3, y2, y5, y6⟩
  · rw [hroot, x6]
    exact ⟨z3, z2, z5, z6⟩
  · simpa [Tree.size, Tree.keys] using hw 0 (by simp [Tree.size])
  · simpa [Tree.size, Tree.keys] using hw 1 (by simp [Tree.size])
  · simpa [Tree.size, Tree.keys] using hw 2 (by simp [Tree.size])

theorem insert_three_ascending_witness :
    (10 : Int) < 20 ∧ (20 : Int) < 30 ∧
      ∃ t ps arr', insert_all 3 [10, 20, 30] new_rbtree = some (t, ps) ∧
        Holds t (Tree.node (Tree.node Tree.leaf 2 RBTREE_RED 10 Tree.leaf) 3 RBTREE_BLACK 20
          (Tree.node Tree.leaf 4 RBTREE_RED 30 Tree.leaf)) ∧
        (t.key t.root = 20 ∧ t.color t.root = RBTREE_BLACK) ∧
        (t.key (t.left t.root) = 10 ∧ t.color (t.left t.root) = RBTREE_RED ∧
          t.left (t.left t.root) = t.nil ∧ t.right (t.left t.root) = t.nil) ∧
        (t.key (t.right t.root) = 30 ∧ t.color (t.right t.root) = RBTREE_RED ∧
          t.left (t.right t.root) = t.nil ∧ t.right (t.right t.root) = t.nil) ∧
        rbtree_to_array 3 (some t) (some (fun _ => 0)) 3 = some (some arr', 0) ∧
        arr' 0 = 10 ∧ arr' 1 = 20 ∧ arr' 2 = 30 :=
  ⟨by decide, by decide, insert_three_ascending 10 20 30 (by decide) (by decide) (fun _ => 0)⟩

/-- C17: the calls of `rbtree_insert` for the keys 1, 2, 3, 4, 5, 6, 7 in ascending order on
the empty tree return, `rbtree_find(t, 1)` then returns a node and `rbtree_erase` of that
node returns 1; in the tree the state then holds, every root-to-sentinel path contains
exactly 2 BLACK nodes and the red-black invariants hold, `rbtree_find(t, 1)` returns `NULL`
and `rbtree_find(t, 4)` returns a node with key 4. -/
theorem scenario_seven_erase_one :
    ∃ t ps p q, insert_all 8 [1, 2, 3, 4, 5, 6, 7] new_rbtree = some (t, ps) ∧
      rbtree_find 8 t 1 = some p ∧ p ≠ NULL ∧
      rbtree_erase 8 (some t) p = some (some scenario7, 1) ∧
      Holds scenario7 scenario7Tree ∧
      (∀ n ∈ blackCounts scenario7Tree, n = 2) ∧
      rootBlack scenario7Tree ∧ noRedRed scenario7Tree ∧ equalBlack scenario7Tree ∧
      scenario7Tree.bst ∧
      rbtree_find 8 scenario7 1 = some NULL ∧
      rbtree_find 8 scenario7 4 = some q ∧ q ≠ NULL ∧ q ∈ scenario7Tree.ptrs ∧
      scenario7.key q = 4 :=
  ⟨_, _, _, _, rfl, rfl, by decide, rfl, holds_scenario7, by decide, rbinv_scenario7.1,
    rbinv_scenario7.2.1, rbinv_scenario7.2.2, by simp [scenario7Tree, Tree.bst, Tree.keys],
    rfl, rfl, by decide, by decide, rfl⟩

/-- C18: for every key `K`, `rbtree_insert(t, K)` on the empty tree returns a node, and
afterwards `rbtree_min(t)` and `rbtree_max(t)` both return that same node, which is the
root (not the sentinel), holds key `K` and is coloured BLACK. -/
theorem single_insert_min_max (K : Int) (fuel : Nat) :
    ∃ t p, rbtree_insert (fuel + 1) new_rbtree K = some (t, p) ∧
      rbtree_min (fuel + 1) t = some p ∧ rbtree_max (fuel + 1) t = some p ∧
      t.root = p ∧ p ≠ t.nil ∧ t.key p = K ∧ t.color p = RBTREE_BLACK :=
  ⟨_, _, rfl, rfl, rfl, rfl, (by decide : (2 : Nat) ≠ 1), rfl, rfl⟩

/-- C19: for every state that holds a tree and every node `x` of it with a real right
child, the state after `rotate_left(t, x)` holds a tree with the same in-order sequence of
nodes, and so of keys, in which the parent link of every real child of a node points to
that node and the parent link of the root points to the sentinel; the same holds after
`rotate_right(t, x)` for every node `x` with a real left child. -/
theorem rotations_preserve_inorder {t : rbtree} {T : Tree} (h : Holds t T) {x : Nat}
    (hx : x ∈ T.ptrs) :
    (t.right x ≠ t.nil →
      ∃ T', Holds (rotate_left t x) T' ∧ T'.nodes = T.nodes ∧ T'.keys = T.keys ∧
        (∀ q ∈ T'.ptrs,
          ((rotate_left t x).left q ≠ (rotate_left t x).nil →
            (rotate_left t x).parent ((rotate_left t x).left q) = q) ∧
          ((rotate_left t x).right q ≠ (rotate_left t x).nil →
            (rotate_left t x).parent ((rotate_left t x).right q) = q)) ∧
        (rotate_left t x).parent (rotate_left t x).root = (rotate_left t x).nil) ∧
    (t.left x ≠ t.nil →
      ∃ T', Holds (rotate_right t x) T' ∧ T'.nodes = T.nodes ∧ T'.keys = T.keys ∧
        (∀ q ∈ T'.ptrs,
          ((rotate_right t x).left q ≠ (rotate_right t x).nil →
            (rotate_right t x).parent ((rotate_right t x).left q) = q) ∧
          ((rotate_right t x).right q ≠ (rotate_right t x).nil →
            (rotate_right t x).parent ((rotate_right t x).right q) = q)) ∧
        (rotate_right t x).parent (rotate_right t x).root = (rotate_right t x).nil) := by
  have hroot : ∀ {s : rbtree} {S : Tree}, Holds s S → S.ptrs ≠ [] → s.parent s.root = s.nil := by
    intro s S hs hne
    cases S with
    | leaf => exact absurd rfl hne
    | node l p c k r =>
      have h1 := hs.root
      have h2 := hs.rep
      simp only [rootp_node] at h1
      rw [rep_node] at h2
      rw [h1]
      exact h2.2.2.2.1
  have hne : ∀ {S : Tree}, S.nodes = T.nodes → S.ptrs ≠ [] := by
    intro S e he
    rw [ptrs_eq_nodes, e, ← ptrs_eq_nodes] at he
    rw [he] at hx
    simp at hx
  constructor
  · intro hr
    obtain ⟨T', h1, h2, -⟩ := rotate_left_holds h hx hr
    exact ⟨T', h1, h2, by rw [keys_eq_nodes, keys_eq_nodes, h2], rep_links T' h1.rep,
      hroot h1 (hne h2)⟩
  · intro hl
    obtain ⟨T', h1, h2, -⟩ := rotate_right_holds h hx hl
    exact ⟨T', h1, h2, by rw [keys_eq_nodes, keys_eq_nodes, h2], rep_links T' h1.rep,
      hroot h1 (hne h2)⟩

theorem rotations_preserve_inorder_witness :
    Holds demo demoTree ∧ 2 ∈ demoTree.ptrs ∧ demo.right 2 ≠ demo.nil ∧
      ∃ T', Holds (rotate_left demo 2) T' ∧ T'.nodes = demoTree.nodes ∧
        T'.keys = demoTree.keys ∧
        (∀ q ∈ T'.ptrs,
          ((rotate_left demo 2).left q ≠ (rotate_left demo 2).nil →
            (rotate_left demo 2).parent ((rotate_left demo 2).left q) = q) ∧
          ((rotate_left demo 2).right q ≠ (rotate_left demo 2).nil →
            (rotate_left demo 2).parent ((rotate_left demo 2).right q) = q)) ∧
        (rotate_left demo 2).parent (rotate_left demo 2).root = (rotate_left demo 2).nil :=
  ⟨holds_demo, by decide, by decide,
    (rotations_preserve_inorder holds_demo (by decide)).1 (by decide)⟩

/-- C20: for every state that holds a red-black tree in BST order and every key `k`,
`rbtree_insert(t, k)` returns (the fixup rotations included) and the in-order sequence of
nodes afterwards is the old one with the new node put in: every node before it has a key
<= k and every node after it has a key > k, so the new node comes after every old node
with key <= k and before every node with key > k; in particular the new node is in the
right subtree of every ancestor whose key equals `k`. -/
theorem insert_position {t : rbtree} {T : Tree} (h : Holds t T) (hrb : RBInv T) (hb : T.bst)
    (k : Int) (fuel : Nat) (hf : T.height + 1 ≤ fuel) :
    ∃ t' p T' a b, rbtree_insert fuel t k = some (t', p) ∧ Holds t' T' ∧
      T.nodes = a ++ b ∧ T'.nodes = a ++ (p, k) :: b ∧
      (∀ n ∈ a, n.2 ≤ k) ∧ (∀ n ∈ b, k < n.2) ∧
      (∀ (ctx : List Frame) (L : Tree) (q : Nat) (c : color_t) (R : Tree),
        T' = plug ctx (Tree.node L q c k R) → p ∈ L.ptrs ∨ p ∈ R.ptrs → p ∈ R.ptrs) := by
  obtain ⟨t', T', a, b, r1, r2, -, r4, r5, r6, -⟩ := rbtree_insert_pos h hrb k fuel hf
  obtain ⟨ha, hb', -⟩ := r6 hb
  exact ⟨t', t.brk, T', a, b, r1, r2, r4, r5, ha, hb',
    fun ctx L q c R hT hp => new_right_of_equal a b t.brk k r5 r2.nodup hb' ctx L q c R hT hp⟩

theorem insert_position_witness :
    Holds demo demoTree ∧ RBInv demoTree ∧ demoTree.bst ∧ demoTree.height + 1 ≤ 3 ∧
      ∃ t' p T' a b, rbtree_insert 3 demo 2 = some (t', p) ∧ Holds t' T' ∧
        demoTree.nodes = a ++ b ∧ T'.nodes = a ++ (p, 2) :: b ∧
        (∀ n ∈ a, n.2 ≤ 2) ∧ (∀ n ∈ b, 2 < n.2) ∧
        (∀ (ctx : List Frame) (L : Tree) (q : Nat) (c : color_t) (R : Tree),
          T' = plug ctx (Tree.node L q c 2 R) → p ∈ L.ptrs ∨ p ∈ R.ptrs → p ∈ R.ptrs) :=
  ⟨holds_demo, rbinv_demo, bst_demo, by decide,
    insert_position holds_demo rbinv_demo bst_demo 2 3 (by decide)⟩

/-! ## The fixups pass by pass, and what the result depends on -/


/-! ### `rbtree_to_array`: where it writes -/

theorem rbtree_insert_attach (fuel : Nat) (t : rbtree) (k : Int) :
    rbtree_insert fuel t k =
      match insert_attach fuel t k with
      | none => none
      | some r =>
        match rebuild_after_insert fuel r.1 r.2 with
        | none => none
        | some t7 => some (t7, r.2) := by
  simp only [rbtree_insert, insert_attach]
  cases insert_descend fuel _ _ _ _ <;> rfl

/-- Following the `parent` links from the root of the subtree in the hole of a context
takes one step per frame. -/
theorem node_depth_spec {t : rbtree} (ctx : List Frame) :
    ∀ {X : Tree}, DRep t ctx X → ∀ fuel, ctx.length + 1 ≤ fuel →
      node_depth fuel t (X.rootp t.nil) = some ctx.length := by
  induction ctx with
  | nil =>
    intro X h fuel hf
    obtain ⟨fuel', rfl⟩ : ∃ f', fuel = f' + 1 := ⟨fuel - 1, by omega⟩
    have : t.root = X.rootp t.nil := h.z.repc
    simp [node_depth, this]
  | cons f fs ih =>
    intro X h fuel hf
    obtain ⟨fuel', rfl⟩ : ∃ f', fuel = f' + 1 := ⟨fuel - 1, by omega⟩
    have hne := rootp_ne_root h.z
    have hp := h.par
    have h1 := zrep_up.mp h.z
    simp only [List.length_cons] at hf
    have hd : DRep t fs (f.fill X) := by cases f <;> exact drep_node h1
    have hi := ih hd fuel' (by omega)
    have hr : (f.fill X).rootp t.nil = f.ptr := by cases f <;> rfl
    rw [hr] at hi
    simp only [cpar_cons] at hp
    simp [node_depth, hne, hp, hi]

theorem rebuild_after_insert_iter_succ (i : Nat) :
    ∀ (t : rbtree) (z : Nat), rebuild_after_insert_iter (i + 1) t z =
      if (rebuild_after_insert_iter i t z).1.color
          ((rebuild_after_insert_iter i t z).1.parent (rebuild_after_insert_iter i t z).2) =
          RBTREE_RED then
        rebuild_after_insert_body (rebuild_after_insert_iter i t z).1
          (rebuild_after_insert_iter i t z).2
      else rebuild_after_insert_iter i t z := by
  induction i with
  | zero => intro t z; simp [rebuild_after_insert_iter]
  | succ i ih =>
    intro t z
    by_cases hc : t.color (t.parent z) = RBTREE_RED
    · have e : ∀ j, rebuild_after_insert_iter (j + 1) t z =
          rebuild_after_insert_iter j (rebuild_after_insert_body t z).1
            (rebuild_after_insert_body t z).2 := by
        intro j; simp [rebuild_after_insert_iter, hc]
      rw [e (i + 1), e i, ih]
    · have e : ∀ j, rebuild_after_insert_iter (j + 1) t z = (t, z) := by
        intro j; simp [rebuild_after_insert_iter, hc]
      rw [e (i + 1), e i]
      simp [hc]

/-- The state that `rebuild_after_insert_count` returns is the one `rebuild_after_insert`
returns. -/
theorem rebuild_after_insert_count_fst (fuel : Nat) :
    ∀ (t : rbtree) (z : Nat),
      (rebuild_after_insert_count fuel t z).map Prod.fst = rebuild_after_insert fuel t z := by
  induction fuel with
  | zero => intro t z; rfl
  | succ fuel ih =>
    intro t z
    simp only [rebuild_after_insert_count, rebuild_after_insert]
    split_ifs
    · rw [← ih]
      cases rebuild_after_insert_count fuel _ _ <;> rfl
    · rfl

theorem rebuild_after_insert_rotations_le (t : rbtree) (z : Nat) :
    rebuild_after_insert_rotations t z ≤ 2 := by
  simp only [rebuild_after_insert_rotations]
  split_ifs <;> omega

theorem rotations_of_red_uncle {t : rbtree} {z : Nat} (h : insert_uncle_black t z = false) :
    rebuild_after_insert_rotations t z = 0 := by
  simp only [insert_uncle_black] at h
  simp only [rebuild_after_insert_rotations]
  split_ifs at h ⊢ with a b b
  · rfl
  · simp at h
    exact absurd h b
  · rfl
  · simp at h
    exact absurd h b

/-- The test of the uncle in the state is the test of the colour of the sibling subtree of
the parent. -/
theorem insert_uncle_black_eq {t : rbtree} {f1 f2 : Frame} {rest : List Frame}
    {zl zr : Tree} {z : Nat} {cz : color_t} {kz : Int}
    (h : ZRep t (f1 :: f2 :: rest) (Tree.node zl z cz kz zr)) :
    insert_uncle_black t z = decide (f2.sib.rootColor ≠ RBTREE_RED) := by
  have h1 := zrep_up.mp h
  have h2 := zrep_up.mp h1
  have hz := h.rep
  have hf := h1.rep
  have hg := h2.rep
  have hN := h.nodup
  have hnb := h.nil_black
  have hz4 : t.parent z = f1.ptr := by
    simp only [rep_node, cpar_cons] at hz
    exact hz.2.2.2.1
  have hf1 : f1.ptr ≠ t.nil ∧ t.parent f1.ptr = f2.ptr := by
    cases f1 <;> simp only [rep_node, fill_inL, fill_inR, cpar_cons] at hf <;>
      exact ⟨hf.1, hf.2.2.2.1⟩
  have hfr : (f1.fill (Tree.node zl z cz kz zr)).rootp t.nil = f1.ptr := by cases f1 <;> rfl
  rcases f2 with ⟨p2, c2, k2, U⟩ | ⟨U, p2, c2, k2⟩
  · simp only [rep_node, fill_inL, fill_inR, hfr] at hg
    have hU := color_rootp hg.2.2.2.2.2.2.2 hnb
    simp only [frame_ptr_inL] at hf1
    simp [insert_uncle_black, hz4, hf1, hg, hU]
  · simp only [rep_node, fill_inL, fill_inR, hfr] at hg
    have hU := color_rootp hg.2.2.2.2.2.2.1 hnb
    simp only [frame_ptr_inR] at hf1
    have hm : f1.ptr ∉ U.ptrs := by
      simp only [cptrs_cons, frame_sib_inR, List.nodup_append, List.nodup_cons,
        List.mem_append, List.mem_cons, not_or] at hN
      tauto
    have hne := ne_rootp_of_not_mem (n := t.nil) hf1.1 hm
    simp [insert_uncle_black, hz4, hf1, hg, hU, hne]

/-- With a BLACK uncle the pass ends with a BLACK node above `z`. -/
theorem ins_step_black (f1 f2 : Frame) (rest : List Frame) (zl zr : Tree) (z : Nat)
    (cz : color_t) (kz : Int) (h : f2.sib.rootColor ≠ RBTREE_RED) :
    cparColor (ins_step (f1 :: f2 :: rest) (Tree.node zl z cz kz zr)).1 = RBTREE_BLACK := by
  cases f1 <;> cases f2 <;>
    simp only [frame_sib_inL, frame_sib_inR] at h <;>
    simp [ins_step, ins_rot_left, ins_rot_right, cparColor, Frame.color, h]


/-- Lines 155-178 of `rbtree_insert` on a state that holds a red-black tree: the new RED
node is linked in where the descent ends, and the invariant of the loop of
`rebuild_after_insert` holds. -/
theorem insert_attach_spec {t : rbtree} {T : Tree} (h : Holds t T) (hrb : RBInv T) (k : Int)
    (fuel : Nat) (hf : T.height + 1 ≤ fuel) :
    ∃ t6, insert_attach fuel t k = some (t6, t.brk) ∧
      ZRep t6 (descend k T []) (Tree.node Tree.leaf t.brk RBTREE_RED k Tree.leaf) ∧
      CtxInv (descend k T []) 0 ∧ (descend k T []).length ≤ T.height ∧
      InsertInv t6 t.brk (descend k T []).length := by
  obtain ⟨hz, hna, hal⟩ := holds_iff.mp h
  obtain ⟨t4, ht4⟩ : ∃ t4, t4 = set_right (set_left (set_color (set_key (calloc_node t).1 t.brk k)
      t.brk RBTREE_RED) t.brk t.nil) t.brk t.nil := ⟨_, rfl⟩
  have hzn : t.brk ≠ t.nil := by omega
  have hzT : t.brk ∉ T.ptrs := fun hm => by have := hal _ hm; omega
  have f1 : t4.nil = t.nil := by rw [ht4]; rfl
  have f2 : t4.root = t.root := by rw [ht4]; rfl
  have f3 : t4.key t.brk = k := by rw [ht4]; simp [calloc_node]
  have f4 : t4.color t.brk = RBTREE_RED := by rw [ht4]; simp [calloc_node]
  have f5 : t4.left t.brk = t4.nil := by rw [ht4]; simp [calloc_node]
  have f6 : t4.right t.brk = t4.nil := by rw [ht4]; simp [calloc_node]
  have hS : SameOff [t.brk] t t4 := by
    rw [ht4]
    refine ⟨rfl, ?_, ?_, ?_, ?_, ?_⟩ <;> intro q hq <;>
      simp only [List.mem_singleton] at hq <;> simp [calloc_node, upd_apply, hq]
  have h4 : ZRep t4 [] T := by
    refine ⟨?_, ?_, hz.nodup, ?_, ?_, ?_⟩
    · simpa [repc_nil, f1, f2] using hz.repc
    · have := rep_frameD hS (by simpa using hzT) hz.rep
      simpa [f1] using this
    · rw [f1, hS.color _ (by simpa using Ne.symm hzn)]; exact hz.nil_black
    · rw [f1, hS.left _ (by simpa using Ne.symm hzn)]; exact hz.nil_left
    · rw [f1, hS.right _ (by simpa using Ne.symm hzn)]; exact hz.nil_right
  have hctx : ZRep t4 (descend k T []) Tree.leaf :=
    zrep_plug.mpr (by rw [descend_plug]; exact h4)
  have hdesc := insert_descend_spec (z := t.brk) T [] fuel h4 hf
  rw [f3] at hdesc
  simp only [cpar_nil] at hdesc
  have hroot : T.rootp t4.nil = t4.root := by simpa [repc_nil] using h4.repc.symm
  rw [hroot] at hdesc
  have hzc : t.brk ∉ cptrs (descend k T []) := fun hm => by
    have := mem_cptrs_plug (S := Tree.leaf) hm
    rw [descend_plug] at this
    exact hzT this
  have hlink := insert_link hctx (by rw [f1]; exact hzn) hzc f3 f4 f5 f6
    (descend_pathOK k T [] trivial)
  obtain ⟨m, hm⟩ := (equalBlack_iff T).mp hrb.2.2
  obtain ⟨n, c1, c2, -, -⟩ := @ctx_of_inv (descend k T []) Tree.leaf m
    (by rw [descend_plug]; exact hrb.2.1) (by rw [descend_plug]; exact hm)
    (by rw [descend_plug]; exact hrb.1)
  have hn : n = 0 := by simpa using c2
  subst hn
  have hlen : (descend k T []).length ≤ T.height := by
    have := height_plug (descend k T []) Tree.leaf
    rw [descend_plug] at this
    simpa [plug] using this
  have hdef : insert_attach fuel t k =
      (match insert_descend fuel t4 t.brk t4.nil t4.root with
      | none => none
      | some y =>
        some (if y = (set_parent t4 t.brk y).nil then set_root (set_parent t4 t.brk y) t.brk
          else if (set_parent t4 t.brk y).key t.brk < (set_parent t4 t.brk y).key y then
            set_left (set_parent t4 t.brk y) y t.brk
          else set_right (set_parent t4 t.brk y) y t.brk, t.brk)) := by
    rw [ht4]; rfl
  rw [hdesc] at hdef
  exact ⟨_, hdef, hlink, c1, hlen, _, _, _, _, 0, hlink, rfl, by simp, by simp, c1⟩

/-- One pass through the body of the loop of `rebuild_after_insert`: the invariant holds
again with `z` nearer to the root, and after the branch of the BLACK uncle the node above
`z` is BLACK. -/
theorem insertInv_step {t : rbtree} {z d : Nat} (h : InsertInv t z d)
    (hc : t.color (t.parent z) = RBTREE_RED) :
    ∃ d', d' < d ∧
      InsertInv (rebuild_after_insert_body t z).1 (rebuild_after_insert_body t z).2 d' ∧
      (insert_uncle_black t z = true →
        (rebuild_after_insert_body t z).1.color
          ((rebuild_after_insert_body t z).1.parent (rebuild_after_insert_body t z).2) =
          RBTREE_BLACK) := by
  obtain ⟨ctx, zl, zr, kz, m, hz, rfl, hb, hr, hci⟩ := h
  have hp : t.parent z = cpar t.nil ctx := hz.rep.2.2.2.1
  have hcc := color_cpar hz.repc hz.nil_black
  rw [← hp, hc] at hcc
  obtain ⟨ctx1, zl1, z1, kz1, zr1, m1, e0, e1, e2, e3, e4, e5, e6, -, e8⟩ :=
    insert_step hz hcc.symm hb hr hci
  refine ⟨ctx1.length, e3, ?_, ?_⟩
  · rw [e1]
    exact ⟨ctx1, zl1, zr1, kz1, m1, e2, rfl, e4, e5, e6⟩
  · intro hu
    rcases ctx with _ | ⟨f1, _ | ⟨f2, rest⟩⟩
    · cases hcc
    · have hci' := hci
      rw [ctxInv_cons_red hcc.symm] at hci'
      obtain ⟨-, -, -, hok, -⟩ := hci'
      obtain ⟨g, gs, hg, -⟩ := hok rfl
      cases hg
    · rw [insert_uncle_black_eq hz] at hu
      have hb1 := ins_step_black f1 f2 rest zl zr z RBTREE_RED kz (by simpa using hu)
      rw [e0] at hb1
      have hp1 : (rebuild_after_insert_body t z).1.parent z1 =
          cpar (rebuild_after_insert_body t z).1.nil ctx1 := e2.rep.2.2.2.1
      have hc1 := color_cpar e2.repc e2.nil_black
      rw [e1, hp1, hc1]
      exact hb1

/-- The invariant of the loop of `rebuild_after_insert` holds whenever the loop condition
is evaluated. -/
theorem insertInv_iter (i : Nat) :
    ∀ {t : rbtree} {z d : Nat}, InsertInv t z d →
      ∃ d', d' ≤ d ∧ InsertInv (rebuild_after_insert_iter i t z).1
        (rebuild_after_insert_iter i t z).2 d' := by
  induction i with
  | zero => intro t z d h; exact ⟨d, le_refl _, h⟩
  | succ i ih =>
    intro t z d h
    by_cases hc : t.color (t.parent z) = RBTREE_RED
    · obtain ⟨d1, hd1, h1, -⟩ := insertInv_step h hc
      obtain ⟨d2, hd2, h2⟩ := ih h1
      refine ⟨d2, by omega, ?_⟩
      simpa [rebuild_after_insert_iter, hc] using h2
    · exact ⟨d, le_refl _, by simpa [rebuild_after_insert_iter, hc] using h⟩

theorem insertInv_depth {t : rbtree} {z d : Nat} (h : InsertInv t z d) (fuel : Nat)
    (hf : d + 1 ≤ fuel) : node_depth fuel t z = some d := by
  obtain ⟨ctx, zl, zr, kz, m, hz, rfl, -⟩ := h
  exact node_depth_spec ctx (drep_node hz) fuel hf

/-- The loop of `rebuild_after_insert` ends after at most as many passes as there are nodes
above `z`, and makes at most two rotations. -/
theorem insertInv_count (N : Nat) :
    ∀ {t : rbtree} {z d : Nat}, d ≤ N → InsertInv t z d → ∀ fuel, d + 1 ≤ fuel →
      ∃ t' r, rebuild_after_insert_count fuel t z = some (t', r) ∧ r ≤ 2 ∧
        rebuild_after_insert fuel t z = some t' := by
  induction N with
  | zero =>
    intro t z d hd h fuel hf
    obtain ⟨fuel', rfl⟩ : ∃ f', fuel = f' + 1 := ⟨fuel - 1, by omega⟩
    by_cases hc : t.color (t.parent z) = RBTREE_RED
    · obtain ⟨d1, hd1, -⟩ := insertInv_step h hc
      omega
    · exact ⟨set_color t t.root RBTREE_BLACK, 0, by simp [rebuild_after_insert_count, hc],
        by omega, by simp [rebuild_after_insert, hc]⟩
  | succ N ih =>
    intro t z d hd h fuel hf
    obtain ⟨fuel', rfl⟩ : ∃ f', fuel = f' + 1 := ⟨fuel - 1, by omega⟩
    by_cases hc : t.color (t.parent z) = RBTREE_RED
    · obtain ⟨d1, hd1, h1, hub⟩ := insertInv_step h hc
      cases hu : insert_uncle_black t z with
      | true =>
        have hbl := hub hu
        obtain ⟨fuel'', rfl⟩ : ∃ f', fuel' = f' + 1 := ⟨fuel' - 1, by omega⟩
        refine ⟨set_color (rebuild_after_insert_body t z).1 (rebuild_after_insert_body t z).1.root
          RBTREE_BLACK, rebuild_after_insert_rotations t z + 0, ?_,
          by have := rebuild_after_insert_rotations_le t z; omega, ?_⟩
        · simp [rebuild_after_insert_count, hc, hbl]
        · simp [rebuild_after_insert, hc, hbl]
      | false =>
        obtain ⟨t', r, e1, e2, e3⟩ := ih (by omega) h1 fuel' (by omega)
        refine ⟨t', rebuild_after_insert_rotations t z + r, ?_,
          by rw [rotations_of_red_uncle hu]; omega, ?_⟩
        · simp [rebuild_after_insert_count, hc, e1]
        · simp [rebuild_after_insert, hc, e3]
    · exact ⟨set_color t t.root RBTREE_BLACK, 0, by simp [rebuild_after_insert_count, hc],
        by omega, by simp [rebuild_after_insert, hc]⟩


/-- Cases 2 to 4 of the deletion fixup, `x` a left child with a BLACK sibling: the
context and subtree after the pass depend on the tree only, not on the state that
holds it. -/
theorem delete_black_left_uniform {rest : List Frame} {X wn wf : Tree} {p w : Nat}
    {cp : color_t} {kp kw : Int} {n : Nat}
    (hX : X.rootColor = RBTREE_BLACK)
    (hi : DelInv (Frame.inL p cp kp (Tree.node wn w RBTREE_BLACK kw wf) :: rest) X n) :
    ∃ ctx' X' n', DelInv ctx' X' n' ∧ (ctx' = rest ∧ X'.rootColor = cp ∨ ctx' = []) ∧
      (plug ctx' X').nodes =
        (plug (Frame.inL p cp kp (Tree.node wn w RBTREE_BLACK kw wf) :: rest) X).nodes ∧
      ∀ t : rbtree, DRep t (Frame.inL p cp kp (Tree.node wn w RBTREE_BLACK kw wf) :: rest) X →
        (delete_case234_left t (X.rootp t.nil) w).2 = X'.rootp t.nil ∧
        DRep (delete_case234_left t (X.rootp t.nil) w).1 ctx' X' ∧
        SameMeta t (delete_case234_left t (X.rootp t.nil) w).1 := by
  by_cases hf : wf.rootColor = RBTREE_BLACK
  · by_cases hn : wn.rootColor = RBTREE_BLACK
    · obtain ⟨n', i⟩ := delInv_case2_left hi hX hn hf
      refine ⟨rest, Tree.node X p cp kp (Tree.node wn w RBTREE_RED kw wf), n', i,
        Or.inl ⟨rfl, rfl⟩, nodes_plug_congr rest (by simp), fun t h => ?_⟩
      obtain ⟨e, z, m⟩ := delete_case2_left_spec h hn hf
      exact ⟨e, drep_node z, m⟩
    · cases wn with
      | leaf => exact absurd rfl hn
      | node a q cq kq b =>
        cases cq with
        | RBTREE_BLACK => exact absurd rfl hn
        | RBTREE_RED =>
          obtain ⟨n', i⟩ := delInv_case3_left hi hX
          refine ⟨[], _, n', i, Or.inr rfl, nodes_plug_congr rest (by simp), fun t h => ?_⟩
          obtain ⟨e, z, m⟩ := delete_case234_left_near h hf
          obtain ⟨d, hroot⟩ := drep_root z
          rw [m.nil] at hroot
          exact ⟨e.trans hroot, d, m⟩
  · cases wf with
    | leaf => exact absurd rfl hf
    | node a f cf kf b =>
      cases cf with
      | RBTREE_BLACK => exact absurd rfl hf
      | RBTREE_RED =>
        obtain ⟨n', i⟩ := delInv_case4_left hi hX
        refine ⟨[], _, n', i, Or.inr rfl, nodes_plug_congr rest (by simp), fun t h => ?_⟩
        obtain ⟨e, z, m⟩ := delete_case234_left_far h
        obtain ⟨d, hroot⟩ := drep_root z
        rw [m.nil] at hroot
        exact ⟨e.trans hroot, d, m⟩

/-- The body of the loop of `rebuild_after_delete` is cases 2 to 4 run after case 1, `x` a
left child. -/
theorem delete_body_left {t : rbtree} {rest : List Frame} {X wn wf : Tree} {p w : Nat}
    {cp cw : color_t} {kp kw : Int}
    (h : DRep t (Frame.inL p cp kp (Tree.node wn w cw kw wf) :: rest) X) :
    t.parent (X.rootp t.nil) = p ∧ X.rootp t.nil = t.left p ∧ w = t.right p ∧
      w ≠ X.rootp t.nil ∧ t.color w = cw ∧ w ≠ t.nil ∧ p ≠ t.nil ∧
      rebuild_after_delete_body t (X.rootp t.nil) =
        delete_case234_left (delete_case1_left t (X.rootp t.nil)).1 (X.rootp t.nil)
          (delete_case1_left t (X.rootp t.nil)).2 := by
  have hx := h.par
  simp only [cpar_cons, frame_ptr_inL, frame_ptr_inR] at hx
  have hy := (zrep_up.mp h.z).rep
  simp only [rep_node, fill_inL, fill_inR, rootp_node] at hy
  obtain ⟨hy1, hy2, hy3, hy4, hy5, hy6, hy7, hy8⟩ := hy
  have hN := h.z.nodup
  simp only [ptrs_node, ptrs_leaf, cptrs_nil, cptrs_cons, frame_ptr_inL, frame_ptr_inR,
    frame_sib_inL, frame_sib_inR, List.nodup_append, List.nodup_cons, List.mem_append,
    not_mem_cons_sym, not_or, List.disjoint_cons_left, List.disjoint_cons_right,
    List.disjoint_append_left, List.disjoint_append_right, List.nodup_nil,
    List.disjoint_nil_left, List.disjoint_nil_right, List.not_mem_nil, not_false_eq_true,
    true_and, and_true, List.nil_append, List.append_nil] at hN
  have hxw : w ≠ X.rootp t.nil := ne_rootp_of_not_mem hy8.1 (by simp [hN])
  refine ⟨hx, hy5.symm, hy6.symm, hxw, hy8.2.1, hy8.1, hy1, ?_⟩
  simp [rebuild_after_delete_body, hx, hy5, hy6, hxw, Ne.symm hxw]

/-- One pass through the body of the loop of `rebuild_after_delete`, `x` a left
child: the context and subtree after the pass depend on the tree only. -/
theorem delete_step_left_uniform {rest : List Frame} {X W : Tree} {p : Nat}
    {cp : color_t} {kp : Int} {n : Nat}
    (hX : X.rootColor = RBTREE_BLACK)
    (hi : DelInv (Frame.inL p cp kp W :: rest) X n) :
    ∃ ctx' X' n', DelInv ctx' X' n' ∧
      (ctx'.length < rest.length + 1 ∨ X'.rootColor = RBTREE_RED) ∧
      (plug ctx' X').nodes = (plug (Frame.inL p cp kp W :: rest) X).nodes ∧
      ∀ t : rbtree, DRep t (Frame.inL p cp kp W :: rest) X →
        (rebuild_after_delete_body t (X.rootp t.nil)).2 = X'.rootp t.nil ∧
        DRep (rebuild_after_delete_body t (X.rootp t.nil)).1 ctx' X' ∧
        SameMeta t (rebuild_after_delete_body t (X.rootp t.nil)).1 := by
  cases W with
  | leaf =>
    obtain ⟨-, -, hc⟩ := hi
    simp [CtxInv, Frame.sib] at hc
  | node wn w cw kw wf =>
    cases cw with
    | RBTREE_RED =>
      obtain ⟨i1, a, q, kq, b, rfl⟩ := delInv_case1_left hi
      obtain ⟨ctx', X', n', r5, r6, r4, ru⟩ := delete_black_left_uniform hX i1
      refine ⟨ctx', X', n', r5, ?_, r4.trans (nodes_plug_congr rest (by simp)), fun t h => ?_⟩
      · rcases r6 with ⟨-, r6⟩ | r6
        · exact Or.inr r6
        · exact Or.inl (by rw [r6]; simp)
      · obtain ⟨-, -, -, -, -, -, -, hB⟩ := delete_body_left h
        obtain ⟨e1, d1, m1⟩ := delete_case1_left_spec h
        simp only [rootp_node] at e1
        rw [hB, e1]
        obtain ⟨r1, r2, r3⟩ := ru _ d1
        rw [m1.nil] at r1 r2 r3
        exact ⟨r1, r2, sameMeta_trans m1 r3⟩
    | RBTREE_BLACK =>
      obtain ⟨ctx', X', n', r5, r6, r4, ru⟩ := delete_black_left_uniform hX hi
      refine ⟨ctx', X', n', r5, Or.inl ?_, r4, fun t h => ?_⟩
      · rcases r6 with ⟨r6, -⟩ | r6 <;> rw [r6] <;> simp
      · obtain ⟨-, -, -, -, -, -, -, hB⟩ := delete_body_left h
        rw [hB, delete_case1_left_skip h]
        exact ru t h


/-- Cases 2 to 4 of the deletion fixup, `x` a right child with a BLACK sibling: the
context and subtree after the pass depend on the tree only, not on the state that
holds it. -/
theorem delete_black_right_uniform {rest : List Frame} {X wn wf : Tree} {p w : Nat}
    {cp : color_t} {kp kw : Int} {n : Nat}
    (hX : X.rootColor = RBTREE_BLACK)
    (hi : DelInv (Frame.inR (Tree.node wf w RBTREE_BLACK kw wn) p cp kp :: rest) X n) :
    ∃ ctx' X' n', DelInv ctx' X' n' ∧ (ctx' = rest ∧ X'.rootColor = cp ∨ ctx' = []) ∧
      (plug ctx' X').nodes =
        (plug (Frame.inR (Tree.node wf w RBTREE_BLACK kw wn) p cp kp :: rest) X).nodes ∧
      ∀ t : rbtree, DRep t (Frame.inR (Tree.node wf w RBTREE_BLACK kw wn) p cp kp :: rest) X →
        (delete_case234_right t (X.rootp t.nil) w).2 = X'.rootp t.nil ∧
        DRep (delete_case234_right t (X.rootp t.nil) w).1 ctx' X' ∧
        SameMeta t (delete_case234_right t (X.rootp t.nil) w).1 := by
  by_cases hf : wf.rootColor = RBTREE_BLACK
  · by_cases hn : wn.rootColor = RBTREE_BLACK
    · obtain ⟨n', i⟩ := delInv_case2_right hi hX hn hf
      refine ⟨rest, Tree.node (Tree.node wf w RBTREE_RED kw wn) p cp kp X, n', i,
        Or.inl ⟨rfl, rfl⟩, nodes_plug_congr rest (by simp), fun t h => ?_⟩
      obtain ⟨e, z, m⟩ := delete_case2_right_spec h hn hf
      exact ⟨e, drep_node z, m⟩
    · cases wn with
      | leaf => exact absurd rfl hn
      | node a q cq kq b =>
        cases cq with
        | RBTREE_BLACK => exact absurd rfl hn
        | RBTREE_RED =>
          obtain ⟨n', i⟩ := delInv_case3_right hi hX
          refine ⟨[], _, n', i, Or.inr rfl, nodes_plug_congr rest (by simp), fun t h => ?_⟩
          obtain ⟨e, z, m⟩ := delete_case234_right_near h hf
          obtain ⟨d, hroot⟩ := drep_root z
          rw [m.nil] at hroot
          exact ⟨e.trans hroot, d, m⟩
  · cases wf with
    | leaf => exact absurd rfl hf
    | node a f cf kf b =>
      cases cf with
      | RBTREE_BLACK => exact absurd rfl hf
      | RBTREE_RED =>
        obtain ⟨n', i⟩ := delInv_case4_right hi hX
        refine ⟨[], _, n', i, Or.inr rfl, nodes_plug_congr rest (by simp), fun t h => ?_⟩
        obtain ⟨e, z, m⟩ := delete_case234_right_far h
        obtain ⟨d, hroot⟩ := drep_root z
        rw [m.nil] at hroot
        exact ⟨e.trans hroot, d, m⟩

/-- The body of the loop of `rebuild_after_delete` is cases 2 to 4 run after case 1, `x` a
right child. -/
theorem delete_body_right {t : rbtree} {rest : List Frame} {X wn wf : Tree} {p w : Nat}
    {cp cw : color_t} {kp kw : Int}
    (h : DRep t (Frame.inR (Tree.node wf w cw kw wn) p cp kp :: rest) X) :
    t.parent (X.rootp t.nil) = p ∧ X.rootp t.nil = t.right p ∧ w = t.left p ∧
      w ≠ X.rootp t.nil ∧ t.color w = cw ∧ w ≠ t.nil ∧ p ≠ t.nil ∧
      rebuild_after_delete_body t (X.rootp t.nil) =
        delete_case234_right (delete_case1_right t (X.rootp t.nil)).1 (X.rootp t.nil)
          (delete_case1_right t (X.rootp t.nil)).2 := by
  have hx := h.par
  simp only [cpar_cons, frame_ptr_inR, frame_ptr_inL] at hx
  have hy := (zrep_up.mp h.z).rep
  simp only [rep_node, fill_inR, fill_inL, rootp_node] at hy
  obtain ⟨hy1, hy2, hy3, hy4, hy6, hy5, hy8, hy7⟩ := hy
  have hN := h.z.nodup
  simp only [ptrs_node, ptrs_leaf, cptrs_nil, cptrs_cons, frame_ptr_inR, frame_ptr_inL,
    frame_sib_inR, frame_sib_inL, List.nodup_append, List.nodup_cons, List.mem_append,
    not_mem_cons_sym, not_or, List.disjoint_cons_right, List.disjoint_cons_left,
    List.disjoint_append_right, List.disjoint_append_left, List.nodup_nil,
    List.disjoint_nil_right, List.disjoint_nil_left, List.not_mem_nil, not_false_eq_true,
    true_and, and_true, List.nil_append, List.append_nil] at hN
  have hxw : w ≠ X.rootp t.nil := ne_rootp_of_not_mem hy8.1 (by simp [hN])
  refine ⟨hx, hy5.symm, hy6.symm, hxw, hy8.2.1, hy8.1, hy1, ?_⟩
  simp [rebuild_after_delete_body, hx, hy5, hy6, hxw, Ne.symm hxw]

/-- One pass through the body of the loop of `rebuild_after_delete`, `x` a right
child: the context and subtree after the pass depend on the tree only. -/
theorem delete_step_right_uniform {rest : List Frame} {X W : Tree} {p : Nat}
    {cp : color_t} {kp : Int} {n : Nat}
    (hX : X.rootColor = RBTREE_BLACK)
    (hi : DelInv (Frame.inR W p cp kp :: rest) X n) :
    ∃ ctx' X' n', DelInv ctx' X' n' ∧
      (ctx'.length < rest.length + 1 ∨ X'.rootColor = RBTREE_RED) ∧
      (plug ctx' X').nodes = (plug (Frame.inR W p cp kp :: rest) X).nodes ∧
      ∀ t : rbtree, DRep t (Frame.inR W p cp kp :: rest) X →
        (rebuild_after_delete_body t (X.rootp t.nil)).2 = X'.rootp t.nil ∧
        DRep (rebuild_after_delete_body t (X.rootp t.nil)).1 ctx' X' ∧
        SameMeta t (rebuild_after_delete_body t (X.rootp t.nil)).1 := by
  cases W with
  | leaf =>
    obtain ⟨-, -, hc⟩ := hi
    simp [CtxInv, Frame.sib] at hc
  | node wn w cw kw wf =>
    cases cw with
    | RBTREE_RED =>
      obtain ⟨i1, a, q, kq, b, rfl⟩ := delInv_case1_right hi
      obtain ⟨ctx', X', n', r5, r6, r4, ru⟩ := delete_black_right_uniform hX i1
      refine ⟨ctx', X', n', r5, ?_, r4.trans (nodes_plug_congr rest (by simp)), fun t h => ?_⟩
      · rcases r6 with ⟨-, r6⟩ | r6
        · exact Or.inr r6
        · exact Or.inl (by rw [r6]; simp)
      · obtain ⟨-, -, -, -, -, -, -, hB⟩ := delete_body_right h
        obtain ⟨e1, d1, m1⟩ := delete_case1_right_spec h
        simp only [rootp_node] at e1
        rw [hB, e1]
        obtain ⟨r1, r2, r3⟩ := ru _ d1
        rw [m1.nil] at r1 r2 r3
        exact ⟨r1, r2, sameMeta_trans m1 r3⟩
    | RBTREE_BLACK =>
      obtain ⟨ctx', X', n', r5, r6, r4, ru⟩ := delete_black_right_uniform hX hi
      refine ⟨ctx', X', n', r5, Or.inl ?_, r4, fun t h => ?_⟩
      · rcases r6 with ⟨r6, -⟩ | r6 <;> rw [r6] <;> simp
      · obtain ⟨-, -, -, -, -, -, -, hB⟩ := delete_body_right h
        rw [hB, delete_case1_right_skip h]
        exact ru t h


/-- One pass through the body of the loop of `rebuild_after_delete`: the context and
subtree after the pass depend on the tree only, not on the state that holds it. -/
theorem delete_step_uniform {f : Frame} {rest : List Frame} {X : Tree} {n : Nat}
    (hX : X.rootColor = RBTREE_BLACK) (hi : DelInv (f :: rest) X n) :
    ∃ ctx' X' n', DelInv ctx' X' n' ∧
      (ctx'.length < rest.length + 1 ∨ X'.rootColor = RBTREE_RED) ∧
      (plug ctx' X').nodes = (plug (f :: rest) X).nodes ∧
      ∀ t : rbtree, DRep t (f :: rest) X →
        (rebuild_after_delete_body t (X.rootp t.nil)).2 = X'.rootp t.nil ∧
        DRep (rebuild_after_delete_body t (X.rootp t.nil)).1 ctx' X' ∧
        SameMeta t (rebuild_after_delete_body t (X.rootp t.nil)).1 := by
  cases f with
  | inL p cp kp W => exact delete_step_left_uniform hX hi
  | inR W p cp kp => exact delete_step_right_uniform hX hi

/-- `rebuild_after_delete` ends after at most as many passes as there are nodes above `x`,
and the tree it leaves depends on the tree it starts from only, not on the state that
holds it. -/
theorem rebuild_after_delete_uniform (N : Nat) :
    ∀ (ctx : List Frame) (X : Tree) (n : Nat), ctx.length ≤ N → DelInv ctx X n →
      ∃ T', RBInv T' ∧ T'.nodes = (plug ctx X).nodes ∧
        ∀ (t : rbtree) (fuel : Nat), DRep t ctx X → ctx.length + 1 ≤ fuel →
          ∃ t', rebuild_after_delete fuel t (X.rootp t.nil) = some t' ∧ ZRep t' [] T' ∧
            SameMeta t t' := by
  have hexit : ∀ (ctx : List Frame) (X : Tree) (n : Nat), DelInv ctx X n →
      (ctx = [] ∨ X.rootColor = RBTREE_RED) →
      ∃ T', RBInv T' ∧ T'.nodes = (plug ctx X).nodes ∧
        ∀ (t : rbtree) (fuel : Nat), DRep t ctx X → 1 ≤ fuel →
          ∃ t', rebuild_after_delete fuel t (X.rootp t.nil) = some t' ∧ ZRep t' [] T' ∧
            SameMeta t t' := by
    intro ctx X n hi hx
    refine ⟨plug ctx X.blacken, delInv_done hi hx, nodes_plug_congr ctx (blacken_nodes X),
      fun t fuel h hfuel => ?_⟩
    obtain ⟨fuel', rfl⟩ : ∃ f', fuel = f' + 1 := ⟨fuel - 1, by omega⟩
    obtain ⟨e1, e2⟩ := delete_exit h hx fuel'
    exact ⟨_, e1, e2, sameMeta_set_color _ _ _⟩
  induction N with
  | zero =>
    intro ctx X n hlen hi
    obtain ⟨T', a, b, c⟩ := hexit ctx X n hi (Or.inl (List.length_eq_zero.mp (by omega)))
    exact ⟨T', a, b, fun t fuel h hf => c t fuel h (by omega)⟩
  | succ N ih =>
    intro ctx X n hlen hi
    rcases ctx with _ | ⟨f, rest⟩
    · obtain ⟨T', a, b, c⟩ := hexit [] X n hi (Or.inl rfl)
      exact ⟨T', a, b, fun t fuel h hf => c t fuel h (by omega)⟩
    rcases hX : X.rootColor with _ | _
    · obtain ⟨T', a, b, c⟩ := hexit _ X n hi (Or.inr hX)
      exact ⟨T', a, b, fun t fuel h hf => c t fuel h (by omega)⟩
    obtain ⟨ctx', X', n', r5, r6, r4, ru⟩ := delete_step_uniform hX hi
    simp only [List.length_cons] at hlen
    have key : ∃ T', RBInv T' ∧ T'.nodes = (plug ctx' X').nodes ∧
        ∀ (t : rbtree) (fuel : Nat), DRep t ctx' X' → rest.length + 1 ≤ fuel →
          ∃ t', rebuild_after_delete fuel t (X'.rootp t.nil) = some t' ∧ ZRep t' [] T' ∧
            SameMeta t t' := by
      rcases r6 with r6 | r6
      · obtain ⟨T', a, b, c⟩ := ih ctx' X' n' (by omega) r5
        exact ⟨T', a, b, fun t fuel h hf => c t fuel h (by omega)⟩
      · obtain ⟨T', a, b, c⟩ := hexit ctx' X' n' r5 (Or.inr r6)
        exact ⟨T', a, b, fun t fuel h hf => c t fuel h (by omega)⟩
    obtain ⟨T', a, b, c⟩ := key
    refine ⟨T', a, b.trans r4, fun t fuel h hf => ?_⟩
    simp only [List.length_cons] at hf
    obtain ⟨fuel', rfl⟩ : ∃ f', fuel = f' + 1 := ⟨fuel - 1, by omega⟩
    rw [delete_continue h hX fuel']
    obtain ⟨r1, r2, r3⟩ := ru t h
    rw [r1]
    obtain ⟨t', k1, k2, k3⟩ := c _ fuel' r2 (by omega)
    rw [r3.nil] at k1
    exact ⟨t', k1, k2, sameMeta_trans r3 k3⟩


/-- Case 1 of the deletion fixup, `x` a left child with a RED sibling: after the
recolouring and the rotation the new sibling is a real BLACK node and the parent of `x` is
RED. -/
theorem delete_case1_left_red {t : rbtree} {rest : List Frame} {X wn wf : Tree} {p w : Nat}
    {cp : color_t} {kp kw : Int} {n : Nat}
    (h : DRep t (Frame.inL p cp kp (Tree.node wn w RBTREE_RED kw wf) :: rest) X)
    (hi : DelInv (Frame.inL p cp kp (Tree.node wn w RBTREE_RED kw wf) :: rest) X n) :
    (delete_case1_left t (X.rootp t.nil)).2 ≠ (delete_case1_left t (X.rootp t.nil)).1.nil ∧
    (delete_case1_left t (X.rootp t.nil)).1.color (delete_case1_left t (X.rootp t.nil)).2 =
      RBTREE_BLACK ∧
    (delete_case1_left t (X.rootp t.nil)).1.color
      ((delete_case1_left t (X.rootp t.nil)).1.parent (X.rootp t.nil)) = RBTREE_RED ∧
    (delete_case1_left t (X.rootp t.nil)).2 =
      (delete_case1_left t (X.rootp t.nil)).1.right
        ((delete_case1_left t (X.rootp t.nil)).1.parent (X.rootp t.nil)) := by
  obtain ⟨e1, d1, m1⟩ := delete_case1_left_spec h
  obtain ⟨-, a, q, kq, b, rfl⟩ := delInv_case1_left hi
  simp only [rootp_node] at e1
  have hx := d1.par
  rw [m1.nil] at hx
  simp only [cpar_cons, frame_ptr_inL, frame_ptr_inR] at hx
  have hy := (zrep_up.mp d1.z).rep
  simp only [rep_node, fill_inL, fill_inR, rootp_node] at hy
  obtain ⟨hy1, hy2, hy3, hy4, hy5, hy6, hy7, hy8⟩ := hy
  obtain ⟨hw1, hw2, hw3, hw4, hw5, hw6, hw7, hw8⟩ := hy8
  rw [e1, hx, hy2, hy6]
  exact ⟨hw1, hw2, rfl, rfl⟩


/-- Case 1 of the deletion fixup, `x` a right child with a RED sibling: after the
recolouring and the rotation the new sibling is a real BLACK node and the parent of `x` is
RED. -/
theorem delete_case1_right_red {t : rbtree} {rest : List Frame} {X wn wf : Tree} {p w : Nat}
    {cp : color_t} {kp kw : Int} {n : Nat}
    (h : DRep t (Frame.inR (Tree.node wf w RBTREE_RED kw wn) p cp kp :: rest) X)
    (hi : DelInv (Frame.inR (Tree.node wf w RBTREE_RED kw wn) p cp kp :: rest) X n) :
    (delete_case1_right t (X.rootp t.nil)).2 ≠ (delete_case1_right t (X.rootp t.nil)).1.nil ∧
    (delete_case1_right t (X.rootp t.nil)).1.color (delete_case1_right t (X.rootp t.nil)).2 =
      RBTREE_BLACK ∧
    (delete_case1_right t (X.rootp t.nil)).1.color
      ((delete_case1_right t (X.rootp t.nil)).1.parent (X.rootp t.nil)) = RBTREE_RED ∧
    (delete_case1_right t (X.rootp t.nil)).2 =
      (delete_case1_right t (X.rootp t.nil)).1.left
        ((delete_case1_right t (X.rootp t.nil)).1.parent (X.rootp t.nil)) := by
  obtain ⟨e1, d1, m1⟩ := delete_case1_right_spec h
  obtain ⟨-, a, q, kq, b, rfl⟩ := delInv_case1_right hi
  simp only [rootp_node] at e1
  have hx := d1.par
  rw [m1.nil] at hx
  simp only [cpar_cons, frame_ptr_inR, frame_ptr_inL] at hx
  have hy := (zrep_up.mp d1.z).rep
  simp only [rep_node, fill_inR, fill_inL, rootp_node] at hy
  obtain ⟨hy1, hy2, hy3, hy4, hy6, hy5, hy8, hy7⟩ := hy
  obtain ⟨hw1, hw2, hw3, hw4, hw6, hw5, hw8, hw7⟩ := hy8
  rw [e1, hx, hy2, hy6]
  exact ⟨hw1, hw2, rfl, rfl⟩


/-- While the loop of `rebuild_after_delete` goes on, `x` is below a node of the tree. -/
theorem deleteInv_cond {t : rbtree} {ctx : List Frame} {X : Tree} (h : DRep t ctx X)
    (hc : X.rootp t.nil ≠ t.root ∧ t.color (X.rootp t.nil) = RBTREE_BLACK) :
    (∃ f rest, ctx = f :: rest) ∧ X.rootColor = RBTREE_BLACK := by
  have hcol := color_rootp h.z.rep h.z.nil_black
  refine ⟨?_, by rw [← hcol]; exact hc.2⟩
  rcases ctx with _ | ⟨f, rest⟩
  · have hroot : t.root = X.rootp t.nil := h.z.repc
    exact absurd hroot.symm hc.1
  · exact ⟨f, rest, rfl⟩

/-- One pass through the body of the loop of `rebuild_after_delete`: the invariant holds
again, and either `x` is nearer to the root or the loop ends. -/
theorem deleteInv_step {t : rbtree} {x d : Nat} (h : DeleteInv t x d)
    (hc : x ≠ t.root ∧ t.color x = RBTREE_BLACK) :
    ∃ d', DeleteInv (rebuild_after_delete_body t x).1 (rebuild_after_delete_body t x).2 d' ∧
      (d' < d ∨
        ¬((rebuild_after_delete_body t x).2 ≠ (rebuild_after_delete_body t x).1.root ∧
          (rebuild_after_delete_body t x).1.color (rebuild_after_delete_body t x).2 =
            RBTREE_BLACK)) := by
  obtain ⟨ctx, X, n, hd, rfl, rfl, hi⟩ := h
  obtain ⟨⟨f, rest, rfl⟩, hX⟩ := deleteInv_cond hd hc
  obtain ⟨ctx', X', n', r5, r6, -, ru⟩ := delete_step_uniform hX hi
  obtain ⟨r1, r2, r3⟩ := ru t hd
  refine ⟨ctx'.length, ⟨ctx', X', n', r2, by rw [r1, r3.nil], rfl, r5⟩, ?_⟩
  rcases r6 with r6 | r6
  · exact Or.inl (by simpa using r6)
  · right
    have hcol := color_rootp r2.z.rep r2.z.nil_black
    rw [r3.nil] at hcol
    rw [r1, hcol, r6]
    simp

/-- The invariant of the loop of `rebuild_after_delete` holds whenever the loop condition
is evaluated. -/
theorem deleteInv_iter (i : Nat) :
    ∀ {t : rbtree} {x d : Nat}, DeleteInv t x d →
      ∃ d', DeleteInv (rebuild_after_delete_iter i t x).1
        (rebuild_after_delete_iter i t x).2 d' := by
  induction i with
  | zero => intro t x d h; exact ⟨d, h⟩
  | succ i ih =>
    intro t x d h
    by_cases hc : x ≠ t.root ∧ t.color x = RBTREE_BLACK
    · obtain ⟨d1, h1, -⟩ := deleteInv_step h hc
      obtain ⟨d2, h2⟩ := ih h1
      exact ⟨d2, by simpa [rebuild_after_delete_iter, hc] using h2⟩
    · exact ⟨d, by simpa [rebuild_after_delete_iter, hc] using h⟩

theorem deleteInv_depth {t : rbtree} {x d : Nat} (h : DeleteInv t x d) (fuel : Nat)
    (hf : d + 1 ≤ fuel) : node_depth fuel t x = some d := by
  obtain ⟨ctx, X, n, hd, rfl, rfl, -⟩ := h
  exact node_depth_spec ctx hd fuel hf

/-- The loop of `rebuild_after_delete` ends after at most as many passes as there are nodes
above `x`. -/
theorem deleteInv_returns {t : rbtree} {x d : Nat} (h : DeleteInv t x d) (fuel : Nat)
    (hf : d + 1 ≤ fuel) : ∃ t', rebuild_after_delete fuel t x = some t' := by
  obtain ⟨ctx, X, n, hd, rfl, rfl, hi⟩ := h
  obtain ⟨T', -, -, c⟩ := rebuild_after_delete_uniform ctx.length ctx X n (le_refl _) hi
  obtain ⟨t', e, -⟩ := c t fuel hd hf
  exact ⟨t', e⟩

/-- Case 1 of the deletion fixup in a pass of the loop: with a RED sibling, the sibling
after the rotation is a real BLACK node below a RED parent, and the pass goes on with
cases 2 to 4. -/
theorem deleteInv_case1 {t : rbtree} {x d : Nat} (h : DeleteInv t x d)
    (hc : x ≠ t.root ∧ t.color x = RBTREE_BLACK) :
    (x = t.left (t.parent x) → t.color (t.right (t.parent x)) = RBTREE_RED →
      (delete_case1_left t x).2 ≠ (delete_case1_left t x).1.nil ∧
      (delete_case1_left t x).1.color (delete_case1_left t x).2 = RBTREE_BLACK ∧
      (delete_case1_left t x).1.color ((delete_case1_left t x).1.parent x) = RBTREE_RED ∧
      (delete_case1_left t x).2 =
        (delete_case1_left t x).1.right ((delete_case1_left t x).1.parent x) ∧
      rebuild_after_delete_body t x =
        delete_case234_left (delete_case1_left t x).1 x (delete_case1_left t x).2) ∧
    (x ≠ t.left (t.parent x) → t.color (t.left (t.parent x)) = RBTREE_RED →
      (delete_case1_right t x).2 ≠ (delete_case1_right t x).1.nil ∧
      (delete_case1_right t x).1.color (delete_case1_right t x).2 = RBTREE_BLACK ∧
      (delete_case1_right t x).1.color ((delete_case1_right t x).1.parent x) = RBTREE_RED ∧
      (delete_case1_right t x).2 =
        (delete_case1_right t x).1.left ((delete_case1_right t x).1.parent x) ∧
      rebuild_after_delete_body t x =
        delete_case234_right (delete_case1_right t x).1 x (delete_case1_right t x).2) := by
  obtain ⟨ctx, X, n, hd, rfl, rfl, hi⟩ := h
  obtain ⟨⟨f, rest, rfl⟩, hX⟩ := deleteInv_cond hd hc
  rcases f with ⟨p, cp, kp, W⟩ | ⟨W, p, cp, kp⟩
  · cases W with
    | leaf =>
      obtain ⟨-, -, hci⟩ := hi
      simp [CtxInv, Frame.sib] at hci
    | node wn w cw kw wf =>
      obtain ⟨b1, b2, b3, b4, b5, b6, b7, hB⟩ := delete_body_left hd
      constructor
      · intro _ hred
        rw [b1, ← b3, b5] at hred
        subst hred
        obtain ⟨c1, c2, c3, c4⟩ := delete_case1_left_red hd hi
        exact ⟨c1, c2, c3, c4, hB⟩
      · intro hne
        rw [b1] at hne
        exact absurd b2 hne
  · cases W with
    | leaf =>
      obtain ⟨-, -, hci⟩ := hi
      simp [CtxInv, Frame.sib] at hci
    | node wn w cw kw wf =>
      obtain ⟨b1, b2, b3, b4, b5, b6, b7, hB⟩ := delete_body_right hd
      constructor
      · intro he
        rw [b1, ← b3] at he
        exact absurd he.symm b4
      · intro _ hred
        rw [b1, ← b3, b5] at hred
        subst hred
        obtain ⟨c1, c2, c3, c4⟩ := delete_case1_right_red hd hi
        exact ⟨c1, c2, c3, c4, hB⟩


/-! ### Taking the node out: what the state after the splice depends on -/

theorem rbtree_erase_node_splice (fuel : Nat) (t : rbtree) (p : Nat) :
    rbtree_erase_node fuel t p =
      match rbtree_erase_splice fuel t p with
      | none => none
      | some r => rbtree_erase_finish fuel r.1 r.2.1 r.2.2 p := by
  simp only [rbtree_erase_node, rbtree_erase_splice]
  split_ifs
  · rfl
  · rfl
  · cases subtree_min fuel t (t.right p) <;> rfl

/-- The black height of a tree with a hole follows the black height of the subtree in the
hole. -/
theorem bh_plug_congr (ctx : List Frame) :
    ∀ {Z Z' : Tree}, (∀ n, BH Z n → BH Z' n) → ∀ m, BH (plug ctx Z) m → BH (plug ctx Z') m := by
  induction ctx with
  | nil => intro Z Z' h m; exact h m
  | cons f fs ih =>
    intro Z Z' h m
    simp only [plug]
    apply ih
    intro n
    cases f with
    | inL p c k r =>
      cases c with
      | RBTREE_RED =>
        simp only [fill_inL, bh_red]
        exact fun ⟨a, b⟩ => ⟨h _ a, b⟩
      | RBTREE_BLACK =>
        simp only [fill_inL, bh_black]
        exact fun ⟨m, e, a, b⟩ => ⟨m, e, h _ a, b⟩
    | inR l p c k =>
      cases c with
      | RBTREE_RED =>
        simp only [fill_inR, bh_red]
        exact fun ⟨a, b⟩ => ⟨a, h _ b⟩
      | RBTREE_BLACK =>
        simp only [fill_inR, bh_black]
        exact fun ⟨m, e, a, b⟩ => ⟨m, e, a, h _ b⟩

/-- Lines 294-328 of `rbtree_erase` on a node `z` of a red-black tree: the context and the
subtree at `x` after the splice and the colour taken out depend on the tree only, not on
the state that holds it. If the colour taken out is BLACK the paths through `x` are one
BLACK node short; if it is RED the tree is a red-black tree of the same black height. -/
theorem erase_splice_uniform {ctx : List Frame} {L R : Tree} {z : Nat} {c : color_t} {k : Int}
    (hrb : RBInv (plug ctx (Tree.node L z c k R))) :
    ∃ ctx' X c0, (c0 = RBTREE_BLACK → ∃ n, DelInv ctx' X n) ∧
      (c0 = RBTREE_RED → RBInv (plug ctx' X) ∧
        ∀ m, BH (plug ctx (Tree.node L z c k R)) m → BH (plug ctx' X) m) ∧
      ctx'.length + 1 ≤ (plug ctx (Tree.node L z c k R)).height ∧
      (plug ctx' X).nodes = cbefore ctx ++ (L.nodes ++ R.nodes) ++ cafter ctx ∧
      ∀ (t : rbtree) (fuel : Nat), ZRep t ctx (Tree.node L z c k R) →
        (plug ctx (Tree.node L z c k R)).height + 1 ≤ fuel →
        ∃ s, rbtree_erase_splice fuel t z = some (s, X.rootp t.nil, c0) ∧ DRep s ctx' X ∧
          SameMeta t s ∧
          ((t.left z = t.nil ∨ t.right z = t.nil) → c0 = t.color z) ∧
          (t.left z ≠ t.nil → t.right z ≠ t.nil →
            ∃ y, subtree_min fuel t (t.right z) = some y ∧ c0 = t.color y) := by
  have hlen := height_plug ctx (Tree.node L z c k R)
  simp only [Tree.height] at hlen
  cases L with
  | leaf =>
    obtain ⟨ib, ir⟩ := takeout_no_left hrb (fun _ x => x) id
    refine ⟨ctx, R, c, ib, fun hc => ⟨ir hc, ?_⟩, by omega, by rw [nodes_plug]; simp,
      fun t fuel h hf => ?_⟩
    · subst hc
      exact bh_plug_congr ctx (fun n hn => by simp only [bh_red] at hn; exact hn.2)
    · have hr := h.rep
      simp only [rep_node] at hr
      obtain ⟨h1, h2, h3, h4, h5, h6, h7, h8⟩ := hr
      simp only [rootp_leaf] at h5
      refine ⟨transplant t z (t.right z), by simp [rbtree_erase_splice, h5, h6, h2],
        erase_no_left h, sameMeta_transplant _ _ _, fun _ => h2.symm, fun hl => absurd h5 hl⟩
  | node ll pl cl kl lr =>
    cases R with
    | leaf =>
      obtain ⟨ib, ir⟩ := takeout_no_right hrb (fun _ x => x) id
      refine ⟨ctx, Tree.node ll pl cl kl lr, c, ib, fun hc => ⟨ir hc, ?_⟩, by omega,
        by rw [nodes_plug]; simp, fun t fuel h hf => ?_⟩
      · subst hc
        exact bh_plug_congr ctx (fun n hn => by simp only [bh_red] at hn; exact hn.1)
      · have hr := h.rep
        simp only [rep_node] at hr
        obtain ⟨h1, h2, h3, h4, h5, h6, h7, h8⟩ := hr
        have hpl : pl ≠ t.nil := h7.1
        simp only [rootp_node] at h5
        simp only [rootp_leaf] at h6
        refine ⟨transplant t z (t.left z), by simp [rbtree_erase_splice, h5, h6, h2, hpl],
          erase_no_right h, sameMeta_transplant _ _ _, fun _ => h2.symm,
          fun _ hr => absurd h6 hr⟩
    | node rl pr cr kr rr =>
      obtain ⟨y, cy, ky, yr, hY⟩ := minNode_node (T := Tree.node rl pr cr kr rr) (by simp)
      obtain ⟨ib, ir⟩ := takeout_two hrb hY
      have hl : (Tree.node rl pr cr kr rr).minFrames.length + 1 ≤
          (Tree.node rl pr cr kr rr).height := by
        rcases length_min (Tree.node rl pr cr kr rr) with hl | hl
        · exact hl
        · cases hl
      have e : plug ctx (Tree.node (Tree.node ll pl cl kl lr) z c k (Tree.node rl pr cr kr rr)) =
          plug ((Tree.node rl pr cr kr rr).minFrames ++
            Frame.inR (Tree.node ll pl cl kl lr) z c k :: ctx)
            (Tree.node Tree.leaf y cy ky yr) := by
        rw [plug_append, ← hY, plug_min]
        rfl
      refine ⟨(Tree.node rl pr cr kr rr).minFrames ++
        Frame.inR (Tree.node ll pl cl kl lr) y c ky :: ctx, yr, cy, ib,
        fun hc => ⟨ir hc, ?_⟩, ?_, ?_, fun t fuel h hf => ?_⟩
      · subst hc
        intro m hm
        rw [e] at hm
        rw [plug_append] at hm ⊢
        have h1 := @bh_plug_congr (Tree.node rl pr cr kr rr).minFrames
          (Tree.node Tree.leaf y RBTREE_RED ky yr) yr
          (fun n hn => by simp only [bh_red] at hn; exact hn.2)
        simp only [plug] at hm ⊢
        refine bh_plug_congr ctx ?_ m hm
        intro n hn
        cases c with
        | RBTREE_RED =>
          simp only [fill_inR, bh_red] at hn ⊢
          exact ⟨hn.1, h1 _ hn.2⟩
        | RBTREE_BLACK =>
          simp only [fill_inR, bh_black] at hn ⊢
          obtain ⟨m', e', a, b⟩ := hn
          exact ⟨m', e', a, h1 _ b⟩
      · simp only [List.length_append, List.length_cons, height_node] at hlen hl ⊢
        omega
      · have hRn := congrArg Tree.nodes (plug_min (Tree.node rl pr cr kr rr))
        rw [hY, nodes_plug, cbefore_min] at hRn
        rw [nodes_plug, ← hRn]
        simp [cbefore_append, cafter_append, cbefore, cafter, cbefore_min]
      · have hr := h.rep
        simp only [rep_node] at hr
        obtain ⟨h1, h2, h3, h4, h5, h6, h7, h8⟩ := hr
        have hpl : pl ≠ t.nil := h7.1
        have hpr : pr ≠ t.nil := h8.1
        simp only [rootp_node] at h5 h6
        obtain ⟨y', cy', ky', yr', hY', e1, e2, hd, hm⟩ :=
          erase_two_children (R := Tree.node rl pr cr kr rr) h (by simp)
        rw [hY] at hY'
        simp only [Tree.node.injEq, true_and] at hY'
        obtain ⟨rfl, rfl, rfl, rfl⟩ := hY'
        have hsub := subtree_min_spec (t := t) (Tree.node rl pr cr kr rr) fuel h8 (by simp)
          (by simp only [height_node] at hlen hf ⊢; omega)
        rw [hY] at hsub
        simp only [rootp_node] at hsub
        refine ⟨rbtree_erase_replace (rbtree_erase_detach t z y (t.right y)) z y, ?_, hd, hm,
          ?_, fun _ _ => ⟨y, by rw [h6]; exact hsub, e1.symm⟩⟩
        · simp [rbtree_erase_splice, h5, h6, hpl, hpr, hsub, e1, e2]
        · rintro (hl | hr)
          · exact absurd (h5 ▸ hl) hpl
          · exact absurd (h6 ▸ hr) hpr


/-! ### `rbtree_erase`: what the result depends on -/

/-- A state holds the same tree whatever the `parent` field of the sentinel holds. -/
theorem holds_with_nil_parent {t : rbtree} {T : Tree} (h : Holds t T) (v : Nat) :
    Holds (with_nil_parent t v) T := by
  have hS : SameOff [t.nil] t (with_nil_parent t v) := by
    refine ⟨rfl, fun _ _ => rfl, fun _ _ => rfl, ?_, fun _ _ => rfl, fun _ _ => rfl⟩
    intro q hq
    simp only [List.mem_singleton] at hq
    simp [with_nil_parent, upd_apply, hq]
  have hd : T.ptrs.Disjoint [t.nil] := by
    intro q hq hw
    simp only [List.mem_singleton] at hw
    exact nil_not_mem h.rep (hw ▸ hq)
  exact ⟨h.root, rep_frameD hS hd h.rep, h.nodup, h.nil_black, h.nil_alloc, h.alloc,
    h.nil_left, h.nil_right⟩

theorem rbtree_erase_unfold {fuel : Nat} {t s : rbtree} {p x : Nat} {c0 : color_t}
    (hp0 : p ≠ NULL) (hpn : p ≠ t.nil)
    (hs : rbtree_erase_splice fuel t p = some (s, x, c0)) :
    rbtree_erase fuel (some t) p =
      match rbtree_erase_finish fuel s x c0 p with
      | none => none
      | some t1 => some (some t1, 1) := by
  simp only [rbtree_erase, hp0, hpn, rbtree_erase_node_splice, hs, or_self, if_false] <;>
    (cases rbtree_erase_finish fuel s x c0 p <;> rfl)

/-- `rbtree_erase` on a node `p` of a red-black tree: the tree the state holds afterwards
depends on the tree and on `p` only, not on the state that holds the tree. -/
theorem rbtree_erase_uniform {T : Tree} (hrb : RBInv T) {p : Nat} (hp : p ∈ T.ptrs) :
    ∃ T', RBInv T' ∧ (∀ q ∈ T'.ptrs, q ∈ T.ptrs) ∧
      ∀ (t : rbtree) (fuel : Nat), Holds t T → T.height + 1 ≤ fuel →
        ∃ t', rbtree_erase fuel (some t) p = some (some t', 1) ∧ Holds t' T' := by
  obtain ⟨ctx, L, c, k, R, hT⟩ := exists_focus T [] hp
  simp only [plug] at hT
  subst hT
  obtain ⟨ctx', X, c0, ib, ir, hlen, hnodes, hs⟩ := erase_splice_uniform hrb
  have hsub : ∀ T' : Tree, T'.nodes = (plug ctx' X).nodes →
      ∀ q ∈ T'.ptrs, q ∈ (plug ctx (Tree.node L p c k R)).ptrs := by
    intro T' e q hq
    rw [ptrs_eq_nodes, e, hnodes] at hq
    rw [ptrs_eq_nodes, nodes_plug, nodes_node]
    simp only [List.map_append, List.mem_append, List.map_cons, List.mem_cons] at hq ⊢
    tauto
  have hfin : ∀ (T' : Tree), (∀ q ∈ T'.ptrs, q ∈ (plug ctx (Tree.node L p c k R)).ptrs) →
      ∀ (t s t1 : rbtree) (fuel : Nat), Holds t (plug ctx (Tree.node L p c k R)) →
        rbtree_erase_splice fuel t p = some (s, X.rootp t.nil, c0) → SameMeta t s →
        rbtree_erase_finish fuel s (X.rootp t.nil) c0 p = some (free t1 p) →
        ZRep t1 [] T' → SameMeta s t1 →
        ∃ t', rbtree_erase fuel (some t) p = some (some t', 1) ∧ Holds t' T' := by
    intro T' hq t s t1 fuel h e1 hm e2 hz1 hm1
    obtain ⟨hz, hna, hal⟩ := holds_iff.mp h
    have hpn : p ≠ t.nil := fun e => nil_not_mem h.rep (e ▸ hp)
    have hp0 : p ≠ NULL := by
      have := (hal p hp).1
      simp only [NULL]
      omega
    refine ⟨free t1 p, by rw [rbtree_erase_unfold hp0 hpn e1, e2], ?_⟩
    have hm2 := sameMeta_trans hm hm1
    refine holds_iff.mpr ⟨zrep_free p hz1, ?_, ?_⟩
    · show 0 < t1.nil ∧ t1.nil < t1.brk
      rw [hm2.nil, hm2.brk]
      exact hna
    · intro q hq'
      show 0 < q ∧ q < t1.brk
      rw [hm2.brk]
      exact hal q (hq q hq')
  cases c0 with
  | RBTREE_RED =>
    obtain ⟨hr1, -⟩ := ir rfl
    refine ⟨plug ctx' X, hr1, hsub _ rfl, fun t fuel h hf => ?_⟩
    obtain ⟨s, e1, hd, hm, -, -⟩ := hs t fuel (zrep_plug.mpr (holds_iff.mp h).1) hf
    exact hfin _ (hsub _ rfl) t s s fuel h e1 hm (by simp [rbtree_erase_finish])
      (zrep_plug.mp hd.z) (sameMeta_refl s)
  | RBTREE_BLACK =>
    obtain ⟨n, hi⟩ := ib rfl
    obtain ⟨T', a, b, cc⟩ := rebuild_after_delete_uniform ctx'.length ctx' X n (le_refl _) hi
    refine ⟨T', a, hsub _ b, fun t fuel h hf => ?_⟩
    obtain ⟨s, e1, hd, hm, -, -⟩ := hs t fuel (zrep_plug.mpr (holds_iff.mp h).1) hf
    obtain ⟨t1, k1, k2, k3⟩ := cc s fuel hd (by omega)
    rw [hm.nil] at k1
    exact hfin _ (hsub _ b) t s t1 fuel h e1 hm (by simp [rbtree_erase_finish, k1]) k2 k3

/-- Lines 294-328 of `rbtree_erase` on a node `p` of a state that holds a red-black tree:
the splice returns, the colour taken out is the colour of `p` when `p` has at most one
real child and the colour of the minimum of its right subtree otherwise; if it is BLACK
the invariant of the loop of `rebuild_after_delete` holds at `x`, below the height of the
tree; if it is RED the state holds, once `p` is freed, a red-black tree of the same black
height. -/
theorem erase_splice_spec {t : rbtree} {T : Tree} (h : Holds t T) (hrb : RBInv T) {p : Nat}
    (hp : p ∈ T.ptrs) (fuel : Nat) (hf : T.height + 1 ≤ fuel) :
    p ≠ NULL ∧ p ≠ t.nil ∧
    ∃ s x c0, rbtree_erase_splice fuel t p = some (s, x, c0) ∧
      ((t.left p = t.nil ∨ t.right p = t.nil) → c0 = t.color p) ∧
      (t.left p ≠ t.nil → t.right p ≠ t.nil →
        ∃ y, subtree_min fuel t (t.right p) = some y ∧ c0 = t.color y) ∧
      (c0 = RBTREE_BLACK → ∃ d, d + 1 ≤ T.height ∧ DeleteInv s x d) ∧
      (c0 = RBTREE_RED → ∃ T', Holds (free s p) T' ∧ RBInv T' ∧ ∀ m, BH T m → BH T' m) := by
  obtain ⟨hz, hna, hal⟩ := holds_iff.mp h
  have hpn : p ≠ t.nil := fun e => nil_not_mem h.rep (e ▸ hp)
  have hp0 : p ≠ NULL := by
    have := (hal p hp).1
    simp only [NULL]
    omega
  obtain ⟨ctx, L, c, k, R, hT⟩ := exists_focus T [] hp
  simp only [plug] at hT
  subst hT
  obtain ⟨ctx', X, c0, ib, ir, hlen, hnodes, hs⟩ := erase_splice_uniform hrb
  obtain ⟨s, e1, hd, hm, hc1, hc2⟩ := hs t fuel (zrep_plug.mpr hz) hf
  refine ⟨hp0, hpn, s, X.rootp t.nil, c0, e1, hc1, hc2, ?_, ?_⟩
  · intro hb
    obtain ⟨n, hi⟩ := ib hb
    exact ⟨ctx'.length, hlen, ctx', X, n, hd, by rw [hm.nil], rfl, hi⟩
  · intro hr
    obtain ⟨hr1, hr2⟩ := ir hr
    refine ⟨plug ctx' X, holds_iff.mpr ⟨zrep_free p (zrep_plug.mp hd.z), ?_, ?_⟩, hr1, hr2⟩
    · show 0 < s.nil ∧ s.nil < s.brk
      rw [hm.nil, hm.brk]
      exact hna
    · intro q hq
      show 0 < q ∧ q < s.brk
      rw [hm.brk]
      apply hal
      rw [ptrs_eq_nodes, hnodes] at hq
      rw [ptrs_eq_nodes, nodes_plug, nodes_node]
      simp only [List.map_append, List.mem_append, List.map_cons, List.mem_cons] at hq ⊢
      tauto


/-- Two states that hold the same tree agree on every field of every node of the tree. -/
theorem rep_fields_eq {t1 t2 : rbtree} (hn : t1.nil = t2.nil) (T : Tree) :
    ∀ {par : Nat}, Rep t1 T par → Rep t2 T par → ∀ q ∈ T.ptrs,
      t1.key q = t2.key q ∧ t1.color q = t2.color q ∧ t1.left q = t2.left q ∧
        t1.right q = t2.right q ∧ t1.parent q = t2.parent q := by
  induction T with
  | leaf => intro par _ _ q hq; simp at hq
  | node l p c k r ihl ihr =>
    intro par h1 h2 q hq
    simp only [rep_node] at h1 h2
    obtain ⟨a1, a2, a3, a4, a5, a6, a7, a8⟩ := h1
    obtain ⟨b1, b2, b3, b4, b5, b6, b7, b8⟩ := h2
    simp only [ptrs_node, List.mem_append, List.mem_cons] at hq
    rcases hq with hq | rfl | hq
    · exact ihl a7 b7 q hq
    · exact ⟨a3.trans b3.symm, a2.trans b2.symm, by rw [a5, b5, hn], by rw [a6, b6, hn],
        a4.trans b4.symm⟩
    · exact ihr a8 b8 q hq

/-- Once the loop condition of `rebuild_after_insert` is false the loop has ended. -/
theorem rebuild_after_insert_iter_stable (i j : Nat) (t : rbtree) (z : Nat)
    (h : (rebuild_after_insert_iter i t z).1.color
      ((rebuild_after_insert_iter i t z).1.parent (rebuild_after_insert_iter i t z).2) ≠
      RBTREE_RED) :
    rebuild_after_insert_iter (i + j) t z = rebuild_after_insert_iter i t z := by
  induction j with
  | zero => rfl
  | succ j ih =>
    rw [← Nat.add_assoc, rebuild_after_insert_iter_succ, ih, if_neg h]

theorem rebuild_after_delete_iter_succ (i : Nat) :
    ∀ (t : rbtree) (x : Nat), rebuild_after_delete_iter (i + 1) t x =
      if (rebuild_after_delete_iter i t x).2 ≠ (rebuild_after_delete_iter i t x).1.root ∧
          (rebuild_after_delete_iter i t x).1.color (rebuild_after_delete_iter i t x).2 =
            RBTREE_BLACK then
        rebuild_after_delete_body (rebuild_after_delete_iter i t x).1
          (rebuild_after_delete_iter i t x).2
      else rebuild_after_delete_iter i t x := by
  induction i with
  | zero => intro t x; simp [rebuild_after_delete_iter]
  | succ i ih =>
    intro t x
    by_cases hc : x ≠ t.root ∧ t.color x = RBTREE_BLACK
    · have e : ∀ j, rebuild_after_delete_iter (j + 1) t x =
          rebuild_after_delete_iter j (rebuild_after_delete_body t x).1
            (rebuild_after_delete_body t x).2 := by
        intro j; simp only [rebuild_after_delete_iter, if_pos hc]
      rw [e (i + 1), e i, ih]
    · have e : ∀ j, rebuild_after_delete_iter (j + 1) t x = (t, x) := by
        intro j; simp only [rebuild_after_delete_iter, if_neg hc]
      rw [e (i + 1), e i]
      simp only [if_neg hc]


/-! ### The insertion of _trash/rbtree.c against `rbtree_insert` -/

theorem set_parent_set_parent (t : rbtree) (n a b : Nat) :
    set_parent (set_parent t n a) n b = set_parent t n b := by
  simp only [set_parent]
  congr 1
  funext q
  simp only [upd]
  split_ifs <;> rfl

theorem new_node_eq (t : rbtree) (k : Int) :
    trash.new_node t k =
      (set_parent (set_right (set_left (set_color (set_key (calloc_node t).1 t.brk k) t.brk
        RBTREE_RED) t.brk t.nil) t.brk t.nil) t.brk NULL, t.brk) := rfl

theorem insert_descend_set_parent (fuel : Nat) :
    ∀ (t : rbtree) (a b z y x : Nat),
      insert_descend fuel (set_parent t a b) z y x = insert_descend fuel t z y x := by
  induction fuel with
  | zero => intro t a b z y x; rfl
  | succ fuel ih =>
    intro t a b z y x
    simp only [insert_descend, set_parent_nil, set_parent_key, set_parent_left,
      set_parent_right, ih]

/-- The loop of `insert_node` of _trash/rbtree.c links the new node below the node where
the descent loop of `rbtree_insert` ends. -/
theorem insert_node_loop_eq (fuel : Nat) :
    ∀ (t : rbtree) (n y x y' : Nat), x ≠ t.nil → insert_descend fuel t n y x = some y' →
      y' ≠ t.nil ∧
      trash.insert_node_loop fuel t n x =
        some (if t.key n < t.key y' then set_left (set_parent t n y') y' n
          else set_right (set_parent t n y') y' n) := by
  induction fuel with
  | zero => intro t n y x y' _ h; cases h
  | succ fuel ih =>
    intro t n y x y' hx h
    simp only [insert_descend, hx, ne_eq, not_false_eq_true, if_true] at h
    by_cases hk : t.key n < t.key x
    · rw [if_pos hk] at h
      by_cases hl : t.left x = t.nil
      · rw [hl] at h
        cases fuel with
        | zero => cases h
        | succ fuel =>
          simp only [insert_descend, ne_eq, not_true_eq_false, if_false, Option.some.injEq] at h
          subst h
          exact ⟨hx, by simp [trash.insert_node_loop, hx, hk, hl]⟩
      · obtain ⟨a, b⟩ := ih t n x (t.left x) y' hl h
        exact ⟨a, by simp [trash.insert_node_loop, hx, hk, hl, b]⟩
    · rw [if_neg hk] at h
      by_cases hl : t.right x = t.nil
      · rw [hl] at h
        cases fuel with
        | zero => cases h
        | succ fuel =>
          simp only [insert_descend, ne_eq, not_true_eq_false, if_false, Option.some.injEq] at h
          subst h
          exact ⟨hx, by simp [trash.insert_node_loop, hx, hk, hl]⟩
      · obtain ⟨a, b⟩ := ih t n x (t.right x) y' hl h
        exact ⟨a, by simp [trash.insert_node_loop, hx, hk, hl, b]⟩

/-- `new_node` and `insert_node` of _trash/rbtree.c leave the state that lines 155-178 of
`rbtree_insert` leave. -/
theorem trash_attach_eq {fuel : Nat} {t t6 : rbtree} {k : Int} {z : Nat}
    (h : insert_attach fuel t k = some (t6, z)) :
    (trash.new_node t k).2 = z ∧
      trash.insert_node fuel (trash.new_node t k).1 (trash.new_node t k).2 = some t6 := by
  obtain ⟨t4, ht4⟩ : ∃ t4, t4 = set_right (set_left (set_color (set_key (calloc_node t).1 t.brk k)
      t.brk RBTREE_RED) t.brk t.nil) t.brk t.nil := ⟨_, rfl⟩
  have hdef : insert_attach fuel t k =
      (match insert_descend fuel t4 t.brk t4.nil t4.root with
      | none => none
      | some y =>
        some (if y = (set_parent t4 t.brk y).nil then set_root (set_parent t4 t.brk y) t.brk
          else if (set_parent t4 t.brk y).key t.brk < (set_parent t4 t.brk y).key y then
            set_left (set_parent t4 t.brk y) y t.brk
          else set_right (set_parent t4 t.brk y) y t.brk, t.brk)) := by
    rw [ht4]; rfl
  have hnew : trash.new_node t k = (set_parent t4 t.brk NULL, t.brk) := by
    rw [ht4]; rfl
  rw [hdef] at h
  rw [hnew]
  simp only
  cases hd : insert_descend fuel t4 t.brk t4.nil t4.root with
  | none => rw [hd] at h; cases h
  | some y =>
    rw [hd] at h
    simp only [Option.some.injEq, Prod.mk.injEq, set_parent_nil, set_parent_key] at h
    obtain ⟨h6, hz⟩ := h
    refine ⟨hz, ?_⟩
    by_cases hroot : t4.root = t4.nil
    · rw [hroot] at hd
      cases fuel with
      | zero => cases hd
      | succ fuel =>
        simp only [insert_descend, ne_eq, not_true_eq_false, if_false, Option.some.injEq] at hd
        subst hd
        rw [if_pos rfl] at h6
        rw [← h6]
        simp only [trash.insert_node, set_parent_root, set_parent_nil, hroot, if_true]
        show some (set_parent (set_parent (set_root t4 t.brk) t.brk NULL) t.brk t4.nil) =
          some (set_parent (set_root t4 t.brk) t.brk t4.nil)
        rw [set_parent_set_parent]
    · have hd' : insert_descend fuel (set_parent t4 t.brk NULL) t.brk t4.nil t4.root =
          some y := by
        rw [insert_descend_set_parent]; exact hd
      obtain ⟨hy, e⟩ := insert_node_loop_eq fuel (set_parent t4 t.brk NULL) t.brk t4.nil
        t4.root y hroot hd'
      simp only [set_parent_nil] at hy
      rw [if_neg hy] at h6
      simp only [trash.insert_node, set_parent_root, set_parent_nil, hroot, if_false, e,
        set_parent_key, set_parent_set_parent]
      rw [← h6]

/-- With a RED uncle the body of the loop of `rebuild_after_insert` of _trash/rbtree.c
does what the body of the loop of `rebuild_after_insert` does. -/
theorem trash_body_eq {t : rbtree} {f1 f2 : Frame} {rest : List Frame}
    {zl zr : Tree} {z : Nat} {cz : color_t} {kz : Int}
    (h : ZRep t (f1 :: f2 :: rest) (Tree.node zl z cz kz zr))
    (hr : rebuild_after_insert_rotations t z = 0) :
    trash.rebuild_after_insert_body t z = rebuild_after_insert_body t z := by
  have h1 := zrep_up.mp h
  have h2 := zrep_up.mp h1
  have hz := h.rep
  have hf := h1.rep
  have hg := h2.rep
  have hN := h.nodup
  have hz4 : t.parent z = f1.ptr := by
    simp only [rep_node, cpar_cons] at hz
    exact hz.2.2.2.1
  have hf1 : f1.ptr ≠ t.nil ∧ t.parent f1.ptr = f2.ptr := by
    cases f1 <;> simp only [rep_node, fill_inL, fill_inR, cpar_cons] at hf <;>
      exact ⟨hf.1, hf.2.2.2.1⟩
  have hfr : (f1.fill (Tree.node zl z cz kz zr)).rootp t.nil = f1.ptr := by cases f1 <;> rfl
  rcases f2 with ⟨p2, c2, k2, U⟩ | ⟨U, p2, c2, k2⟩
  · simp only [rep_node, fill_inL, fill_inR, hfr] at hg
    simp only [frame_ptr_inL] at hf1
    have hl : t.parent z = t.left (t.parent (t.parent z)) := by
      rw [hz4, hf1.2, hg.2.2.2.2.1]
    simp only [rebuild_after_insert_rotations, if_pos hl] at hr
    have hcol : t.color (t.right (t.parent (t.parent z))) = RBTREE_RED := by
      by_contra hne
      rw [if_neg hne] at hr
      omega
    simp only [trash.rebuild_after_insert_body, rebuild_after_insert_body, if_pos hl,
      if_pos hcol]
  · simp only [rep_node, fill_inL, fill_inR, hfr] at hg
    simp only [frame_ptr_inR] at hf1
    have hm : f1.ptr ∉ U.ptrs := by
      simp only [cptrs_cons, frame_sib_inR, List.nodup_append, List.nodup_cons,
        List.mem_append, List.mem_cons, not_or] at hN
      tauto
    have hne := ne_rootp_of_not_mem (n := t.nil) hf1.1 hm
    have hl : ¬ t.parent z = t.left (t.parent (t.parent z)) := by
      rw [hz4, hf1.2, hg.2.2.2.2.1]
      exact hne
    have hrr : t.parent z = t.right (t.parent (t.parent z)) := by
      rw [hz4, hf1.2, hg.2.2.2.2.2.1]
    simp only [rebuild_after_insert_rotations, if_neg hl] at hr
    have hcol : t.color (t.left (t.parent (t.parent z))) = RBTREE_RED := by
      by_contra hne'
      rw [if_neg hne'] at hr
      omega
    simp only [trash.rebuild_after_insert_body, rebuild_after_insert_body, if_neg hl,
      if_pos hrr, if_pos hcol]

/-- When `rebuild_after_insert` makes no rotation, `rebuild_after_insert` of
_trash/rbtree.c returns the same state. -/
theorem trash_rebuild_eq (fuel : Nat) :
    ∀ {t t7 : rbtree} {z d : Nat}, InsertInv t z d →
      rebuild_after_insert_count fuel t z = some (t7, 0) →
      trash.rebuild_after_insert fuel t z = some t7 := by
  induction fuel with
  | zero => intro t t7 z d _ h; cases h
  | succ fuel ih =>
    intro t t7 z d hinv h
    by_cases hc : t.color (t.parent z) = RBTREE_RED
    · simp only [rebuild_after_insert_count, if_pos hc] at h
      cases hcnt : rebuild_after_insert_count fuel (rebuild_after_insert_body t z).1
          (rebuild_after_insert_body t z).2 with
      | none => rw [hcnt] at h; cases h
      | some r =>
        rw [hcnt] at h
        simp only [Option.some.injEq, Prod.mk.injEq] at h
        obtain ⟨e1, e2⟩ := h
        have hr0 : rebuild_after_insert_rotations t z = 0 := by omega
        have hr2 : r = (t7, 0) := by
          rcases r with ⟨a, b⟩
          simp only at e1 e2
          rw [e1, show b = 0 by omega]
        rw [hr2] at hcnt
        obtain ⟨d1, -, hinv1, -⟩ := insertInv_step hinv hc
        have hrec := ih hinv1 hcnt
        obtain ⟨ctx, zl, zr, kz, m, hz, rfl, hb, hrr, hci⟩ := hinv
        have hp : t.parent z = cpar t.nil ctx := hz.rep.2.2.2.1
        have hcc := color_cpar hz.repc hz.nil_black
        rw [← hp, hc] at hcc
        rcases ctx with _ | ⟨f1, _ | ⟨f2, rest⟩⟩
        · cases hcc
        · have hci' := hci
          rw [ctxInv_cons_red hcc.symm] at hci'
          obtain ⟨-, -, -, hok, -⟩ := hci'
          obtain ⟨g, gs, hg, -⟩ := hok rfl
          cases hg
        · have hne : t.root ≠ z := Ne.symm (rootp_ne_root hz)
          simp only [trash.rebuild_after_insert, hne, hc, ne_eq, not_false_eq_true, and_self,
            if_true, trash_body_eq hz hr0]
          exact hrec
    · simp only [rebuild_after_insert_count, if_neg hc, Option.some.injEq, Prod.mk.injEq,
        and_true] at h
      simp only [trash.rebuild_after_insert, hc, and_false, if_false, h]

/-- `rbtree_insert` of _trash/rbtree.c returns what `rbtree_insert` returns when the
latter makes no rotation. -/
theorem trash_insert_eq {t : rbtree} {T : Tree} (h : Holds t T) (hrb : RBInv T) (k : Int)
    (fuel : Nat) (hf : T.height + 1 ≤ fuel) (h0 : insert_rotations fuel t k = some 0) :
    trash.rbtree_insert fuel t k = rbtree_insert fuel t k := by
  obtain ⟨t6, e1, -, -, hlen, hinv⟩ := insert_attach_spec h hrb k fuel hf
  obtain ⟨t7, r, e2, -, e4⟩ := insertInv_count _ (le_refl _) hinv fuel (by omega)
  simp only [insert_rotations, e1, e2, Option.some.injEq] at h0
  subst h0
  obtain ⟨a, b⟩ := trash_attach_eq e1
  have hreb := trash_rebuild_eq fuel hinv e2
  rw [rbtree_insert_attach, e1]
  simp only [trash.rbtree_insert, a, e4]
  rw [a] at b
  rw [b]
  simp only [hreb]

/-- The calls of `rbtree_insert` of _trash/rbtree.c for a list of keys return what the
calls of `rbtree_insert` return when these make no rotation. -/
theorem trash_insert_all_eq (ks : List Int) :
    ∀ {t : rbtree} {T : Tree} (fuel : Nat), Holds t T → RBInv T →
      T.size + ks.length + 1 ≤ fuel → insert_all_rotations fuel ks t = some 0 →
      trash.insert_all fuel ks t = insert_all fuel ks t := by
  induction ks with
  | nil => intro t T fuel _ _ _ _; rfl
  | cons k ks ih =>
    intro t T fuel h hrb hf h0
    have hh := height_le_size T
    simp only [List.length_cons] at hf
    obtain ⟨t1, T1, r1, r2, r3, r4, -⟩ := rbtree_insert_spec h hrb k fuel (by omega)
    have hs1 : T1.size = T.size + 1 := by
      rw [size_eq_nodes, size_eq_nodes, r4, nodes_plug]
      have := congrArg List.length (nodes_plug (descend k T []) Tree.leaf)
      rw [descend_plug] at this
      simp only [plug, Tree.nodes, List.length_append, List.length_nil] at this
      simp only [Tree.nodes, List.length_append, List.length_cons, List.length_nil,
        List.nil_append]
      omega
    cases hr : insert_rotations fuel t k with
    | none => simp only [insert_all_rotations, r1, hr] at h0; cases h0
    | some r =>
      cases hrs : insert_all_rotations fuel ks t1 with
      | none => simp only [insert_all_rotations, r1, hr, hrs] at h0; cases h0
      | some rs =>
        simp only [insert_all_rotations, r1, hr, hrs, Option.some.injEq] at h0
        have hr0 : r = 0 := by omega
        have hrs0 : rs = 0 := by omega
        subst hr0 hrs0
        have e := trash_insert_eq h hrb k fuel (by omega) hr
        have e' := ih fuel r2 r3 (by omega) hrs
        simp only [trash.insert_all, insert_all, e, r1, e'] <;>
          (rcases insert_all fuel ks t1 with _ | ⟨t2, ps⟩ <;> rfl)


/-! ### Inserts of equal keys: the lower end of the right spine -/

/-- C21: for every state that holds a red-black tree and every key `k`, in the run of
`rebuild_after_insert` on the tree that lines 155-178 of `rbtree_insert` build, whenever a
pass through the loop takes the branch of the BLACK uncle (Case B and Case C), the parent
of `z` is BLACK afterwards, so the loop ends with no further pass; the whole run makes at
most two rotations, and `rbtree_insert` returns. -/
theorem insert_uncle_black_exits {t : rbtree} {T : Tree} (h : Holds t T) (hrb : RBInv T)
    (k : Int) (fuel : Nat) (hf : T.height + 1 ≤ fuel) :
    ∃ t6 z t7 r, insert_attach fuel t k = some (t6, z) ∧
      rebuild_after_insert_count fuel t6 z = some (t7, r) ∧ r ≤ 2 ∧
      rbtree_insert fuel t k = some (t7, z) ∧
      ∀ (i : Nat) (ti : rbtree) (zi : Nat), rebuild_after_insert_iter i t6 z = (ti, zi) →
        ti.color (ti.parent zi) = RBTREE_RED → insert_uncle_black ti zi = true →
        (rebuild_after_insert_body ti zi).1.color
          ((rebuild_after_insert_body ti zi).1.parent (rebuild_after_insert_body ti zi).2) =
          RBTREE_BLACK ∧
        ∀ j, rebuild_after_insert_iter (i + 1 + j) t6 z = rebuild_after_insert_body ti zi := by
  obtain ⟨t6, e1, -, -, hlen, hinv⟩ := insert_attach_spec h hrb k fuel hf
  obtain ⟨t7, r, e2, e3, e4⟩ := insertInv_count _ (le_refl _) hinv fuel (by omega)
  refine ⟨t6, t.brk, t7, r, e1, e2, e3, by simp [rbtree_insert_attach, e1, e4], ?_⟩
  intro i ti zi hi hc hu
  obtain ⟨d', -, hinv'⟩ := insertInv_iter i hinv
  rw [hi] at hinv'
  obtain ⟨d'', -, -, hb⟩ := insertInv_step hinv' hc
  have hb' := hb hu
  have hs : rebuild_after_insert_iter (i + 1) t6 t.brk = rebuild_after_insert_body ti zi := by
    rw [rebuild_after_insert_iter_succ, hi]
    exact if_pos hc
  refine ⟨hb', fun j => ?_⟩
  rw [rebuild_after_insert_iter_stable (i + 1) j t6 t.brk (by rw [hs, hb']; simp), hs]

theorem insert_uncle_black_exits_witness :
    Holds seven sevenTree ∧ RBInv sevenTree ∧ sevenTree.height + 1 ≤ 5 ∧
      insert_rotations 5 seven 8 = some 1 ∧
      (∃ t6 z, insert_attach 5 seven 8 = some (t6, z) ∧
        (rebuild_after_insert_iter 1 t6 z).1.color
          ((rebuild_after_insert_iter 1 t6 z).1.parent (rebuild_after_insert_iter 1 t6 z).2) =
          RBTREE_RED ∧
        insert_uncle_black (rebuild_after_insert_iter 1 t6 z).1
          (rebuild_after_insert_iter 1 t6 z).2 = true) ∧
      ∃ t6 z t7 r, insert_attach 5 seven 8 = some (t6, z) ∧
        rebuild_after_insert_count 5 t6 z = some (t7, r) ∧ r ≤ 2 ∧
        rbtree_insert 5 seven 8 = some (t7, z) ∧
        ∀ (i : Nat) (ti : rbtree) (zi : Nat), rebuild_after_insert_iter i t6 z = (ti, zi) →
          ti.color (ti.parent zi) = RBTREE_RED → insert_uncle_black ti zi = true →
          (rebuild_after_insert_body ti zi).1.color
            ((rebuild_after_insert_body ti zi).1.parent
              (rebuild_after_insert_body ti zi).2) = RBTREE_BLACK ∧
          ∀ j, rebuild_after_insert_iter (i + 1 + j) t6 z =
            rebuild_after_insert_body ti zi :=
  ⟨holds_seven, rbinv_seven, by decide, rfl, ⟨_, _, rfl, rfl, rfl⟩,
    insert_uncle_black_exits holds_seven rbinv_seven 8 5 (by decide)⟩

/-- C22: for every state that holds a red-black tree and every node `p` of it, in the run
of `rebuild_after_delete` that `rbtree_erase(t, p)` starts (the colour taken out being
BLACK), whenever a pass through the loop finds the sibling `w` of `x` RED (Case 1), then
after the recolouring and the rotation at the parent of `x` the recomputed sibling is a
real (non-sentinel) BLACK node and the parent of `x` is RED, and the same pass goes on
with Cases 2 to 4 on that sibling; the same holds in the mirrored branch. -/
theorem delete_case1_falls_through {t : rbtree} {T : Tree} (h : Holds t T) (hrb : RBInv T)
    {p : Nat} (hp : p ∈ T.ptrs) (fuel : Nat) (hf : T.height + 1 ≤ fuel) :
    ∃ s x c0, rbtree_erase_splice fuel t p = some (s, x, c0) ∧
      (c0 = RBTREE_BLACK →
        ∀ (i : Nat) (ti : rbtree) (xi : Nat), rebuild_after_delete_iter i s x = (ti, xi) →
          xi ≠ ti.root ∧ ti.color xi = RBTREE_BLACK →
          (xi = ti.left (ti.parent xi) → ti.color (ti.right (ti.parent xi)) = RBTREE_RED →
            (delete_case1_left ti xi).2 ≠ (delete_case1_left ti xi).1.nil ∧
            (delete_case1_left ti xi).1.color (delete_case1_left ti xi).2 = RBTREE_BLACK ∧
            (delete_case1_left ti xi).1.color ((delete_case1_left ti xi).1.parent xi) =
              RBTREE_RED ∧
            (delete_case1_left ti xi).2 =
              (delete_case1_left ti xi).1.right ((delete_case1_left ti xi).1.parent xi) ∧
            rebuild_after_delete_body ti xi =
              delete_case234_left (delete_case1_left ti xi).1 xi
                (delete_case1_left ti xi).2) ∧
          (xi ≠ ti.left (ti.parent xi) → ti.color (ti.left (ti.parent xi)) = RBTREE_RED →
            (delete_case1_right ti xi).2 ≠ (delete_case1_right ti xi).1.nil ∧
            (delete_case1_right ti xi).1.color (delete_case1_right ti xi).2 = RBTREE_BLACK ∧
            (delete_case1_right ti xi).1.color ((delete_case1_right ti xi).1.parent xi) =
              RBTREE_RED ∧
            (delete_case1_right ti xi).2 =
              (delete_case1_right ti xi).1.left ((delete_case1_right ti xi).1.parent xi) ∧
            rebuild_after_delete_body ti xi =
              delete_case234_right (delete_case1_right ti xi).1 xi
                (delete_case1_right ti xi).2)) := by
  obtain ⟨-, -, s, x, c0, e1, -, -, hb, -⟩ := erase_splice_spec h hrb hp fuel hf
  refine ⟨s, x, c0, e1, fun hc i ti xi hi hcond => ?_⟩
  obtain ⟨d, -, hinv⟩ := hb hc
  obtain ⟨d', hinv'⟩ := deleteInv_iter i hinv
  rw [hi] at hinv'
  exact deleteInv_case1 hinv' hcond

theorem delete_case1_falls_through_witness :
    Holds seven sevenTree ∧ RBInv sevenTree ∧ 2 ∈ sevenTree.ptrs ∧ sevenTree.height + 1 ≤ 5 ∧
      ∃ s x c0, rbtree_erase_splice 5 seven 2 = some (s, x, c0) ∧
        (c0 = RBTREE_BLACK →
          ∀ (i : Nat) (ti : rbtree) (xi : Nat), rebuild_after_delete_iter i s x = (ti, xi) →
            xi ≠ ti.root ∧ ti.color xi = RBTREE_BLACK →
            (xi = ti.left (ti.parent xi) → ti.color (ti.right (ti.parent xi)) = RBTREE_RED →
              (delete_case1_left ti xi).2 ≠ (delete_case1_left ti xi).1.nil ∧
              (delete_case1_left ti xi).1.color (delete_case1_left ti xi).2 = RBTREE_BLACK ∧
              (delete_case1_left ti xi).1.color ((delete_case1_left ti xi).1.parent xi) =
                RBTREE_RED ∧
              (delete_case1_left ti xi).2 =
                (delete_case1_left ti xi).1.right ((delete_case1_left ti xi).1.parent xi) ∧
              rebuild_after_delete_body ti xi =
                delete_case234_left (delete_case1_left ti xi).1 xi
                  (delete_case1_left ti xi).2) ∧
            (xi ≠ ti.left (ti.parent xi) → ti.color (ti.left (ti.parent xi)) = RBTREE_RED →
              (delete_case1_right ti xi).2 ≠ (delete_case1_right ti xi).1.nil ∧
              (delete_case1_right ti xi).1.color (delete_case1_right ti xi).2 =
                RBTREE_BLACK ∧
              (delete_case1_right ti xi).1.color ((delete_case1_right ti xi).1.parent xi) =
                RBTREE_RED ∧
              (delete_case1_right ti xi).2 =
                (delete_case1_right ti xi).1.left ((delete_case1_right ti xi).1.parent xi) ∧
              rebuild_after_delete_body ti xi =
                delete_case234_right (delete_case1_right ti xi).1 xi
                  (delete_case1_right ti xi).2)) :=
  ⟨holds_seven, rbinv_seven, by decide, by decide,
    delete_case1_falls_through holds_seven rbinv_seven (by decide) 5 (by decide)⟩

/-- C23: for every state that holds a red-black tree and every node `p` of it such that
the spliced node (`p` itself when `p` has at most one real child, otherwise the minimum of
the right subtree of `p`) is RED, `rbtree_erase(t, p)` returns 1 without running
`rebuild_after_delete`: the state afterwards is the state after the splice with `p` freed,
whatever fuel the loop is given; it holds a tree that satisfies the three colour
invariants and has the black height of the old tree. -/
theorem erase_red_splice_no_fixup {t : rbtree} {T : Tree} (h : Holds t T) (hrb : RBInv T)
    {p : Nat} (hp : p ∈ T.ptrs) (fuel : Nat) (hf : T.height + 1 ≤ fuel)
    (hred : ((t.left p = t.nil ∨ t.right p = t.nil) → t.color p = RBTREE_RED) ∧
      (t.left p ≠ t.nil → t.right p ≠ t.nil →
        ∀ y, subtree_min fuel t (t.right p) = some y → t.color y = RBTREE_RED)) :
    ∃ s x T', rbtree_erase_splice fuel t p = some (s, x, RBTREE_RED) ∧
      rbtree_erase fuel (some t) p = some (some (free s p), 1) ∧
      (∀ f, rbtree_erase_finish f s x RBTREE_RED p = some (free s p)) ∧
      Holds (free s p) T' ∧ rootBlack T' ∧ noRedRed T' ∧ equalBlack T' ∧
      ∃ m, BH T m ∧ BH T' m := by
  obtain ⟨hp0, hpn, s, x, c0, e1, hc1, hc2, -, hr⟩ := erase_splice_spec h hrb hp fuel hf
  have hc : c0 = RBTREE_RED := by
    by_cases hl : t.left p = t.nil ∨ t.right p = t.nil
    · rw [hc1 hl]
      exact hred.1 hl
    · simp only [not_or] at hl
      obtain ⟨y, ey, hy⟩ := hc2 hl.1 hl.2
      rw [hy]
      exact hred.2 hl.1 hl.2 y ey
  subst hc
  obtain ⟨T', a, b, c⟩ := hr rfl
  obtain ⟨m, hm⟩ := (equalBlack_iff T).mp hrb.2.2
  have hfin : ∀ f, rbtree_erase_finish f s x RBTREE_RED p = some (free s p) := by
    intro f
    simp [rbtree_erase_finish]
  refine ⟨s, x, T', e1, ?_, hfin, a, b.1, b.2.1, b.2.2, m, hm, c m hm⟩
  rw [rbtree_erase_unfold hp0 hpn e1, hfin]

theorem erase_red_splice_no_fixup_witness :
    Holds demo demoTree ∧ RBInv demoTree ∧ 2 ∈ demoTree.ptrs ∧ demoTree.height + 1 ≤ 3 ∧
      (((demo.left 2 = demo.nil ∨ demo.right 2 = demo.nil) → demo.color 2 = RBTREE_RED) ∧
        (demo.left 2 ≠ demo.nil → demo.right 2 ≠ demo.nil →
          ∀ y, subtree_min 3 demo (demo.right 2) = some y → demo.color y = RBTREE_RED)) ∧
      ∃ s x T', rbtree_erase_splice 3 demo 2 = some (s, x, RBTREE_RED) ∧
        rbtree_erase 3 (some demo) 2 = some (some (free s 2), 1) ∧
        (∀ f, rbtree_erase_finish f s x RBTREE_RED 2 = some (free s 2)) ∧
        Holds (free s 2) T' ∧ rootBlack T' ∧ noRedRed T' ∧ equalBlack T' ∧
        ∃ m, BH demoTree m ∧ BH T' m :=
  have hred : ((demo.left 2 = demo.nil ∨ demo.right 2 = demo.nil) → demo.color 2 = RBTREE_RED) ∧
      (demo.left 2 ≠ demo.nil → demo.right 2 ≠ demo.nil →
        ∀ y, subtree_min 3 demo (demo.right 2) = some y → demo.color y = RBTREE_RED) :=
    ⟨fun hl => absurd hl (by decide), fun _ _ y hy => by
      have e : subtree_min 3 demo (demo.right 2) = some 4 := rfl
      rw [e] at hy
      cases hy
      rfl⟩
  ⟨holds_demo, rbinv_demo, by decide, by decide, hred,
    erase_red_splice_no_fixup holds_demo rbinv_demo (by decide) 3 (by decide) hred⟩

/-- C25: for every state that holds a red-black tree, the loop of `rebuild_after_insert`
as `rbtree_insert` calls it (for every key) and the loop of `rebuild_after_delete` as
`rbtree_erase` calls it (for every node, when the colour taken out is BLACK) end: with
`d` the number of `parent` links from the starting node up to the root, the loop returns
with fuel for `d + 1` evaluations of its condition, that is after at most `d` passes, and
every pass that the loop makes leaves `z` nearer to the root, respectively leaves `x`
nearer to the root or makes the loop condition false. -/
theorem fixup_loops_terminate {t : rbtree} {T : Tree} (h : Holds t T) (hrb : RBInv T)
    (fuel : Nat) (hf : T.height + 1 ≤ fuel) :
    (∀ k : Int, ∃ t6 z d, insert_attach fuel t k = some (t6, z) ∧ d ≤ T.height ∧
      node_depth (d + 1) t6 z = some d ∧
      (∀ f, d + 1 ≤ f → ∃ t7, rebuild_after_insert f t6 z = some t7) ∧
      ∀ (i : Nat) (ti : rbtree) (zi : Nat), rebuild_after_insert_iter i t6 z = (ti, zi) →
        ti.color (ti.parent zi) = RBTREE_RED →
        ∃ d1 d2, node_depth (d1 + 1) ti zi = some d1 ∧
          node_depth (d2 + 1) (rebuild_after_insert_body ti zi).1
            (rebuild_after_insert_body ti zi).2 = some d2 ∧ d2 < d1) ∧
    (∀ p ∈ T.ptrs, ∃ s x c0, rbtree_erase_splice fuel t p = some (s, x, c0) ∧
      (c0 = RBTREE_BLACK → ∃ d, d + 1 ≤ T.height ∧ node_depth (d + 1) s x = some d ∧
        (∀ f, d + 1 ≤ f → ∃ t', rebuild_after_delete f s x = some t') ∧
        ∀ (i : Nat) (ti : rbtree) (xi : Nat), rebuild_after_delete_iter i s x = (ti, xi) →
          xi ≠ ti.root ∧ ti.color xi = RBTREE_BLACK →
          ∃ d1 d2, node_depth (d1 + 1) ti xi = some d1 ∧
            node_depth (d2 + 1) (rebuild_after_delete_body ti xi).1
              (rebuild_after_delete_body ti xi).2 = some d2 ∧
            (d2 < d1 ∨
              ¬((rebuild_after_delete_body ti xi).2 ≠ (rebuild_after_delete_body ti xi).1.root ∧
                (rebuild_after_delete_body ti xi).1.color (rebuild_after_delete_body ti xi).2 =
                  RBTREE_BLACK)))) := by
  constructor
  · intro k
    obtain ⟨t6, e1, -, -, hlen, hinv⟩ := insert_attach_spec h hrb k fuel hf
    refine ⟨t6, t.brk, _, e1, hlen, insertInv_depth hinv _ (le_refl _), fun f hf' => ?_, ?_⟩
    · obtain ⟨t7, r, -, -, e4⟩ := insertInv_count _ (le_refl _) hinv f hf'
      exact ⟨t7, e4⟩
    · intro i ti zi hi hc
      obtain ⟨d1, -, hinv1⟩ := insertInv_iter i hinv
      rw [hi] at hinv1
      obtain ⟨d2, hlt, hinv2, -⟩ := insertInv_step hinv1 hc
      exact ⟨d1, d2, insertInv_depth hinv1 _ (le_refl _), insertInv_depth hinv2 _ (le_refl _),
        hlt⟩
  · intro p hp
    obtain ⟨-, -, s, x, c0, e1, -, -, hb, -⟩ := erase_splice_spec h hrb hp fuel hf
    refine ⟨s, x, c0, e1, fun hc => ?_⟩
    obtain ⟨d, hd, hinv⟩ := hb hc
    refine ⟨d, hd, deleteInv_depth hinv _ (le_refl _),
      fun f hf' => deleteInv_returns hinv f hf', ?_⟩
    intro i ti xi hi hcond
    obtain ⟨d1, hinv1⟩ := deleteInv_iter i hinv
    rw [hi] at hinv1
    obtain ⟨d2, hinv2, hlt⟩ := deleteInv_step hinv1 hcond
    exact ⟨d1, d2, deleteInv_depth hinv1 _ (le_refl _), deleteInv_depth hinv2 _ (le_refl _),
      hlt⟩

theorem fixup_loops_terminate_witness :
    Holds seven sevenTree ∧ RBInv sevenTree ∧ sevenTree.height + 1 ≤ 5 ∧
      (∃ t6 z d, insert_attach 5 seven 8 = some (t6, z) ∧ d ≤ sevenTree.height ∧
        node_depth (d + 1) t6 z = some d ∧
        (∀ f, d + 1 ≤ f → ∃ t7, rebuild_after_insert f t6 z = some t7) ∧
        ∀ (i : Nat) (ti : rbtree) (zi : Nat), rebuild_after_insert_iter i t6 z = (ti, zi) →
          ti.color (ti.parent zi) = RBTREE_RED →
          ∃ d1 d2, node_depth (d1 + 1) ti zi = some d1 ∧
            node_depth (d2 + 1) (rebuild_after_insert_body ti zi).1
              (rebuild_after_insert_body ti zi).2 = some d2 ∧ d2 < d1) ∧
      (∃ s x c0, rbtree_erase_splice 5 seven 2 = some (s, x, c0) ∧
        (c0 = RBTREE_BLACK → ∃ d, d + 1 ≤ sevenTree.height ∧ node_depth (d + 1) s x = some d ∧
          (∀ f, d + 1 ≤ f → ∃ t', rebuild_after_delete f s x = some t') ∧
          ∀ (i : Nat) (ti : rbtree) (xi : Nat), rebuild_after_delete_iter i s x = (ti, xi) →
            xi ≠ ti.root ∧ ti.color xi = RBTREE_BLACK →
            ∃ d1 d2, node_depth (d1 + 1) ti xi = some d1 ∧
              node_depth (d2 + 1) (rebuild_after_delete_body ti xi).1
                (rebuild_after_delete_body ti xi).2 = some d2 ∧
              (d2 < d1 ∨
                ¬((rebuild_after_delete_body ti xi).2 ≠
                    (rebuild_after_delete_body ti xi).1.root ∧
                  (rebuild_after_delete_body ti xi).1.color
                    (rebuild_after_delete_body ti xi).2 = RBTREE_BLACK)))) :=
  ⟨holds_seven, rbinv_seven, by decide,
    (fixup_loops_terminate holds_seven rbinv_seven 5 (by decide)).1 8,
    (fixup_loops_terminate holds_seven rbinv_seven 5 (by decide)).2 2 (by decide)⟩

/-- C26: for every state that holds a red-black tree, every node `p` of it and every
value `v`, `rbtree_erase(t, p)` run on the state and run on the state that differs from it
only in that `t->nil->parent` holds `v` both return 1 and leave states that hold the same
tree (whether the successor is the right child of `p` or deeper, and whether `p` has two
real children or not): the same root, and the same key, colour, `left`, `right` and
`parent` in every node of the tree. -/
theorem erase_ignores_nil_parent {t : rbtree} {T : Tree} (h : Holds t T) (hrb : RBInv T)
    {p : Nat} (hp : p ∈ T.ptrs) (fuel : Nat) (hf : T.height + 1 ≤ fuel) (v : Nat) :
    ∃ t1 t2 T', rbtree_erase fuel (some t) p = some (some t1, 1) ∧
      rbtree_erase fuel (some (with_nil_parent t v)) p = some (some t2, 1) ∧
      Holds t1 T' ∧ Holds t2 T' ∧ t1.root = t2.root ∧
      ∀ q ∈ T'.ptrs, t1.key q = t2.key q ∧ t1.color q = t2.color q ∧
        t1.left q = t2.left q ∧ t1.right q = t2.right q ∧ t1.parent q = t2.parent q := by
  obtain ⟨T', -, -, hu⟩ := rbtree_erase_uniform hrb hp
  obtain ⟨t1, e1, h1⟩ := hu t fuel h hf
  obtain ⟨t2, e2, h2⟩ := hu (with_nil_parent t v) fuel (holds_with_nil_parent h v) hf
  obtain ⟨t1', -, a1, -, -, -, a5, -⟩ := rbtree_erase_spec h hrb hp fuel hf
  obtain ⟨t2', -, b1, -, -, -, b5, -⟩ :=
    rbtree_erase_spec (holds_with_nil_parent h v) hrb hp fuel hf
  rw [e1] at a1
  rw [e2] at b1
  simp only [Option.some.injEq, Prod.mk.injEq, and_true] at a1 b1
  subst a1 b1
  have hn : t1.nil = t2.nil := by
    rw [a5, b5]
    rfl
  refine ⟨t1, t2, T', e1, e2, h1, h2, ?_, rep_fields_eq hn T' h1.rep (hn ▸ h2.rep)⟩
  rw [h1.root, h2.root, hn]

theorem erase_ignores_nil_parent_witness :
    Holds demo demoTree ∧ RBInv demoTree ∧ 2 ∈ demoTree.ptrs ∧ demoTree.height + 1 ≤ 3 ∧
      ∃ t1 t2 T', rbtree_erase 3 (some demo) 2 = some (some t1, 1) ∧
        rbtree_erase 3 (some (with_nil_parent demo 7)) 2 = some (some t2, 1) ∧
        Holds t1 T' ∧ Holds t2 T' ∧ t1.root = t2.root ∧
        ∀ q ∈ T'.ptrs, t1.key q = t2.key q ∧ t1.color q = t2.color q ∧
          t1.left q = t2.left q ∧ t1.right q = t2.right q ∧ t1.parent q = t2.parent q :=
  ⟨holds_demo, rbinv_demo, by decide, by decide,
    erase_ignores_nil_parent holds_demo rbinv_demo (by decide) 3 (by decide) 7⟩


/-- X1, where the two insertions agree: for every list of keys inserted one by one into an
empty tree on which the `rbtree_insert` of src/rbtree.c makes no rotation (in every pass
of `rebuild_after_insert` the uncle is RED), the `rbtree_insert` of _trash/rbtree.c
(`new_node`, `insert_node`, `rebuild_after_insert`) and the `rbtree_insert` of
src/rbtree.c return, and they produce the same state and the same node pointers, hence
the same tree: same shape, same key and same colour at every position; that tree is a
red-black tree. -/
theorem trash_insert_agrees_without_rotation (ks : List Int) (fuel : Nat)
    (hf : ks.length + 1 ≤ fuel)
    (h0 : insert_all_rotations fuel ks new_rbtree = some 0) :
    ∃ t ps T, insert_all fuel ks new_rbtree = some (t, ps) ∧
      trash.insert_all fuel ks new_rbtree = some (t, ps) ∧ Holds t T ∧ RBInv T := by
  have hsz : Tree.leaf.size + ks.length + 1 ≤ fuel := by
    simp only [Tree.size]
    omega
  obtain ⟨t, ps, T, r1, r2, r3, -⟩ :=
    insert_all_spec ks fuel holds_new rbinv_leaf trivial hsz
  have e := trash_insert_all_eq ks fuel holds_new rbinv_leaf hsz h0
  exact ⟨t, ps, T, r1, by rw [e, r1], r2, r3⟩

theorem trash_insert_agrees_without_rotation_witness :
    [10, 20, 5, 30].length + 1 ≤ 5 ∧
      insert_all_rotations 5 [10, 20, 5, 30] new_rbtree = some 0 ∧
      ∃ t ps T, insert_all 5 [10, 20, 5, 30] new_rbtree = some (t, ps) ∧
        trash.insert_all 5 [10, 20, 5, 30] new_rbtree = some (t, ps) ∧ Holds t T ∧ RBInv T :=
  ⟨by decide, rfl, trash_insert_agrees_without_rotation [10, 20, 5, 30] 5 (by decide) rfl⟩

/-- C27, the divergence of the code: for the keys 10, 20, 30 inserted one by one into an
empty tree, both versions return the nodes at the addresses 2, 3, 4 and a tree with the
BLACK root 20 (address 3), the left child 10 (address 2) and the RED right child 30
(address 4), but the `rbtree_insert` of _trash/rbtree.c leaves the node 10 BLACK, where
the `rbtree_insert` of src/rbtree.c leaves it RED: line 384 of _trash/rbtree.c colours the
grandparent BLACK, against the comment of line 382 and against src/rbtree.c. The colours
differ at the left child of the root, and the tree of _trash/rbtree.c has not the same
number of BLACK nodes on every path. -/
theorem trash_insert_diverges :
    ∃ tA tB, trash.insert_all 4 [10, 20, 30] new_rbtree = some (tA, [2, 3, 4]) ∧
      insert_all 4 [10, 20, 30] new_rbtree = some (tB, [2, 3, 4]) ∧
      Holds tA (Tree.node (Tree.node Tree.leaf 2 RBTREE_BLACK 10 Tree.leaf) 3 RBTREE_BLACK 20
        (Tree.node Tree.leaf 4 RBTREE_RED 30 Tree.leaf)) ∧
      Holds tB (Tree.node (Tree.node Tree.leaf 2 RBTREE_RED 10 Tree.leaf) 3 RBTREE_BLACK 20
        (Tree.node Tree.leaf 4 RBTREE_RED 30 Tree.leaf)) ∧
      tA.color 2 = RBTREE_BLACK ∧ tB.color 2 = RBTREE_RED ∧
      ¬ equalBlack (Tree.node (Tree.node Tree.leaf 2 RBTREE_BLACK 10 Tree.leaf) 3
        RBTREE_BLACK 20 (Tree.node Tree.leaf 4 RBTREE_RED 30 Tree.leaf)) := by
  refine ⟨_, _, rfl, rfl, ?_, ?_, rfl, rfl, ?_⟩
  · constructor
    · rfl
    · simp only [Rep, Tree.rootp]
      decide
    · decide
    · rfl
    · decide
    · decide
    · rfl
    · rfl
  · constructor
    · rfl
    · simp only [Rep, Tree.rootp]
      decide
    · decide
    · rfl
    · decide
    · decide
    · rfl
    · rfl
  · unfold equalBlack
    decide


end RBTreeLab
